import Mathlib

/-!
# madrona: task graph scheduler and generational ID map

A shallow embedding of `src/mw_gpu/device/taskgraph.cpp` (graph builder and
per-tick scheduler) and `src/core/id_map_impl.inl` (cached generational ID
map), with the properties of the specification stated over it.

Conventions.  `uint32_t` values are natural numbers below `2 ^ 32`; every
operation that can wrap is written with an explicit `% 2 ^ 32`.  An
`int32_t` is an integer obtained through `toInt32`.  Array reads that the
source performs without a bounds check return `none` when the index is out
of range.  Loops that may fail to terminate take a fuel argument and return
`none` when the fuel runs out.
-/

namespace madrona

/-! ## Machine integers -/

/-- The modulus of `uint32_t` arithmetic. -/
def u32 : Nat := 2 ^ 32

/-- The value `~0u`, used as the "no index" sentinel. -/
def noIdx : Nat := 2 ^ 32 - 1

/-- Conversion of a `uint32_t` bit pattern to `int32_t` (two's complement). -/
def toInt32 (x : Nat) : Int :=
  if x % 2 ^ 32 < 2 ^ 31 then ((x % 2 ^ 32 : Nat) : Int)
  else ((x % 2 ^ 32 : Nat) : Int) - 2 ^ 32

/-- Conversion of an `int32_t` to `uint32_t`, as the usual arithmetic
conversions do when it is compared with a `uint32_t`. -/
def toUInt32 (x : Int) : Nat := (x % 2 ^ 32).toNat

/-! ## Task graph: data model (`taskgraph.cpp`) -/

/-- The node kinds of `TaskGraph::NodeType`. -/
inductive NodeType where
  | ParallelFor
  | ClearTemporaries
  | CompactArchetype
  | SortArchetypeSetup
  | SortArchetypeHistogram
  | SortArchetypePrefixSum
  | SortArchetypeOnesweep
  | RecycleEntities
  | ResetTmpAllocator
  deriving DecidableEq, Repr

/-- The payload union `mwGPU::EntryData`, flattened: each member's fields are
kept side by side (`archetypeID` is the common first field of the archetype
members). -/
structure EntryData where
  query : Nat := 0
  archetypeID : Nat := 0
  columnIDX : Int := 0
  numPasses : Int := 0
  passIDX : Int := 0
  recycleBase : Int := 0
  deriving DecidableEq, Repr

/-- The record `TaskGraph::NodeInfo`. -/
structure NodeInfo where
  type : NodeType
  funcID : Nat
  data : EntryData := {}
  deriving DecidableEq, Repr

/-- The record `TaskGraph::Builder::StagedNode`. -/
structure StagedNode where
  node : NodeInfo
  dependencyOffset : Nat
  numDependencies : Nat
  deriving DecidableEq, Repr

/-- The record `TaskGraph::NodeState`; the three counters are `uint32_t`. -/
structure NodeState where
  info : NodeInfo
  curOffset : Nat
  numRemaining : Nat
  totalNumInvocations : Nat
  deriving DecidableEq, Repr

/-- The state of `TaskGraph::Builder`: `num_nodes_` is `nodes_.length` and
`num_dependencies_` is `all_dependencies_.length`; a `NodeID` is its `id`. -/
structure Builder where
  nodes_ : List StagedNode
  all_dependencies_ : List Nat
  deriving DecidableEq, Repr

namespace Builder

/-- The empty builder made by `TaskGraph::Builder::Builder`. -/
def empty : Builder := ⟨[], []⟩

/-- The field `num_nodes_`. -/
def num_nodes_ (b : Builder) : Nat := b.nodes_.length

/-- `TaskGraph::Builder::registerNode`: copies the dependencies into the
packed pool, appends the staged node, returns its `NodeID` and the new
builder. -/
def registerNode (b : Builder) (node_info : NodeInfo) (dependencies : List Nat) :
    Nat × Builder :=
  let offset := b.all_dependencies_.length
  let num_deps := dependencies.length
  let node_idx := b.nodes_.length
  (node_idx,
   { nodes_ := b.nodes_ ++ [⟨node_info, offset, num_deps⟩],
     all_dependencies_ := b.all_dependencies_ ++ dependencies })

/-- The outcome of `build()`. -/
inductive BuildResult where
  /-- Build returned; `order[i]` is the registered index of the node placed at
  sorted position `i`, and `nodes` is the `sorted_nodes` array. -/
  | built (order : List Nat) (nodes : List NodeState)
  /-- The `assert` on line 154 failed. -/
  | assertFailed
  /-- An array was read outside its bounds. -/
  | outOfBounds
  deriving DecidableEq, Repr

/-- The local variables of the `while` loop of `build()`: `order` records the
`cur_node_idx` of every store into `sorted_nodes` (so `sorted_idx` is
`order.length`). -/
structure BuildLoop where
  queued : List Bool
  order : List Nat
  sorted_nodes : List NodeState
  num_remaining_nodes : Nat
  deriving DecidableEq, Repr

/-- The scan `for (cur_node_idx = 0; queued[cur_node_idx]; cur_node_idx++) {}`,
started at index `i` of the whole array: the first index whose flag is false,
`none` when the scan runs off the array. -/
def firstUnqueued : List Bool → Nat → Option Nat
  | [], _ => none
  | q :: qs, i => if q then firstUnqueued qs (i + 1) else some i

/-- The dependency loop of `build()` (lines 182-191) for `k` remaining
dependencies starting at pool index `off`: `some true` when all are queued,
`some false` at the first one that is not, `none` on an out-of-range read. -/
def dependenciesSatisfied (deps : List Nat) (queued : List Bool) :
    Nat → Nat → Option Bool
  | _, 0 => some true
  | off, k + 1 =>
    match deps[off]? with
    | none => none
    | some dep_node_idx =>
      match queued[dep_node_idx]? with
      | none => none
      | some false => some false
      | some true => dependenciesSatisfied deps queued (off + 1) k

/-- One iteration of the `while` loop of `build()` (lines 177-202); `none` on
an out-of-range read. -/
def buildStep (b : Builder) (s : BuildLoop) : Option BuildLoop :=
  match firstUnqueued s.queued 0 with
  | none => none
  | some cur_node_idx =>
    match b.nodes_[cur_node_idx]? with
    | none => none
    | some cur_node =>
      match dependenciesSatisfied b.all_dependencies_ s.queued
          cur_node.dependencyOffset cur_node.numDependencies with
      | none => none
      | some false => some s
      | some true =>
        some { queued := s.queued.set cur_node_idx true,
               order := s.order ++ [cur_node_idx],
               sorted_nodes := s.sorted_nodes ++ [⟨cur_node.node, 0, 0, 0⟩],
               num_remaining_nodes := s.num_remaining_nodes - 1 }

/-- The `while (num_remaining_nodes > 0)` loop of `build()`, with fuel: the
result is `none` when the loop is still running after `fuel` iterations. -/
def buildLoop (b : Builder) : Nat → BuildLoop → Option BuildResult
  | fuel, s =>
    if s.num_remaining_nodes = 0 then some (.built s.order s.sorted_nodes)
    else
      match fuel with
      | 0 => none
      | fuel + 1 =>
        match buildStep b s with
        | none => some .outOfBounds
        | some s' => buildLoop b fuel s'

/-- The loop state set up by lines 155-174 of `build()`. -/
def buildInit (b : Builder) (first : StagedNode) : BuildLoop :=
  { queued := true :: List.replicate (b.nodes_.length - 1) false,
    order := [0],
    sorted_nodes := [⟨first.node, 0, 0, 0⟩],
    num_remaining_nodes := b.nodes_.length - 1 }

/-- `TaskGraph::Builder::build`, with `fuel` bounding the iterations of its
`while` loop; `none` means the loop has not finished within the fuel. -/
def build (b : Builder) (fuel : Nat) : Option BuildResult :=
  match b.nodes_[0]? with
  | none => some .outOfBounds
  | some first =>
    if first.numDependencies ≠ 0 then some .assertFailed
    else buildLoop b fuel (buildInit b first)

/-- The dependencies registered for the node with registered index `i`. -/
def depsOf (b : Builder) (i : Nat) : List Nat :=
  match b.nodes_[i]? with
  | none => []
  | some n => (b.all_dependencies_.drop n.dependencyOffset).take n.numDependencies

/-- Registers a list of nodes given by their dependency lists, in order. -/
def ofDeps (ds : List (List Nat)) : Builder :=
  ds.foldl (fun b d => (b.registerNode ⟨.ParallelFor, 0, {}⟩ d).2) empty

/-- The queue flags when exactly the first `k` of `n` nodes are queued. -/
def prefixFlags (n k : Nat) : List Bool :=
  List.replicate k true ++ List.replicate (n - k) false

/-- The loop state of `build()` when exactly nodes `0 .. k-1` have been
emitted, in registration order. -/
def prefixState (b : Builder) (k : Nat) : BuildLoop :=
  { queued := prefixFlags b.nodes_.length k,
    order := List.range k,
    sorted_nodes := (b.nodes_.take k).map (fun sn => ⟨sn.node, 0, 0, 0⟩),
    num_remaining_nodes := b.nodes_.length - k }

/-- The dependency check of `build()` for the node with registered index `k`
when exactly nodes `0 .. k-1` are queued. -/
def checkAt (b : Builder) (k : Nat) : Option Bool :=
  match b.nodes_[k]? with
  | none => none
  | some sn => dependenciesSatisfied b.all_dependencies_ (prefixFlags b.nodes_.length k)
      sn.dependencyOffset sn.numDependencies

/-- The choice the specification describes: the lowest-indexed node that is
not yet emitted and all of whose dependencies are emitted. -/
def specNextNode (b : Builder) (emitted : List Nat) : Option Nat :=
  (List.range b.nodes_.length).find?
    (fun i => !emitted.contains i && (b.depsOf i).all (fun d => emitted.contains d))

/-- The reference sort in the specification's words: starting from the entry
node, repeatedly emit `specNextNode` until all nodes are placed. -/
def specTopoSort (b : Builder) : Nat → List Nat → Option (List Nat)
  | fuel, emitted =>
    if emitted.length = b.nodes_.length then some emitted
    else
      match fuel with
      | 0 => none
      | fuel + 1 =>
        match specNextNode b emitted with
        | none => none
        | some i => specTopoSort b fuel (emitted ++ [i])

/-- A dependency cycle: a non-empty list of nodes each of which depends on the
next, the last depending on the first. -/
def IsCycle (b : Builder) (c : List Nat) : Prop :=
  c ≠ [] ∧ List.Chain' (fun x y => y ∈ b.depsOf x) (c ++ [c.headD 0])

end Builder

/-! ## Graph builder: the sort sub-graph (`sortArchetypeNode`) -/

namespace Builder

/-- The number of binary digits of `x`, counted with at most `fuel` halvings
(all of them when `x < 2 ^ fuel`). -/
def bitLength : Nat → Nat → Nat
  | 0, _ => 0
  | fuel + 1, x => if x = 0 then 0 else bitLength fuel (x / 2) + 1

/-- `__builtin_clz` on an `int32_t` argument given as its `uint32_t` bit
pattern: the number of leading zero bits; undefined (`none`) at 0. -/
def clz (x : Nat) : Option Nat :=
  if x % 2 ^ 32 = 0 then none else some (32 - bitLength 32 (x % 2 ^ 32))

/-- Modelled from the spec: `utils::divideRoundUp`, whose body is in a header
outside the sources; the specification writes its result as a ceiling. -/
def divideRoundUp (a b : Int) : Int := (a + (b - 1)) / b

/-- The computation of `num_passes` in `sortArchetypeNode` (lines 35-46):
`none` when `num_worlds + 1` overflows `int32_t` or `__builtin_clz` is called
on 0. `num_worlds` is `GPUImplConsts::get().numWorlds`. -/
def numPasses (column_idx : Int) (num_worlds : Int) : Option Int :=
  if column_idx = 1 then
    if num_worlds + 1 ≥ 2 ^ 31 ∨ num_worlds + 1 < 0 then none
    else
      match clz (num_worlds + 1).toNat with
      | none => none
      | some z =>
        let num_bits : Int := 32 - (z : Int)
        some (divideRoundUp num_bits 8)
  else some 4

/-- The function ids `UserFuncID<SortArchetypeEntry::...>::id` of the sort
entry points. -/
structure SortFuncIDs where
  Setup : Nat
  Histogram : Nat
  PrefixSum : Nat
  Onesweep : Nat
  deriving DecidableEq, Repr

/-- The `for` loop of `sortArchetypeNode` (lines 72-81) with `k` passes left,
at `pass_idx`: registers one onesweep node per pass, each depending on the
node registered before it; returns the last `cur_id` and the builder. -/
def onesweepLoop (ids : SortFuncIDs) (archetype_id : Nat) :
    Nat → Int → Nat → Builder → Nat × Builder
  | 0, _, cur_id, b => (cur_id, b)
  | k + 1, pass_idx, cur_id, b =>
    let onesweep_node : NodeInfo :=
      ⟨.SortArchetypeOnesweep, ids.Onesweep, { archetypeID := archetype_id, passIDX := pass_idx }⟩
    let r := b.registerNode onesweep_node [cur_id]
    onesweepLoop ids archetype_id k (pass_idx + 1) r.1 r.2

/-- `TaskGraph::Builder::sortArchetypeNode`. `getArchetypeColumnIndex` is the
state store's lookup. The source calls `registerNode(histogram_node,
dependencies)` on line 55 and again on line 63, the first time above the
declaration of `histogram_node`; the node is given here, for both calls, the
fields lines 57-61 assign. `setup_node` (lines 48-53) is filled in and never
passed to `registerNode`, so it does not appear. -/
def sortArchetypeNode (getArchetypeColumnIndex : Nat → Nat → Int) (num_worlds : Int)
    (ids : SortFuncIDs) (b : Builder) (archetype_id component_id : Nat)
    (dependencies : List Nat) : Option (Nat × Builder) :=
  let column_idx := getArchetypeColumnIndex archetype_id component_id
  match numPasses column_idx num_worlds with
  | none => none
  | some num_passes =>
    let histogram_node : NodeInfo :=
      ⟨.SortArchetypeHistogram, ids.Histogram,
        { archetypeID := archetype_id, columnIDX := column_idx, numPasses := num_passes }⟩
    let r0 := b.registerNode histogram_node dependencies
    let r1 := r0.2.registerNode histogram_node dependencies
    let upsweep_id := r1.1
    let prefix_sum_node : NodeInfo :=
      ⟨.SortArchetypePrefixSum, ids.PrefixSum, { archetypeID := archetype_id }⟩
    let r2 := r1.2.registerNode prefix_sum_node [upsweep_id]
    some (onesweepLoop ids archetype_id num_passes.toNat 0 r2.1 r2.2)

/-- The nodes a call added to the builder `b`, given the builder afterwards. -/
def addedNodes (b b' : Builder) : List StagedNode := b'.nodes_.drop b.nodes_.length

/-- The dependencies of the staged node `n`, read from the pool of `b`. -/
def stagedDeps (b : Builder) (n : StagedNode) : List Nat :=
  (b.all_dependencies_.drop n.dependencyOffset).take n.numDependencies

/-- The configuration of the specification's sort scenario: the component 0
of every archetype is its WorldID column (column index 1). -/
def exampleColumnIndex : Nat → Nat → Int := fun _ c => if c = 0 then 1 else 2

/-- Function ids for the sort scenario. -/
def exampleSortIDs : SortFuncIDs := ⟨20, 21, 22, 23⟩

end Builder

/-! ## Scheduler: data model and operations (`taskgraph.cpp`, `memory.cpp`) -/

/-- `uint32_t` addition. -/
def add32 (a b : Nat) : Nat := (a + b) % 2 ^ 32

/-- `uint32_t` subtraction. -/
def sub32 (a b : Nat) : Nat := (a + (2 ^ 32 - b % 2 ^ 32)) % 2 ^ 32

/-- The ways an operation of the scheduler can stop abnormally. -/
inductive Fault where
  /-- An `assert` failed. -/
  | assertFailed
  /-- An array was read outside its bounds. -/
  | outOfBounds
  deriving DecidableEq, Repr

/-- The result of an operation that can stop abnormally. -/
inductive Res (α : Type) where
  | ok (a : α)
  | fault (f : Fault)
  deriving DecidableEq, Repr

/-- The queries of the state store that `computeNumInvocations` makes. The
store itself is outside the repository's scheduler; its answers are taken as
given functions, constant during a tick. -/
structure StateManager where
  numMatchingEntities : Nat → Nat
  isDirty : Nat → Bool
  numArchetypeRows : Nat → Nat
  archetypeSetupSortState : Nat → Int → Int → Bool
  numSortThreads : Nat → Nat
  fetchRecyclableEntities : Int × Nat

/-- The fields of `TmpAllocator` that `memory.cpp` reads and writes. -/
structure TmpAllocator where
  offset_ : Nat
  num_mapped_bytes_ : Nat
  deriving DecidableEq, Repr

/-- Modelled from the spec: `TmpAllocator::reset`, whose body is in a header
outside the sources; the specification says it "zeroes the offset". -/
def TmpAllocator.reset (t : TmpAllocator) : TmpAllocator :=
  { t with offset_ := 0 }

/-- The values of `TaskGraph::WorkerState` used by the scheduler. -/
inductive WorkerState where
  | Run
  | PartialRun
  | Loop
  | Exit
  deriving DecidableEq, Repr

/-- The record `TaskGraph::BlockState` (one per block, in shared memory). -/
structure BlockState where
  state : WorkerState
  nodeIdx : Nat
  numInvocations : Nat
  funcID : Nat
  runOffset : Nat
  deriving DecidableEq, Repr

/-- The fields of `TaskGraph` the scheduler uses; `num_nodes_` is the length
of `sorted_nodes_`. -/
structure TaskGraph where
  sorted_nodes_ : List NodeState
  cur_node_idx_ : Nat
  deriving DecidableEq, Repr

namespace TaskGraph

/-- The field `num_nodes_`. -/
def num_nodes_ (g : TaskGraph) : Nat := g.sorted_nodes_.length

/-- The constructor `TaskGraph::TaskGraph(nodes, num_nodes)`: the cursor
starts at the terminal sentinel `num_nodes`. -/
def new (nodes : List NodeState) : TaskGraph := ⟨nodes, nodes.length⟩

/-- `TaskGraph::computeNumInvocations`: the count, the node (its payload may
be written for `RecycleEntities`), and the temporary allocator (reset for
`ResetTmpAllocator`). `MEGA` is `consts::numMegakernelThreads`. The result
type is `uint32_t`. -/
def computeNumInvocations (MEGA : Nat) (sm : StateManager) (tmp : TmpAllocator)
    (node : NodeState) : Nat × NodeState × TmpAllocator :=
  match node.info.type with
  | .ParallelFor => (sm.numMatchingEntities node.info.data.query % 2 ^ 32, node, tmp)
  | .ClearTemporaries => (1, node, tmp)
  | .CompactArchetype =>
    if !sm.isDirty node.info.data.archetypeID then (0, node, tmp)
    else (sm.numArchetypeRows node.info.data.archetypeID % 2 ^ 32, node, tmp)
  | .SortArchetypeSetup =>
    if sm.archetypeSetupSortState node.info.data.archetypeID node.info.data.columnIDX
        node.info.data.numPasses then (MEGA % 2 ^ 32, node, tmp)
    else (0, node, tmp)
  | .SortArchetypeHistogram => (sm.numSortThreads node.info.data.archetypeID % 2 ^ 32, node, tmp)
  | .SortArchetypePrefixSum => (MEGA % 2 ^ 32, node, tmp)
  | .SortArchetypeOnesweep => (sm.numSortThreads node.info.data.archetypeID % 2 ^ 32, node, tmp)
  | .RecycleEntities =>
    let recycle_base := sm.fetchRecyclableEntities.1
    let num_deleted := sm.fetchRecyclableEntities.2 % 2 ^ 32
    if num_deleted > 0 then
      (num_deleted,
       { node with info := { node.info with
           data := { node.info.data with recycleBase := recycle_base } } }, tmp)
    else (num_deleted, node, tmp)
  | .ResetTmpAllocator => (0, node, tmp.reset)

/-- The three stores that arm a node (lines 247-251 and 478-482). -/
def arm (node : NodeState) (new_num_invocations : Nat) : NodeState :=
  { node with curOffset := 0, numRemaining := new_num_invocations,
              totalNumInvocations := new_num_invocations }

/-- `TaskGraph::init` as run by thread 0 of block 0. -/
def init (MEGA : Nat) (sm : StateManager) (g : TaskGraph) (tmp : TmpAllocator) :
    Res (TaskGraph × TmpAllocator) :=
  match g.sorted_nodes_[0]? with
  | none => .fault .outOfBounds
  | some first_node =>
    match computeNumInvocations MEGA sm tmp first_node with
    | (new_num_invocations, node, tmp') =>
      if new_num_invocations = 0 then .fault .assertFailed
      else .ok ({ sorted_nodes_ := g.sorted_nodes_.set 0 (arm node new_num_invocations),
                  cur_node_idx_ := 0 }, tmp')

/-- `TaskGraph::setBlockState`, run atomically by thread 0 of a block: the
graph after the fetch-add and the block's new shared state. -/
def setBlockState (MEGA : Nat) (g : TaskGraph) (bs : BlockState) :
    Res (TaskGraph × BlockState) :=
  let node_idx := g.cur_node_idx_
  if node_idx = g.num_nodes_ then .ok (g, { bs with state := .Exit })
  else
    match g.sorted_nodes_[node_idx]? with
    | none => .fault .outOfBounds
    | some cur_node =>
      let total_invocations := cur_node.totalNumInvocations
      if cur_node.curOffset ≥ total_invocations then .ok (g, { bs with state := .Loop })
      else
        let cur_offset := cur_node.curOffset
        let node' : NodeState := { cur_node with curOffset := add32 cur_node.curOffset MEGA }
        let g' : TaskGraph := { g with sorted_nodes_ := g.sorted_nodes_.set node_idx node' }
        if cur_offset ≥ total_invocations then .ok (g', { bs with state := .Loop })
        else .ok (g', { state := .Run, nodeIdx := node_idx,
                        numInvocations := total_invocations,
                        funcID := cur_node.info.funcID, runOffset := cur_offset })

/-- What `getWork` returns to the lane `thread_idx` once thread 0 has set the
block state: the worker state and, for `Run`, the sorted position of the node,
its function id and the `int32_t` invocation index written to `run_offset`. -/
def laneWork (bs : BlockState) (thread_idx : Nat) : WorkerState × Option (Nat × Nat × Int) :=
  if bs.state ≠ .Run then (bs.state, none)
  else
    let thread_offset : Int := toInt32 (add32 bs.runOffset thread_idx)
    if toUInt32 thread_offset ≥ bs.numInvocations then (.PartialRun, none)
    else (.Run, some (bs.nodeIdx, bs.funcID, thread_offset))

/-- The `while (true)` loop of `finishWork` (lines 467-487), started at
`next_node_idx`; `k` bounds the number of nodes still to look at and is
`num_nodes_ - next_node_idx + 1` at the call. Returns the graph with the
cursor stored and the temporary allocator. -/
def advance (MEGA : Nat) (sm : StateManager) :
    Nat → Nat → TaskGraph → TmpAllocator → TaskGraph × TmpAllocator
  | 0, next_node_idx, g, tmp => ({ g with cur_node_idx_ := next_node_idx }, tmp)
  | k + 1, next_node_idx, g, tmp =>
    match g.sorted_nodes_[next_node_idx]? with
    | none => ({ g with cur_node_idx_ := next_node_idx }, tmp)
    | some next_node =>
      match computeNumInvocations MEGA sm tmp next_node with
      | (new_num_invocations, node, tmp') =>
        if new_num_invocations = 0 then
          advance MEGA sm k (next_node_idx + 1)
            { g with sorted_nodes_ := g.sorted_nodes_.set next_node_idx node } tmp'
        else
          ({ sorted_nodes_ := g.sorted_nodes_.set next_node_idx (arm node new_num_invocations),
             cur_node_idx_ := next_node_idx }, tmp')

/-- `TaskGraph::finishWork`, run atomically by thread 0 of a block whose
shared state is `bs`. -/
def finishWork (MEGA : Nat) (sm : StateManager) (g : TaskGraph) (tmp : TmpAllocator)
    (bs : BlockState) : Res (TaskGraph × TmpAllocator) :=
  let num_finished := min (sub32 bs.numInvocations bs.runOffset) (MEGA % 2 ^ 32)
  let node_idx := bs.nodeIdx
  match g.sorted_nodes_[node_idx]? with
  | none => .fault .outOfBounds
  | some cur_node =>
    let prev_remaining := cur_node.numRemaining
    let node' : NodeState :=
      { cur_node with numRemaining := sub32 prev_remaining num_finished }
    let g' : TaskGraph := { g with sorted_nodes_ := g.sorted_nodes_.set node_idx node' }
    if prev_remaining = num_finished then
      .ok (advance MEGA sm (g.num_nodes_ - node_idx) (node_idx + 1) g' tmp)
    else .ok (g', tmp)

/-- The state of one block running a tick alone: the graph, the temporary
allocator, the block's shared state, and the invocations presented to entry
functions so far as (sorted position, function id, invocation index). -/
structure Tick where
  graph : TaskGraph
  tmp : TmpAllocator
  block : BlockState
  presented : List (Nat × Nat × Int)
  deriving DecidableEq, Repr

/-- The invocations the lanes `0 .. MEGA-1` of a block present for the tile
in `bs`. -/
def tileInvocations (MEGA : Nat) (bs : BlockState) : List (Nat × Nat × Int) :=
  (List.range MEGA).filterMap (fun thread_idx => (laneWork bs thread_idx).2)

/-- Modelled from the spec: the per-block loop of the megakernel, which is not
in the sources: call `getWork`; stop on `Exit`; call it again on `Loop`;
otherwise let the lanes that got `Run` call their entry function and then call
`finishWork`. `none` means the loop is still running after `fuel` calls of
`getWork`. -/
def blockLoop (MEGA : Nat) (sm : StateManager) : Nat → Tick → Option (Res Tick)
  | 0, _ => none
  | fuel + 1, t =>
    match setBlockState MEGA t.graph t.block with
    | .fault f => some (.fault f)
    | .ok (g, bs) =>
      match bs.state with
      | .Exit => some (.ok { t with graph := g, block := bs })
      | .Loop => blockLoop MEGA sm fuel { t with graph := g, block := bs }
      | _ =>
        match finishWork MEGA sm g t.tmp bs with
        | .fault f => some (.fault f)
        | .ok (g', tmp') =>
          blockLoop MEGA sm fuel
            { graph := g', tmp := tmp', block := bs,
              presented := t.presented ++ tileInvocations MEGA bs }

/-- The initial shared state of a block (its content is not read before
`setBlockState` writes it). -/
def BlockState.idle : BlockState := ⟨.Loop, 0, 0, 0, 0⟩

/-- One tick run by a single block: `init`, then the block loop. -/
def runTick (MEGA : Nat) (sm : StateManager) (g : TaskGraph) (tmp : TmpAllocator)
    (fuel : Nat) : Option (Res Tick) :=
  match init MEGA sm g tmp with
  | .fault f => some (.fault f)
  | .ok (g', tmp') => blockLoop MEGA sm fuel ⟨g', tmp', BlockState.idle, []⟩

end TaskGraph

namespace TaskGraph

/-- The part of a node that is fixed once the graph is built: its info with
the `recycleBase` latch cleared. -/
def NodeState.static (n : NodeState) : NodeInfo :=
  { n.info with data := { n.info.data with recycleBase := 0 } }

/-- The invocation count `computeNumInvocations` returns for a node. -/
def countOf (MEGA : Nat) (sm : StateManager) (n : NodeState) : Nat :=
  (computeNumInvocations MEGA sm ⟨0, 0⟩ n).1

/-- The invocation count of the node at sorted position `j` (0 past the end). -/
def cnt (MEGA : Nat) (sm : StateManager) (nodes : List NodeState) (j : Nat) : Nat :=
  match nodes[j]? with
  | some nd => countOf MEGA sm nd
  | none => 0

/-- The function id of the node at sorted position `j` (0 past the end). -/
def fid (nodes : List NodeState) (j : Nat) : Nat :=
  match nodes[j]? with
  | some nd => nd.info.funcID
  | none => 0

/-- The node at position `j` is armed with total `T` and has handed out the
invocations below `off`, all of which have finished. -/
def ArmedAt (g : TaskGraph) (j T off : Nat) : Prop :=
  g.cur_node_idx_ = j ∧ ∃ nd, g.sorted_nodes_[j]? = some nd ∧
    nd.totalNumInvocations = T ∧ nd.curOffset = off ∧ nd.numRemaining = T - off

/-- The invocations a tick presents for the node at position `j`: the indices
`0 .. count-1` in order, each as the `int32_t` value written to `run_offset`. -/
def nodeTrace (MEGA : Nat) (sm : StateManager) (nodes : List NodeState) (j : Nat) :
    List (Nat × Nat × Int) :=
  (List.range' 0 (cnt MEGA sm nodes j)).map (fun k => (j, fid nodes j, toInt32 k))

/-- The invocations a tick presents for the nodes at positions `j` and later. -/
def traceFrom (MEGA : Nat) (sm : StateManager) (nodes : List NodeState) (j : Nat) :
    List (Nat × Nat × Int) :=
  (List.range' j (nodes.length - j)).flatMap (nodeTrace MEGA sm nodes)

/-- A state store for examples: query `q` matches `q` entities, no archetype
is dirty or needs sorting, nothing awaits recycling. -/
def exampleStore : StateManager :=
  ⟨fun q => q, fun _ => false, fun _ => 0, fun _ _ _ => false, fun _ => 0, (0, 0)⟩

/-- A freshly built `ParallelFor` node over query `q` with function id `f`. -/
def parallelForNode (f q : Nat) : NodeState :=
  ⟨⟨.ParallelFor, f, { query := q }⟩, 0, 0, 0⟩

/-- A freshly built `ResetTmpAllocator` node with function id `f`. -/
def resetNode (f : Nat) : NodeState :=
  ⟨⟨.ResetTmpAllocator, f, {}⟩, 0, 0, 0⟩

/-- The graph of the specification's first scenario: A with 10 invocations, B
with none, C with 5. -/
def exampleNodes : List NodeState :=
  [parallelForNode 7 10, parallelForNode 8 0, parallelForNode 9 5]

/-- A graph in the middle of a tick: node 0 (3 invocations) has handed out its
only tile, which is still running; a reset node and a node with 5 invocations
follow. -/
def exampleSkipGraph : TaskGraph :=
  ⟨[⟨⟨.ParallelFor, 7, { query := 3 }⟩, 4, 3, 3⟩, resetNode 3, parallelForNode 9 5], 0⟩

end TaskGraph

/-! ## Scheduler: several blocks, interleaved -/

namespace TaskGraph

/-- One megakernel block: its shared state and whether it is between a
`getWork` that returned `Run` and the `finishWork` that follows. -/
structure Block where
  shared : BlockState
  running : Bool
  deriving DecidableEq, Repr

/-- The scheduler state seen by several blocks: the graph and the temporary
allocator are shared, each block has its own `sharedBlockState`. -/
structure Sched where
  graph : TaskGraph
  tmp : TmpAllocator
  blocks : List Block
  deriving DecidableEq, Repr

/-- Modelled from the spec: one step of block `b` in the megakernel loop (the
loop itself is not in the sources). A block that holds a tile calls
`finishWork`; a block that got `Exit` has left its loop; any other block calls
`getWork` (thread 0 runs `setBlockState`) and holds a tile when the result is
`Run`. Each call is one atomic step. -/
def stepBlock (MEGA : Nat) (sm : StateManager) (s : Sched) (b : Nat) : Res Sched :=
  match s.blocks[b]? with
  | none => .ok s
  | some blk =>
    if blk.running then
      match finishWork MEGA sm s.graph s.tmp blk.shared with
      | .fault f => .fault f
      | .ok (g, tmp) =>
        .ok { graph := g, tmp := tmp, blocks := s.blocks.set b { blk with running := false } }
    else if blk.shared.state = .Exit then .ok s
    else
      match setBlockState MEGA s.graph blk.shared with
      | .fault f => .fault f
      | .ok (g, bs) =>
        .ok { s with graph := g, blocks := s.blocks.set b ⟨bs, decide (bs.state = .Run)⟩ }

/-- The steps of an interleaving, given as the list of the blocks that move. -/
def runSchedule (MEGA : Nat) (sm : StateManager) : Sched → List Nat → Res Sched
  | s, [] => .ok s
  | s, b :: rest =>
    match stepBlock MEGA sm s b with
    | .fault f => .fault f
    | .ok s' => runSchedule MEGA sm s' rest

/-- The start of a tick with `numBlocks` blocks: block 0 runs `init`, and all
blocks pass the barrier. -/
def startTick (MEGA : Nat) (sm : StateManager) (g : TaskGraph) (tmp : TmpAllocator)
    (numBlocks : Nat) : Res Sched :=
  match init MEGA sm g tmp with
  | .fault f => .fault f
  | .ok (g', tmp') => .ok ⟨g', tmp', List.replicate numBlocks ⟨BlockState.idle, false⟩⟩

/-- The number of invocations in the tile a block holds (0 when it holds
none): the amount its `finishWork` will subtract. -/
def tileCount (MEGA : Nat) (blk : Block) : Nat :=
  if blk.running then min (blk.shared.numInvocations - blk.shared.runOffset) MEGA else 0

/-- The invocations of tiles handed out and not yet finished. -/
def outstanding (MEGA : Nat) (s : Sched) : Nat :=
  (s.blocks.map (tileCount MEGA)).sum

/-- The accounting invariant of a tick over the graph `nodes`: only the
current node can have invocations remaining; its `numRemaining` is what has
not been handed out plus what is outstanding; every block that holds a tile
holds one of the current node. -/
structure SchedInv (MEGA : Nat) (sm : StateManager) (nodes : List NodeState) (s : Sched) :
    Prop where
  statics : s.graph.sorted_nodes_.map NodeState.static = nodes.map NodeState.static
  cursor_le : s.graph.cur_node_idx_ ≤ nodes.length
  others : ∀ i nd, i ≠ s.graph.cur_node_idx_ → s.graph.sorted_nodes_[i]? = some nd →
    nd.numRemaining = 0
  current : ∀ nd, s.graph.sorted_nodes_[s.graph.cur_node_idx_]? = some nd →
    nd.totalNumInvocations = cnt MEGA sm nodes s.graph.cur_node_idx_ ∧
    nd.curOffset < nd.totalNumInvocations + MEGA ∧
    nd.numRemaining ≤ nd.totalNumInvocations ∧
    nd.numRemaining =
      (nd.totalNumInvocations - min nd.curOffset nd.totalNumInvocations) + outstanding MEGA s
  holders : ∀ blk, blk ∈ s.blocks → blk.running = true →
    blk.shared.nodeIdx = s.graph.cur_node_idx_ ∧ s.graph.cur_node_idx_ < nodes.length ∧
    blk.shared.numInvocations = cnt MEGA sm nodes s.graph.cur_node_idx_ ∧
    blk.shared.runOffset < blk.shared.numInvocations

end TaskGraph

/-! ## Temporary allocator (`memory.cpp`)

Sizes and offsets are `uint64_t`. `G` is `alloc_granularity_` of the host
allocator. Calls do not overlap, so the re-check of the mapped length under
`grow_lock_` sees the value the first check saw. -/

namespace TmpAllocator

/-- Modelled from the spec: `utils::roundUpPow2`, whose body is in a header
outside the sources; the specification says `alloc` adds "a 256-byte-rounded
size": the least multiple of `alignment` not below `offset`, computed in
`uint64_t`. -/
def roundUpPow2 (offset alignment : Nat) : Nat :=
  (offset + alignment - 1) % 2 ^ 64 / alignment * alignment

/-- Modelled from the spec: `utils::roundUp`, whose body is in a header
outside the sources: the least multiple of `alignment` not below `offset`,
computed in `uint64_t`. -/
def roundUp (offset alignment : Nat) : Nat :=
  ((offset + alignment - 1) % 2 ^ 64 / alignment * alignment) % 2 ^ 64

/-- `HostAllocator::roundUpAlloc`. -/
def roundUpAlloc (G num_bytes : Nat) : Nat := roundUp num_bytes G

/-- The constructor `TmpAllocator::TmpAllocator`: offset 0, nothing mapped. -/
def new : TmpAllocator := ⟨0, 0⟩

/-- `TmpAllocator::alloc(num_bytes)`: the offset from `base_` of the block
returned, the allocator afterwards, and the `mapMemory` calls made, each as
the offset from `base_` and the number of bytes. -/
def alloc (G : Nat) (t : TmpAllocator) (num_bytes : Nat) :
    Nat × TmpAllocator × List (Nat × Nat) :=
  let num_bytes := roundUpPow2 num_bytes 256
  let alloc_offset := t.offset_
  let offset' := (t.offset_ + num_bytes) % 2 ^ 64
  if alloc_offset ≥ t.num_mapped_bytes_ then
    let cur_mapped_bytes := t.num_mapped_bytes_
    let num_added_bytes :=
      min (roundUpAlloc G (max cur_mapped_bytes (1024 * 1024))) (256 * 1024 * 1024)
    (alloc_offset, ⟨offset', (cur_mapped_bytes + num_added_bytes) % 2 ^ 64⟩,
      [(cur_mapped_bytes, num_added_bytes)])
  else (alloc_offset, ⟨offset', t.num_mapped_bytes_⟩, [])

/-- The calls `alloc(n_1)`, ..., `alloc(n_k)` one after the other: the
offsets returned, the allocator afterwards, and the `mapMemory` calls made. -/
def allocs (G : Nat) : TmpAllocator → List Nat → List Nat × TmpAllocator × List (Nat × Nat)
  | t, [] => ([], t, [])
  | t, n :: ns =>
    match alloc G t n with
    | (o, t1, maps) =>
      match allocs G t1 ns with
      | (os, t2, maps') => (o :: os, t2, maps ++ maps')

/-- The least multiple of 256 not below `n`. -/
def round256 (n : Nat) : Nat := (n + 255) / 256 * 256

end TmpAllocator

namespace TmpAllocator

/-- The offsets the specification gives to a sequence of allocations of the
sizes `ns` that starts at offset `o`: each block follows the rounded size of
the one before. -/
def bumpOffsets (o : Nat) : List Nat → List Nat
  | [] => []
  | n :: ns => o :: bumpOffsets (o + round256 n) ns

end TmpAllocator

/-! ## Run queue: the emptiness probe (`job.inl`) -/

namespace JobManager

/-- The lambda `checkGEWrapped` of `JobManager::isQueueEmpty`:
`a - b <= (1u << 31u)` in `uint32_t` arithmetic. -/
def checkGEWrapped (a b : Nat) : Bool := decide (sub32 a b ≤ 2 ^ 31)

/-- `JobManager::isQueueEmpty`. -/
def isQueueEmpty (head correction tail : Nat) : Bool :=
  checkGEWrapped (sub32 head correction) tail

/-- The three `uint32_t` counters of a run queue that the probe reads. -/
structure RunQueue where
  head : Nat
  correction : Nat
  tail : Nat
  deriving DecidableEq, Repr

namespace RunQueue

/-- Modelled from the spec: a push, as far as the probe sees it: the tail
counter moves on by one. -/
def push (q : RunQueue) : RunQueue := { q with tail := add32 q.tail 1 }

/-- Modelled from the spec: a pop, as far as the probe sees it: the head
counter moves on by one. -/
def pop (q : RunQueue) : RunQueue := { q with head := add32 q.head 1 }

/-- The probe on the counters of a queue. -/
def probe (q : RunQueue) : Bool := isQueueEmpty q.head q.correction q.tail

end RunQueue

end JobManager

/-! ## Scheduler: what an interleaving hands out -/

namespace TaskGraph

/-- A graph in the middle of a tick with `MEGA = 4`: node 0 (10 invocations)
has handed out the tiles at 0 and 4, which have finished; a node with 5
invocations follows. -/
def exampleArmedGraph : TaskGraph :=
  ⟨[⟨⟨.ParallelFor, 7, { query := 10 }⟩, 8, 2, 10⟩, parallelForNode 9 5], 0⟩

/-- The first scenario of the specification with `MEGA = 4`, at the moment the
last tile of A (base 8, two invocations) is about to finish: B has count 0
and C has count 5. -/
def exampleLastTileGraph : TaskGraph :=
  ⟨[⟨⟨.ParallelFor, 7, { query := 10 }⟩, 12, 2, 10⟩, parallelForNode 8 0, parallelForNode 9 5],
    0⟩

/-- The local `num_finished` of `finishWork` (lines 454-456) for a block whose
shared state is `bs`. -/
def numFinished (MEGA : Nat) (bs : BlockState) : Nat :=
  min (sub32 bs.numInvocations bs.runOffset) (MEGA % 2 ^ 32)

/-- The tile a step of block `b` hands out: the shared block state that
`getWork` has published when the step took the block from holding no tile to
holding one (`s` is the state before the step, `s'` the state after). -/
def tileOf (s : Sched) (b : Nat) (s' : Sched) : List BlockState :=
  match s.blocks[b]?, s'.blocks[b]? with
  | some blk, some blk' =>
    if blk.running = false ∧ blk'.running = true then [blk'.shared] else []
  | _, _ => []

/-- The node whose cursor advance a step of block `b` performs: the step is a
`finishWork` whose `fetch_sub` returns `prev_remaining == num_finished`. -/
def advanceOf (MEGA : Nat) (s : Sched) (b : Nat) : List Nat :=
  match s.blocks[b]? with
  | none => []
  | some blk =>
    if blk.running then
      match s.graph.sorted_nodes_[blk.shared.nodeIdx]? with
      | none => []
      | some cur_node =>
        if cur_node.numRemaining = numFinished MEGA blk.shared then [blk.shared.nodeIdx] else []
    else []

/-- An interleaving run with a record of what it does: the tiles handed out
so far, in order, and the nodes whose `finishWork` advanced the cursor, in
order. The state component is that of `runSchedule`. -/
def runScheduleLog (MEGA : Nat) (sm : StateManager) :
    Sched → List Nat → List BlockState → List Nat → Res (Sched × List BlockState × List Nat)
  | s, [], tiles, advs => .ok (s, tiles, advs)
  | s, b :: rest, tiles, advs =>
    match stepBlock MEGA sm s b with
    | .fault f => .fault f
    | .ok s' =>
      runScheduleLog MEGA sm s' rest (tiles ++ tileOf s b s') (advs ++ advanceOf MEGA s b)

/-- The number of tiles of a node with `T` invocations. -/
def numTiles (MEGA T : Nat) : Nat := (T + MEGA - 1) / MEGA

/-- The number of tiles the node at position `j` has handed out in the state
of the graph `g`: all of them for a node the cursor has passed, `curOffset /
MEGA` for the current node, none for a later node. -/
def tilesGiven (MEGA : Nat) (sm : StateManager) (nodes : List NodeState) (g : TaskGraph)
    (j : Nat) : Nat :=
  if j < g.cur_node_idx_ then numTiles MEGA (cnt MEGA sm nodes j)
  else if j = g.cur_node_idx_ then
    match g.sorted_nodes_[j]? with
    | some nd => nd.curOffset / MEGA
    | none => 0
  else 0

/-- The tiles of the node at position `j` among `tiles`. -/
def tilesAt (tiles : List BlockState) (j : Nat) : List BlockState :=
  tiles.filter (fun t => decide (t.nodeIdx = j))

/-- The invocations given to lanes by the tiles `tiles`, as (sorted position
of the node, `int32_t` invocation index). -/
def lanesOf (MEGA : Nat) (tiles : List BlockState) : List (Nat × Int) :=
  (tiles.flatMap (tileInvocations MEGA)).map (fun e => (e.1, e.2.2))

/-- The order in which tiles are handed out: by node, and within a node by
base, a tile apart. -/
def TileBefore (MEGA : Nat) (t1 t2 : BlockState) : Prop :=
  t1.nodeIdx < t2.nodeIdx ∨ (t1.nodeIdx = t2.nodeIdx ∧ t1.runOffset + MEGA ≤ t2.runOffset)

/-- The invariant of a tick with its record: the accounting invariant; the
current node's `curOffset` is a multiple of `MEGA`; the cursor is at the
sentinel or at a node with a non-zero count; every tile handed out is a tile
of a node at or below the cursor, inside the node's total, and they were
handed out in order; the bases handed out for each node are the first
multiples of `MEGA`; the cursor advances recorded are those of the nodes with
a non-zero count below the cursor. -/
structure TickInv (MEGA : Nat) (sm : StateManager) (nodes : List NodeState) (s : Sched)
    (tiles : List BlockState) (advs : List Nat) : Prop where
  sched : SchedInv MEGA sm nodes s
  aligned : ∀ nd, s.graph.sorted_nodes_[s.graph.cur_node_idx_]? = some nd → MEGA ∣ nd.curOffset
  live : s.graph.cur_node_idx_ < nodes.length → cnt MEGA sm nodes s.graph.cur_node_idx_ ≠ 0
  tile_ok : ∀ t, t ∈ tiles →
    t.state = .Run ∧ t.numInvocations = cnt MEGA sm nodes t.nodeIdx ∧ MEGA ∣ t.runOffset ∧
    t.runOffset < t.numInvocations ∧
    (t.nodeIdx < s.graph.cur_node_idx_ ∨
      (t.nodeIdx = s.graph.cur_node_idx_ ∧
        ∃ nd, s.graph.sorted_nodes_[s.graph.cur_node_idx_]? = some nd ∧
          t.runOffset + MEGA ≤ nd.curOffset))
  tile_order : tiles.Pairwise (TileBefore MEGA)
  bases : ∀ j, (tilesAt tiles j).map (fun t => t.runOffset) =
    (List.range (tilesGiven MEGA sm nodes s.graph j)).map (fun t => t * MEGA)
  advances : advs = (List.range s.graph.cur_node_idx_).filter
    (fun j => decide (cnt MEGA sm nodes j ≠ 0))

end TaskGraph

/-! ## Multi-invocation job entry (`job.inl`)

`invocation_offset`, `num_invocations` and the two loop variables are
`uint64_t`. The calls the entry makes are recorded in order. The counters of
the worker's queue change between iterations (the job function and other
workers push and pop), so `queueAt i` is the queue as the probe of iteration
`i` reads it. -/

namespace JobManager

/-- The calls `multiInvokeEntry` makes. -/
inductive Call where
  /-- The call `container->fn(ctx, cur_invocation)`. -/
  | fn (cur_invocation : Nat)
  /-- The call `splitJob(entry, data, invocation_idx, remaining_invocations,
  thread_queue)`. -/
  | splitJob (invocation_idx remaining_invocations : Nat)
  /-- The call `markInvocationsFinished(worker_idx, data, count)`. -/
  | markInvocationsFinished (count : Nat)
  deriving DecidableEq, Repr

/-- The lambda `shouldSplit` of `multiInvokeEntry`: the emptiness probe on the
three counters of the queue. -/
def shouldSplit (queue : RunQueue) : Bool :=
  let cur_tail := queue.tail
  let cur_correction := queue.correction
  let cur_head := queue.head
  isQueueEmpty cur_head cur_correction cur_tail

/-- The `do ... while (remaining_invocations > 0)` loop of `multiInvokeEntry`
from its iteration number `iter` on: the final `invocation_idx` and the calls
made; `none` when the fuel runs out. -/
def multiInvokeLoop (queueAt : Nat → RunQueue) :
    Nat → Nat → Nat → Nat → Option (Nat × List Call)
  | 0, _, _, _ => none
  | fuel + 1, iter, invocation_idx, remaining_invocations =>
    let cur_invocation := invocation_idx
    let invocation_idx := (invocation_idx + 1) % 2 ^ 64
    let remaining_invocations := (remaining_invocations + 2 ^ 64 - 1) % 2 ^ 64
    if remaining_invocations > 0 && shouldSplit (queueAt iter) then
      some (invocation_idx,
        [.splitJob invocation_idx remaining_invocations, .fn cur_invocation])
    else if remaining_invocations > 0 then
      match multiInvokeLoop queueAt fuel (iter + 1) invocation_idx remaining_invocations with
      | none => none
      | some (idx, calls) => some (idx, .fn cur_invocation :: calls)
    else some (invocation_idx, [.fn cur_invocation])

/-- `JobManager::multiInvokeEntry(ctx, data, invocation_offset,
num_invocations, thread_queue)`: the calls it makes, in order. -/
def multiInvokeEntry (queueAt : Nat → RunQueue) (invocation_offset num_invocations : Nat)
    (fuel : Nat) : Option (List Call) :=
  match multiInvokeLoop queueAt fuel 0 invocation_offset num_invocations with
  | none => none
  | some (invocation_idx, calls) =>
    some (calls ++
      [.markInvocationsFinished ((invocation_idx + 2 ^ 64 - invocation_offset) % 2 ^ 64)])

/-- The invocation indices a list of calls runs on the worker itself. -/
def localRuns : List Call → List Nat
  | [] => []
  | .fn i :: cs => i :: localRuns cs
  | _ :: cs => localRuns cs

/-- The invocation indices a list of calls hands to `splitJob`. -/
def handedOff : List Call → List Nat
  | [] => []
  | .splitJob i n :: cs => List.range' i n ++ handedOff cs
  | _ :: cs => handedOff cs

/-- The counts a list of calls passes to `markInvocationsFinished`. -/
def finishedCounts : List Call → List Nat
  | [] => []
  | .markInvocationsFinished n :: cs => n :: finishedCounts cs
  | _ :: cs => finishedCounts cs

/-- A queue on which the probe reports work. -/
def busyQueue : RunQueue := ⟨0, 0, 1⟩

/-- A queue on which the probe reports empty. -/
def idleQueue : RunQueue := ⟨0, 0, 0⟩

end JobManager

/-! ## Node entries: archetype compaction (`taskgraph.cpp`) -/

namespace Builder

/-- `TaskGraph::Builder::compactArchetypeNode`; `compactFuncID` is the
constant `UserFuncID<CompactArchetypeEntry>::id`. -/
def compactArchetypeNode (compactFuncID : Nat) (b : Builder) (archetype_id : Nat)
    (dependencies : List Nat) : Nat × Builder :=
  let func_id := compactFuncID
  let node_info : NodeInfo :=
    { type := .CompactArchetype, funcID := func_id, data := { archetypeID := archetype_id } }
  b.registerNode node_info dependencies

end Builder

namespace TaskGraph

/-- `mwGPU::CompactArchetypeEntry::run`: the body that is compiled is
`assert(false)`. -/
def CompactArchetypeEntry.run (_data : EntryData) (_invocation_idx : Int) : Res Unit :=
  .fault .assertFailed

/-- Modelled from the spec: the call of the entry function with id `func_id`
by a lane that got `Run`; the dispatch is in the megakernel, which is not in
the sources. The id `compactFuncID` selects `CompactArchetypeEntry::run`; the
other entries work on the state store and are taken to return. -/
def callEntry (compactFuncID func_id : Nat) (data : EntryData) (invocation_idx : Int) :
    Res Unit :=
  if func_id = compactFuncID then CompactArchetypeEntry.run data invocation_idx
  else .ok ()

/-- The entry calls of the lanes of one tile, given as the invocations
presented (sorted position, function id, invocation index): the first fault
stops the kernel. -/
def runTile (compactFuncID : Nat) (data : EntryData) : List (Nat × Nat × Int) → Res Unit
  | [] => .ok ()
  | e :: rest =>
    match callEntry compactFuncID e.2.1 data e.2.2 with
    | .fault f => .fault f
    | .ok _ => runTile compactFuncID data rest

/-- The payload of the node at sorted position `node_idx`. -/
def entryData (g : TaskGraph) (node_idx : Nat) : EntryData :=
  match g.sorted_nodes_[node_idx]? with
  | some nd => nd.info.data
  | none => {}

/-- Modelled from the spec: the per-block loop of `blockLoop` with the entry
calls made: the lanes that got `Run` call their entry function between
`getWork` and `finishWork`, and a failed assertion in an entry ends the
tick. -/
def blockLoopEntries (MEGA : Nat) (sm : StateManager) (compactFuncID : Nat) :
    Nat → Tick → Option (Res Tick)
  | 0, _ => none
  | fuel + 1, t =>
    match setBlockState MEGA t.graph t.block with
    | .fault f => some (.fault f)
    | .ok (g, bs) =>
      match bs.state with
      | .Exit => some (.ok { t with graph := g, block := bs })
      | .Loop => blockLoopEntries MEGA sm compactFuncID fuel { t with graph := g, block := bs }
      | _ =>
        match runTile compactFuncID (entryData g bs.nodeIdx) (tileInvocations MEGA bs) with
        | .fault f => some (.fault f)
        | .ok _ =>
          match finishWork MEGA sm g t.tmp bs with
          | .fault f => some (.fault f)
          | .ok (g', tmp') =>
            blockLoopEntries MEGA sm compactFuncID fuel
              { graph := g', tmp := tmp', block := bs,
                presented := t.presented ++ tileInvocations MEGA bs }

/-- One tick run by a single block, with the entry calls made: `init`, then
the block loop. -/
def runTickEntries (MEGA : Nat) (sm : StateManager) (compactFuncID : Nat) (g : TaskGraph)
    (tmp : TmpAllocator) (fuel : Nat) : Option (Res Tick) :=
  match init MEGA sm g tmp with
  | .fault f => some (.fault f)
  | .ok (g', tmp') => blockLoopEntries MEGA sm compactFuncID fuel ⟨g', tmp', BlockState.idle, []⟩

/-- A freshly built `CompactArchetype` node for `archetype_id`, as
`compactArchetypeNode` registers it. -/
def compactNode (compactFuncID archetype_id : Nat) : NodeState :=
  ⟨⟨.CompactArchetype, compactFuncID, { archetypeID := archetype_id }⟩, 0, 0, 0⟩

/-- A state store for examples in which archetype 1 is dirty and has 3 rows;
query `q` matches `q` entities. -/
def dirtyStore : StateManager :=
  ⟨fun q => q, fun a => decide (a = 1), fun a => if a = 1 then 3 else 0,
    fun _ _ _ => false, fun _ => 0, (0, 0)⟩

end TaskGraph

/-! ## Generational ID map: data model and operations (`id_map_impl.inl`)

`ids_per_cache_` is the parameter `C`. The store is a list of nodes; `expand`
appends `C` nodes of uninitialised memory. The operations return `none` when
they index the store out of range or read the `freeNode` member of a node that
is not free. The compare-exchange loops succeed at their first attempt, as
they do when calls do not overlap. -/

namespace IDMap

/-- The record `FreeNode`: the two links of a free node. -/
structure FreeNode where
  subNext : Nat
  globalNext : Nat
  deriving DecidableEq, Repr

/-- The union inside a store node: a live value, a free node, or memory that
`expand` returned and nothing has written yet. -/
inductive Slot (V : Type) where
  | val (v : V)
  | freeNode (f : FreeNode)
  | uninit
  deriving DecidableEq, Repr

/-- The record `Node`: the generation (`uint32_t`) and the union. -/
structure Node (V : Type) where
  gen : Nat
  slot : Slot V
  deriving DecidableEq, Repr

/-- The handle `K`. -/
structure Key where
  gen : Nat
  id : Nat
  deriving DecidableEq, Repr

/-- The tagged head `FreeHead` of the global free list. -/
structure FreeHead where
  gen : Nat
  head : Nat
  deriving DecidableEq, Repr

/-- The per-worker `Cache`. -/
structure Cache where
  free_head_ : Nat
  num_free_ids_ : Nat
  overflow_head_ : Nat
  num_overflow_ids_ : Nat
  deriving DecidableEq, Repr

/-- The constructor `Cache::Cache`. -/
def Cache.new : Cache := ⟨noIdx, 0, noIdx, 0⟩

end IDMap

/-- The fields of `IDMap`: the global free head and the store. -/
structure IDMap (V : Type) where
  free_head_ : IDMap.FreeHead
  store_ : List (IDMap.Node V)
  deriving DecidableEq, Repr

namespace IDMap

variable {V : Type}

/-- The free node stored at index `i`, when the node there is free. -/
def freeAt (store : List (Node V)) (i : Nat) : Option FreeNode :=
  match store[i]? with
  | some ⟨_, .freeNode f⟩ => some f
  | _ => none

/-- The node the constructor's loops write at index `idx` (lines 28-52): with
`i = idx % C` its position in its chunk, the last node of a chunk ends the
sublist, the first carries the index of the next chunk (or `~0u`), and every
node has generation 0. -/
def initNode (C init_capacity idx : Nat) : Node V :=
  let base_idx := idx - idx % C
  let i := idx % C
  if i = C - 1 then ⟨0, .freeNode ⟨noIdx, 1⟩⟩
  else
    ⟨0, .freeNode ⟨idx + 1,
      if i = 0 then (if base_idx + C < init_capacity then base_idx + C else noIdx) else 1⟩⟩

/-- The constructor `IDMap::IDMap(init_capacity)`; `none` when the assertion
`init_capacity % ids_per_cache_ == 0` fails (or `C` is 0). -/
def new (C init_capacity : Nat) : Option (IDMap V) :=
  if C = 0 then none
  else if init_capacity % C ≠ 0 then none
  else
    some { free_head_ := ⟨0, if init_capacity > 0 then 0 else noIdx⟩,
           store_ := (List.range init_capacity).map (initNode C init_capacity) }

/-- The lambda `assignCachedID` of `acquireID`: pops the node at `*head`,
makes it live and returns the key, the map and the new `*head`. -/
def assignCachedID (m : IDMap V) (head : Nat) (new_v : V) : Option (Key × IDMap V × Nat) :=
  let new_id := head
  match m.store_[new_id]? with
  | some ⟨gen, .freeNode f⟩ =>
    let num_contiguous := f.globalNext
    if num_contiguous = 1 then
      some (⟨gen, new_id⟩, { m with store_ := m.store_.set new_id ⟨gen, .val new_v⟩ },
        f.subNext)
    else
      let next_free := new_id + 1
      if next_free < m.store_.length then
        let store1 := m.store_.set next_free ⟨0, .freeNode ⟨f.subNext, sub32 num_contiguous 1⟩⟩
        some (⟨gen, new_id⟩, { m with store_ := store1.set new_id ⟨gen, .val new_v⟩ },
          next_free)
      else none
  | _ => none

/-- `IDMap::acquireID`. `junk` is the generation found in the uninitialised
memory that `expand` returns. -/
def acquireID (C : Nat) (m : IDMap V) (cache : Cache) (new_v : V) (junk : Nat) :
    Option (Key × IDMap V × Cache) :=
  if cache.num_overflow_ids_ > 0 then
    match assignCachedID m cache.overflow_head_ new_v with
    | none => none
    | some (k, m', head) =>
      some (k, m', { cache with num_overflow_ids_ := cache.num_overflow_ids_ - 1,
                                overflow_head_ := head })
  else if cache.num_free_ids_ > 0 then
    match assignCachedID m cache.free_head_ new_v with
    | none => none
    | some (k, m', head) =>
      some (k, m', { cache with num_free_ids_ := cache.num_free_ids_ - 1,
                                free_head_ := head })
  else
    let cur_head := m.free_head_
    if cur_head.head ≠ noIdx then
      match m.store_[cur_head.head]? with
      | some ⟨gen, .freeNode f⟩ =>
        let new_head : FreeHead := ⟨add32 cur_head.gen 1, f.globalNext⟩
        let m1 : IDMap V :=
          { free_head_ := new_head,
            store_ := m.store_.set cur_head.head ⟨gen, .freeNode ⟨f.subNext, 1⟩⟩ }
        match assignCachedID m1 cur_head.head new_v with
        | none => none
        | some (k, m', head) =>
          some (k, m', { cache with free_head_ := head, num_free_ids_ := C - 1 })
      | _ => none
    else
      let block_start := m.store_.length
      let store1 := m.store_ ++ List.replicate C (⟨junk, .uninit⟩ : Node V)
      let first_id := block_start
      let store2 := store1.set first_id ⟨0, .val new_v⟩
      let free_start := block_start + 1
      if free_start < store2.length then
        let store3 := store2.set free_start ⟨0, .freeNode ⟨noIdx, C - 1⟩⟩
        some (⟨0, first_id⟩, { m with store_ := store3 },
          { cache with free_head_ := free_start, num_free_ids_ := C - 1 })
      else none

/-- `IDMap::releaseID`. -/
def releaseID (C : Nat) (m : IDMap V) (cache : Cache) (id : Nat) : Option (IDMap V × Cache) :=
  match m.store_[id]? with
  | none => none
  | some release_node =>
    let gen := add32 release_node.gen 1
    if cache.num_free_ids_ < C then
      some ({ m with store_ := m.store_.set id ⟨gen, .freeNode ⟨cache.free_head_, 1⟩⟩ },
        { cache with free_head_ := id, num_free_ids_ := cache.num_free_ids_ + 1 })
    else
      let store1 :=
        if cache.num_overflow_ids_ < C then
          m.store_.set id ⟨gen, .freeNode ⟨cache.overflow_head_, 1⟩⟩
        else m.store_.set id ⟨gen, .freeNode ⟨0, 1⟩⟩
      let cache1 : Cache :=
        if cache.num_overflow_ids_ < C then
          { cache with overflow_head_ := id, num_overflow_ids_ := cache.num_overflow_ids_ + 1 }
        else cache
      if cache1.num_overflow_ids_ = C then
        let cur_head := m.free_head_
        match store1[cache1.overflow_head_]? with
        | some ⟨g, .freeNode f⟩ =>
          some ({ free_head_ := ⟨add32 cur_head.gen 1, cache1.overflow_head_⟩,
                  store_ := store1.set cache1.overflow_head_
                    ⟨g, .freeNode ⟨f.subNext, cur_head.head⟩⟩ },
            { cache1 with overflow_head_ := noIdx, num_overflow_ids_ := 0 })
        | _ => none
      else some ({ m with store_ := store1 }, cache1)

/-- The element `keys[idx]` of the key array of `bulkRelease`; `past` is what
lies in memory just after the array, read when `idx` is `num_keys`. -/
def keyAt (keys : List Key) (past : Key) (idx : Nat) : Key := keys.getD idx past

/-- The lambda `linkToNext` of `bulkRelease`: bumps the generation of
`keys[idx]` and makes it a free node linked to `keys[idx + 1]`. -/
def linkToNext (keys : List Key) (past : Key) (store : List (Node V)) (idx : Nat) :
    Option (List (Node V)) :=
  let cur_idx := (keyAt keys past idx).id
  let next_idx := (keyAt keys past (idx + 1)).id
  match store[cur_idx]? with
  | none => none
  | some node => some (store.set cur_idx ⟨add32 node.gen 1, .freeNode ⟨next_idx, 1⟩⟩)

/-- `n` consecutive calls `linkToNext(idx)`, `linkToNext(idx + 1)`, ... -/
def linkRange (keys : List Key) (past : Key) :
    Nat → Nat → List (Node V) → Option (List (Node V))
  | 0, _, store => some store
  | n + 1, idx, store =>
    match linkToNext keys past store idx with
    | none => none
    | some store' => linkRange keys past n (idx + 1) store'

/-- The statements `node.gen++; new (&node.freeNode) FreeNode {subNext, 1}` on
the node with index `id`. -/
def bumpFree (store : List (Node V)) (id subNext : Nat) : Option (List (Node V)) :=
  match store[id]? with
  | none => none
  | some node => some (store.set id ⟨add32 node.gen 1, .freeNode ⟨subNext, 1⟩⟩)

/-- The store `globalNext` of the free node with index `id`. -/
def setGlobalNext (store : List (Node V)) (id next : Nat) : Option (List (Node V)) :=
  match store[id]? with
  | some ⟨g, .freeNode f⟩ => some (store.set id ⟨g, .freeNode ⟨f.subNext, next⟩⟩)
  | _ => none

/-- The statement `if (global_tail_node != nullptr) global_tail_node->
freeNode.globalNext.store(id)`. -/
def linkTail (store : List (Node V)) (global_tail_node : Option Nat) (id : Nat) :
    Option (List (Node V)) :=
  match global_tail_node with
  | none => some store
  | some t => setGlobalNext store t id

/-- The local variables of the first loop of `bulkRelease`. -/
structure BulkLoop (V : Type) where
  store : List (Node V)
  base_idx : Nat
  num_remaining : Nat
  global_tail_node : Option Nat

/-- The first loop of `bulkRelease` (lines 246-275), one full chunk per
iteration; `none` on a fault or when the fuel runs out. -/
def chunkLoop (C : Nat) (keys : List Key) (past : Key) :
    Nat → BulkLoop V → Option (BulkLoop V)
  | 0, _ => none
  | fuel + 1, st =>
    if st.base_idx < keys.length then
      let num_remaining := keys.length - st.base_idx
      if num_remaining < C then some { st with num_remaining := num_remaining }
      else
        let head_id := (keyAt keys past st.base_idx).id
        match linkRange keys past C st.base_idx st.store with
        | none => none
        | some store1 =>
          match bumpFree store1 (keyAt keys past (st.base_idx + C - 1)).id noIdx with
          | none => none
          | some store2 =>
            match linkTail store2 st.global_tail_node head_id with
            | none => none
            | some store3 =>
              chunkLoop C keys past fuel
                { store := store3, base_idx := st.base_idx + C,
                  num_remaining := num_remaining, global_tail_node := some head_id }
    else some st

/-- The loop of lines 302-305: follows `subNext` for `n` nodes from `next_id`;
returns the last node visited and the index after it. -/
def walkOverflow (store : List (Node V)) : Nat → Nat → Nat → Option (Nat × Nat)
  | 0, overflow_node, next_id => some (overflow_node, next_id)
  | n + 1, _, next_id =>
    match freeAt store next_id with
    | none => none
    | some f => walkOverflow store n next_id f.subNext

/-- The store `subNext` of the free node with index `id`. -/
def setSubNext (store : List (Node V)) (id next : Nat) : Option (List (Node V)) :=
  match store[id]? with
  | some ⟨g, .freeNode f⟩ => some (store.set id ⟨g, .freeNode ⟨next, f.globalNext⟩⟩)
  | _ => none

/-- The handling of the final, short chunk in `bulkRelease` (lines 278-317). -/
def bulkRemainder (C : Nat) (keys : List Key) (past : Key) (cache : Cache)
    (st : BulkLoop V) : Option (BulkLoop V × Cache) :=
  if st.num_remaining ≠ C then
    let start_id := (keyAt keys past st.base_idx).id
    match linkRange keys past (keys.length - 1 - st.base_idx) st.base_idx st.store with
    | none => none
    | some store1 =>
      match bumpFree store1 (keyAt keys past (keys.length - 1)).id cache.overflow_head_ with
      | none => none
      | some store2 =>
        let num_from_overflow := C - st.num_remaining
        if cache.num_overflow_ids_ < num_from_overflow then
          some ({ st with store := store2 },
            { cache with overflow_head_ := start_id,
                         num_overflow_ids_ := cache.num_overflow_ids_ + st.num_remaining })
        else if num_from_overflow = 0 then none
        else
          match walkOverflow store2 num_from_overflow noIdx cache.overflow_head_ with
          | none => none
          | some (overflow_node, next_id) =>
            match setSubNext store2 overflow_node noIdx with
            | none => none
            | some store3 =>
              match linkTail store3 st.global_tail_node start_id with
              | none => none
              | some store4 =>
                some ({ st with store := store4, global_tail_node := some start_id },
                  { cache with overflow_head_ := next_id,
                               num_overflow_ids_ := cache.num_overflow_ids_ - num_from_overflow })
  else some (st, cache)

/-- `IDMap::bulkRelease` on the key array `keys` (`num_keys` is its length). -/
def bulkRelease (C : Nat) (m : IDMap V) (cache : Cache) (keys : List Key) (past : Key) :
    Option (IDMap V × Cache) :=
  if keys.length = 0 then some (m, cache)
  else
    match chunkLoop C keys past (keys.length + 1) ⟨m.store_, 0, 0, none⟩ with
    | none => none
    | some st =>
      match bulkRemainder C keys past cache st with
      | none => none
      | some (st', cache') =>
        match st'.global_tail_node with
        | none => some ({ m with store_ := st'.store }, cache')
        | some t =>
          let new_global_head := (keyAt keys past 0).id
          let cur_head := m.free_head_
          match setGlobalNext st'.store t cur_head.head with
          | none => none
          | some store' =>
            some ({ free_head_ := ⟨add32 cur_head.gen 1, new_global_head⟩, store_ := store' },
              cache')

end IDMap

/-! ## Generational ID map: representation invariant -/

namespace IDMap

variable {V : Type}

/-- Whether the node at index `i` holds a live value. -/
def liveB (store : List (Node V)) (i : Nat) : Bool :=
  match store[i]? with
  | some ⟨_, .val _⟩ => true
  | _ => false

/-- The generation stored at index `i` (0 outside the store). -/
def genAt (store : List (Node V)) (i : Nat) : Nat :=
  match store[i]? with
  | some nd => nd.gen
  | none => 0

/-- The list `ids` is a sublist linked through `subNext` starting at index
`h` and ending with `~0u`, every node free with `globalNext` holding the
count 1. -/
def Seg (store : List (Node V)) : Nat → List Nat → Prop
  | h, [] => h = noIdx
  | h, i :: rest =>
    h = i ∧ ∃ g sn, store[i]? = some ⟨g, .freeNode ⟨sn, 1⟩⟩ ∧ Seg store sn rest

/-- The list of blocks `(first index, count)` is a primary sublist starting
at index `h` and ending with `~0u`: the first node of a block is free and holds the count in
`globalNext`; the other ids the block covers are uninitialised memory. -/
def PrimSeg (store : List (Node V)) : Nat → List (Nat × Nat) → Prop
  | h, [] => h = noIdx
  | h, b :: rest =>
    h = b.1 ∧ 1 ≤ b.2 ∧ ∃ g sn, store[b.1]? = some ⟨g, .freeNode ⟨sn, b.2⟩⟩ ∧
      (∀ j, b.1 < j → j < b.1 + b.2 → ∃ g', store[j]? = some ⟨g', .uninit⟩) ∧
      PrimSeg store sn rest

/-- The ids covered by a list of blocks. -/
def blockIds (bl : List (Nat × Nat)) : List Nat :=
  bl.flatMap (fun b => List.range' b.1 b.2)

/-- The list of sublists `subs` is the global chain starting at index `h`:
each sublist has exactly `C` ids, its head holds in `globalNext` the index of
the next sublist's head, and the chain ends with `~0u`. -/
def Chain (C : Nat) (store : List (Node V)) : Nat → List (List Nat) → Prop
  | h, [] => h = noIdx
  | h, sub :: rest =>
    h ≠ noIdx ∧ sub.length = C ∧ ∃ g sn next tl,
      sub = h :: tl ∧ store[h]? = some ⟨g, .freeNode ⟨sn, next⟩⟩ ∧
      Seg store sn tl ∧ Chain C store next rest

/-- The contents of one cache: the blocks of its primary sublist and the ids
of its overflow sublist, in list order. -/
structure CacheGhost where
  blocks : List (Nat × Nat)
  overflow : List Nat
  deriving DecidableEq, Repr

/-- All ids held by a cache. -/
def CacheGhost.ids (g : CacheGhost) : List Nat := blockIds g.blocks ++ g.overflow

/-- The cache `c` holds exactly the contents `g`. -/
def CacheRep (C : Nat) (store : List (Node V)) (c : Cache) (g : CacheGhost) : Prop :=
  PrimSeg store c.free_head_ g.blocks ∧
  (blockIds g.blocks).length = c.num_free_ids_ ∧ c.num_free_ids_ ≤ C ∧
  Seg store c.overflow_head_ g.overflow ∧
  g.overflow.length = c.num_overflow_ids_ ∧ c.num_overflow_ids_ < C

/-- A map together with the caches of its workers. -/
structure Sys (V : Type) where
  map : IDMap V
  caches : List Cache
  deriving DecidableEq, Repr

/-- All ids that are free according to the cache contents `gh` and the
global chain `subs`. -/
def freeIds (gh : List CacheGhost) (subs : List (List Nat)) : List Nat :=
  gh.flatMap CacheGhost.ids ++ subs.flatten

/-- The representation invariant: the caches hold `gh`, the global chain is
`subs`, no id is free twice, and every index of the store is live or free. -/
structure Inv (C : Nat) (s : Sys V) (gh : List CacheGhost) (subs : List (List Nat)) :
    Prop where
  size : s.map.store_.length < noIdx
  caches_len : s.caches.length = gh.length
  caches : ∀ (i : Nat) (c : Cache) (g : CacheGhost),
    s.caches[i]? = some c → gh[i]? = some g → CacheRep C s.map.store_ c g
  chain : Chain C s.map.store_ s.map.free_head_.head subs
  nodup : (freeIds gh subs).Nodup
  cover : ∀ i, i < s.map.store_.length → liveB s.map.store_ i = true ∨ i ∈ freeIds gh subs

/-- What holds of an index that is free or covered by a block: it is inside
the store and not live. -/
def FreeSlot (store : List (Node V)) (i : Nat) : Prop :=
  i < store.length ∧ liveB store i = false

/-- The invariant seen from one cache: `O` lists the ids held by the other
caches. -/
structure LInv (C : Nat) (m : IDMap V) (c : Cache) (g : CacheGhost) (subs : List (List Nat))
    (O : List Nat) : Prop where
  size : m.store_.length < noIdx
  rep : CacheRep C m.store_ c g
  chain : Chain C m.store_ m.free_head_.head subs
  nodup : (g.ids ++ subs.flatten ++ O).Nodup
  others : ∀ i, i ∈ O → FreeSlot m.store_ i
  cover : ∀ i, i < m.store_.length →
    liveB m.store_ i = true ∨ i ∈ g.ids ++ subs.flatten ++ O

/-- The id of the key `keys[idx]` that `bulkRelease` reads. -/
def kid (keys : List Key) (past : Key) (idx : Nat) : Nat := (keyAt keys past idx).id

/-- The list `ids` is a sublist linked through `subNext` starting at index
`h` whose last node holds `e` in `subNext`. -/
def SegTo (store : List (Node V)) (e : Nat) : Nat → List Nat → Prop
  | h, [] => h = e
  | h, i :: rest =>
    h = i ∧ ∃ g sn, store[i]? = some ⟨g, .freeNode ⟨sn, 1⟩⟩ ∧ SegTo store e sn rest

/-- The list of sublists `subs` is a piece of a global chain starting at
index `h` whose last head holds `e` in `globalNext`. -/
def ChainTo (C : Nat) (store : List (Node V)) (e : Nat) : Nat → List (List Nat) → Prop
  | h, [] => h = e
  | h, sub :: rest =>
    sub.length = C ∧ ∃ g sn next tl,
      sub = h :: tl ∧ store[h]? = some ⟨g, .freeNode ⟨sn, next⟩⟩ ∧
      Seg store sn tl ∧ ChainTo C store e next rest

/-- The sublists `done` that the first loop of `bulkRelease` has linked so
far, the last of them still holding the count 1 in its head. -/
def OpenChain (C : Nat) (store : List (Node V)) (first : Nat) (tail : Option Nat)
    (done : List (List Nat)) : Prop :=
  (done = [] ∧ tail = none) ∨
  (∃ A t tl, done = A ++ [t :: tl] ∧ tail = some t ∧ ChainTo C store 1 first done)

/-- The loop invariant of the first loop of `bulkRelease`: `store0` is the
store at the call, `k` the number of keys and `done` the sublists linked so
far. -/
structure BulkInv (C : Nat) (keys : List Key) (past : Key) (store0 : List (Node V))
    (st : BulkLoop V) (done : List (List Nat)) : Prop where
  len : st.store.length = store0.length
  base_le : st.base_idx ≤ keys.length
  rem : 0 < st.base_idx → st.base_idx = keys.length → st.num_remaining = C
  keep : ∀ x, x ∉ done.flatten → st.store[x]? = store0[x]?
  flat : done.flatten = (List.range st.base_idx).map (kid keys past)
  free : ∀ x, x ∈ done.flatten → liveB st.store x = false ∧
    (genAt st.store x = (genAt store0 x + 1) % 2 ^ 32 ∨
     genAt st.store x = (genAt store0 x + 2) % 2 ^ 32)
  chain : OpenChain C st.store (kid keys past 0) st.global_tail_node done

/-- What `bulkRelease` has done to the store `store0` once all its keys are
linked: the nodes of the released `ids` are free with the generation bumped
once or twice, the nodes that were free already (`F`) are still free with
their generation, and no other node is written. -/
structure BulkStore (store0 : List (Node V)) (ids F : List Nat) (S : List (Node V)) :
    Prop where
  len : S.length = store0.length
  keep : ∀ j, j ∉ ids → j ∉ F → S[j]? = store0[j]?
  keepF : ∀ j, j ∈ F → liveB S j = false ∧ genAt S j = genAt store0 j
  bump : ∀ i, i ∈ ids → liveB S i = false ∧
    (genAt S i = (genAt store0 i + 1) % 2 ^ 32 ∨
     genAt S i = (genAt store0 i + 2) % 2 ^ 32)

/-- The shape of the result of `bulkRelease` of `k` keys through a cache
holding `o` overflow ids: `pushed` is the number of sublists put in front of
the global chain and `o'` the number of overflow ids afterwards. -/
def BulkShape (C k o pushed o' : Nat) : Prop :=
  (k % C = 0 ∧ pushed = k / C ∧ o' = o) ∨
  (0 < k % C ∧ o + k % C < C ∧ pushed = k / C ∧ o' = o + k % C) ∨
  (0 < k % C ∧ C ≤ o + k % C ∧ pushed = k / C + 1 ∧ o' = o + k % C - C)

/-- What `acquireID` guarantees about its result `(k, m', c')` when called in
a state satisfying the invariant. -/
structure AcquirePost (C : Nat) (m : IDMap V) (g : CacheGhost) (subs : List (List Nat))
    (O : List Nat) (v : V) (k : Key) (m' : IDMap V) (c' : Cache) (g' : CacheGhost)
    (subs' : List (List Nat)) : Prop where
  linv : LInv C m' c' g' subs' O
  frame : ∀ i, i ∈ O → m'.store_[i]? = m.store_[i]?
  count : (g'.ids ++ subs'.flatten).length + 1 + m.store_.length =
    (g.ids ++ subs.flatten).length + m'.store_.length
  fresh : liveB m.store_ k.id = false
  stored : m'.store_[k.id]? = some ⟨k.gen, .val v⟩
  gen_new : m.store_.length ≤ k.id → k.gen = 0
  gen_old : k.id < m.store_.length →
    (∃ g0, m.store_[k.id]? = some ⟨g0, .uninit⟩) ∨ genAt m.store_ k.id = k.gen
  live_kept : ∀ i, liveB m.store_ i = true → m'.store_[i]? = m.store_[i]?
  live_only : ∀ i, i < m.store_.length → i ≠ k.id → liveB m'.store_ i = liveB m.store_ i
  gen_kept : ∀ i, i < m.store_.length → i ≠ k.id →
    (∃ g0, m.store_[i]? = some ⟨g0, .uninit⟩) ∨ genAt m'.store_ i = genAt m.store_ i

/-- What `releaseID` and `bulkRelease` guarantee about their result
`(m', c')` when called, in a state satisfying the invariant, on the live ids
`ids`; `bumps i` is the number of times the generation of `i` is incremented. -/
structure ReleasePost (C : Nat) (m : IDMap V) (g : CacheGhost) (subs : List (List Nat))
    (O : List Nat) (ids : List Nat) (bumps : Nat → Nat) (m' : IDMap V) (c' : Cache)
    (g' : CacheGhost) (subs' : List (List Nat)) : Prop where
  linv : LInv C m' c' g' subs' O
  frame : ∀ i, i ∈ O → m'.store_[i]? = m.store_[i]?
  len : m'.store_.length = m.store_.length
  count : (g'.ids ++ subs'.flatten).length = (g.ids ++ subs.flatten).length + ids.length
  gen_bump : ∀ i, i ∈ ids → genAt m'.store_ i = (genAt m.store_ i + bumps i) % 2 ^ 32
  gen_kept : ∀ i, i ∉ ids → genAt m'.store_ i = genAt m.store_ i
  not_live : ∀ i, i ∈ ids → liveB m'.store_ i = false
  live_kept : ∀ i, i ∉ ids → liveB m.store_ i = true → m'.store_[i]? = m.store_[i]?
  live_only : ∀ i, i ∉ ids → liveB m'.store_ i = liveB m.store_ i

end IDMap

/-! ## Generational ID map: sequences of calls made through several caches

The callers of the map are not part of `id_map_impl.inl`. A history of calls
is a list of `Op`, each naming the cache it goes through; the calls run one
after the other on the map and the list of caches. -/

namespace IDMap

variable {V : Type}

/-- One call on the map, made through the cache of worker `ci`. -/
inductive Op (V : Type) where
  | acquire (ci : Nat) (v : V) (junk : Nat)
  | release (ci : Nat) (id : Nat)
  | bulk (ci : Nat) (keys : List Key) (past : Key)

/-- The map after its constructor, with `n` caches after theirs. -/
def Sys.new (C init_capacity n : Nat) : Option (Sys V) :=
  match IDMap.new C init_capacity with
  | none => none
  | some m => some ⟨m, List.replicate n Cache.new⟩

/-- One call: the new state and the key returned, if the call is `acquireID`. -/
def Sys.step (C : Nat) (s : Sys V) : Op V → Option (Sys V × List Key)
  | .acquire ci v junk =>
    match s.caches[ci]? with
    | none => none
    | some c =>
      match acquireID C s.map c v junk with
      | none => none
      | some (k, m', c') => some (⟨m', s.caches.set ci c'⟩, [k])
  | .release ci id =>
    match s.caches[ci]? with
    | none => none
    | some c =>
      match releaseID C s.map c id with
      | none => none
      | some (m', c') => some (⟨m', s.caches.set ci c'⟩, [])
  | .bulk ci keys past =>
    match s.caches[ci]? with
    | none => none
    | some c =>
      match bulkRelease C s.map c keys past with
      | none => none
      | some (m', c') => some (⟨m', s.caches.set ci c'⟩, [])

/-- A sequence of calls, one after the other: the final state and the keys
returned by the `acquireID` calls, in order. -/
def Sys.run (C : Nat) : Sys V → List (Op V) → Option (Sys V × List Key)
  | s, [] => some (s, [])
  | s, op :: rest =>
    match Sys.step C s op with
    | none => none
    | some (s', ks) =>
      match Sys.run C s' rest with
      | none => none
      | some (s'', ks') => some (s'', ks ++ ks')

/-- Whether the caller holds the handle `k`: its slot is live and stores the
generation of `k`. -/
def held (store : List (Node V)) (k : Key) : Bool :=
  liveB store k.id && decide (genAt store k.id = k.gen)

/-- Whether a call is valid in the state `s`: the cache exists; `acquireID`
has room to expand the store below `~0u`; `releaseID` is given a live id;
`bulkRelease` is given fewer than `2^31` handles, all held, on distinct ids. -/
def validOp (C : Nat) (s : Sys V) : Op V → Bool
  | .acquire ci _ _ => decide (ci < s.caches.length) && decide (s.map.store_.length + C < noIdx)
  | .release ci id => decide (ci < s.caches.length) && liveB s.map.store_ id
  | .bulk ci keys _ =>
    decide (ci < s.caches.length) && keys.all (held s.map.store_) &&
      decide ((keys.map Key.id).Nodup) && decide (keys.length < 2 ^ 31)

/-- Whether every call of a sequence is valid in the state it is made in. -/
def validRun (C : Nat) : Sys V → List (Op V) → Bool
  | _, [] => true
  | s, op :: rest =>
    validOp C s op &&
      match Sys.step C s op with
      | none => true
      | some (s', _) => validRun C s' rest

/-- The number of `acquireID` calls in a sequence. -/
def acquires : List (Op V) → Nat
  | [] => 0
  | .acquire _ _ _ :: rest => acquires rest + 1
  | _ :: rest => acquires rest

/-- The number of ids released by a sequence of calls. -/
def released : List (Op V) → Nat
  | [] => 0
  | .release _ _ :: rest => released rest + 1
  | .bulk _ keys _ :: rest => released rest + keys.length
  | _ :: rest => released rest

/-- The number of live indices of the store. -/
def liveCount (store : List (Node V)) : Nat :=
  (List.range store.length).countP (liveB store)

end IDMap

namespace IDMap

/-- The number of times a sequence of calls releases the id `id`. -/
def releasesOf {V : Type} (id : Nat) : List (Op V) → Nat
  | [] => 0
  | .release _ i :: rest => (if i = id then 1 else 0) + releasesOf id rest
  | .bulk _ keys _ :: rest => (keys.map Key.id).count id + releasesOf id rest
  | _ :: rest => releasesOf id rest

/-- Round `n` of a scenario with `C = 2`, capacity 2 and one cache: two
`acquireID` calls, then `bulkRelease` of the two handles they returned. -/
def bulkRound (n : Nat) : List (Op Unit) :=
  [.acquire 0 () 0, .acquire 0 () 0,
   .bulk 0 [⟨n % 2 ^ 32, 0⟩, ⟨(2 * n) % 2 ^ 32, 1⟩] ⟨0, 0⟩]

/-- The handles the two `acquireID` calls of round `n` return. -/
def bulkRoundKeys (n : Nat) : List Key := [⟨n % 2 ^ 32, 0⟩, ⟨(2 * n) % 2 ^ 32, 1⟩]

/-- The rounds `start`, `start + 1`, ... (`count` of them). -/
def bulkRounds (start count : Nat) : List (Op Unit) :=
  (List.range' start count).flatMap bulkRound

/-- The state of that scenario before round `n`. -/
def bulkRoundState (n : Nat) : Sys Unit :=
  ⟨⟨⟨(2 * n) % 2 ^ 32, 0⟩,
    [⟨n % 2 ^ 32, .freeNode ⟨1, noIdx⟩⟩, ⟨(2 * n) % 2 ^ 32, .freeNode ⟨noIdx, 1⟩⟩]⟩,
   [Cache.new]⟩

/-- A sequence of calls on two caches with `C = 2` and capacity 2. -/
def exampleOps : List (Op Nat) :=
  [.acquire 0 10 0, .acquire 0 11 0, .acquire 1 12 0, .release 0 1,
   .bulk 1 [⟨0, 2⟩] ⟨0, 0⟩]

/-- The map with `C = 2` and capacity 2 after its constructor, with two
caches. -/
def exampleSys : Sys Nat :=
  ⟨⟨⟨0, 0⟩, [⟨0, .freeNode ⟨1, noIdx⟩⟩, ⟨0, .freeNode ⟨noIdx, 1⟩⟩]⟩, [Cache.new, Cache.new]⟩

end IDMap

/-! ## Generational ID map: following the links of the free lists -/

namespace IDMap

variable {V : Type}

/-- The ids of the sublist that starts at index `h`: the nodes reached
through `subNext` until `~0u`. `none` when a node reached is outside the
store or not free, or when the fuel runs out. -/
def walkSub (store : List (Node V)) : Nat → Nat → Option (List Nat)
  | 0, _ => none
  | fuel + 1, h =>
    if h = noIdx then some []
    else
      match freeAt store h with
      | none => none
      | some f =>
        match walkSub store fuel f.subNext with
        | none => none
        | some rest => some (h :: rest)

/-- The sublists of the global chain that starts at index `h`: the heads are
reached through `globalNext` until `~0u`, the ids of a sublist through
`subNext` from its head. `fuelSub` bounds the walk along one sublist, the
other fuel the number of sublists. -/
def walkChain (store : List (Node V)) (fuelSub : Nat) : Nat → Nat → Option (List (List Nat))
  | 0, _ => none
  | fuel + 1, h =>
    if h = noIdx then some []
    else
      match freeAt store h with
      | none => none
      | some f =>
        match walkSub store fuelSub h with
        | none => none
        | some sub =>
          match walkChain store fuelSub fuel f.globalNext with
          | none => none
          | some rest => some (sub :: rest)

/-- How `acquireID` takes the id of the key `k` when it does not expand the
store: from the ids of the cache, or, the cache being empty, from the first
sublist of the global chain, the rest of which goes to the cache. -/
def PopShape (m m' : IDMap V) (g g' : CacheGhost) (subs subs' : List (List Nat))
    (k : Key) : Prop :=
  m'.store_.length = m.store_.length ∧
    ((g.ids.Perm (k.id :: g'.ids) ∧ subs' = subs) ∨
     (g.ids = [] ∧ subs = (k.id :: g'.ids) :: subs'))

/-- Consecutive calls `acquireID(cache, v)` for the values `vs`: the keys
returned, in order, and the final map and cache. -/
def acquireN (C : Nat) (junk : Nat) : IDMap V → Cache → List V →
    Option (List Key × IDMap V × Cache)
  | m, c, [] => some ([], m, c)
  | m, c, v :: vs =>
    match acquireID C m c v junk with
    | none => none
    | some (k, m1, c1) =>
      match acquireN C junk m1 c1 vs with
      | none => none
      | some (ks, m2, c2) => some (k :: ks, m2, c2)

/-- Consecutive calls `releaseID(cache, k.id)` for the keys `keys`, the
behaviour the specification gives to `bulkRelease`. -/
def releaseEach (C : Nat) : IDMap V → Cache → List Key → Option (IDMap V × Cache)
  | m, c, [] => some (m, c)
  | m, c, k :: ks =>
    match releaseID C m c k.id with
    | none => none
    | some (m1, c1) => releaseEach C m1 c1 ks

end IDMap

namespace IDMap

/-- The map with `C = 2` and capacity 4 after its constructor, with one
cache. -/
def exampleChainSys : Sys Nat :=
  ⟨⟨⟨0, 0⟩, [⟨0, .freeNode ⟨1, 2⟩⟩, ⟨0, .freeNode ⟨noIdx, 1⟩⟩,
             ⟨0, .freeNode ⟨3, noIdx⟩⟩, ⟨0, .freeNode ⟨noIdx, 1⟩⟩]⟩, [Cache.new]⟩

/-- Three `acquireID` calls, then `bulkRelease` of the first two handles. -/
def exampleChainOps : List (Op Nat) :=
  [.acquire 0 10 0, .acquire 0 11 0, .acquire 0 12 0, .bulk 0 [⟨0, 0⟩, ⟨0, 1⟩] ⟨0, 0⟩]

end IDMap

namespace IDMap

/-- The map with `C = 4` and capacity 12 after its constructor, with one
cache. -/
def exampleNineSys : Sys Nat :=
  ⟨⟨⟨0, 0⟩, (List.range 12).map (initNode 4 12)⟩, [Cache.new]⟩

/-- Nine `acquireID` calls. -/
def exampleNineOps : List (Op Nat) := List.replicate 9 (.acquire 0 0 0)

/-- The nine handles these calls return. -/
def exampleNineKeys : List Key := (List.range 9).map (fun i => ⟨0, i⟩)

end IDMap

namespace IDMap

variable {V : Type}

/-- Whether a sequence of calls has no `bulkRelease`. -/
def noBulk : List (Op V) → Bool
  | [] => true
  | .bulk _ _ _ :: _ => false
  | _ :: rest => noBulk rest

/-- What holds of a cache that only `acquireID` and `releaseID` have used:
its overflow sublist holds ids only while its primary sublist is full. -/
def CacheOrd (C : Nat) (c : Cache) : Prop :=
  0 < c.num_overflow_ids_ → c.num_free_ids_ = C

/-- Round `n` of a scenario with `C = 2`, capacity 2 and one cache:
`acquireID`, then `releaseID` of the id returned, which is 0. -/
def relRound : List (Op Unit) := [.acquire 0 () 0, .release 0 0]

/-- The rounds of that scenario, `count` of them. -/
def relRounds (count : Nat) : List (Op Unit) :=
  (List.replicate count relRound).flatten

/-- The state of that scenario after `n ≥ 1` rounds. -/
def relRoundState (n : Nat) : Sys Unit :=
  ⟨⟨⟨1, noIdx⟩, [⟨n % 2 ^ 32, .freeNode ⟨1, 1⟩⟩, ⟨0, .freeNode ⟨noIdx, 1⟩⟩]⟩,
   [⟨0, 2, noIdx, 0⟩]⟩

/-- The map with `C = 4` and capacity 8 after its constructor, with one
cache. -/
def exampleEightSys : Sys Nat :=
  ⟨⟨⟨0, 0⟩, (List.range 8).map (initNode 4 8)⟩, [Cache.new]⟩

/-- Eight `acquireID` calls, then `releaseID` of the first five ids returned,
in order. -/
def exampleEightOps : List (Op Nat) :=
  List.replicate 8 (.acquire 0 0 0) ++ (List.range 5).map (fun i => .release 0 i)

end IDMap

namespace IDMap

/-- The state of that scenario after `n ≥ 1` rounds and one more
`acquireID`, which returned the handle of id 0. -/
def relHeldState (n : Nat) : Sys Unit :=
  ⟨⟨⟨1, noIdx⟩, [⟨n % 2 ^ 32, .val ()⟩, ⟨0, .freeNode ⟨noIdx, 1⟩⟩]⟩,
   [⟨1, 1, noIdx, 0⟩]⟩

end IDMap

/-! ## Generational ID map: where an id is taken from and put to -/

namespace IDMap

variable {V : Type}

/-- The blocks `(first index, count)` of the primary sublist that starts at
index `h`: the nodes reached through `subNext` until `~0u`, each with the
count it holds in `globalNext`. `none` when a node reached is outside the
store or not free, or when the fuel runs out. -/
def walkBlocks (store : List (Node V)) : Nat → Nat → Option (List (Nat × Nat))
  | 0, _ => none
  | fuel + 1, h =>
    if h = noIdx then some []
    else
      match freeAt store h with
      | none => none
      | some f =>
        match walkBlocks store fuel f.subNext with
        | none => none
        | some rest => some ((h, f.globalNext) :: rest)

/-- What following the links finds in the map `m` and the cache `c`: the
primary sublist has the blocks `g.blocks`, the overflow sublist the ids
`g.overflow`, the global chain the sublists `subs` (with any fuel above the
size of the result). -/
def Walked (C : Nat) (m : IDMap V) (c : Cache) (g : CacheGhost) (subs : List (List Nat)) :
    Prop :=
  (∀ fuel, g.blocks.length < fuel →
    walkBlocks m.store_ fuel c.free_head_ = some g.blocks) ∧
  (∀ fuel, g.overflow.length < fuel →
    walkSub m.store_ fuel c.overflow_head_ = some g.overflow) ∧
  (∀ fuelSub fuel, C < fuelSub → subs.length < fuel →
    walkChain m.store_ fuelSub fuel m.free_head_.head = some subs)

/-- Where `acquireID` takes the id of the key `k` from, the cache holding `g`
before and `g'` after, the global chain being `subs` before and `subs'`
after: the head of the overflow sublist when that has ids; otherwise the
first id of the primary sublist when that has ids; otherwise the head of the
first sublist of the global chain, the rest of which becomes the primary
sublist, the cache's new head being the `subNext` of the popped head;
otherwise, the global chain being empty, the first of `C` new slots, the
other `C - 1` becoming the primary sublist. -/
def AcquireFrom (C : Nat) (m m' : IDMap V) (c c' : Cache) (g g' : CacheGhost)
    (subs subs' : List (List Nat)) (k : Key) : Prop :=
  (0 < c.num_overflow_ids_ ∧ g.overflow = k.id :: g'.overflow ∧ g'.blocks = g.blocks ∧
    subs' = subs ∧ m'.free_head_ = m.free_head_ ∧ m'.store_.length = m.store_.length ∧
    k.gen = genAt m.store_ k.id ∧ ∃ f, freeAt m.store_ k.id = some f) ∨
  (c.num_overflow_ids_ = 0 ∧ 0 < c.num_free_ids_ ∧
    blockIds g.blocks = k.id :: blockIds g'.blocks ∧ g'.overflow = g.overflow ∧
    subs' = subs ∧ m'.free_head_ = m.free_head_ ∧ m'.store_.length = m.store_.length ∧
    k.gen = genAt m.store_ k.id ∧ ∃ f, freeAt m.store_ k.id = some f) ∨
  (c.num_overflow_ids_ = 0 ∧ c.num_free_ids_ = 0 ∧ m.free_head_.head ≠ noIdx ∧
    k.id = m.free_head_.head ∧ g'.overflow = g.overflow ∧
    m'.store_.length = m.store_.length ∧ k.gen = genAt m.store_ k.id ∧
    ∃ f tl, freeAt m.store_ k.id = some f ∧ subs = (k.id :: tl) :: subs' ∧
      g'.blocks = tl.map (fun i => (i, 1)) ∧ c'.free_head_ = f.subNext ∧
      m'.free_head_ = ⟨add32 m.free_head_.gen 1, f.globalNext⟩) ∨
  (c.num_overflow_ids_ = 0 ∧ c.num_free_ids_ = 0 ∧ m.free_head_.head = noIdx ∧
    k = ⟨0, m.store_.length⟩ ∧ blockIds g'.blocks = List.range' (m.store_.length + 1) (C - 1) ∧
    g'.overflow = g.overflow ∧ subs' = subs ∧ m'.free_head_ = m.free_head_ ∧
    m'.store_.length = m.store_.length + C)

/-- What `acquireID` does to slots that hold no node: a slot of uninitialised
memory stays as it is or gets a node with generation 0, and so does every slot
added to the store. -/
def Materialises (m m' : IDMap V) : Prop :=
  (∀ i g0, m.store_[i]? = some ⟨g0, .uninit⟩ →
    m'.store_[i]? = some ⟨g0, .uninit⟩ ∨
      (genAt m'.store_ i = 0 ∧ ∀ g1, m'.store_[i]? ≠ some ⟨g1, .uninit⟩)) ∧
  (∀ i, m.store_.length ≤ i → i < m'.store_.length →
    (∃ g0, m'.store_[i]? = some ⟨g0, .uninit⟩) ∨ genAt m'.store_ i = 0)

/-- Where `releaseID` puts the id `id`, the cache holding `g` before and `g'`
after, the global chain being `subs` before and `subs'` after: at the head of
the primary sublist when that holds fewer than `C` ids; otherwise at the head
of the overflow sublist, which, when it thereby has `C` ids, becomes the first
sublist of the global chain, its head holding the previous global head in
`globalNext` and the generation of the global head going up by one. -/
def ReleaseTo (C : Nat) (m m' : IDMap V) (c c' : Cache) (g g' : CacheGhost)
    (subs subs' : List (List Nat)) (id : Nat) : Prop :=
  (c.num_free_ids_ < C ∧ g'.blocks = (id, 1) :: g.blocks ∧ g'.overflow = g.overflow ∧
    subs' = subs ∧ m'.free_head_ = m.free_head_ ∧
    c' = ⟨id, c.num_free_ids_ + 1, c.overflow_head_, c.num_overflow_ids_⟩) ∨
  (c.num_free_ids_ = C ∧ c.num_overflow_ids_ + 1 < C ∧ g'.blocks = g.blocks ∧
    g'.overflow = id :: g.overflow ∧ subs' = subs ∧ m'.free_head_ = m.free_head_ ∧
    c' = ⟨c.free_head_, c.num_free_ids_, id, c.num_overflow_ids_ + 1⟩) ∨
  (c.num_free_ids_ = C ∧ c.num_overflow_ids_ + 1 = C ∧ g'.blocks = g.blocks ∧
    g'.overflow = [] ∧ subs' = (id :: g.overflow) :: subs ∧
    m'.free_head_ = ⟨add32 m.free_head_.gen 1, id⟩ ∧
    freeAt m'.store_ id = some ⟨c.overflow_head_, m.free_head_.head⟩ ∧
    c' = ⟨c.free_head_, c.num_free_ids_, noIdx, 0⟩)

end IDMap

namespace IDMap

variable {V : Type}

/-- The state of a map of initial capacity `cap` and of the one cache used,
after `n` calls of `acquireID` and no release: the overflow sublist is empty,
the ids of the primary sublist followed by those of the global chain are
`n, n + 1, ...` up to the size of the store, that size is the least multiple
of `C` not below `cap` and `n`, and every slot that holds a node has
generation 0. -/
def FreshAfter (C cap n : Nat) (m : IDMap V) (c : Cache) : Prop :=
  ∃ g subs, LInv C m c g subs [] ∧ g.overflow = [] ∧
    blockIds g.blocks ++ subs.flatten = List.range' n (m.store_.length - n) ∧
    n ≤ m.store_.length ∧ C ∣ m.store_.length ∧ cap ≤ m.store_.length ∧
    (m.store_.length = cap ∨ m.store_.length < n + C) ∧
    ∀ i, i < m.store_.length →
      (∃ g0, m.store_[i]? = some ⟨g0, .uninit⟩) ∨ genAt m.store_ i = 0

end IDMap

namespace IDMap

/-- One round of a scenario with `C = 2`, capacity 6 and one cache, all six
ids being held: `releaseID` of the ids 0, 1, 2, 3 (the last one pushes the
overflow sublist onto the global chain), then four `acquireID` calls, which
take the four ids back. -/
def flushRound : List (Op Unit) :=
  [.release 0 0, .release 0 1, .release 0 2, .release 0 3,
   .acquire 0 () 0, .acquire 0 () 0, .acquire 0 () 0, .acquire 0 () 0]

/-- The rounds of that scenario, `count` of them. -/
def flushRounds (count : Nat) : List (Op Unit) :=
  (List.replicate count flushRound).flatten

/-- The state of that scenario after the six `acquireID` calls that take all
ids and `r` rounds. -/
def flushRoundState (r : Nat) : Sys Unit :=
  ⟨⟨⟨(3 + 2 * r) % 2 ^ 32, noIdx⟩,
    [⟨r % 2 ^ 32, .val ()⟩, ⟨r % 2 ^ 32, .val ()⟩, ⟨r % 2 ^ 32, .val ()⟩,
     ⟨r % 2 ^ 32, .val ()⟩, ⟨0, .val ()⟩, ⟨0, .val ()⟩]⟩,
   [⟨noIdx, 0, noIdx, 0⟩]⟩

/-- The state of that scenario in round `r` after the first three `releaseID`
calls: the primary sublist holds the ids 1 and 0, the overflow sublist the
id 2. -/
def flushMidState (r : Nat) : Sys Unit :=
  ⟨⟨⟨(3 + 2 * r) % 2 ^ 32, noIdx⟩,
    [⟨(r + 1) % 2 ^ 32, .freeNode ⟨noIdx, 1⟩⟩, ⟨(r + 1) % 2 ^ 32, .freeNode ⟨0, 1⟩⟩,
     ⟨(r + 1) % 2 ^ 32, .freeNode ⟨noIdx, 1⟩⟩, ⟨r % 2 ^ 32, .val ()⟩, ⟨0, .val ()⟩,
     ⟨0, .val ()⟩]⟩,
   [⟨1, 2, 2, 1⟩]⟩

end IDMap

namespace IDMap

variable {V : Type}

/-- Modelled from the spec: `acquireID` of "a correct but slower
implementation" that "may eagerly initialize each newly-expanded slot": as
`acquireID` while the cache or the global chain has an id; otherwise the
store grows by `C` slots that are all written at once, the first holding the
value and the other `C - 1` being free nodes of generation 0 and count 1,
linked in index order as the primary sublist. -/
def acquireIDEager (C : Nat) (m : IDMap V) (cache : Cache) (new_v : V) :
    Option (Key × IDMap V × Cache) :=
  if cache.num_overflow_ids_ > 0 ∨ cache.num_free_ids_ > 0 ∨ m.free_head_.head ≠ noIdx then
    acquireID C m cache new_v 0
  else
    let block_start := m.store_.length
    let rest : List (Node V) := (List.range' (block_start + 1) (C - 1)).map
      (fun i => ⟨0, .freeNode ⟨if i + 1 < block_start + C then i + 1 else noIdx, 1⟩⟩)
    if 1 < C then
      some (⟨0, block_start⟩, { m with store_ := m.store_ ++ (⟨0, .val new_v⟩ :: rest) },
        { cache with free_head_ := block_start + 1, num_free_ids_ := C - 1 })
    else none

/-- Modelled from the spec: consecutive calls of the eagerly initialising
`acquireID` for the values `vs`: the keys returned, in order, and the final
map and cache. -/
def acquireNEager (C : Nat) : IDMap V → Cache → List V →
    Option (List Key × IDMap V × Cache)
  | m, c, [] => some ([], m, c)
  | m, c, v :: vs =>
    match acquireIDEager C m c v with
    | none => none
    | some (k, m1, c1) =>
      match acquireNEager C m1 c1 vs with
      | none => none
      | some (ks, m2, c2) => some (k :: ks, m2, c2)

end IDMap

/-! ## Graph builder: properties of `build()` -/

namespace Builder

theorem prefixFlags_getElem? (n k i : Nat) (hk : k ≤ n) :
    (prefixFlags n k)[i]? =
      if i < k then some true else if i < n then some false else none := by
  simp only [prefixFlags, List.getElem?_append, List.getElem?_replicate, List.length_replicate]
  split_ifs <;> first | rfl | omega

theorem firstUnqueued_append (k i : Nat) (rest : List Bool) :
    firstUnqueued (List.replicate k true ++ rest) i = firstUnqueued rest (i + k) := by
  induction k generalizing i with
  | zero => simp
  | succ k ih =>
    rw [List.replicate_succ, List.cons_append]
    simp only [firstUnqueued, if_true]
    rw [ih]; congr 1; omega

theorem firstUnqueued_prefixFlags (n k : Nat) (hk : k < n) :
    firstUnqueued (prefixFlags n k) 0 = some k := by
  unfold prefixFlags
  rw [firstUnqueued_append]
  obtain ⟨m, hm⟩ : ∃ m, n - k = m + 1 := ⟨n - k - 1, by omega⟩
  rw [hm, List.replicate_succ]
  simp [firstUnqueued]

theorem prefixFlags_set (n k : Nat) (hk : k < n) :
    (prefixFlags n k).set k true = prefixFlags n (k + 1) := by
  unfold prefixFlags
  obtain ⟨m, hm⟩ : ∃ m, n - k = m + 1 := ⟨n - k - 1, by omega⟩
  have hm' : n - (k + 1) = m := by omega
  have h : List.replicate k true ++ [true] = true :: List.replicate k true := by
    rw [← List.replicate_succ', List.replicate_succ]
  rw [hm, hm', List.set_append]
  simp only [List.length_replicate, lt_self_iff_false, if_false, Nat.sub_self,
    List.replicate_succ, List.set_cons_zero]
  calc List.replicate k true ++ true :: List.replicate m false
      = (List.replicate k true ++ [true]) ++ List.replicate m false := by
        rw [List.append_assoc]; rfl
    _ = true :: (List.replicate k true ++ List.replicate m false) := by
        rw [h]; rfl

/-- The dependency loop returns `some true` exactly when it could read all
`cnt` pool entries and each names a queued node. -/
theorem dependenciesSatisfied_true (deps : List Nat) (queued : List Bool) (off cnt : Nat) :
    dependenciesSatisfied deps queued off cnt = some true ↔
      ∀ j, j < cnt → ∃ d, deps[off + j]? = some d ∧ queued[d]? = some true := by
  induction cnt generalizing off with
  | zero => simp [dependenciesSatisfied]
  | succ cnt ih =>
    unfold dependenciesSatisfied
    constructor
    · intro h j hj
      cases hd : deps[off]? with
      | none => simp [hd] at h
      | some d =>
        simp only [hd] at h
        cases hq : queued[d]? with
        | none => simp [hq] at h
        | some q =>
          cases q with
          | false => simp [hq] at h
          | true =>
            simp only [hq] at h
            rcases Nat.eq_zero_or_pos j with hj0 | hj0
            · subst hj0; exact ⟨d, by simpa using hd, hq⟩
            · obtain ⟨d', h1, h2⟩ := (ih (off + 1)).1 h (j - 1) (by omega)
              refine ⟨d', ?_, h2⟩
              rw [← h1]; congr 1; omega
    · intro h
      obtain ⟨d, hd, hq⟩ := h 0 (by omega)
      simp only [Nat.add_zero] at hd
      simp only [hd, hq]
      apply (ih (off + 1)).2
      intro j hj
      obtain ⟨d', h1, h2⟩ := h (j + 1) (by omega)
      refine ⟨d', ?_, h2⟩
      rw [← h1]; congr 1; omega

/-- The dependency loop returns `some false` only when some pool entry it
read names a node that is in range and not queued. -/
theorem dependenciesSatisfied_false (deps : List Nat) (queued : List Bool) (off cnt : Nat)
    (h : dependenciesSatisfied deps queued off cnt = some false) :
    ∃ j d, j < cnt ∧ deps[off + j]? = some d ∧ queued[d]? = some false := by
  induction cnt generalizing off with
  | zero => simp [dependenciesSatisfied] at h
  | succ cnt ih =>
    unfold dependenciesSatisfied at h
    cases hd : deps[off]? with
    | none => simp [hd] at h
    | some d =>
      simp only [hd] at h
      cases hq : queued[d]? with
      | none => simp [hq] at h
      | some q =>
        cases q with
        | false => exact ⟨0, d, by omega, by simpa using hd, hq⟩
        | true =>
          simp only [hq] at h
          obtain ⟨j, d', hj, h1, h2⟩ := ih (off + 1) h
          refine ⟨j + 1, d', by omega, ?_, h2⟩
          rw [← h1]; congr 1; omega

theorem mem_depsOf (b : Builder) (i d : Nat) :
    d ∈ b.depsOf i ↔ ∃ sn, b.nodes_[i]? = some sn ∧
      ∃ j, j < sn.numDependencies ∧ b.all_dependencies_[sn.dependencyOffset + j]? = some d := by
  unfold depsOf
  cases h : b.nodes_[i]? with
  | none => simp
  | some sn =>
    simp only [Option.some.injEq, exists_eq_left']
    rw [List.mem_iff_getElem?]
    constructor
    · rintro ⟨j, hj⟩
      rw [List.getElem?_take] at hj
      split_ifs at hj with hlt
      · rw [List.getElem?_drop] at hj
        exact ⟨j, hlt, hj⟩
    · rintro ⟨j, hlt, hj⟩
      refine ⟨j, ?_⟩
      rw [List.getElem?_take, if_pos hlt, List.getElem?_drop]
      exact hj


theorem buildStep_prefixState (b : Builder) (k : Nat) (hk : k < b.nodes_.length) :
    buildStep b (prefixState b k) =
      match checkAt b k with
      | none => none
      | some false => some (prefixState b k)
      | some true => some (prefixState b (k + 1)) := by
  have hn : b.nodes_[k]? = some b.nodes_[k] := List.getElem?_eq_getElem hk
  unfold buildStep checkAt
  simp only [prefixState, firstUnqueued_prefixFlags _ _ hk, hn]
  cases hc : dependenciesSatisfied b.all_dependencies_ (prefixFlags b.nodes_.length k)
      b.nodes_[k].dependencyOffset b.nodes_[k].numDependencies with
  | none => rfl
  | some v =>
    cases v with
    | false => rfl
    | true =>
      simp only [prefixFlags_set _ _ hk, List.range_succ, List.take_succ, hn,
        Option.toList, List.map_append, List.map_cons, List.map_nil]
      congr 2

theorem checkAt_true (b : Builder) (k : Nat) (hk : k ≤ b.nodes_.length)
    (h : checkAt b k = some true) : ∀ d ∈ b.depsOf k, d < k := by
  intro d hd
  obtain ⟨sn, hsn, j, hj, hp⟩ := (mem_depsOf b k d).1 hd
  simp only [checkAt, hsn] at h
  obtain ⟨d', h1, h2⟩ := (dependenciesSatisfied_true _ _ _ _).1 h j hj
  rw [hp] at h1
  cases h1
  rw [prefixFlags_getElem? _ _ _ hk] at h2
  split_ifs at h2 with h3
  · exact h3
  · cases h2

/-- What the loop can return when started with nodes `0 .. k-1` emitted: the
registration order, and only when every later node passed its check. -/
theorem buildLoop_prefixState_built (b : Builder) (fuel k : Nat) (hk : k ≤ b.nodes_.length)
    (order : List Nat) (nodes : List NodeState)
    (h : buildLoop b fuel (prefixState b k) = some (.built order nodes)) :
    order = List.range b.nodes_.length ∧
    nodes = b.nodes_.map (fun sn => ⟨sn.node, 0, 0, 0⟩) ∧
    ∀ i, k ≤ i → i < b.nodes_.length → checkAt b i = some true := by
  induction fuel generalizing k with
  | zero =>
    unfold buildLoop at h
    by_cases hz : (prefixState b k).num_remaining_nodes = 0
    · rw [if_pos hz] at h
      have hkn : k = b.nodes_.length := by simp [prefixState] at hz; omega
      simp only [prefixState, Option.some.injEq, BuildResult.built.injEq] at h
      refine ⟨by rw [← h.1, hkn], ?_, fun i h1 h2 => by omega⟩
      rw [← h.2, hkn, List.take_length]
    · rw [if_neg hz] at h; cases h
  | succ fuel ih =>
    unfold buildLoop at h
    by_cases hz : (prefixState b k).num_remaining_nodes = 0
    · rw [if_pos hz] at h
      have hkn : k = b.nodes_.length := by simp [prefixState] at hz; omega
      simp only [prefixState, Option.some.injEq, BuildResult.built.injEq] at h
      refine ⟨by rw [← h.1, hkn], ?_, fun i h1 h2 => by omega⟩
      rw [← h.2, hkn, List.take_length]
    · rw [if_neg hz] at h
      have hkn : k < b.nodes_.length := by simp [prefixState] at hz; omega
      simp only [buildStep_prefixState b k hkn] at h
      cases hc : checkAt b k with
      | none => simp [hc] at h
      | some v =>
        cases v with
        | false =>
          simp only [hc] at h
          obtain ⟨h1, h2, h3⟩ := ih k hk h
          have := h3 k le_rfl hkn
          rw [hc] at this; cases this
        | true =>
          simp only [hc] at h
          obtain ⟨h1, h2, h3⟩ := ih (k + 1) hkn h
          refine ⟨h1, h2, fun i hi1 hi2 => ?_⟩
          rcases Nat.eq_or_lt_of_le hi1 with heq | hlt
          · rw [← heq]; exact hc
          · exact h3 i hlt hi2

/-- The loop makes no progress once the lowest un-queued node fails its check. -/
theorem buildLoop_stuck (b : Builder) (fuel k : Nat) (hk : k < b.nodes_.length)
    (hc : checkAt b k = some false) : buildLoop b fuel (prefixState b k) = none := by
  have hz : (prefixState b k).num_remaining_nodes ≠ 0 := by simp [prefixState]; omega
  induction fuel with
  | zero => unfold buildLoop; rw [if_neg hz]
  | succ fuel ih =>
    unfold buildLoop
    rw [if_neg hz]
    simp only [buildStep_prefixState b k hk, hc]
    exact ih

/-- The loop moves on by one node when the lowest un-queued node passes. -/
theorem buildLoop_advance (b : Builder) (fuel k : Nat) (hk : k < b.nodes_.length)
    (hc : checkAt b k = some true) :
    buildLoop b (fuel + 1) (prefixState b k) = buildLoop b fuel (prefixState b (k + 1)) := by
  have hz : (prefixState b k).num_remaining_nodes ≠ 0 := by simp [prefixState]; omega
  conv_lhs => unfold buildLoop
  rw [if_neg hz]
  simp only [buildStep_prefixState b k hk, hc]

/-- From any earlier prefix the loop runs into the first failing node and
stays there. -/
theorem buildLoop_spins (b : Builder) (k : Nat) (hk : k < b.nodes_.length)
    (hc : checkAt b k = some false) (fuel k0 : Nat) (hk0 : k0 ≤ k)
    (hpass : ∀ i, k0 ≤ i → i < k → checkAt b i = some true) :
    buildLoop b fuel (prefixState b k0) = none := by
  induction fuel generalizing k0 with
  | zero =>
    unfold buildLoop
    rw [if_neg (by simp [prefixState]; omega)]
  | succ fuel ih =>
    rcases Nat.eq_or_lt_of_le hk0 with heq | hlt
    · rw [heq]; exact buildLoop_stuck b _ k hk hc
    · rw [buildLoop_advance b fuel k0 (by omega) (hpass k0 le_rfl hlt)]
      exact ih (k0 + 1) hlt (fun i h1 h2 => hpass i (by omega) h2)

/-- With every remaining node passing its check the loop returns the
registration order after one iteration per remaining node. -/
theorem buildLoop_sorted (b : Builder) (k : Nat) (hk : k ≤ b.nodes_.length)
    (hpass : ∀ i, k ≤ i → i < b.nodes_.length → checkAt b i = some true)
    (fuel : Nat) (hfuel : b.nodes_.length - k ≤ fuel) :
    buildLoop b fuel (prefixState b k) =
      some (.built (List.range b.nodes_.length)
        (b.nodes_.map (fun sn => ⟨sn.node, 0, 0, 0⟩))) := by
  induction fuel generalizing k with
  | zero =>
    have hkn : k = b.nodes_.length := by omega
    unfold buildLoop
    rw [if_pos (by simp [prefixState]; omega)]
    simp [prefixState, hkn]
  | succ fuel ih =>
    rcases Nat.eq_or_lt_of_le hk with heq | hlt
    · unfold buildLoop
      rw [if_pos (by simp [prefixState]; omega)]
      simp [prefixState, heq]
    · rw [buildLoop_advance b fuel k hlt (hpass k le_rfl hlt)]
      exact ih (k + 1) hlt (fun i h1 h2 => hpass i (by omega) h2) (by omega)

theorem buildInit_eq (b : Builder) (first : StagedNode) (h : b.nodes_[0]? = some first) :
    buildInit b first = prefixState b 1 := by
  have hlen : 0 < b.nodes_.length := by
    by_contra hc
    rw [List.getElem?_eq_none (by omega)] at h; cases h
  simp only [buildInit, prefixState, prefixFlags, List.replicate_one, List.singleton_append,
    List.take_succ, List.take_zero, h, Option.toList, List.nil_append,
    List.map_cons, List.map_nil, List.range_succ, List.range_zero]

/-- What `build()` can return: the registration order, for a builder whose
entry node has no dependency and whose every node passes its check. -/
theorem build_built (b : Builder) (fuel : Nat) (order : List Nat) (nodes : List NodeState)
    (h : b.build fuel = some (.built order nodes)) :
    order = List.range b.nodes_.length ∧
    nodes = b.nodes_.map (fun sn => ⟨sn.node, 0, 0, 0⟩) ∧
    0 < b.nodes_.length ∧
    ∀ i, i < b.nodes_.length → ∀ d ∈ b.depsOf i, d < i := by
  unfold build at h
  cases hf : b.nodes_[0]? with
  | none => simp [hf] at h
  | some first =>
    simp only [hf] at h
    have hlen : 0 < b.nodes_.length := by
      by_contra hc
      rw [List.getElem?_eq_none (by omega)] at hf; cases hf
    by_cases hd : first.numDependencies = 0
    · simp only [hd, ne_eq, not_true_eq_false, if_false] at h
      rw [buildInit_eq b first hf] at h
      obtain ⟨h1, h2, h3⟩ := buildLoop_prefixState_built b fuel 1 hlen order nodes h
      refine ⟨h1, h2, hlen, fun i hi d hdi => ?_⟩
      rcases Nat.eq_zero_or_pos i with h0 | hpos
      · subst h0
        simp [depsOf, hf, hd] at hdi
      · exact checkAt_true b i (le_of_lt hi) (h3 i hpos hi) d hdi
    · simp [hd] at h


theorem build_spins (b : Builder) (first : StagedNode) (h0 : b.nodes_[0]? = some first)
    (hd : first.numDependencies = 0) (k : Nat) (hk : k < b.nodes_.length)
    (hc : checkAt b k = some false)
    (hpass : ∀ i, 1 ≤ i → i < k → checkAt b i = some true) (fuel : Nat) :
    b.build fuel = none := by
  have hk1 : 1 ≤ k := by
    by_contra hcon
    have hk0 : k = 0 := by omega
    subst hk0
    simp [checkAt, h0, hd, dependenciesSatisfied] at hc
  simp only [build, h0, hd, ne_eq, not_true_eq_false, if_false]
  rw [buildInit_eq b first h0]
  exact buildLoop_spins b k hk hc fuel 1 hk1 hpass

theorem build_assert (b : Builder) (first : StagedNode) (h0 : b.nodes_[0]? = some first)
    (hd : first.numDependencies ≠ 0) (fuel : Nat) : b.build fuel = some .assertFailed := by
  simp [build, h0, hd]

theorem chain_succ_exists {α : Type} (R : α → α → Prop) (l : List α) (a x : α)
    (hch : List.Chain' R (l ++ [a])) (hx : x ∈ l) : ∃ y, R x y := by
  induction l with
  | nil => cases hx
  | cons h t ih =>
    rcases List.mem_cons.1 hx with rfl | hx'
    · cases t with
      | nil => exact ⟨a, by simpa using hch⟩
      | cons h2 t2 =>
        simp only [List.cons_append, List.chain'_cons] at hch
        exact ⟨h2, hch.1⟩
    · exact ih (List.Chain'.tail hch) hx'

theorem no_cycle_of_decreasing (b : Builder) (hdec : ∀ x d, d ∈ b.depsOf x → d < x)
    (c : List Nat) : ¬ IsCycle b c := by
  rintro ⟨hne, hch⟩
  cases c with
  | nil => exact hne rfl
  | cons h t =>
    have hch' : List.Chain' (fun x y : Nat => y < x) (h :: t ++ [h]) := by
      refine List.Chain'.imp ?_ hch
      intro x y hxy; exact hdec x y hxy
    haveI : IsTrans Nat (fun x y : Nat => y < x) := ⟨fun _ _ _ h1 h2 => lt_trans h2 h1⟩
    rw [List.chain'_iff_pairwise] at hch'
    simp only [List.cons_append, List.pairwise_cons] at hch'
    exact lt_irrefl h (hch'.1 h (by simp))


/-- C3. Topological order: whenever `build()` returns a sorted array, every
dependency of the node at sorted position `i` sits at a strictly smaller
position, every registered node occurs exactly once, node 0 is at position 0,
and the array holds the registered nodes' infos with zeroed counters. -/
theorem build_topological_order (b : Builder) (fuel : Nat) (order : List Nat)
    (nodes : List NodeState) (h : b.build fuel = some (.built order nodes)) :
    (∀ i d, i < order.length → d ∈ b.depsOf (order.getD i 0) →
        ∃ j, j < i ∧ order[j]? = some d) ∧
    order.length = b.num_nodes_ ∧
    (∀ v, v < b.num_nodes_ → order.count v = 1) ∧
    order[0]? = some 0 ∧
    (∀ i, i < order.length →
        nodes[i]? = (b.nodes_[order.getD i 0]?).map (fun sn => ⟨sn.node, 0, 0, 0⟩)) := by
  obtain ⟨h1, h2, h3, h4⟩ := build_built b fuel order nodes h
  subst h1 h2
  simp only [List.length_range, num_nodes_]
  refine ⟨?_, trivial, ?_, ?_, ?_⟩
  · intro i d hi hd
    have hget : (List.range b.nodes_.length).getD i 0 = i := by
      simp [List.getD_eq_getElem?_getD, List.getElem?_range hi]
    rw [hget] at hd
    have hlt := h4 i hi d hd
    exact ⟨d, hlt, List.getElem?_range (by omega)⟩
  · intro v hv
    exact List.count_eq_one_of_mem (List.nodup_range _) (List.mem_range.2 hv)
  · exact List.getElem?_range h3
  · intro i hi
    have hget : (List.range b.nodes_.length).getD i 0 = i := by
      simp [List.getD_eq_getElem?_getD, List.getElem?_range hi]
    rw [hget, List.getElem?_map]

theorem build_topological_order_witness :
    (ofDeps [[], [0], [0, 1]]).build 2 = some (.built [0, 1, 2]
      (List.replicate 3 ⟨⟨.ParallelFor, 0, {}⟩, 0, 0, 0⟩)) ∧
    ((∀ i d, i < [0, 1, 2].length → d ∈ (ofDeps [[], [0], [0, 1]]).depsOf ([0, 1, 2].getD i 0) →
        ∃ j, j < i ∧ [0, 1, 2][j]? = some d) ∧
    [0, 1, 2].length = (ofDeps [[], [0], [0, 1]]).num_nodes_ ∧
    (∀ v, v < (ofDeps [[], [0], [0, 1]]).num_nodes_ → [0, 1, 2].count v = 1) ∧
    [0, 1, 2][0]? = some 0 ∧
    (∀ i, i < [0, 1, 2].length →
        (List.replicate 3 (⟨⟨.ParallelFor, 0, {}⟩, 0, 0, 0⟩ : NodeState))[i]? =
          ((ofDeps [[], [0], [0, 1]]).nodes_[[0, 1, 2].getD i 0]?).map
            (fun sn => ⟨sn.node, 0, 0, 0⟩))) :=
  ⟨by decide, build_topological_order (ofDeps [[], [0], [0, 1]]) 2 [0, 1, 2]
      (List.replicate 3 ⟨⟨.ParallelFor, 0, {}⟩, 0, 0, 0⟩) (by decide)⟩

/-- C4. On the graph of the claim (node 1 depends on node 2, node 2 on node 0)
the reference sort of the specification yields the order 0, 2, 1, while the
loop of `build()` never finishes, whatever the number of iterations. -/
theorem build_differs_from_reference_sort :
    specTopoSort (ofDeps [[], [2], [0]]) 2 [0] = some [0, 2, 1] ∧
    ∀ fuel, (ofDeps [[], [2], [0]]).build fuel = none :=
  ⟨by decide, fun fuel =>
    build_spins (ofDeps [[], [2], [0]]) ⟨⟨.ParallelFor, 0, {}⟩, 0, 0⟩ (by decide) rfl 1
      (by decide) (by decide) (fun i h1 h2 => by omega) fuel⟩

/-- C5 (as stated, refuted). The graph with node 1 depending on node 2 and
node 2 on node 1 contains a cycle, yet `build()` never aborts on it: its loop
is still running after any number of iterations. -/
theorem build_cycle_no_abort :
    IsCycle (ofDeps [[], [2], [1]]) [1, 2] ∧
    ∀ fuel, (ofDeps [[], [2], [1]]).build fuel = none ∧
      (ofDeps [[], [2], [1]]).build fuel ≠ some .assertFailed := by
  refine ⟨by simp [IsCycle, depsOf, ofDeps, registerNode, empty], fun fuel => ?_⟩
  have h := build_spins (ofDeps [[], [2], [1]]) ⟨⟨.ParallelFor, 0, {}⟩, 0, 0⟩ (by decide) rfl 1
      (by decide) (by decide) (fun i h1 h2 => by omega) fuel
  exact ⟨h, by rw [h]; simp⟩

/-- C5 (amended). For every registered graph that contains a dependency cycle
`build()` never returns a graph, and when the cycle passes through node 0 it
aborts on the assertion before any sorting. -/
theorem build_cycle_never_built (b : Builder) (c : List Nat) (hc : IsCycle b c) :
    (∀ fuel order nodes, b.build fuel ≠ some (.built order nodes)) ∧
    (0 ∈ c → ∀ fuel, b.build fuel = some .assertFailed) := by
  constructor
  · intro fuel order nodes h
    obtain ⟨_, _, _, h4⟩ := build_built b fuel order nodes h
    refine no_cycle_of_decreasing b (fun x d hd => ?_) c hc
    by_cases hx : x < b.nodes_.length
    · exact h4 x hx d hd
    · simp [depsOf, List.getElem?_eq_none (not_lt.1 hx)] at hd
  · intro h0 fuel
    obtain ⟨y, hy⟩ := chain_succ_exists _ c (c.headD 0) 0 hc.2 h0
    obtain ⟨sn, hsn, j, hj, _⟩ := (mem_depsOf b 0 y).1 hy
    exact build_assert b sn hsn (by omega) fuel

theorem build_cycle_never_built_witness :
    IsCycle (ofDeps [[1], [0]]) [0, 1] ∧
    ((∀ fuel order nodes, (ofDeps [[1], [0]]).build fuel ≠ some (.built order nodes)) ∧
     (0 ∈ [0, 1] → ∀ fuel, (ofDeps [[1], [0]]).build fuel = some .assertFailed)) :=
  ⟨by simp [IsCycle, depsOf, ofDeps, registerNode, empty],
    build_cycle_never_built (ofDeps [[1], [0]]) [0, 1]
      (by simp [IsCycle, depsOf, ofDeps, registerNode, empty])⟩

/-- C6. Entry-node validation: when node 0 was registered with at least one
dependency, `build()` fails its assertion, already with no iteration of the
sorting loop allowed (fuel 0) and for every other fuel. -/
theorem build_entry_node_validation (b : Builder) (first : StagedNode)
    (h0 : b.nodes_[0]? = some first) (hd : first.numDependencies ≠ 0) :
    b.build 0 = some .assertFailed ∧ ∀ fuel, b.build fuel = some .assertFailed :=
  ⟨build_assert b first h0 hd 0, build_assert b first h0 hd⟩

theorem build_entry_node_validation_witness :
    (ofDeps [[1], [0]]).nodes_[0]? = some ⟨⟨.ParallelFor, 0, {}⟩, 0, 1⟩ ∧
    (1 : Nat) ≠ 0 ∧
    ((ofDeps [[1], [0]]).build 0 = some .assertFailed ∧
      ∀ fuel, (ofDeps [[1], [0]]).build fuel = some .assertFailed) :=
  ⟨by decide, by decide,
    build_entry_node_validation (ofDeps [[1], [0]]) ⟨⟨.ParallelFor, 0, {}⟩, 0, 1⟩
      (by decide) (by decide)⟩

end Builder

/-! ## Graph builder: termination of `build()` on registration-ordered graphs -/

namespace Builder

/-- With every dependency read from the pool naming an earlier node, the node
with registered index `k` passes its check once nodes `0 .. k-1` are queued. -/
theorem checkAt_of_earlier (b : Builder) (k : Nat) (hk : k < b.nodes_.length)
    (hpool : ∀ sn ∈ b.nodes_,
      sn.dependencyOffset + sn.numDependencies ≤ b.all_dependencies_.length)
    (hdec : ∀ i, i < b.nodes_.length → ∀ d ∈ b.depsOf i, d < i) :
    checkAt b k = some true := by
  have hn : b.nodes_[k]? = some b.nodes_[k] := List.getElem?_eq_getElem hk
  simp only [checkAt, hn]
  rw [dependenciesSatisfied_true]
  intro j hj
  have hp := hpool _ (List.getElem_mem hk)
  have hlt : b.nodes_[k].dependencyOffset + j < b.all_dependencies_.length := by omega
  refine ⟨b.all_dependencies_[b.nodes_[k].dependencyOffset + j], List.getElem?_eq_getElem hlt, ?_⟩
  have hmem : b.all_dependencies_[b.nodes_[k].dependencyOffset + j] ∈ b.depsOf k :=
    (mem_depsOf b k _).2 ⟨_, hn, j, hj, List.getElem?_eq_getElem hlt⟩
  have hd := hdec k hk _ hmem
  rw [prefixFlags_getElem? _ _ _ (le_of_lt hk), if_pos hd]

/-- The loop is still running while fewer iterations have been made than nodes
remain. -/
theorem buildLoop_running (b : Builder)
    (hpass : ∀ i, i < b.nodes_.length → checkAt b i = some true)
    (fuel k : Nat) (hfuel : fuel + k < b.nodes_.length) :
    buildLoop b fuel (prefixState b k) = none := by
  induction fuel generalizing k with
  | zero =>
    unfold buildLoop
    rw [if_neg (by simp [prefixState]; omega)]
  | succ fuel ih =>
    rw [buildLoop_advance b fuel k (by omega) (hpass k (by omega))]
    exact ih (k + 1) (by omega)

theorem build_registration_order (b : Builder) (first : StagedNode)
    (h0 : b.nodes_[0]? = some first) (hd : first.numDependencies = 0)
    (hpool : ∀ sn ∈ b.nodes_,
      sn.dependencyOffset + sn.numDependencies ≤ b.all_dependencies_.length)
    (hdec : ∀ i, i < b.nodes_.length → ∀ d ∈ b.depsOf i, d < i) :
    (∀ fuel, b.num_nodes_ - 1 ≤ fuel →
      b.build fuel = some (.built (List.range b.num_nodes_)
        (b.nodes_.map (fun sn => ⟨sn.node, 0, 0, 0⟩)))) ∧
    (∀ fuel, fuel < b.num_nodes_ - 1 → b.build fuel = none) := by
  have hlen : 0 < b.nodes_.length := by
    by_contra hc
    rw [List.getElem?_eq_none (by omega)] at h0; cases h0
  have hpass : ∀ i, i < b.nodes_.length → checkAt b i = some true :=
    fun i hi => checkAt_of_earlier b i hi hpool hdec
  constructor
  · intro fuel hf
    simp only [build, h0, hd, ne_eq, not_true_eq_false, if_false]
    rw [buildInit_eq b first h0]
    exact buildLoop_sorted b 1 hlen (fun i _ hi => hpass i hi) fuel
      (by simp only [num_nodes_] at hf; exact hf)
  · intro fuel hf
    simp only [build, h0, hd, ne_eq, not_true_eq_false, if_false]
    rw [buildInit_eq b first h0]
    exact buildLoop_running b hpass fuel 1 (by simp only [num_nodes_] at hf; omega)

/-- The builder after a call of `registerNode` keeps every node's dependency
range inside the pool. -/
theorem registerNode_pool (b : Builder) (node_info : NodeInfo) (dependencies : List Nat)
    (hpool : ∀ sn ∈ b.nodes_,
      sn.dependencyOffset + sn.numDependencies ≤ b.all_dependencies_.length) :
    ∀ sn ∈ (b.registerNode node_info dependencies).2.nodes_,
      sn.dependencyOffset + sn.numDependencies ≤
        (b.registerNode node_info dependencies).2.all_dependencies_.length := by
  intro sn h
  simp only [registerNode, List.length_append, List.mem_append, List.mem_singleton] at h ⊢
  rcases h with h | h
  · have := hpool sn h; omega
  · subst h; simp

/-- C37. Termination of `build()` on a builder whose node 0 has no dependency
and whose every dependency names a node registered earlier (every node's
dependency range lying inside the pool, as `registerNode` leaves it): the
`while` loop ends after exactly `num_nodes - 1` iterations, one node emitted
per iteration after the entry node, so `build()` returns with `num_nodes`
nodes emitted, and sorted position `i` holds registered node `i`. -/
theorem build_terminates_in_registration_order (b : Builder) (first : StagedNode)
    (h0 : b.nodes_[0]? = some first) (hd : first.numDependencies = 0)
    (hpool : ∀ sn ∈ b.nodes_,
      sn.dependencyOffset + sn.numDependencies ≤ b.all_dependencies_.length)
    (hdec : ∀ i, i < b.nodes_.length → ∀ d ∈ b.depsOf i, d < i) :
    ∃ order nodes,
      (∀ fuel, b.num_nodes_ - 1 ≤ fuel → b.build fuel = some (.built order nodes)) ∧
      (∀ fuel, fuel < b.num_nodes_ - 1 → b.build fuel = none) ∧
      order.length = b.num_nodes_ ∧ nodes.length = b.num_nodes_ ∧
      (∀ i, i < b.num_nodes_ → order[i]? = some i) ∧
      (∀ i, i < b.num_nodes_ →
        nodes[i]? = (b.nodes_[i]?).map (fun sn => ⟨sn.node, 0, 0, 0⟩)) := by
  obtain ⟨h1, h2⟩ := build_registration_order b first h0 hd hpool hdec
  refine ⟨_, _, h1, h2, by simp, by simp [num_nodes_], fun i hi => ?_, fun i _ => ?_⟩
  · exact List.getElem?_range hi
  · rw [List.getElem?_map]

theorem build_terminates_in_registration_order_witness :
    (ofDeps [[], [0], [0, 1]]).nodes_[0]? = some ⟨⟨.ParallelFor, 0, {}⟩, 0, 0⟩ ∧
    ∃ order nodes,
      (∀ fuel, (ofDeps [[], [0], [0, 1]]).num_nodes_ - 1 ≤ fuel →
        (ofDeps [[], [0], [0, 1]]).build fuel = some (.built order nodes)) ∧
      (∀ fuel, fuel < (ofDeps [[], [0], [0, 1]]).num_nodes_ - 1 →
        (ofDeps [[], [0], [0, 1]]).build fuel = none) ∧
      order.length = (ofDeps [[], [0], [0, 1]]).num_nodes_ ∧
      nodes.length = (ofDeps [[], [0], [0, 1]]).num_nodes_ ∧
      (∀ i, i < (ofDeps [[], [0], [0, 1]]).num_nodes_ → order[i]? = some i) ∧
      (∀ i, i < (ofDeps [[], [0], [0, 1]]).num_nodes_ →
        nodes[i]? = ((ofDeps [[], [0], [0, 1]]).nodes_[i]?).map (fun sn => ⟨sn.node, 0, 0, 0⟩)) :=
  ⟨by decide, build_terminates_in_registration_order (ofDeps [[], [0], [0, 1]])
    ⟨⟨.ParallelFor, 0, {}⟩, 0, 0⟩ (by decide) rfl (by decide) (by decide)⟩

end Builder

namespace Builder

theorem lt_two_pow_bitLength (fuel : Nat) : ∀ x, x < 2 ^ fuel → x < 2 ^ bitLength fuel x := by
  induction fuel with
  | zero => intro x hx; simpa [bitLength] using hx
  | succ f ih =>
    intro x hx
    unfold bitLength
    by_cases h0 : x = 0
    · simp [h0]
    · rw [if_neg h0]
      have h2 : x / 2 < 2 ^ f := by
        rw [pow_succ] at hx
        omega
      have := ih (x / 2) h2
      rw [pow_succ]
      omega

theorem two_pow_bitLength_le (fuel : Nat) :
    ∀ x, x ≠ 0 → x < 2 ^ fuel → 2 ^ (bitLength fuel x - 1) ≤ x := by
  induction fuel with
  | zero => intro x hx hlt; simp at hlt; omega
  | succ f ih =>
    intro x hx hlt
    unfold bitLength
    rw [if_neg hx]
    by_cases h2 : x / 2 = 0
    · have : bitLength f (x / 2) = 0 := by
        rw [h2]
        cases f <;> simp [bitLength]
      rw [this]
      simp
      omega
    · have hlt2 : x / 2 < 2 ^ f := by
        rw [pow_succ] at hlt
        omega
      have h := ih (x / 2) h2 hlt2
      have hpos : 0 < bitLength f (x / 2) := by
        cases f with
        | zero => simp at hlt2; omega
        | succ f => unfold bitLength; rw [if_neg h2]; omega
      have e : bitLength f (x / 2) + 1 - 1 = (bitLength f (x / 2) - 1) + 1 := by omega
      rw [e, pow_succ]
      omega

theorem bitLength_le_iff (x k : Nat) (hx : x < 2 ^ 32) :
    bitLength 32 x ≤ k ↔ x < 2 ^ k := by
  constructor
  · intro h
    exact lt_of_lt_of_le (lt_two_pow_bitLength 32 x hx) (Nat.pow_le_pow_right (by decide) h)
  · intro h
    by_cases h0 : x = 0
    · subst h0; simp [bitLength]
    · have h1 := two_pow_bitLength_le 32 x h0 hx
      have : 2 ^ (bitLength 32 x - 1) < 2 ^ k := lt_of_le_of_lt h1 h
      have := (Nat.pow_lt_pow_iff_right (by decide : 1 < 2)).1 this
      omega

theorem numPasses_worldID (num_worlds : Int) (h0 : 0 ≤ num_worlds)
    (h1 : num_worlds + 1 < 2 ^ 31) :
    numPasses 1 num_worlds =
      some (((bitLength 32 (num_worlds + 1).toNat + 7) / 8 : Nat) : Int) := by
  unfold numPasses
  rw [if_pos rfl, if_neg (by omega)]
  have hx : (num_worlds + 1).toNat % 2 ^ 32 = (num_worlds + 1).toNat := by
    apply Nat.mod_eq_of_lt
    omega
  have hne : (num_worlds + 1).toNat ≠ 0 := by omega
  unfold clz
  rw [hx, if_neg hne]
  simp only
  have hle : bitLength 32 (num_worlds + 1).toNat ≤ 32 :=
    (bitLength_le_iff _ 32 (by omega)).2 (by omega)
  congr 1
  unfold divideRoundUp
  omega

/-- C22 (as stated, refuted). With 255 worlds the WorldID sort gets 2 passes,
while the least `p` with `numWorlds + 1 ≤ 2^(8p)` is 1 (`256 ≤ 2^8`). -/
theorem numPasses_255_worlds :
    numPasses 1 255 = some 2 ∧ (255 + 1 : Int) ≤ 2 ^ (8 * 1) ∧ ¬ (255 + 1 : Int) ≤ 2 ^ (8 * 0) :=
  ⟨by decide, by decide, by decide⟩

/-- C22 (amended). For a sort on the WorldID column (column index 1) with
`0 ≤ numWorlds` and `numWorlds + 1 < 2^31`, `numPasses` is the number of bits
of `numWorlds + 1` divided by 8 and rounded up, which is the least `p` with
`numWorlds + 1 < 2^(8p)` (strictly: 255 worlds give 2, as 257 worlds do); for
every other column `numPasses = 4`. -/
theorem numPasses_spec (column_idx num_worlds : Int) (h0 : 0 ≤ num_worlds)
    (h1 : num_worlds + 1 < 2 ^ 31) :
    (column_idx = 1 →
      ∃ p : Nat, numPasses column_idx num_worlds = some (p : Int) ∧
        p = (bitLength 32 (num_worlds + 1).toNat + 7) / 8 ∧
        num_worlds + 1 < 2 ^ (8 * p) ∧
        ∀ q : Nat, num_worlds + 1 < 2 ^ (8 * q) → p ≤ q) ∧
    (column_idx ≠ 1 → numPasses column_idx num_worlds = some 4) ∧
    numPasses 1 257 = some 2 := by
  refine ⟨?_, ?_, by decide⟩
  · intro hc
    subst hc
    refine ⟨_, numPasses_worldID num_worlds h0 h1, rfl, ?_, ?_⟩
    · have hx : (num_worlds + 1).toNat < 2 ^ 32 := by omega
      have := (bitLength_le_iff (num_worlds + 1).toNat
        (8 * ((bitLength 32 (num_worlds + 1).toNat + 7) / 8)) hx).1 (by omega)
      have e : num_worlds + 1 = (((num_worlds + 1).toNat : Nat) : Int) := by omega
      rw [e]
      exact_mod_cast this
    · intro q hq
      have hx : (num_worlds + 1).toNat < 2 ^ 32 := by omega
      have e : num_worlds + 1 = (((num_worlds + 1).toNat : Nat) : Int) := by omega
      rw [e] at hq
      have hq' : (num_worlds + 1).toNat < 2 ^ (8 * q) := by exact_mod_cast hq
      have := (bitLength_le_iff _ _ hx).2 hq'
      omega
  · intro hc
    unfold numPasses
    rw [if_neg hc]

theorem numPasses_spec_witness :
    (0 : Int) ≤ 65535 ∧ (65535 : Int) + 1 < 2 ^ 31 ∧
    ((1 : Int) = 1 →
      ∃ p : Nat, numPasses 1 65535 = some (p : Int) ∧
        p = (bitLength 32 ((65535 : Int) + 1).toNat + 7) / 8 ∧
        (65535 : Int) + 1 < 2 ^ (8 * p) ∧
        ∀ q : Nat, (65535 : Int) + 1 < 2 ^ (8 * q) → p ≤ q) ∧
    ((1 : Int) ≠ 1 → numPasses 1 65535 = some 4) ∧
    numPasses 1 257 = some 2 :=
  ⟨by decide, by decide, numPasses_spec 1 65535 (by decide) (by decide)⟩

end Builder

namespace Builder

theorem onesweepLoop_types (ids : SortFuncIDs) (a : Nat) :
    ∀ (k : Nat) (pass : Int) (cur : Nat) (b : Builder),
      (onesweepLoop ids a k pass cur b).2.nodes_.map (fun n => n.node.type) =
        b.nodes_.map (fun n => n.node.type) ++ List.replicate k .SortArchetypeOnesweep := by
  intro k
  induction k with
  | zero => intro pass cur b; simp [onesweepLoop]
  | succ k ih =>
    intro pass cur b
    simp only [onesweepLoop]
    rw [ih]
    simp [registerNode, List.replicate_succ]

theorem sortArchetypeNode_types (gci : Nat → Nat → Int) (nw : Int) (ids : SortFuncIDs)
    (b : Builder) (a c : Nat) (deps : List Nat) :
    (sortArchetypeNode gci nw ids b a c deps).map
        (fun r => (addedNodes b r.2).map (fun n => n.node.type)) =
      (numPasses (gci a c) nw).map (fun p =>
        [NodeType.SortArchetypeHistogram, .SortArchetypeHistogram, .SortArchetypePrefixSum] ++
          List.replicate p.toNat .SortArchetypeOnesweep) := by
  unfold sortArchetypeNode
  simp only
  cases hp : numPasses (gci a c) nw with
  | none => rfl
  | some p =>
    simp only [Option.map_some']
    congr 1
    unfold addedNodes
    rw [List.map_drop, onesweepLoop_types]
    simp [registerNode]

/-- C23: the sort sub-graph has two histogram nodes. In the scenario of the
specification (WorldID column, 257 worlds, empty builder, no dependencies)
`sortArchetypeNode` adds five nodes: a histogram node (id 0), a second
histogram node (id 1), the prefix-sum node (id 2, depending on node 1) and
the onesweep nodes with `passIDX` 0 and 1 (ids 3 and 4, depending on 2 and 3);
it returns the id 4. For every builder and every argument for which the call
returns, the nodes added are two histogram nodes, one prefix-sum node and
`numPasses` onesweep nodes, in this order. -/
theorem sortArchetypeNode_histogram_twice :
    (sortArchetypeNode exampleColumnIndex 257 exampleSortIDs empty 5 0 []).map
        (fun r => (r.1, r.2.nodes_.map
          (fun n => (n.node.type, n.node.data.passIDX, stagedDeps r.2 n)))) =
      some (4, [(.SortArchetypeHistogram, 0, []), (.SortArchetypeHistogram, 0, []),
        (.SortArchetypePrefixSum, 0, [1]), (.SortArchetypeOnesweep, 0, [2]),
        (.SortArchetypeOnesweep, 1, [3])]) ∧
    ∀ (getArchetypeColumnIndex : Nat → Nat → Int) (num_worlds : Int) (ids : SortFuncIDs)
      (b : Builder) (archetype_id component_id : Nat) (dependencies : List Nat),
      (sortArchetypeNode getArchetypeColumnIndex num_worlds ids b archetype_id component_id
          dependencies).map (fun r => (addedNodes b r.2).map (fun n => n.node.type)) =
        (numPasses (getArchetypeColumnIndex archetype_id component_id) num_worlds).map
          (fun p =>
            [NodeType.SortArchetypeHistogram, .SortArchetypeHistogram,
              .SortArchetypePrefixSum] ++ List.replicate p.toNat .SortArchetypeOnesweep) :=
  ⟨by decide, sortArchetypeNode_types⟩

end Builder

/-! ## Scheduler: properties of a tick -/

namespace TaskGraph

theorem toUInt32_toInt32 (x : Nat) (hx : x < 2 ^ 32) : toUInt32 (toInt32 x) = x := by
  unfold toUInt32 toInt32
  rw [Nat.mod_eq_of_lt hx]
  split_ifs with h
  · have : ((x : Int) % 2 ^ 32) = x := Int.emod_eq_of_lt (by omega) (by omega)
    rw [this]; simp
  · have : (((x : Int) - 2 ^ 32) % 2 ^ 32) = x := by
      rw [Int.sub_emod, Int.emod_self, sub_zero, Int.emod_emod_of_dvd _ (dvd_refl _)]
      exact Int.emod_eq_of_lt (by omega) (by omega)
    rw [this]; simp

theorem toInt32_of_lt (x : Nat) (hx : x < 2 ^ 31) : toInt32 x = x := by
  unfold toInt32
  have : x % 2 ^ 32 = x := Nat.mod_eq_of_lt (by omega)
  rw [this, if_pos hx]

theorem toInt32_injOn (x y : Nat) (hx : x < 2 ^ 32) (hy : y < 2 ^ 32)
    (h : toInt32 x = toInt32 y) : x = y := by
  rw [← toUInt32_toInt32 x hx, ← toUInt32_toInt32 y hy, h]

theorem computeNumInvocations_fst (MEGA : Nat) (sm : StateManager) (tmp : TmpAllocator)
    (n : NodeState) : (computeNumInvocations MEGA sm tmp n).1 = countOf MEGA sm n := by
  unfold countOf computeNumInvocations
  cases n.info.type <;> simp only <;> split_ifs <;> rfl

theorem countOf_lt (MEGA : Nat) (sm : StateManager) (n : NodeState) :
    countOf MEGA sm n < 2 ^ 32 := by
  unfold countOf computeNumInvocations
  cases n.info.type <;> simp only <;> (try split_ifs) <;>
    first
    | exact Nat.mod_lt _ (by norm_num)
    | norm_num

theorem computeNumInvocations_node (MEGA : Nat) (sm : StateManager) (tmp : TmpAllocator)
    (n : NodeState) :
    NodeState.static (computeNumInvocations MEGA sm tmp n).2.1 = NodeState.static n ∧
    (computeNumInvocations MEGA sm tmp n).2.1.info.funcID = n.info.funcID ∧
    (computeNumInvocations MEGA sm tmp n).2.1.curOffset = n.curOffset ∧
    (computeNumInvocations MEGA sm tmp n).2.1.numRemaining = n.numRemaining ∧
    (computeNumInvocations MEGA sm tmp n).2.1.totalNumInvocations = n.totalNumInvocations := by
  unfold computeNumInvocations
  cases n.info.type <;> simp only <;> (try split_ifs) <;> simp [NodeState.static]

theorem computeNumInvocations_zero (MEGA : Nat) (sm : StateManager) (tmp : TmpAllocator)
    (n : NodeState) (h : countOf MEGA sm n = 0) :
    (computeNumInvocations MEGA sm tmp n).2.1 = n := by
  rw [← computeNumInvocations_fst MEGA sm tmp n] at h
  revert h
  unfold computeNumInvocations
  cases n.info.type <;> simp only <;> (try split_ifs) <;> (simp; try omega)

theorem countOf_static (MEGA : Nat) (sm : StateManager) (n1 n2 : NodeState)
    (h : NodeState.static n1 = NodeState.static n2) : countOf MEGA sm n1 = countOf MEGA sm n2 := by
  rcases n1 with ⟨⟨ty1, f1, ⟨q1, a1, c1, p1, x1, r1⟩⟩, o1, m1, t1⟩
  rcases n2 with ⟨⟨ty2, f2, ⟨q2, a2, c2, p2, x2, r2⟩⟩, o2, m2, t2⟩
  simp only [NodeState.static, NodeInfo.mk.injEq, EntryData.mk.injEq] at h
  obtain ⟨rfl, rfl, rfl, rfl, rfl, rfl, rfl, _⟩ := h
  unfold countOf computeNumInvocations
  cases ty1 <;> simp only <;> (try split_ifs) <;> rfl


theorem static_arm (n : NodeState) (c : Nat) : NodeState.static (arm n c) = NodeState.static n := rfl

theorem cnt_congr (MEGA : Nat) (sm : StateManager) (l1 l2 : List NodeState)
    (h : l1.map NodeState.static = l2.map NodeState.static) (j : Nat) :
    cnt MEGA sm l1 j = cnt MEGA sm l2 j ∧ fid l1 j = fid l2 j := by
  have hj : (l1.map NodeState.static)[j]? = (l2.map NodeState.static)[j]? := by rw [h]
  simp only [List.getElem?_map] at hj
  unfold cnt fid
  cases h1 : l1[j]? with
  | none =>
    rw [h1] at hj
    cases h2 : l2[j]? with
    | none => exact ⟨rfl, rfl⟩
    | some b => rw [h2] at hj; cases hj
  | some a =>
    rw [h1] at hj
    cases h2 : l2[j]? with
    | none => rw [h2] at hj; cases hj
    | some b =>
      rw [h2] at hj
      simp only [Option.map_some', Option.some.injEq] at hj
      refine ⟨countOf_static MEGA sm a b hj, ?_⟩
      have := congrArg NodeInfo.funcID hj
      simpa [NodeState.static] using this

theorem map_static_set (l : List NodeState) (j : Nat) (nd nd' : NodeState)
    (h : l[j]? = some nd) (hs : NodeState.static nd' = NodeState.static nd) :
    (l.set j nd').map NodeState.static = l.map NodeState.static := by
  rw [List.map_set, hs]
  apply List.ext_getElem?
  intro i
  by_cases hij : j = i
  · subst hij
    rw [List.getElem?_set_self', List.getElem?_map, h]; rfl
  · rw [List.getElem?_set_ne hij]

/-- What the advance loop of `finishWork` does from position `next`: it stores
the least position `m ≥ next` whose count is non-zero, armed with that count,
or the sentinel; it leaves every other node as it was. -/
theorem advance_spec (MEGA : Nat) (sm : StateManager) (k next : Nat) (g : TaskGraph)
    (tmp : TmpAllocator) (hk : g.sorted_nodes_.length - next < k)
    (hnext : next ≤ g.sorted_nodes_.length) :
    ∃ m, next ≤ m ∧ m ≤ g.sorted_nodes_.length ∧
      (advance MEGA sm k next g tmp).1.cur_node_idx_ = m ∧
      (∀ i, next ≤ i → i < m → cnt MEGA sm g.sorted_nodes_ i = 0) ∧
      (m < g.sorted_nodes_.length → cnt MEGA sm g.sorted_nodes_ m ≠ 0 ∧
        ArmedAt (advance MEGA sm k next g tmp).1 m (cnt MEGA sm g.sorted_nodes_ m) 0) ∧
      (∀ i, i ≠ m →
        (advance MEGA sm k next g tmp).1.sorted_nodes_[i]? = g.sorted_nodes_[i]?) ∧
      (advance MEGA sm k next g tmp).1.sorted_nodes_.map NodeState.static =
        g.sorted_nodes_.map NodeState.static := by
  induction k generalizing next g tmp with
  | zero => omega
  | succ k ih =>
    unfold advance
    cases hn : g.sorted_nodes_[next]? with
    | none =>
      have hge : g.sorted_nodes_.length ≤ next := by
        by_contra hc
        rw [List.getElem?_eq_getElem (by omega)] at hn; cases hn
      have heq : next = g.sorted_nodes_.length := by omega
      exact ⟨next, le_rfl, hnext, rfl, fun i h1 h2 => by omega, fun h => by omega,
        fun i _ => rfl, rfl⟩
    | some nd =>
      have hlt : next < g.sorted_nodes_.length := by
        by_contra hc
        rw [List.getElem?_eq_none (by omega)] at hn; cases hn
      have hfst := computeNumInvocations_fst MEGA sm tmp nd
      have hnode := computeNumInvocations_node MEGA sm tmp nd
      have hcnt : cnt MEGA sm g.sorted_nodes_ next = countOf MEGA sm nd := by
        simp [cnt, hn]
      rcases hcni : computeNumInvocations MEGA sm tmp nd with ⟨c, nd', tmp'⟩
      rw [hcni] at hfst hnode
      simp only [hcni] at hfst hnode ⊢
      by_cases hz : c = 0
      · rw [if_pos hz]
        have hnd' : nd' = nd := by
          have := computeNumInvocations_zero MEGA sm tmp nd (by rw [← hfst]; exact hz)
          rw [hcni] at this; exact this
        have hset : g.sorted_nodes_.set next nd' = g.sorted_nodes_ := by
          rw [hnd']
          apply List.ext_getElem?
          intro i
          by_cases hij : next = i
          · subst hij; rw [List.getElem?_set_self', hn]; rfl
          · rw [List.getElem?_set_ne hij]
        rw [hset]
        obtain ⟨m, h1, h2, h3, h4, h5, h6, h7⟩ :=
          ih (next + 1) ({ g with sorted_nodes_ := g.sorted_nodes_ }) tmp' (by simp; omega)
            (by simp; omega)
        refine ⟨m, by omega, h2, h3, ?_, h5, h6, h7⟩
        intro i hi1 hi2
        rcases Nat.eq_or_lt_of_le hi1 with heq | hlt'
        · rw [← heq, hcnt, ← hfst]; exact hz
        · exact h4 i hlt' hi2
      · rw [if_neg hz]
        refine ⟨next, le_rfl, hnext, rfl, fun i h1 h2 => by omega, fun _ => ?_, ?_, ?_⟩
        · refine ⟨by rw [hcnt, ← hfst]; exact hz, rfl, arm nd' c, ?_, ?_, rfl, ?_⟩
          · simp only [List.getElem?_set_self hlt]
          · simp [arm, hcnt, hfst]
          · simp [arm, hcnt, hfst]
        · intro i hi
          simp only
          rw [List.getElem?_set_ne (Ne.symm hi)]
        · exact map_static_set _ _ nd _ hn (by rw [static_arm]; exact hnode.1)


theorem add32_of_lt (a b : Nat) (h : a + b < 2 ^ 32) : add32 a b = a + b :=
  Nat.mod_eq_of_lt h

theorem sub32_of_le (a b : Nat) (ha : a < 2 ^ 32) (hb : b ≤ a) : sub32 a b = a - b := by
  unfold sub32
  have hb' : b % 2 ^ 32 = b := Nat.mod_eq_of_lt (by omega)
  rw [hb']
  have : a + (2 ^ 32 - b) = (a - b) + 2 ^ 32 := by omega
  rw [this, Nat.add_mod_right]
  exact Nat.mod_eq_of_lt (by omega)

theorem filterMap_range_threshold {β : Type} (F : Nat → β) (p : Nat → Prop) [DecidablePred p]
    (M c : Nat) (hp : ∀ i, i < M → (p i ↔ i < c)) :
    (List.range M).filterMap (fun i => if p i then some (F i) else none) =
      (List.range (min M c)).map F := by
  induction M with
  | zero => simp
  | succ M ih =>
    rw [List.range_succ, List.filterMap_append, ih (fun i hi => hp i (by omega))]
    by_cases hMc : M < c
    · have h1 : min (M + 1) c = min M c + 1 := by omega
      have h2 : min M c = M := by omega
      rw [h1, List.range_succ, List.map_append, h2]
      simp [(hp M (by omega)).2 hMc]
    · have h1 : min (M + 1) c = min M c := by omega
      rw [h1]
      have : ¬ p M := fun h => hMc ((hp M (by omega)).1 h)
      simp [this]

/-- The lanes of a block whose tile starts at `off` present exactly the
invocation indices `off .. min (off + MEGA, T) - 1`, as `int32_t` values. -/
theorem tileInvocations_run (MEGA j T f off : Nat) (hoff : off < T) (hT : T + MEGA ≤ 2 ^ 32) :
    tileInvocations MEGA ⟨.Run, j, T, f, off⟩ =
      (List.range' off (min MEGA (T - off))).map (fun k => (j, f, toInt32 k)) := by
  unfold tileInvocations
  have hfun : ∀ i, i < MEGA →
      (laneWork ⟨.Run, j, T, f, off⟩ i).2 =
        if i < T - off then some (j, f, toInt32 (off + i)) else none := by
    intro i hi
    unfold laneWork
    simp only [ne_eq, not_true_eq_false, if_false]
    rw [add32_of_lt off i (by omega), toUInt32_toInt32 _ (by omega)]
    by_cases h : i < T - off
    · rw [if_neg (by omega), if_pos h]
    · rw [if_pos (by omega), if_neg h]
  have hmap : (List.range MEGA).filterMap (fun i => (laneWork ⟨.Run, j, T, f, off⟩ i).2) =
      (List.range MEGA).filterMap
        (fun i => if i < T - off then some (j, f, toInt32 (off + i)) else none) := by
    apply List.filterMap_congr
    intro i hi
    exact hfun i (List.mem_range.1 hi)
  rw [hmap, filterMap_range_threshold (fun i => (j, f, toInt32 (off + i))) (fun i => i < T - off)
    MEGA (T - off) (fun i _ => Iff.rfl)]
  rw [List.range_eq_range', List.range'_eq_map_range, List.range'_eq_map_range, List.map_map,
    List.map_map]
  apply List.map_congr_left
  intro i _
  simp

theorem armedAt_lt {g : TaskGraph} {j T off : Nat} (h : ArmedAt g j T off) :
    j < g.sorted_nodes_.length := by
  obtain ⟨_, nd, hnd, _⟩ := h
  by_contra hc
  rw [List.getElem?_eq_none (by omega)] at hnd; cases hnd

/-- One iteration of the block loop on an armed node with invocations left to
hand out: the block runs the tile starting at `off`; then either the node has
more invocations and stays current, or the cursor has moved to the next node
with a non-zero count (or the sentinel). -/
theorem blockLoop_tile (MEGA : Nat) (sm : StateManager) (t : Tick) (j T off : Nat)
    (hA : ArmedAt t.graph j T off) (hoff : off < T) (hT : T + MEGA ≤ 2 ^ 32) (hM : 0 < MEGA) :
    ∃ g' tmp',
      (∀ fuel, blockLoop MEGA sm (fuel + 1) t =
        blockLoop MEGA sm fuel ⟨g', tmp', ⟨.Run, j, T, fid t.graph.sorted_nodes_ j, off⟩,
          t.presented ++ (List.range' off (min MEGA (T - off))).map
            (fun k => (j, fid t.graph.sorted_nodes_ j, toInt32 k))⟩) ∧
      g'.sorted_nodes_.map NodeState.static = t.graph.sorted_nodes_.map NodeState.static ∧
      (MEGA < T - off → ArmedAt g' j T (off + MEGA)) ∧
      (T - off ≤ MEGA → ∃ m, j < m ∧ m ≤ t.graph.sorted_nodes_.length ∧
        g'.cur_node_idx_ = m ∧
        (∀ i, j < i → i < m → cnt MEGA sm t.graph.sorted_nodes_ i = 0) ∧
        (m < t.graph.sorted_nodes_.length → cnt MEGA sm t.graph.sorted_nodes_ m ≠ 0 ∧
          ArmedAt g' m (cnt MEGA sm t.graph.sorted_nodes_ m) 0)) := by
  have hjlt := armedAt_lt hA
  obtain ⟨hcur, nd, hnd, hTot, hOff, hRem⟩ := hA
  have hfid : fid t.graph.sorted_nodes_ j = nd.info.funcID := by simp [fid, hnd]
  -- the graph after the fetch-add
  set nd1 : NodeState := { nd with curOffset := add32 nd.curOffset MEGA } with hnd1
  set g1 : TaskGraph := { t.graph with sorted_nodes_ := t.graph.sorted_nodes_.set j nd1 } with hg1
  have hsbs : setBlockState MEGA t.graph t.block =
      .ok (g1, ⟨.Run, j, T, nd.info.funcID, off⟩) := by
    unfold setBlockState
    simp only [hcur, num_nodes_, hnd]
    rw [if_neg (by omega), if_neg (by omega), if_neg (by omega)]
    simp [hg1, hnd1, hTot, hOff, hcur]
  have hg1j : g1.sorted_nodes_[j]? = some nd1 := by
    simp [hg1, List.getElem?_set_self hjlt]
  have hsub : sub32 T off = T - off := sub32_of_le T off (by omega) (by omega)
  have hMmod : MEGA % 2 ^ 32 = MEGA := Nat.mod_eq_of_lt (by omega)
  -- the graph after the fetch-sub
  set nd2 : NodeState :=
    { nd1 with numRemaining := sub32 nd1.numRemaining (min (T - off) MEGA) } with hnd2
  set g2 : TaskGraph := { g1 with sorted_nodes_ := g1.sorted_nodes_.set j nd2 } with hg2
  have hstat2 : g2.sorted_nodes_.map NodeState.static =
      t.graph.sorted_nodes_.map NodeState.static := by
    simp only [hg2, hg1, List.set_set]
    exact map_static_set _ _ nd _ hnd rfl
  have hlen2 : g2.sorted_nodes_.length = t.graph.sorted_nodes_.length := by
    simp [hg2, hg1]
  have hrem1 : nd1.numRemaining = T - off := by simp [hnd1, hRem]
  have hsub2 : sub32 nd1.numRemaining (min (T - off) MEGA) = T - off - min (T - off) MEGA := by
    rw [hrem1]; exact sub32_of_le _ _ (by omega) (Nat.min_le_left _ _)
  by_cases hlast : T - off ≤ MEGA
  · -- last tile: the cursor advances
    have hfw : finishWork MEGA sm g1 t.tmp ⟨.Run, j, T, nd.info.funcID, off⟩ =
        .ok (advance MEGA sm (g1.num_nodes_ - j) (j + 1) g2 t.tmp) := by
      unfold finishWork
      simp only [hsub, hMmod, hg1j]
      rw [if_pos (by rw [hrem1]; omega)]
    have hlen1 : g1.num_nodes_ = t.graph.sorted_nodes_.length := by simp [num_nodes_, hg1]
    obtain ⟨m, h1, h2, h3, h4, h5, h6, h7⟩ :=
      advance_spec MEGA sm (g1.num_nodes_ - j) (j + 1) g2 t.tmp (by rw [hlen1, hlen2]; omega)
        (by rw [hlen2]; omega)
    refine ⟨(advance MEGA sm (g1.num_nodes_ - j) (j + 1) g2 t.tmp).1,
      (advance MEGA sm (g1.num_nodes_ - j) (j + 1) g2 t.tmp).2, ?_, ?_, fun h => by omega,
      fun _ => ⟨m, by omega, by rw [← hlen2]; exact h2, h3, ?_, ?_⟩⟩
    · intro fuel
      conv_lhs => unfold blockLoop
      simp only [hsbs, hfw, hfid]
      rw [tileInvocations_run MEGA j T _ off hoff hT]
    · rw [h7, hstat2]
    · intro i hi1 hi2
      rw [← (cnt_congr MEGA sm _ _ hstat2 i).1]
      exact h4 i hi1 hi2
    · intro hm
      rw [← hlen2] at hm
      have := h5 hm
      rw [(cnt_congr MEGA sm _ _ hstat2 m).1] at this
      exact this
  · -- more tiles remain
    have hfw : finishWork MEGA sm g1 t.tmp ⟨.Run, j, T, nd.info.funcID, off⟩ =
        .ok (g2, t.tmp) := by
      unfold finishWork
      simp only [hsub, hMmod, hg1j]
      rw [if_neg (by rw [hrem1]; omega)]
    refine ⟨g2, t.tmp, ?_, hstat2, fun _ => ?_, fun h => by omega⟩
    · intro fuel
      conv_lhs => unfold blockLoop
      simp only [hsbs, hfw, hfid]
      rw [tileInvocations_run MEGA j T _ off hoff hT]
    · refine ⟨by simp [hg2, hg1, hcur], nd2, ?_, ?_, ?_, ?_⟩
      · simp [hg2, hg1, List.getElem?_set_self hjlt]
      · simp [hnd2, hnd1, hTot]
      · simp only [hnd2, hnd1, hOff]
        exact add32_of_lt _ _ (by omega)
      · simp only [hnd2]
        rw [hsub2]; omega

theorem traceFrom_step (MEGA : Nat) (sm : StateManager) (nodes : List NodeState) (j : Nat)
    (hj : j < nodes.length) :
    traceFrom MEGA sm nodes j = nodeTrace MEGA sm nodes j ++ traceFrom MEGA sm nodes (j + 1) := by
  unfold traceFrom
  obtain ⟨d, hd⟩ : ∃ d, nodes.length - j = d + 1 := ⟨nodes.length - j - 1, by omega⟩
  have hd' : nodes.length - (j + 1) = d := by omega
  rw [hd, hd', List.range'_succ, List.flatMap_cons]

theorem traceFrom_end (MEGA : Nat) (sm : StateManager) (nodes : List NodeState) (j : Nat)
    (hj : nodes.length ≤ j) : traceFrom MEGA sm nodes j = [] := by
  unfold traceFrom
  have : nodes.length - j = 0 := by omega
  rw [this]; rfl

theorem traceFrom_skip (MEGA : Nat) (sm : StateManager) (nodes : List NodeState) (d j : Nat)
    (hm : j + d ≤ nodes.length)
    (hz : ∀ i, j ≤ i → i < j + d → cnt MEGA sm nodes i = 0) :
    traceFrom MEGA sm nodes j = traceFrom MEGA sm nodes (j + d) := by
  induction d generalizing j with
  | zero => rfl
  | succ d ih =>
    rw [traceFrom_step MEGA sm nodes j (by omega)]
    have h0 : nodeTrace MEGA sm nodes j = [] := by
      unfold nodeTrace; rw [hz j le_rfl (by omega)]; rfl
    rw [h0, List.nil_append, ih (j + 1) (by omega) (fun i h1 h2 => hz i (by omega) (by omega))]
    congr 1; omega

theorem blockLoop_exit (MEGA : Nat) (sm : StateManager) (t : Tick) (fuel : Nat)
    (h : t.graph.cur_node_idx_ = t.graph.sorted_nodes_.length) :
    blockLoop MEGA sm (fuel + 1) t =
      some (.ok { t with block := { t.block with state := .Exit } }) := by
  unfold blockLoop setBlockState
  simp [h, num_nodes_]

/-- Draining the current node: from an armed node with invocations `off ..
T-1` left, the block loop presents exactly these, in order, and then stands
at the next node with a non-zero count, or at the sentinel. -/
theorem blockLoop_drain (MEGA : Nat) (sm : StateManager) (j T : Nat)
    (hT : T + MEGA ≤ 2 ^ 32) (hM : 0 < MEGA) (r : Nat) :
    ∀ (t : Tick) (off : Nat), T - off ≤ r → ArmedAt t.graph j T off → off < T →
    ∃ steps t',
      (∀ fuel, blockLoop MEGA sm (fuel + steps) t = blockLoop MEGA sm fuel t') ∧
      t'.presented = t.presented ++ (List.range' off (T - off)).map
        (fun k => (j, fid t.graph.sorted_nodes_ j, toInt32 k)) ∧
      t'.graph.sorted_nodes_.map NodeState.static =
        t.graph.sorted_nodes_.map NodeState.static ∧
      ∃ m, j < m ∧ m ≤ t.graph.sorted_nodes_.length ∧ t'.graph.cur_node_idx_ = m ∧
        (∀ i, j < i → i < m → cnt MEGA sm t.graph.sorted_nodes_ i = 0) ∧
        (m < t.graph.sorted_nodes_.length → cnt MEGA sm t.graph.sorted_nodes_ m ≠ 0 ∧
          ArmedAt t'.graph m (cnt MEGA sm t.graph.sorted_nodes_ m) 0) := by
  induction r with
  | zero => intro t off h1 _ h3; omega
  | succ r ih =>
    intro t off hr hA hoff
    by_cases hcase : T - off ≤ MEGA
    · have hmin : min MEGA (T - off) = T - off := min_eq_right hcase
      obtain ⟨g', tmp', hstep, hstat, hmore, hlast⟩ :=
        blockLoop_tile MEGA sm t j T off hA hoff hT hM
      obtain ⟨m, hm⟩ := hlast hcase
      refine ⟨1, _, hstep, ?_, hstat, m, hm⟩
      simp only [hmin]
    · have hmin : min MEGA (T - off) = MEGA := min_eq_left (by omega)
      have hsplit : T - off = (T - (off + MEGA)) + MEGA := by omega
      have hr' : T - (off + MEGA) ≤ r := by omega
      have hoff' : off + MEGA < T := by omega
      have hlt : MEGA < T - off := by omega
      obtain ⟨g', tmp', hstep, hstat, hmore, hlast⟩ :=
        blockLoop_tile MEGA sm t j T off hA hoff hT hM
      have hA' := hmore hlt
      obtain ⟨steps, t', h1, h2, h3, m, h4, h5, h6, h7, h8⟩ :=
        ih ⟨g', tmp', ⟨.Run, j, T, fid t.graph.sorted_nodes_ j, off⟩,
          t.presented ++ (List.range' off (min MEGA (T - off))).map
            (fun k => (j, fid t.graph.sorted_nodes_ j, toInt32 k))⟩ (off + MEGA)
          hr' hA' hoff'
      have hlen : g'.sorted_nodes_.length = t.graph.sorted_nodes_.length := by
        have := congrArg List.length hstat
        simpa using this
      refine ⟨steps + 1, t', ?_, ?_, ?_, m, h4, ?_, h6, ?_, ?_⟩
      · intro fuel
        rw [← Nat.add_assoc, hstep, h1]
      · rw [h2]
        simp only [(cnt_congr MEGA sm _ _ hstat j).2]
        rw [hmin, List.append_assoc, ← List.map_append]
        congr 2
        rw [hsplit, ← List.range'_append_1]
      · rw [h3, hstat]
      · rw [← hlen]; exact h5
      · intro i hi1 hi2
        rw [← (cnt_congr MEGA sm _ _ hstat i).1]; exact h7 i hi1 hi2
      · intro hm
        rw [← (cnt_congr MEGA sm _ _ hstat m).1]
        exact h8 (by rw [hlen]; exact hm)

/-- From an armed node the block loop presents the rest of the tick's
invocations and exits with the cursor at the sentinel. -/
theorem blockLoop_from (MEGA : Nat) (sm : StateManager) (nodes : List NodeState)
    (hT : ∀ j, cnt MEGA sm nodes j + MEGA ≤ 2 ^ 32) (hM : 0 < MEGA) (d : Nat) :
    ∀ (t : Tick) (j : Nat), nodes.length - j ≤ d →
      t.graph.sorted_nodes_.map NodeState.static = nodes.map NodeState.static →
      ArmedAt t.graph j (cnt MEGA sm nodes j) 0 → cnt MEGA sm nodes j ≠ 0 →
      ∃ fuel t', blockLoop MEGA sm fuel t = some (.ok t') ∧
        t'.presented = t.presented ++ traceFrom MEGA sm nodes j ∧
        t'.graph.cur_node_idx_ = nodes.length ∧ t'.block.state = .Exit ∧
        t'.graph.sorted_nodes_.map NodeState.static = nodes.map NodeState.static := by
  induction d with
  | zero =>
    intro t j hd hstat hA _
    have h1 := armedAt_lt hA
    have h2 : t.graph.sorted_nodes_.length = nodes.length := by
      simpa using congrArg List.length hstat
    omega
  | succ d ih =>
    intro t j hd hstat hA hne
    have hjlt := armedAt_lt hA
    have hlen : t.graph.sorted_nodes_.length = nodes.length := by
      simpa using congrArg List.length hstat
    have hpos : 0 < cnt MEGA sm nodes j := Nat.pos_of_ne_zero hne
    obtain ⟨steps, t1, hrun, hpres, hstat1, m, hm1, hm2, hm3, hm4, hm5⟩ :=
      blockLoop_drain MEGA sm j (cnt MEGA sm nodes j) (hT j) hM (cnt MEGA sm nodes j) t 0
        (by omega) hA hpos
    have hstat1' : t1.graph.sorted_nodes_.map NodeState.static = nodes.map NodeState.static := by
      rw [hstat1, hstat]
    have hlen1 : t1.graph.sorted_nodes_.length = nodes.length := by
      simpa using congrArg List.length hstat1'
    have hpres' : t1.presented = t.presented ++ nodeTrace MEGA sm nodes j := by
      rw [hpres, Nat.sub_zero, (cnt_congr MEGA sm _ _ hstat j).2]; rfl
    have hskip : traceFrom MEGA sm nodes j =
        nodeTrace MEGA sm nodes j ++ traceFrom MEGA sm nodes m := by
      rw [traceFrom_step MEGA sm nodes j (by omega)]
      congr 1
      have := traceFrom_skip MEGA sm nodes (m - (j + 1)) (j + 1) (by omega)
        (fun i h1 h2 => by
          rw [← (cnt_congr MEGA sm _ _ hstat i).1]
          exact hm4 i (by omega) (by omega))
      rw [this]; congr 1; omega
    by_cases hmend : m = nodes.length
    · refine ⟨1 + steps, { t1 with block := { t1.block with state := .Exit } }, ?_, ?_, ?_,
        rfl, hstat1'⟩
      · rw [hrun 1]
        exact blockLoop_exit MEGA sm t1 0 (by rw [hm3, hlen1, hmend])
      · simp only
        rw [hpres', hskip, hmend, traceFrom_end MEGA sm nodes _ le_rfl, List.append_nil]
      · simp only; rw [hm3, hmend]
    · have hmlt : m < t.graph.sorted_nodes_.length := by omega
      obtain ⟨hne', hA'⟩ := hm5 hmlt
      rw [(cnt_congr MEGA sm _ _ hstat m).1] at hne' hA'
      obtain ⟨fuel, t', h1, h2, h3, h4, h5⟩ := ih t1 m (by omega) hstat1' hA' hne'
      refine ⟨fuel + steps, t', ?_, ?_, h3, h4, h5⟩
      · rw [hrun fuel, h1]
      · rw [h2, hpres', hskip, List.append_assoc]

/-- `init` on a graph whose entry node has a non-zero count arms node 0. -/
theorem init_armed (MEGA : Nat) (sm : StateManager) (g : TaskGraph) (tmp : TmpAllocator)
    (h0 : cnt MEGA sm g.sorted_nodes_ 0 ≠ 0) :
    ∃ g' tmp', init MEGA sm g tmp = .ok (g', tmp') ∧
      g'.sorted_nodes_.map NodeState.static = g.sorted_nodes_.map NodeState.static ∧
      ArmedAt g' 0 (cnt MEGA sm g.sorted_nodes_ 0) 0 := by
  unfold cnt at h0
  cases hn : g.sorted_nodes_[0]? with
  | none => rw [hn] at h0; exact absurd rfl h0
  | some nd =>
    rw [hn] at h0
    simp only at h0
    have hfst := computeNumInvocations_fst MEGA sm tmp nd
    have hnode := computeNumInvocations_node MEGA sm tmp nd
    have hlt : 0 < g.sorted_nodes_.length := by
      by_contra hc
      rw [List.getElem?_eq_none (by omega)] at hn; cases hn
    refine ⟨⟨g.sorted_nodes_.set 0
        (arm (computeNumInvocations MEGA sm tmp nd).2.1 (countOf MEGA sm nd)), 0⟩,
        (computeNumInvocations MEGA sm tmp nd).2.2, ?_, ?_, ?_⟩
    · unfold init
      simp only [hn]
      rw [hfst, if_neg h0]
    · exact map_static_set _ _ nd _ hn (by rw [static_arm]; exact hnode.1)
    · refine ⟨rfl, _, List.getElem?_set_self hlt, ?_, rfl, ?_⟩
      · simp [arm, cnt, hn]
      · simp [arm, cnt, hn]

/-- `init` fails its assertion when the entry node's count is zero. -/
theorem init_zero (MEGA : Nat) (sm : StateManager) (g : TaskGraph) (tmp : TmpAllocator)
    (nd : NodeState) (hn : g.sorted_nodes_[0]? = some nd) (h0 : countOf MEGA sm nd = 0) :
    init MEGA sm g tmp = .fault .assertFailed := by
  unfold init
  simp only [hn]
  rw [computeNumInvocations_fst, if_pos h0]

/-- A tick run by one block on a graph whose entry node has a non-zero count
finishes and presents exactly `traceFrom 0`. -/
theorem runTick_trace (MEGA : Nat) (sm : StateManager) (nodes : List NodeState)
    (tmp : TmpAllocator) (hM : 0 < MEGA) (hT : ∀ j, cnt MEGA sm nodes j + MEGA ≤ 2 ^ 32)
    (h0 : cnt MEGA sm nodes 0 ≠ 0) :
    ∃ fuel t, runTick MEGA sm (TaskGraph.new nodes) tmp fuel = some (.ok t) ∧
      t.presented = traceFrom MEGA sm nodes 0 ∧
      t.graph.cur_node_idx_ = nodes.length ∧ t.block.state = .Exit := by
  obtain ⟨g', tmp', hinit, hstat, hA⟩ := init_armed MEGA sm (TaskGraph.new nodes) tmp h0
  obtain ⟨fuel, t, h1, h2, h3, h4, _⟩ :=
    blockLoop_from MEGA sm nodes hT hM nodes.length ⟨g', tmp', BlockState.idle, []⟩ 0
      (by omega) hstat hA h0
  refine ⟨fuel, t, ?_, by simpa using h2, h3, h4⟩
  unfold runTick
  rw [hinit]
  exact h1

theorem mem_traceFrom (MEGA : Nat) (sm : StateManager) (nodes : List NodeState)
    (e : Nat × Nat × Int) :
    e ∈ traceFrom MEGA sm nodes 0 ↔
      ∃ k, k < cnt MEGA sm nodes e.1 ∧ e.2.1 = fid nodes e.1 ∧ e.2.2 = toInt32 k := by
  unfold traceFrom nodeTrace
  simp only [List.mem_flatMap, List.mem_map, List.mem_range', Nat.sub_zero]
  constructor
  · rintro ⟨j, ⟨i, hi, rfl⟩, k, ⟨i', hi', rfl⟩, rfl⟩
    simp only [Nat.zero_add, Nat.one_mul] at hi' ⊢
    exact ⟨i', hi', trivial, rfl⟩
  · rintro ⟨k, hk, h1, h2⟩
    have hj : e.1 < nodes.length := by
      by_contra hc
      simp [cnt, List.getElem?_eq_none (not_lt.1 hc)] at hk
    refine ⟨e.1, ⟨e.1, hj, by omega⟩, k, ⟨k, hk, by omega⟩, ?_⟩
    rcases e with ⟨a, b, c⟩
    simp only at h1 h2 ⊢
    rw [h1, h2]

theorem nodup_traceFrom (MEGA : Nat) (sm : StateManager) (nodes : List NodeState) :
    (traceFrom MEGA sm nodes 0).Nodup := by
  unfold traceFrom
  rw [List.nodup_flatMap]
  constructor
  · intro j _
    unfold nodeTrace
    refine List.Nodup.map_on ?_ (List.nodup_range' _ _)
    intro x hx y hy hxy
    simp only [List.mem_range'_1] at hx hy
    have hc := countOf_lt MEGA sm
    have hlt : cnt MEGA sm nodes j < 2 ^ 32 := by
      unfold cnt; split
      · exact hc _
      · norm_num
    simp only [Prod.mk.injEq, true_and] at hxy
    exact toInt32_injOn x y (by omega) (by omega) hxy
  · refine List.Pairwise.imp ?_ (List.nodup_range' _ _)
    intro a b hab
    simp only [Function.onFun, nodeTrace]
    intro e h1 h2
    simp only [List.mem_map] at h1 h2
    obtain ⟨_, _, rfl⟩ := h1
    obtain ⟨_, _, h⟩ := h2
    simp only [Prod.mk.injEq] at h
    exact hab h.1.symm

theorem cnt_parallelFor (MEGA f q : Nat) (hq : q < 2 ^ 32) (rest : List NodeState) :
    cnt MEGA exampleStore (parallelForNode f q :: rest) 0 = q := by
  simp only [cnt, countOf, computeNumInvocations, parallelForNode, exampleStore,
    List.getElem?_cons_zero]
  exact Nat.mod_eq_of_lt hq

/-- C1 (as stated, refuted). With entry node A over an empty query and node B
over a query of 5 entities, B's count is 5 but the tick never presents any
invocation: `init` fails its assertion, whatever the fuel. Also, with a count
of `2^31 + 1` and `MEGA = 256`, the tick finishes and presents the index
`2^31` only as the negative `int32_t` value `-2^31`. -/
theorem tick_completion_fails :
    (cnt 4 exampleStore [parallelForNode 7 0, parallelForNode 8 5] 1 = 5 ∧
      ∀ fuel, runTick 4 exampleStore (TaskGraph.new [parallelForNode 7 0, parallelForNode 8 5])
        ⟨0, 0⟩ fuel = some (.fault .assertFailed)) ∧
    (∃ fuel t, runTick 256 exampleStore (TaskGraph.new [parallelForNode 7 (2 ^ 31 + 1)])
        ⟨0, 0⟩ fuel = some (.ok t) ∧
      (0, 7, (-2 ^ 31 : Int)) ∈ t.presented ∧ (0, 7, (2 ^ 31 : Int)) ∉ t.presented) := by
  refine ⟨⟨by decide, fun fuel => rfl⟩, ?_⟩
  have hc : cnt 256 exampleStore [parallelForNode 7 (2 ^ 31 + 1)] 0 = 2 ^ 31 + 1 :=
    cnt_parallelFor 256 7 (2 ^ 31 + 1) (by norm_num) []
  have hf : fid [parallelForNode 7 (2 ^ 31 + 1)] 0 = 7 := rfl
  obtain ⟨fuel, t, h1, h2, _, _⟩ :=
    runTick_trace 256 exampleStore [parallelForNode 7 (2 ^ 31 + 1)] ⟨0, 0⟩ (by norm_num)
      (fun j => by
        rcases j with _ | j
        · rw [hc]; norm_num
        · simp [cnt])
      (by rw [hc]; norm_num)
  refine ⟨fuel, t, h1, ?_, ?_⟩
  · rw [h2, mem_traceFrom]
    refine ⟨2 ^ 31, by rw [hc]; norm_num, hf.symm, ?_⟩
    simp [toInt32]
  · rw [h2, mem_traceFrom]
    rintro ⟨k, hk, _, h3⟩
    simp only at hk h3
    rw [hc] at hk
    unfold toInt32 at h3
    have hk' : k % 2 ^ 32 = k := Nat.mod_eq_of_lt (by omega)
    rw [hk'] at h3
    split_ifs at h3 with h4
    · have : (k : Int) = 2 ^ 31 := h3.symm
      omega
    · have : (k : Int) - 2 ^ 32 = 2 ^ 31 := h3.symm
      omega

/-- C1 (amended). For every graph whose entry node computes a non-zero count
and whose counts satisfy `count + MEGA ≤ 2^32`, with a state store whose
answers are fixed, one tick run by a single block finishes with `Exit`, and
presents for every node every invocation index `k` below the node's count
exactly once (it occurs in the duplicate-free list of presented invocations),
as the `int32_t` value of `k` (which is `k` itself when the count
is at most `2^31`), and presents nothing else; in particular nothing for a
node whose count is zero. -/
theorem tick_completion (MEGA : Nat) (sm : StateManager) (nodes : List NodeState)
    (tmp : TmpAllocator) (hM : 0 < MEGA) (hT : ∀ j, cnt MEGA sm nodes j + MEGA ≤ 2 ^ 32)
    (h0 : cnt MEGA sm nodes 0 ≠ 0) :
    ∃ fuel t, runTick MEGA sm (TaskGraph.new nodes) tmp fuel = some (.ok t) ∧
      t.block.state = .Exit ∧ t.presented.Nodup ∧
      (∀ j k, k < cnt MEGA sm nodes j →
        (j, fid nodes j, toInt32 k) ∈ t.presented ∧
        (cnt MEGA sm nodes j ≤ 2 ^ 31 → toInt32 k = (k : Int))) ∧
      (∀ e ∈ t.presented, ∃ k, k < cnt MEGA sm nodes e.1 ∧ e.2.1 = fid nodes e.1 ∧
        e.2.2 = toInt32 k) := by
  obtain ⟨fuel, t, h1, h2, _, h4⟩ := runTick_trace MEGA sm nodes tmp hM hT h0
  refine ⟨fuel, t, h1, h4, by rw [h2]; exact nodup_traceFrom MEGA sm nodes, ?_, ?_⟩
  · intro j k hk
    refine ⟨?_, fun hle => toInt32_of_lt k (by omega)⟩
    rw [h2]
    exact (mem_traceFrom MEGA sm nodes (j, fid nodes j, toInt32 k)).2 ⟨k, hk, rfl, rfl⟩
  · intro e he
    rw [h2] at he
    exact (mem_traceFrom MEGA sm nodes e).1 he

theorem tick_completion_witness :
    ∃ fuel t, runTick 4 exampleStore
        (TaskGraph.new [parallelForNode 7 10, parallelForNode 8 0, parallelForNode 9 5])
        ⟨0, 0⟩ fuel = some (.ok t) ∧
      t.block.state = .Exit ∧ t.presented.Nodup ∧
      (∀ j k, k < cnt 4 exampleStore
          [parallelForNode 7 10, parallelForNode 8 0, parallelForNode 9 5] j →
        (j, fid [parallelForNode 7 10, parallelForNode 8 0, parallelForNode 9 5] j,
            toInt32 k) ∈ t.presented ∧
        (cnt 4 exampleStore [parallelForNode 7 10, parallelForNode 8 0, parallelForNode 9 5] j
          ≤ 2 ^ 31 → toInt32 k = (k : Int))) ∧
      (∀ e ∈ t.presented, ∃ k,
        k < cnt 4 exampleStore
          [parallelForNode 7 10, parallelForNode 8 0, parallelForNode 9 5] e.1 ∧
        e.2.1 = fid [parallelForNode 7 10, parallelForNode 8 0, parallelForNode 9 5] e.1 ∧
        e.2.2 = toInt32 k) :=
  tick_completion 4 exampleStore
    [parallelForNode 7 10, parallelForNode 8 0, parallelForNode 9 5] ⟨0, 0⟩ (by decide)
    (fun j => by
      rcases j with _ | _ | _ | j <;>
        simp [cnt, countOf, computeNumInvocations, parallelForNode, exampleStore])
    (by decide)

theorem sum_map_set {α : Type} (f : α → Nat) (l : List α) (b : Nat) (x a : α)
    (h : l[b]? = some a) : ((l.set b x).map f).sum + f a = (l.map f).sum + f x := by
  induction l generalizing b with
  | nil => simp at h
  | cons y ys ih =>
    cases b with
    | zero =>
      simp only [List.getElem?_cons_zero, Option.some.injEq] at h
      subst h
      simp only [List.set_cons_zero, List.map_cons, List.sum_cons]
      omega
    | succ b =>
      simp only [List.getElem?_cons_succ] at h
      have := ih b h
      simp only [List.set_cons_succ, List.map_cons, List.sum_cons]
      omega

theorem mem_of_getElem? {α : Type} {l : List α} {b : Nat} {a : α} (h : l[b]? = some a) :
    a ∈ l := List.mem_iff_getElem?.2 ⟨b, h⟩

theorem getElem?_lt {α : Type} {l : List α} {b : Nat} {a : α} (h : l[b]? = some a) :
    b < l.length := by
  by_contra hc
  rw [List.getElem?_eq_none (by omega)] at h; cases h

/-- `getWork` by a block that holds no tile keeps the accounting invariant and
leaves the cursor where it is. -/
theorem setBlockState_inv (MEGA : Nat) (sm : StateManager) (nodes : List NodeState)
    (hT : ∀ j, cnt MEGA sm nodes j + MEGA ≤ 2 ^ 32)
    (s : Sched) (b : Nat) (blk : Block) (hb : s.blocks[b]? = some blk)
    (hrun : blk.running = false) (hinv : SchedInv MEGA sm nodes s) :
    ∃ g bs, setBlockState MEGA s.graph blk.shared = .ok (g, bs) ∧
      g.cur_node_idx_ = s.graph.cur_node_idx_ ∧
      SchedInv MEGA sm nodes
        { s with graph := g, blocks := s.blocks.set b ⟨bs, decide (bs.state = .Run)⟩ } := by
  have hlen : s.graph.sorted_nodes_.length = nodes.length := by
    simpa using congrArg List.length hinv.statics
  have htc0 : tileCount MEGA blk = 0 := by simp [tileCount, hrun]
  -- replacing the block by one that holds no tile changes nothing
  have hidle : ∀ bs' : BlockState, bs'.state ≠ .Run →
      SchedInv MEGA sm nodes
        { s with blocks := s.blocks.set b ⟨bs', decide (bs'.state = .Run)⟩ } := by
    intro bs' hne
    have hdec : decide (bs'.state = .Run) = false := by simp [hne]
    have hout : outstanding MEGA
        { s with blocks := s.blocks.set b ⟨bs', decide (bs'.state = .Run)⟩ } =
        outstanding MEGA s := by
      have := sum_map_set (tileCount MEGA) s.blocks b ⟨bs', decide (bs'.state = .Run)⟩ blk hb
      simp only [outstanding]
      rw [htc0] at this
      have h0 : tileCount MEGA ⟨bs', decide (bs'.state = .Run)⟩ = 0 := by
        simp [tileCount, hdec]
      rw [h0] at this
      omega
    refine ⟨hinv.statics, hinv.cursor_le, hinv.others, ?_, ?_⟩
    · intro nd hnd
      rw [hout]
      exact hinv.current nd hnd
    · intro blk' hmem hr
      rcases List.mem_or_eq_of_mem_set hmem with h | h
      · exact hinv.holders blk' h hr
      · rw [h] at hr; simp [hdec] at hr
  unfold setBlockState
  by_cases hend : s.graph.cur_node_idx_ = s.graph.num_nodes_
  · rw [if_pos hend]
    exact ⟨_, _, rfl, rfl, hidle _ (by simp)⟩
  · rw [if_neg hend]
    have hclt : s.graph.cur_node_idx_ < s.graph.sorted_nodes_.length := by
      have := hinv.cursor_le
      simp only [num_nodes_] at hend
      omega
    have hnd : s.graph.sorted_nodes_[s.graph.cur_node_idx_]? =
        some s.graph.sorted_nodes_[s.graph.cur_node_idx_] := List.getElem?_eq_getElem hclt
    set nd := s.graph.sorted_nodes_[s.graph.cur_node_idx_] with hndef
    simp only [hnd]
    obtain ⟨hc1, hc2, hc4, hc3⟩ := hinv.current nd hnd
    by_cases hloop : nd.curOffset ≥ nd.totalNumInvocations
    · rw [if_pos hloop]
      exact ⟨_, _, rfl, rfl, hidle _ (by simp)⟩
    · rw [if_neg hloop, if_neg hloop]
      refine ⟨_, _, rfl, rfl, ?_⟩
      have hTj := hT s.graph.cur_node_idx_
      have hlt : nd.curOffset < nd.totalNumInvocations := by omega
      have hadd : add32 nd.curOffset MEGA = nd.curOffset + MEGA :=
        add32_of_lt _ _ (by omega)
      have hmin1 : min nd.curOffset nd.totalNumInvocations = nd.curOffset :=
        min_eq_left (by omega)
      have harith : nd.totalNumInvocations - nd.curOffset =
          (nd.totalNumInvocations - min (nd.curOffset + MEGA) nd.totalNumInvocations) +
            min (nd.totalNumInvocations - nd.curOffset) MEGA := by
        rcases Nat.le_total (nd.totalNumInvocations - nd.curOffset) MEGA with h | h
        · rw [min_eq_left h, min_eq_right (by omega)]
          omega
        · rw [min_eq_right h, min_eq_left (by omega)]
          omega
      set bsRun : BlockState :=
        ⟨.Run, s.graph.cur_node_idx_, nd.totalNumInvocations, nd.info.funcID, nd.curOffset⟩
        with hbsRun
      set nd1 : NodeState := { nd with curOffset := add32 nd.curOffset MEGA } with hnd1
      show SchedInv MEGA sm nodes
        ⟨⟨s.graph.sorted_nodes_.set s.graph.cur_node_idx_ nd1, s.graph.cur_node_idx_⟩, s.tmp,
          s.blocks.set b ⟨bsRun, true⟩⟩
      have h0 : tileCount MEGA ⟨bsRun, true⟩ =
          min (nd.totalNumInvocations - nd.curOffset) MEGA := by
        simp [tileCount, hbsRun]
      have hsum := sum_map_set (tileCount MEGA) s.blocks b ⟨bsRun, true⟩ blk hb
      rw [htc0, h0, Nat.add_zero] at hsum
      refine ⟨?_, hinv.cursor_le, ?_, ?_, ?_⟩
      · show (s.graph.sorted_nodes_.set s.graph.cur_node_idx_ nd1).map NodeState.static = _
        rw [map_static_set _ _ nd nd1 hnd rfl]
        exact hinv.statics
      · intro i nd' hi hnd'
        simp only at hi hnd'
        rw [List.getElem?_set_ne (Ne.symm hi)] at hnd'
        exact hinv.others i nd' hi hnd'
      · intro nd' hnd'
        simp only at hnd'
        rw [List.getElem?_set_self hclt] at hnd'
        cases hnd'
        show nd.totalNumInvocations = _ ∧ add32 nd.curOffset MEGA < nd.totalNumInvocations + MEGA ∧
          nd.numRemaining ≤ nd.totalNumInvocations ∧
          nd.numRemaining = (nd.totalNumInvocations -
            min (add32 nd.curOffset MEGA) nd.totalNumInvocations) +
            (List.map (tileCount MEGA) (s.blocks.set b ⟨bsRun, true⟩)).sum
        rw [hadd, hsum]
        refine ⟨hc1, by omega, hc4, ?_⟩
        rw [hc3, hmin1]
        show _ = _ + ((s.blocks.map (tileCount MEGA)).sum + _)
        have hout : outstanding MEGA s = (s.blocks.map (tileCount MEGA)).sum := rfl
        rw [hout]
        generalize (s.blocks.map (tileCount MEGA)).sum = o
        generalize min (nd.totalNumInvocations - nd.curOffset) MEGA = c at harith ⊢
        generalize min (nd.curOffset + MEGA) nd.totalNumInvocations = c' at harith ⊢
        omega
      · intro blk' hmem hr
        simp only at hmem ⊢
        rcases List.mem_or_eq_of_mem_set hmem with h | h
        · exact hinv.holders blk' h hr
        · rw [h]
          exact ⟨rfl, by omega, hc1, hlt⟩

theorem le_sum_map_of_mem {α : Type} (f : α → Nat) (l : List α) (x : α) (h : x ∈ l) :
    f x ≤ (l.map f).sum := by
  induction l with
  | nil => cases h
  | cons y ys ih =>
    simp only [List.map_cons, List.sum_cons]
    rcases List.mem_cons.1 h with rfl | h'
    · omega
    · have := ih h'; omega

/-- `finishWork` by a block that holds a tile keeps the accounting invariant
and never moves the cursor backwards. -/
theorem finishWork_inv (MEGA : Nat) (sm : StateManager) (nodes : List NodeState)
    (hM : 0 < MEGA) (hT : ∀ j, cnt MEGA sm nodes j + MEGA ≤ 2 ^ 32)
    (s : Sched) (b : Nat) (blk : Block) (hb : s.blocks[b]? = some blk)
    (hrun : blk.running = true) (hinv : SchedInv MEGA sm nodes s) :
    ∃ g tmp, finishWork MEGA sm s.graph s.tmp blk.shared = .ok (g, tmp) ∧
      s.graph.cur_node_idx_ ≤ g.cur_node_idx_ ∧
      SchedInv MEGA sm nodes ⟨g, tmp, s.blocks.set b { blk with running := false }⟩ := by
  have hlen : s.graph.sorted_nodes_.length = nodes.length := by
    simpa using congrArg List.length hinv.statics
  obtain ⟨hidx, hjlt, hnum, hbase⟩ := hinv.holders blk (mem_of_getElem? hb) hrun
  have hclt : s.graph.cur_node_idx_ < s.graph.sorted_nodes_.length := by omega
  have hnd : s.graph.sorted_nodes_[s.graph.cur_node_idx_]? =
      some s.graph.sorted_nodes_[s.graph.cur_node_idx_] := List.getElem?_eq_getElem hclt
  set nd := s.graph.sorted_nodes_[s.graph.cur_node_idx_] with hndef
  obtain ⟨hc1, hc2, hc4, hc3⟩ := hinv.current nd hnd
  have hTj := hT s.graph.cur_node_idx_
  set T := cnt MEGA sm nodes s.graph.cur_node_idx_ with hTdef
  have hsub : sub32 blk.shared.numInvocations blk.shared.runOffset =
      blk.shared.numInvocations - blk.shared.runOffset :=
    sub32_of_le _ _ (by omega) (by omega)
  have hMmod : MEGA % 2 ^ 32 = MEGA := Nat.mod_eq_of_lt (by omega)
  set c := min (blk.shared.numInvocations - blk.shared.runOffset) MEGA with hcdef
  have hcpos : 0 < c := by
    rw [hcdef]; exact lt_min (by omega) hM
  have htc : tileCount MEGA blk = c := by simp [tileCount, hrun, hcdef]
  have htc0 : tileCount MEGA { blk with running := false } = 0 := by simp [tileCount]
  obtain ⟨blocks', hblocks'⟩ : ∃ bl, bl = s.blocks.set b { blk with running := false } :=
    ⟨_, rfl⟩
  obtain ⟨o', ho'⟩ : ∃ o', o' = (blocks'.map (tileCount MEGA)).sum := ⟨_, rfl⟩
  obtain ⟨u, hu⟩ : ∃ u, u = nd.totalNumInvocations - min nd.curOffset nd.totalNumInvocations :=
    ⟨_, rfl⟩
  have hprev : nd.numRemaining = u + o' + c := by
    have hsum := sum_map_set (tileCount MEGA) s.blocks b { blk with running := false } blk hb
    rw [htc, htc0, Nat.add_zero, ← hblocks', ← ho'] at hsum
    have hout : outstanding MEGA s = (s.blocks.map (tileCount MEGA)).sum := rfl
    rw [hc3, hout, ← hsum, ← hu]
    clear * -
    omega
  have hsub2 : sub32 nd.numRemaining c = nd.numRemaining - c :=
    sub32_of_le _ _ (by omega) (by clear * - hprev; omega)
  set nd2 : NodeState := { nd with numRemaining := sub32 nd.numRemaining c } with hnd2
  set g2 : TaskGraph :=
    ⟨s.graph.sorted_nodes_.set s.graph.cur_node_idx_ nd2, s.graph.cur_node_idx_⟩ with hg2
  have hstat2 : g2.sorted_nodes_.map NodeState.static = nodes.map NodeState.static := by
    show (s.graph.sorted_nodes_.set s.graph.cur_node_idx_ nd2).map NodeState.static = _
    rw [map_static_set _ _ nd nd2 hnd rfl]
    exact hinv.statics
  have hlen2 : g2.sorted_nodes_.length = nodes.length := by
    simpa using congrArg List.length hstat2
  have hholders' : ∀ blk', blk' ∈ blocks' → blk'.running = true →
      blk' ∈ s.blocks := by
    intro blk' hmem hr
    rw [hblocks'] at hmem
    rcases List.mem_or_eq_of_mem_set hmem with h | h
    · exact h
    · rw [h] at hr; cases hr
  unfold finishWork
  simp only [hidx, hnd, hsub, hMmod]
  rw [← hblocks']
  by_cases hlast : nd.numRemaining = c
  · rw [if_pos hlast]
    have hzero : o' = 0 := by clear * - hprev hlast; omega
    have hu0 : u = 0 := by clear * - hprev hlast; omega
    have hnone : ∀ blk', blk' ∈ blocks' → blk'.running = false := by
      intro blk' hmem
      by_contra hr
      have hr' : blk'.running = true := by simpa using hr
      have h1 := le_sum_map_of_mem (tileCount MEGA) blocks' blk' hmem
      obtain ⟨_, _, h2, h3⟩ := hinv.holders blk' (hholders' blk' hmem hr') hr'
      have h4 : 0 < tileCount MEGA blk' := by
        simp only [tileCount, hr', if_true]
        exact lt_min (by omega) hM
      rw [← ho', hzero] at h1
      clear * - h1 h4
      omega
    obtain ⟨m, h1, h2, h3, h4, h5, h6, h7⟩ :=
      advance_spec MEGA sm (s.graph.num_nodes_ - s.graph.cur_node_idx_)
        (s.graph.cur_node_idx_ + 1) g2 s.tmp
        (by simp only [num_nodes_]; rw [hlen2, hlen]; omega) (by rw [hlen2]; omega)
    refine ⟨_, _, rfl, by rw [h3]; omega, ?_⟩
    refine ⟨by rw [h7, hstat2], by rw [h3, ← hlen2]; exact h2, ?_, ?_, ?_⟩
    · intro i nd' hi hnd'
      simp only at hi hnd'
      rw [h3] at hi
      rw [h6 i hi] at hnd'
      by_cases hij : i = s.graph.cur_node_idx_
      · rw [hij] at hnd'
        simp only [hg2, List.getElem?_set_self hclt, Option.some.injEq] at hnd'
        rw [← hnd', hnd2]
        simp only
        rw [hsub2]; clear * - hlast; omega
      · simp only [hg2] at hnd'
        rw [List.getElem?_set_ne (Ne.symm hij)] at hnd'
        exact hinv.others i nd' hij hnd'
    · intro nd' hnd'
      simp only at hnd' ⊢
      rw [h3] at hnd' ⊢
      have hmlt : m < g2.sorted_nodes_.length := by
        have h8 := congrArg List.length h7
        simp only [List.length_map] at h8
        exact lt_of_lt_of_eq (getElem?_lt hnd') h8
      obtain ⟨hne, _, nd'', hnd'', ht, ho, hr⟩ := h5 hmlt
      rw [hnd'] at hnd''
      cases hnd''
      rw [(cnt_congr MEGA sm _ _ hstat2 m).1] at ht hr
      refine ⟨ht, by omega, by omega, ?_⟩
      show nd'.numRemaining = _ + (blocks'.map (tileCount MEGA)).sum
      rw [← ho', hzero, ho, hr, ht]
      simp
    · intro blk' hmem hr
      have := hnone blk' hmem
      rw [this] at hr; cases hr
  · rw [if_neg hlast]
    refine ⟨_, _, rfl, le_rfl, ?_⟩
    refine ⟨hstat2, hinv.cursor_le, ?_, ?_, ?_⟩
    · intro i nd' hi hnd'
      simp only [hg2] at hi hnd'
      rw [List.getElem?_set_ne (Ne.symm hi)] at hnd'
      exact hinv.others i nd' hi hnd'
    · intro nd' hnd'
      simp only [hg2, List.getElem?_set_self hclt, Option.some.injEq] at hnd'
      rw [← hnd']
      show nd.totalNumInvocations = _ ∧ nd.curOffset < _ ∧
        sub32 nd.numRemaining c ≤ nd.totalNumInvocations ∧
        sub32 nd.numRemaining c = _ + (blocks'.map (tileCount MEGA)).sum
      rw [hsub2, ← ho', ← hu]
      refine ⟨hc1, hc2, by clear * - hc4; omega, by clear * - hprev; omega⟩
    · intro blk' hmem hr
      exact hinv.holders blk' (hholders' blk' hmem hr) hr

/-- Every step of every block keeps the accounting invariant, does not fault,
and does not move the cursor backwards. -/
theorem stepBlock_inv (MEGA : Nat) (sm : StateManager) (nodes : List NodeState)
    (hM : 0 < MEGA) (hT : ∀ j, cnt MEGA sm nodes j + MEGA ≤ 2 ^ 32)
    (s : Sched) (b : Nat) (hinv : SchedInv MEGA sm nodes s) :
    ∃ s', stepBlock MEGA sm s b = .ok s' ∧ SchedInv MEGA sm nodes s' ∧
      s.graph.cur_node_idx_ ≤ s'.graph.cur_node_idx_ := by
  unfold stepBlock
  cases hb : s.blocks[b]? with
  | none => exact ⟨s, rfl, hinv, le_rfl⟩
  | some blk =>
    simp only
    by_cases hrun : blk.running = true
    · rw [if_pos hrun]
      obtain ⟨g, tmp, h1, h2, h3⟩ := finishWork_inv MEGA sm nodes hM hT s b blk hb hrun hinv
      rw [h1]
      exact ⟨_, rfl, h3, h2⟩
    · rw [if_neg hrun]
      by_cases hex : blk.shared.state = .Exit
      · rw [if_pos hex]
        exact ⟨s, rfl, hinv, le_rfl⟩
      · rw [if_neg hex]
        obtain ⟨g, bs, h1, h2, h3⟩ :=
          setBlockState_inv MEGA sm nodes hT s b blk hb (by simpa using hrun) hinv
        rw [h1]
        exact ⟨_, rfl, h3, by simp only; rw [h2]⟩

theorem runSchedule_inv (MEGA : Nat) (sm : StateManager) (nodes : List NodeState)
    (hM : 0 < MEGA) (hT : ∀ j, cnt MEGA sm nodes j + MEGA ≤ 2 ^ 32)
    (sched : List Nat) (s : Sched) (hinv : SchedInv MEGA sm nodes s) :
    ∃ s', runSchedule MEGA sm s sched = .ok s' ∧ SchedInv MEGA sm nodes s' ∧
      s.graph.cur_node_idx_ ≤ s'.graph.cur_node_idx_ := by
  induction sched generalizing s with
  | nil => exact ⟨s, rfl, hinv, le_rfl⟩
  | cons b rest ih =>
    obtain ⟨s1, h1, h2, h3⟩ := stepBlock_inv MEGA sm nodes hM hT s b hinv
    obtain ⟨s2, h4, h5, h6⟩ := ih s1 h2
    refine ⟨s2, ?_, h5, le_trans h3 h6⟩
    simp only [runSchedule, h1]
    exact h4

theorem outstanding_replicate (MEGA : Nat) (g : TaskGraph) (tmp : TmpAllocator) (n : Nat) :
    outstanding MEGA ⟨g, tmp, List.replicate n ⟨BlockState.idle, false⟩⟩ = 0 := by
  simp [outstanding, tileCount]

/-- The state in which all blocks pass the barrier satisfies the accounting
invariant, provided no node had invocations remaining before `init`. -/
theorem startTick_inv (MEGA : Nat) (sm : StateManager) (nodes : List NodeState)
    (tmp : TmpAllocator) (numBlocks : Nat) (hM : 0 < MEGA)
    (hzero : ∀ nd, nd ∈ nodes → nd.numRemaining = 0)
    (s0 : Sched) (hstart : startTick MEGA sm (TaskGraph.new nodes) tmp numBlocks = .ok s0) :
    SchedInv MEGA sm nodes s0 := by
  unfold startTick init at hstart
  simp only [TaskGraph.new] at hstart
  cases hn : nodes[0]? with
  | none => simp [hn] at hstart
  | some nd =>
    simp only [hn] at hstart
    rw [computeNumInvocations_fst] at hstart
    by_cases hc : countOf MEGA sm nd = 0
    · simp [hc] at hstart
    · rw [if_neg hc] at hstart
      simp only [Res.ok.injEq] at hstart
      subst hstart
      have hlt := getElem?_lt hn
      have hnode := computeNumInvocations_node MEGA sm tmp nd
      have hcnt : cnt MEGA sm nodes 0 = countOf MEGA sm nd := by simp [cnt, hn]
      refine ⟨?_, by simp, ?_, ?_, ?_⟩
      · exact map_static_set _ _ nd _ hn (by rw [static_arm]; exact hnode.1)
      · intro i nd' hi hnd'
        simp only at hi hnd'
        rw [List.getElem?_set_ne (Ne.symm hi)] at hnd'
        exact hzero nd' (mem_of_getElem? hnd')
      · intro nd' hnd'
        simp only at hnd'
        rw [List.getElem?_set_self hlt] at hnd'
        cases hnd'
        rw [outstanding_replicate]
        simp only [arm, hcnt]
        refine ⟨trivial, by omega, le_rfl, by simp⟩
      · intro blk hmem hr
        simp only at hmem
        rw [List.eq_of_mem_replicate hmem] at hr
        cases hr

/-- C2. Ordering guarantee, for any number of blocks and any interleaving of
their `getWork` and `finishWork` calls (each one atomic), with counts that
satisfy `count + MEGA ≤ 2^32` and no invocations remaining when the tick
starts: no step faults; no step moves the cursor backwards; whenever `getWork`
hands a block a tile, it is a tile of the current node at some position `j`,
and every node at a position below `j` has `numRemaining = 0`; and when the
graph came out of `build()`, every dependency of the node at position `j`
sits at a position below `j` and has `numRemaining = 0`. -/
theorem tick_ordering (MEGA : Nat) (sm : StateManager) (nodes : List NodeState)
    (tmp : TmpAllocator) (numBlocks : Nat) (hM : 0 < MEGA)
    (hT : ∀ j, cnt MEGA sm nodes j + MEGA ≤ 2 ^ 32)
    (hzero : ∀ nd, nd ∈ nodes → nd.numRemaining = 0)
    (s0 : Sched) (hstart : startTick MEGA sm (TaskGraph.new nodes) tmp numBlocks = .ok s0)
    (pre : List Nat) (b : Nat) :
    ∃ s s', runSchedule MEGA sm s0 pre = .ok s ∧ stepBlock MEGA sm s b = .ok s' ∧
      s0.graph.cur_node_idx_ ≤ s.graph.cur_node_idx_ ∧
      s.graph.cur_node_idx_ ≤ s'.graph.cur_node_idx_ ∧
      ∀ blk blk', s.blocks[b]? = some blk → s'.blocks[b]? = some blk' →
        blk.running = false → blk'.running = true →
        blk'.shared.nodeIdx = s'.graph.cur_node_idx_ ∧
        (∀ i nd, i < blk'.shared.nodeIdx → s'.graph.sorted_nodes_[i]? = some nd →
          nd.numRemaining = 0) ∧
        (∀ (bld : Builder) (fuel : Nat) (order : List Nat),
          bld.build fuel = some (.built order nodes) →
          ∀ d, d ∈ bld.depsOf (order.getD blk'.shared.nodeIdx 0) →
            ∃ p nd, p < blk'.shared.nodeIdx ∧ order[p]? = some d ∧
              s'.graph.sorted_nodes_[p]? = some nd ∧ nd.numRemaining = 0) := by
  have hinv0 := startTick_inv MEGA sm nodes tmp numBlocks hM hzero s0 hstart
  obtain ⟨s, h1, h2, h3⟩ := runSchedule_inv MEGA sm nodes hM hT pre s0 hinv0
  obtain ⟨s', h4, h5, h6⟩ := stepBlock_inv MEGA sm nodes hM hT s b h2
  refine ⟨s, s', h1, h4, h3, h6, ?_⟩
  intro blk blk' _ hb' _ hr'
  obtain ⟨hidx, hlt, _, _⟩ := h5.holders blk' (mem_of_getElem? hb') hr'
  have hothers : ∀ i nd, i < blk'.shared.nodeIdx → s'.graph.sorted_nodes_[i]? = some nd →
      nd.numRemaining = 0 := by
    intro i nd hi hnd
    exact h5.others i nd (by omega) hnd
  refine ⟨hidx, hothers, ?_⟩
  intro bld fuel order hbuild d hd
  obtain ⟨ho, hn, _, hdeps⟩ := Builder.build_built bld fuel order nodes hbuild
  have hlen : nodes.length = bld.nodes_.length := by rw [hn]; simp
  have hjlt : blk'.shared.nodeIdx < bld.nodes_.length := by omega
  have hget : order.getD blk'.shared.nodeIdx 0 = blk'.shared.nodeIdx := by
    rw [ho]; simp [List.getD_eq_getElem?_getD, List.getElem?_range hjlt]
  rw [hget] at hd
  have hdlt := hdeps _ hjlt d hd
  have hlen' : s'.graph.sorted_nodes_.length = nodes.length := by
    simpa using congrArg List.length h5.statics
  have hdin : d < s'.graph.sorted_nodes_.length := by omega
  refine ⟨d, s'.graph.sorted_nodes_[d], hdlt, ?_, List.getElem?_eq_getElem hdin, ?_⟩
  · rw [ho]; exact List.getElem?_range (by omega)
  · exact hothers d _ hdlt (List.getElem?_eq_getElem hdin)

theorem exampleNodes_counts (j : Nat) : cnt 4 exampleStore exampleNodes j + 4 ≤ 2 ^ 32 := by
  rcases j with _ | _ | _ | j <;>
    simp [cnt, countOf, computeNumInvocations, parallelForNode, exampleStore, exampleNodes]

theorem tick_ordering_witness :
    ∃ s0, startTick 4 exampleStore (TaskGraph.new exampleNodes) ⟨0, 0⟩ 2 = .ok s0 ∧
    ∃ s s', runSchedule 4 exampleStore s0 [0, 1, 0] = .ok s ∧
      stepBlock 4 exampleStore s 1 = .ok s' ∧
      s0.graph.cur_node_idx_ ≤ s.graph.cur_node_idx_ ∧
      s.graph.cur_node_idx_ ≤ s'.graph.cur_node_idx_ ∧
      ∀ blk blk', s.blocks[1]? = some blk → s'.blocks[1]? = some blk' →
        blk.running = false → blk'.running = true →
        blk'.shared.nodeIdx = s'.graph.cur_node_idx_ ∧
        (∀ i nd, i < blk'.shared.nodeIdx → s'.graph.sorted_nodes_[i]? = some nd →
          nd.numRemaining = 0) ∧
        (∀ (bld : Builder) (fuel : Nat) (order : List Nat),
          bld.build fuel = some (.built order exampleNodes) →
          ∀ d, d ∈ bld.depsOf (order.getD blk'.shared.nodeIdx 0) →
            ∃ p nd, p < blk'.shared.nodeIdx ∧ order[p]? = some d ∧
              s'.graph.sorted_nodes_[p]? = some nd ∧ nd.numRemaining = 0) :=
  ⟨_, rfl, tick_ordering 4 exampleStore exampleNodes ⟨0, 0⟩ 2 (by decide) exampleNodes_counts
    (by decide) _ rfl [0, 1, 0] 1⟩

/-- C7 (as stated, refuted). A graph whose entry node is a `ResetTmpAllocator`
node (count zero) followed by a node with 5 invocations: the tick does not skip
the entry node, `init` fails its assertion. -/
theorem zero_entry_node_aborts :
    cnt 4 exampleStore [resetNode 3, parallelForNode 8 5] 0 = 0 ∧
    cnt 4 exampleStore [resetNode 3, parallelForNode 8 5] 1 = 5 ∧
    init 4 exampleStore (TaskGraph.new [resetNode 3, parallelForNode 8 5]) ⟨9, 0⟩ =
      .fault .assertFailed ∧
    ∀ fuel, runTick 4 exampleStore (TaskGraph.new [resetNode 3, parallelForNode 8 5]) ⟨9, 0⟩
      fuel = some (.fault .assertFailed) :=
  ⟨by decide, by decide, by decide, fun _ => rfl⟩

/-- C7 (amended). A node after the entry node that evaluates to zero
invocations is never an error: when a block finishes the last outstanding
tile of the node at position `j`, `finishWork` returns normally with the
cursor at the least later position whose count is non-zero, that node armed
with its count, or at the sentinel `num_nodes` when there is none; every node
in between has count zero and is left untouched. For the entry node `init`
asserts a non-zero count: it fails when node 0 evaluates to zero. -/
theorem zero_count_skipped (MEGA : Nat) (sm : StateManager) (g : TaskGraph)
    (tmp : TmpAllocator) (bs : BlockState) (nd : NodeState)
    (hn : g.sorted_nodes_[bs.nodeIdx]? = some nd)
    (hlast : nd.numRemaining = min (sub32 bs.numInvocations bs.runOffset) (MEGA % 2 ^ 32)) :
    (∃ g' tmp', finishWork MEGA sm g tmp bs = .ok (g', tmp') ∧
      bs.nodeIdx < g'.cur_node_idx_ ∧ g'.cur_node_idx_ ≤ g.num_nodes_ ∧
      (∀ i, bs.nodeIdx < i → i < g'.cur_node_idx_ →
        cnt MEGA sm g.sorted_nodes_ i = 0 ∧ g'.sorted_nodes_[i]? = g.sorted_nodes_[i]?) ∧
      (g'.cur_node_idx_ < g.num_nodes_ →
        cnt MEGA sm g.sorted_nodes_ g'.cur_node_idx_ ≠ 0 ∧
        ArmedAt g' g'.cur_node_idx_ (cnt MEGA sm g.sorted_nodes_ g'.cur_node_idx_) 0)) ∧
    (∀ nd0, g.sorted_nodes_[0]? = some nd0 → countOf MEGA sm nd0 = 0 →
      init MEGA sm g tmp = .fault .assertFailed) := by
  refine ⟨?_, fun nd0 h0 hc => init_zero MEGA sm g tmp nd0 h0 hc⟩
  have hjlt := getElem?_lt hn
  set nf := min (sub32 bs.numInvocations bs.runOffset) (MEGA % 2 ^ 32) with hnf
  set nd2 : NodeState := { nd with numRemaining := sub32 nd.numRemaining nf } with hnd2
  set g2 : TaskGraph := ⟨g.sorted_nodes_.set bs.nodeIdx nd2, g.cur_node_idx_⟩ with hg2
  have hstat2 : g2.sorted_nodes_.map NodeState.static = g.sorted_nodes_.map NodeState.static :=
    map_static_set _ _ nd nd2 hn rfl
  have hlen2 : g2.sorted_nodes_.length = g.sorted_nodes_.length := by simp [hg2]
  obtain ⟨m, h1, h2, h3, h4, h5, h6, h7⟩ :=
    advance_spec MEGA sm (g.num_nodes_ - bs.nodeIdx) (bs.nodeIdx + 1) g2 tmp
      (by simp only [num_nodes_]; rw [hlen2]; omega) (by rw [hlen2]; omega)
  refine ⟨(advance MEGA sm (g.num_nodes_ - bs.nodeIdx) (bs.nodeIdx + 1) g2 tmp).1,
    (advance MEGA sm (g.num_nodes_ - bs.nodeIdx) (bs.nodeIdx + 1) g2 tmp).2, ?_, ?_, ?_, ?_, ?_⟩
  · unfold finishWork
    simp only [hn]
    rw [if_pos hlast]
  · rw [h3]; omega
  · rw [h3]; simp only [num_nodes_]; rw [← hlen2]; exact h2
  · intro i hi1 hi2
    rw [h3] at hi2
    refine ⟨?_, ?_⟩
    · rw [← (cnt_congr MEGA sm _ _ hstat2 i).1]; exact h4 i (by omega) hi2
    · rw [h6 i (by omega)]
      simp only [hg2]
      rw [List.getElem?_set_ne (by omega)]
  · intro hm
    rw [h3] at hm ⊢
    simp only [num_nodes_] at hm
    have := h5 (by rw [hlen2]; exact hm)
    rw [(cnt_congr MEGA sm _ _ hstat2 m).1] at this
    exact this


theorem zero_count_skipped_witness :
    exampleSkipGraph.sorted_nodes_[(BlockState.mk .Run 0 3 7 0).nodeIdx]? =
      some ⟨⟨.ParallelFor, 7, { query := 3 }⟩, 4, 3, 3⟩ ∧
    (3 : Nat) = min (sub32 3 0) (4 % 2 ^ 32) ∧
    ((∃ g' tmp', finishWork 4 exampleStore exampleSkipGraph ⟨9, 0⟩ ⟨.Run, 0, 3, 7, 0⟩ =
        .ok (g', tmp') ∧
      (BlockState.mk .Run 0 3 7 0).nodeIdx < g'.cur_node_idx_ ∧
      g'.cur_node_idx_ ≤ exampleSkipGraph.num_nodes_ ∧
      (∀ i, (BlockState.mk .Run 0 3 7 0).nodeIdx < i → i < g'.cur_node_idx_ →
        cnt 4 exampleStore exampleSkipGraph.sorted_nodes_ i = 0 ∧
        g'.sorted_nodes_[i]? = exampleSkipGraph.sorted_nodes_[i]?) ∧
      (g'.cur_node_idx_ < exampleSkipGraph.num_nodes_ →
        cnt 4 exampleStore exampleSkipGraph.sorted_nodes_ g'.cur_node_idx_ ≠ 0 ∧
        ArmedAt g' g'.cur_node_idx_
          (cnt 4 exampleStore exampleSkipGraph.sorted_nodes_ g'.cur_node_idx_) 0)) ∧
    (∀ nd0, exampleSkipGraph.sorted_nodes_[0]? = some nd0 → countOf 4 exampleStore nd0 = 0 →
      init 4 exampleStore exampleSkipGraph ⟨9, 0⟩ = .fault .assertFailed)) :=
  ⟨by decide, by decide,
    zero_count_skipped 4 exampleStore exampleSkipGraph ⟨9, 0⟩ ⟨.Run, 0, 3, 7, 0⟩
      ⟨⟨.ParallelFor, 7, { query := 3 }⟩, 4, 3, 3⟩ (by decide) (by decide)⟩

end TaskGraph

namespace TaskGraph

/-- C21 (as stated, refuted). With nothing awaiting recycling
(`fetchRecyclableEntities` returns base 7, count 0), evaluating the count of a
`RecycleEntities` node whose payload holds the base 3 returns 0 and leaves the
payload at 3: the returned base is not stored. -/
theorem recycle_base_not_latched :
    computeNumInvocations 4
        ⟨fun q => q, fun _ => false, fun _ => 0, fun _ _ _ => false, fun _ => 0, (7, 0)⟩ ⟨0, 0⟩
        ⟨⟨.RecycleEntities, 5, { recycleBase := 3 }⟩, 0, 0, 0⟩ =
      (0, ⟨⟨.RecycleEntities, 5, { recycleBase := 3 }⟩, 0, 0, 0⟩, ⟨0, 0⟩) :=
  by decide

/-- C21 (amended). The invocation-count table, for a state store whose
answers are `uint32_t` values and `MEGA < 2^32`: `computeNumInvocations`
returns `numMatchingEntities(query)` for `ParallelFor`; 1 for
`ClearTemporaries`; `numArchetypeRows(archetype)` for `CompactArchetype` when
`isDirty(archetype)` and 0 otherwise; `MEGA` for `SortArchetypeSetup` when
`archetypeSetupSortState` reports a sort is needed and 0 otherwise; the sort
state's `numSortThreads` for `SortArchetypeHistogram` and
`SortArchetypeOnesweep`; `MEGA` for `SortArchetypePrefixSum`; the count
returned by `fetchRecyclableEntities` for `RecycleEntities`, where the
returned base is stored into the node's payload when the count is non-zero
and the payload is left as it is when the count is 0; and 0 for
`ResetTmpAllocator`, which resets the temporary allocator. In every case but
`RecycleEntities` the node is left as it is, and in every case but
`ResetTmpAllocator` so is the temporary allocator. -/
theorem invocation_count_table (MEGA : Nat) (sm : StateManager) (tmp : TmpAllocator)
    (node : NodeState) (hM : MEGA < 2 ^ 32)
    (hq : sm.numMatchingEntities node.info.data.query < 2 ^ 32)
    (hr : sm.numArchetypeRows node.info.data.archetypeID < 2 ^ 32)
    (hs : sm.numSortThreads node.info.data.archetypeID < 2 ^ 32)
    (hf : sm.fetchRecyclableEntities.2 < 2 ^ 32) :
    (node.info.type = .ParallelFor →
      computeNumInvocations MEGA sm tmp node =
        (sm.numMatchingEntities node.info.data.query, node, tmp)) ∧
    (node.info.type = .ClearTemporaries →
      computeNumInvocations MEGA sm tmp node = (1, node, tmp)) ∧
    (node.info.type = .CompactArchetype →
      computeNumInvocations MEGA sm tmp node =
        (if sm.isDirty node.info.data.archetypeID
          then sm.numArchetypeRows node.info.data.archetypeID else 0, node, tmp)) ∧
    (node.info.type = .SortArchetypeSetup →
      computeNumInvocations MEGA sm tmp node =
        (if sm.archetypeSetupSortState node.info.data.archetypeID node.info.data.columnIDX
            node.info.data.numPasses then MEGA else 0, node, tmp)) ∧
    (node.info.type = .SortArchetypeHistogram →
      computeNumInvocations MEGA sm tmp node =
        (sm.numSortThreads node.info.data.archetypeID, node, tmp)) ∧
    (node.info.type = .SortArchetypePrefixSum →
      computeNumInvocations MEGA sm tmp node = (MEGA, node, tmp)) ∧
    (node.info.type = .SortArchetypeOnesweep →
      computeNumInvocations MEGA sm tmp node =
        (sm.numSortThreads node.info.data.archetypeID, node, tmp)) ∧
    (node.info.type = .RecycleEntities →
      computeNumInvocations MEGA sm tmp node =
        (sm.fetchRecyclableEntities.2,
         if sm.fetchRecyclableEntities.2 = 0 then node
         else { node with info := { node.info with
           data := { node.info.data with recycleBase := sm.fetchRecyclableEntities.1 } } },
         tmp)) ∧
    (node.info.type = .ResetTmpAllocator →
      computeNumInvocations MEGA sm tmp node = (0, node, tmp.reset)) := by
  have eM := Nat.mod_eq_of_lt hM
  have eq := Nat.mod_eq_of_lt hq
  have er := Nat.mod_eq_of_lt hr
  have es := Nat.mod_eq_of_lt hs
  have ef := Nat.mod_eq_of_lt hf
  refine ⟨?_, ?_, ?_, ?_, ?_, ?_, ?_, ?_, ?_⟩ <;> intro ht <;> unfold computeNumInvocations <;>
    rw [ht] <;> simp only
  · rw [eq]
  · cases hd : sm.isDirty node.info.data.archetypeID
    · simp
    · simp only [Bool.not_true, Bool.false_eq_true, if_false, if_true, er]
  · cases hd : sm.archetypeSetupSortState node.info.data.archetypeID node.info.data.columnIDX
      node.info.data.numPasses
    · simp
    · simp only [if_true, eM]
  · rw [es]
  · rw [eM]
  · rw [es]
  · rw [ef]
    by_cases h0 : sm.fetchRecyclableEntities.2 = 0
    · simp [h0]
    · have : sm.fetchRecyclableEntities.2 > 0 := Nat.pos_of_ne_zero h0
      simp [h0, this]

theorem invocation_count_table_witness :
    (4 : Nat) < 2 ^ 32 ∧
    exampleStore.numMatchingEntities (parallelForNode 7 10).info.data.query < 2 ^ 32 ∧
    exampleStore.numArchetypeRows (parallelForNode 7 10).info.data.archetypeID < 2 ^ 32 ∧
    exampleStore.numSortThreads (parallelForNode 7 10).info.data.archetypeID < 2 ^ 32 ∧
    exampleStore.fetchRecyclableEntities.2 < 2 ^ 32 ∧
    ((parallelForNode 7 10).info.type = .ParallelFor →
      computeNumInvocations 4 exampleStore ⟨0, 0⟩ (parallelForNode 7 10) =
        (exampleStore.numMatchingEntities (parallelForNode 7 10).info.data.query,
          parallelForNode 7 10, ⟨0, 0⟩)) :=
  ⟨by decide, by decide, by decide, by decide, by decide,
    (invocation_count_table 4 exampleStore ⟨0, 0⟩ (parallelForNode 7 10) (by decide) (by decide)
      (by decide) (by decide) (by decide)).1⟩

end TaskGraph

namespace TaskGraph

theorem length_tileInvocations (MEGA j T f off : Nat) (hoff : off < T)
    (hT : T + MEGA ≤ 2 ^ 32) :
    (tileInvocations MEGA ⟨.Run, j, T, f, off⟩).length = min MEGA (T - off) := by
  rw [tileInvocations_run MEGA j T f off hoff hT]
  simp

/-- What `setBlockState` does, case by case, when the cursor is at most
`num_nodes` and the current node's total satisfies `total + MEGA ≤ 2^32`. -/
theorem setBlockState_spec (MEGA : Nat) (g : TaskGraph) (bs : BlockState)
    (hcur : g.cur_node_idx_ ≤ g.num_nodes_)
    (hT : ∀ nd, g.sorted_nodes_[g.cur_node_idx_]? = some nd →
      nd.totalNumInvocations + MEGA ≤ 2 ^ 32) :
    ∃ g' bs', setBlockState MEGA g bs = .ok (g', bs') ∧
      (bs'.state = .Exit ↔ g.cur_node_idx_ = g.num_nodes_) ∧
      (bs'.state = .Exit → g' = g) ∧
      ∀ nd, g.sorted_nodes_[g.cur_node_idx_]? = some nd →
        (bs'.state = .Loop ↔ nd.curOffset ≥ nd.totalNumInvocations) ∧
        (bs'.state = .Loop → g' = g) ∧
        (nd.curOffset < nd.totalNumInvocations →
          bs' = ⟨.Run, g.cur_node_idx_, nd.totalNumInvocations, nd.info.funcID,
            nd.curOffset⟩ ∧
          g' = ⟨g.sorted_nodes_.set g.cur_node_idx_
            ⟨nd.info, nd.curOffset + MEGA, nd.numRemaining, nd.totalNumInvocations⟩,
            g.cur_node_idx_⟩ ∧
          min (sub32 bs'.numInvocations bs'.runOffset) (MEGA % 2 ^ 32) =
            min MEGA (nd.totalNumInvocations - nd.curOffset) ∧
          (tileInvocations MEGA bs').length =
            min MEGA (nd.totalNumInvocations - nd.curOffset)) := by
  by_cases hex : g.cur_node_idx_ = g.num_nodes_
  · refine ⟨g, { bs with state := .Exit }, ?_, ?_, ?_, ?_⟩
    · unfold setBlockState
      simp only [if_pos hex]
    · simp [hex]
    · intro _; rfl
    · intro nd hnd
      have := getElem?_lt hnd
      simp only [num_nodes_] at hex
      omega
  · have hlt : g.cur_node_idx_ < g.sorted_nodes_.length := by
      simp only [num_nodes_] at hex hcur
      omega
    obtain ⟨nd, hnd⟩ : ∃ nd, g.sorted_nodes_[g.cur_node_idx_]? = some nd :=
      ⟨_, List.getElem?_eq_getElem hlt⟩
    have hTn := hT nd hnd
    by_cases hloop : nd.curOffset ≥ nd.totalNumInvocations
    · refine ⟨g, { bs with state := .Loop }, ?_, ?_, ?_, ?_⟩
      · unfold setBlockState
        simp only [if_neg hex, hnd, if_pos hloop]
      · simp [hex]
      · intro h; cases h
      · intro nd' hnd'
        rw [hnd] at hnd'
        cases hnd'
        refine ⟨by simp [hloop], fun _ => rfl, ?_⟩
        intro h
        omega
    · have hlt2 : nd.curOffset < nd.totalNumInvocations := by omega
      have hadd : add32 nd.curOffset MEGA = nd.curOffset + MEGA :=
        add32_of_lt _ _ (by omega)
      refine ⟨⟨g.sorted_nodes_.set g.cur_node_idx_
            ⟨nd.info, nd.curOffset + MEGA, nd.numRemaining, nd.totalNumInvocations⟩,
            g.cur_node_idx_⟩,
          ⟨.Run, g.cur_node_idx_, nd.totalNumInvocations, nd.info.funcID, nd.curOffset⟩,
          ?_, ?_, ?_, ?_⟩
      · unfold setBlockState
        simp only [if_neg hex, hnd, if_neg hloop, hadd]
      · simp [hex]
      · intro h; cases h
      · intro nd' hnd'
        rw [hnd] at hnd'
        cases hnd'
        refine ⟨?_, ?_, ?_⟩
        · simp only [ge_iff_le]
          constructor
          · intro h; cases h
          · intro h; omega
        · intro h; cases h
        · intro _
          refine ⟨rfl, rfl, ?_, ?_⟩
          · simp only
            rcases Nat.eq_zero_or_pos MEGA with h0 | h0
            · subst h0
              simp
            · rw [sub32_of_le _ _ (by omega) (by omega), Nat.mod_eq_of_lt (by omega)]
              exact Nat.min_comm _ _
          · exact length_tileInvocations MEGA _ _ _ _ hlt2 hTn

/-- C26: the dispatch step. With the cursor at most `num_nodes` and the
current node's total in the range `total + MEGA ≤ 2^32`, `setBlockState`
returns, and: it yields `Exit` exactly when the cursor equals the sentinel
`num_nodes`, and then changes nothing in the graph; otherwise, with `nd` the
current node, it yields `Loop` exactly when `nd.curOffset ≥ total`, and then
leaves the graph (so `curOffset`) unchanged; otherwise it yields `Run` with
`nodeIdx` = cursor, `numInvocations` = total, the node's function id and
`runOffset` = the old `curOffset`, the only change in the graph is that the
current node's `curOffset` is larger by exactly `MEGA`, and the number of
invocations of the tile, both as `finishWork` computes it and as the number
of lanes that run, is `min(MEGA, total - base)`. -/
theorem dispatch_step (MEGA : Nat) (g : TaskGraph) (bs : BlockState)
    (hcur : g.cur_node_idx_ ≤ g.num_nodes_)
    (hT : ∀ nd, g.sorted_nodes_[g.cur_node_idx_]? = some nd →
      nd.totalNumInvocations + MEGA ≤ 2 ^ 32) :
    ∃ g' bs', setBlockState MEGA g bs = .ok (g', bs') ∧
      (bs'.state = .Exit ↔ g.cur_node_idx_ = g.num_nodes_) ∧
      (bs'.state = .Exit → g' = g) ∧
      ∀ nd, g.sorted_nodes_[g.cur_node_idx_]? = some nd →
        (bs'.state = .Loop ↔ nd.curOffset ≥ nd.totalNumInvocations) ∧
        (bs'.state = .Loop → g' = g) ∧
        (nd.curOffset < nd.totalNumInvocations →
          bs' = ⟨.Run, g.cur_node_idx_, nd.totalNumInvocations, nd.info.funcID,
            nd.curOffset⟩ ∧
          g' = ⟨g.sorted_nodes_.set g.cur_node_idx_
            ⟨nd.info, nd.curOffset + MEGA, nd.numRemaining, nd.totalNumInvocations⟩,
            g.cur_node_idx_⟩ ∧
          min (sub32 bs'.numInvocations bs'.runOffset) (MEGA % 2 ^ 32) =
            min MEGA (nd.totalNumInvocations - nd.curOffset) ∧
          (tileInvocations MEGA bs').length =
            min MEGA (nd.totalNumInvocations - nd.curOffset)) :=
  setBlockState_spec MEGA g bs hcur hT

theorem dispatch_step_witness :
    exampleArmedGraph.cur_node_idx_ ≤ exampleArmedGraph.num_nodes_ ∧
    (∀ nd, exampleArmedGraph.sorted_nodes_[exampleArmedGraph.cur_node_idx_]? = some nd →
      nd.totalNumInvocations + 4 ≤ 2 ^ 32) ∧
    ∃ g' bs', setBlockState 4 exampleArmedGraph BlockState.idle = .ok (g', bs') ∧
      (bs'.state = .Exit ↔ exampleArmedGraph.cur_node_idx_ = exampleArmedGraph.num_nodes_) ∧
      (bs'.state = .Exit → g' = exampleArmedGraph) ∧
      ∀ nd, exampleArmedGraph.sorted_nodes_[exampleArmedGraph.cur_node_idx_]? = some nd →
        (bs'.state = .Loop ↔ nd.curOffset ≥ nd.totalNumInvocations) ∧
        (bs'.state = .Loop → g' = exampleArmedGraph) ∧
        (nd.curOffset < nd.totalNumInvocations →
          bs' = ⟨.Run, exampleArmedGraph.cur_node_idx_, nd.totalNumInvocations, nd.info.funcID,
            nd.curOffset⟩ ∧
          g' = ⟨exampleArmedGraph.sorted_nodes_.set exampleArmedGraph.cur_node_idx_
            ⟨nd.info, nd.curOffset + 4, nd.numRemaining, nd.totalNumInvocations⟩,
            exampleArmedGraph.cur_node_idx_⟩ ∧
          min (sub32 bs'.numInvocations bs'.runOffset) (4 % 2 ^ 32) =
            min 4 (nd.totalNumInvocations - nd.curOffset) ∧
          (tileInvocations 4 bs').length = min 4 (nd.totalNumInvocations - nd.curOffset)) :=
  have hT : ∀ nd, exampleArmedGraph.sorted_nodes_[exampleArmedGraph.cur_node_idx_]? = some nd →
      nd.totalNumInvocations + 4 ≤ 2 ^ 32 := by
    intro nd hnd
    have : nd = ⟨⟨.ParallelFor, 7, { query := 10 }⟩, 8, 2, 10⟩ := by
      simpa [exampleArmedGraph] using hnd.symm
    subst this
    decide
  ⟨by decide, hT, dispatch_step 4 exampleArmedGraph BlockState.idle (by decide) hT⟩

end TaskGraph

namespace TaskGraph

theorem length_filter_range_threshold (p : Nat → Bool) (M c : Nat)
    (hp : ∀ i, i < M → (p i = true ↔ i < c)) :
    ((List.range M).filter p).length = min c M := by
  induction M with
  | zero => simp
  | succ M ih =>
    rw [List.range_succ, List.filter_append, List.length_append,
      ih (fun i hi => hp i (by omega))]
    by_cases hMc : M < c
    · have : p M = true := (hp M (by omega)).2 hMc
      simp [this]
      omega
    · have : p M = false := by
        rw [Bool.eq_false_iff]
        exact fun h => hMc ((hp M (by omega)).1 h)
      simp [this]
      omega

theorem laneWork_run (MEGA : Nat) (bs : BlockState) (hrun : bs.state = .Run)
    (hT : bs.numInvocations + MEGA ≤ 2 ^ 32) (hb : bs.runOffset < bs.numInvocations)
    (i : Nat) (hi : i < MEGA) :
    laneWork bs i =
      if bs.runOffset + i < bs.numInvocations then
        (.Run, some (bs.nodeIdx, bs.funcID, toInt32 (bs.runOffset + i)))
      else (.PartialRun, none) := by
  unfold laneWork
  simp only [hrun, ne_eq, not_true_eq_false, if_false]
  rw [add32_of_lt _ _ (by omega), toUInt32_toInt32 _ (by omega)]
  by_cases h : bs.runOffset + i < bs.numInvocations
  · rw [if_neg (by omega), if_pos h]
  · rw [if_pos (by omega), if_neg h]

theorem numFinished_eq (MEGA T b : Nat) (hT : T + MEGA ≤ 2 ^ 32) (hb : b < T) :
    min (sub32 T b) (MEGA % 2 ^ 32) = min (T - b) MEGA := by
  rcases Nat.eq_zero_or_pos MEGA with h0 | h0
  · subst h0
    simp
  · rw [sub32_of_le _ _ (by omega) (by omega), Nat.mod_eq_of_lt (by omega)]

theorem finishWork_remaining (MEGA : Nat) (sm : StateManager) (g : TaskGraph)
    (tmp : TmpAllocator) (bs : BlockState) (nd : NodeState)
    (hn : g.sorted_nodes_[bs.nodeIdx]? = some nd) :
    ∃ g' tmp' nd', finishWork MEGA sm g tmp bs = .ok (g', tmp') ∧
      g'.sorted_nodes_[bs.nodeIdx]? = some nd' ∧
      nd'.numRemaining =
        sub32 nd.numRemaining (min (sub32 bs.numInvocations bs.runOffset) (MEGA % 2 ^ 32)) ∧
      nd'.curOffset = nd.curOffset ∧ nd'.totalNumInvocations = nd.totalNumInvocations := by
  have hjlt := getElem?_lt hn
  set nf := min (sub32 bs.numInvocations bs.runOffset) (MEGA % 2 ^ 32) with hnf
  set nd2 : NodeState := { nd with numRemaining := sub32 nd.numRemaining nf } with hnd2
  set g2 : TaskGraph := ⟨g.sorted_nodes_.set bs.nodeIdx nd2, g.cur_node_idx_⟩ with hg2
  have hlen2 : g2.sorted_nodes_.length = g.sorted_nodes_.length := by simp [hg2]
  have hg2n : g2.sorted_nodes_[bs.nodeIdx]? = some nd2 := by
    simp only [hg2]
    rw [List.getElem?_set_self hjlt]
  by_cases hlast : nd.numRemaining = nf
  · obtain ⟨m, h1, h2, h3, h4, h5, h6, h7⟩ :=
      advance_spec MEGA sm (g.num_nodes_ - bs.nodeIdx) (bs.nodeIdx + 1) g2 tmp
        (by simp only [num_nodes_]; rw [hlen2]; omega) (by rw [hlen2]; omega)
    refine ⟨(advance MEGA sm (g.num_nodes_ - bs.nodeIdx) (bs.nodeIdx + 1) g2 tmp).1,
      (advance MEGA sm (g.num_nodes_ - bs.nodeIdx) (bs.nodeIdx + 1) g2 tmp).2, nd2, ?_, ?_,
      rfl, rfl, rfl⟩
    · unfold finishWork
      simp only [hn]
      rw [if_pos hlast]
    · rw [h6 bs.nodeIdx (by omega), hg2n]
  · refine ⟨g2, tmp, nd2, ?_, hg2n, rfl, rfl, rfl⟩
    unfold finishWork
    simp only [hn]
    rw [if_neg hlast]

/-- C27 (as stated, refuted). A block in state `Run` with tile base
`b = 2^31` for a node with total `T = 2^31 + 1`: lane 0 has `b + 0 < T` and
gets `Run`, but the `run_offset` it is given is the `int32_t` value `-2^31`,
not `b + 0 = 2^31`. -/
theorem lane_offset_negative :
    (2 ^ 31 + 0 : Nat) < 2 ^ 31 + 1 ∧
    laneWork ⟨.Run, 0, 2 ^ 31 + 1, 7, 2 ^ 31⟩ 0 = (.Run, some (0, 7, (-2 ^ 31 : Int))) :=
  ⟨by decide, by decide⟩

/-- C27 (amended). Lane assignment. When a block's state is `Run` with tile
base `b` for a node with total `T` (`b < T`, `T + MEGA ≤ 2^32`), lane `i`
(`i < MEGA`) gets `Run` if `b + i < T` and `PartialRun` otherwise; the
`run_offset` of a lane that gets `Run` is the `int32_t` value of `b + i`,
which is `b + i` when `b + i < 2^31` and `b + i - 2^32` otherwise; the number
of lanes that get `Run` is `min(T - b, MEGA)`, which is the amount
`finishWork` computes and subtracts from the node's `numRemaining`. -/
theorem lane_assignment (MEGA : Nat) (bs : BlockState) (hrun : bs.state = .Run)
    (hb : bs.runOffset < bs.numInvocations) (hT : bs.numInvocations + MEGA ≤ 2 ^ 32) :
    (∀ i, i < MEGA →
      laneWork bs i =
        if bs.runOffset + i < bs.numInvocations then
          (.Run, some (bs.nodeIdx, bs.funcID, toInt32 (bs.runOffset + i)))
        else (.PartialRun, none)) ∧
    (∀ i, i < MEGA → bs.runOffset + i < bs.numInvocations →
      toInt32 (bs.runOffset + i) =
        if bs.runOffset + i < 2 ^ 31 then ((bs.runOffset + i : Nat) : Int)
        else ((bs.runOffset + i : Nat) : Int) - 2 ^ 32) ∧
    ((List.range MEGA).filter (fun i => decide ((laneWork bs i).1 = .Run))).length =
      min (bs.numInvocations - bs.runOffset) MEGA ∧
    ∀ (sm : StateManager) (g : TaskGraph) (tmp : TmpAllocator) (nd : NodeState),
      g.sorted_nodes_[bs.nodeIdx]? = some nd →
      ∃ g' tmp' nd', finishWork MEGA sm g tmp bs = .ok (g', tmp') ∧
        g'.sorted_nodes_[bs.nodeIdx]? = some nd' ∧
        nd'.numRemaining =
          sub32 nd.numRemaining (min (bs.numInvocations - bs.runOffset) MEGA) := by
  refine ⟨laneWork_run MEGA bs hrun hT hb, ?_, ?_, ?_⟩
  · intro i hi hlt
    unfold toInt32
    rw [Nat.mod_eq_of_lt (by omega)]
  · apply length_filter_range_threshold
    intro i hi
    rw [laneWork_run MEGA bs hrun hT hb i hi]
    by_cases h : bs.runOffset + i < bs.numInvocations
    · rw [if_pos h]
      simp
      omega
    · rw [if_neg h]
      simp
      omega
  · intro sm g tmp nd hn
    obtain ⟨g', tmp', nd', h1, h2, h3, _⟩ := finishWork_remaining MEGA sm g tmp bs nd hn
    rw [numFinished_eq MEGA _ _ hT hb] at h3
    exact ⟨g', tmp', nd', h1, h2, h3⟩

theorem lane_assignment_witness :
    (BlockState.mk .Run 0 10 7 8).state = .Run ∧
    (BlockState.mk .Run 0 10 7 8).runOffset < (BlockState.mk .Run 0 10 7 8).numInvocations ∧
    (BlockState.mk .Run 0 10 7 8).numInvocations + 4 ≤ 2 ^ 32 ∧
    (∀ i, i < 4 →
      laneWork ⟨.Run, 0, 10, 7, 8⟩ i =
        if (BlockState.mk .Run 0 10 7 8).runOffset + i <
            (BlockState.mk .Run 0 10 7 8).numInvocations then
          (.Run, some ((BlockState.mk .Run 0 10 7 8).nodeIdx,
            (BlockState.mk .Run 0 10 7 8).funcID,
            toInt32 ((BlockState.mk .Run 0 10 7 8).runOffset + i)))
        else (.PartialRun, none)) ∧
    ((List.range 4).filter
        (fun i => decide ((laneWork ⟨.Run, 0, 10, 7, 8⟩ i).1 = .Run))).length =
      min ((BlockState.mk .Run 0 10 7 8).numInvocations -
        (BlockState.mk .Run 0 10 7 8).runOffset) 4 :=
  ⟨by decide, by decide, by decide,
    (lane_assignment 4 ⟨.Run, 0, 10, 7, 8⟩ (by decide) (by decide) (by decide)).1,
    (lane_assignment 4 ⟨.Run, 0, 10, 7, 8⟩ (by decide) (by decide) (by decide)).2.2.1⟩

end TaskGraph

namespace TaskGraph

theorem tileOf_set (s : Sched) (b : Nat) (blk blk' : Block) (g : TaskGraph) (tmp : TmpAllocator)
    (hb : s.blocks[b]? = some blk) :
    tileOf s b ⟨g, tmp, s.blocks.set b blk'⟩ =
      if blk.running = false ∧ blk'.running = true then [blk'.shared] else [] := by
  unfold tileOf
  have hlt := getElem?_lt hb
  simp only [hb, List.getElem?_set_self hlt]

/-- A step of a block that holds no tile, under the accounting invariant:
either nothing changes in the graph and no tile is handed out, or the current
node hands out the tile at its `curOffset`, which moves on by `MEGA`. -/
theorem getWork_shape (MEGA : Nat) (sm : StateManager) (nodes : List NodeState)
    (hT : ∀ j, cnt MEGA sm nodes j + MEGA ≤ 2 ^ 32)
    (s : Sched) (b : Nat) (blk : Block) (hb : s.blocks[b]? = some blk)
    (hrun : blk.running = false) (hinv : SchedInv MEGA sm nodes s) :
    ∃ s', stepBlock MEGA sm s b = .ok s' ∧
      ((s'.graph = s.graph ∧ tileOf s b s' = []) ∨
        ∃ nd, s.graph.sorted_nodes_[s.graph.cur_node_idx_]? = some nd ∧
          nd.curOffset < nd.totalNumInvocations ∧
          nd.totalNumInvocations = cnt MEGA sm nodes s.graph.cur_node_idx_ ∧
          s'.graph = ⟨s.graph.sorted_nodes_.set s.graph.cur_node_idx_
            ⟨nd.info, nd.curOffset + MEGA, nd.numRemaining, nd.totalNumInvocations⟩,
            s.graph.cur_node_idx_⟩ ∧
          tileOf s b s' = [⟨.Run, s.graph.cur_node_idx_, nd.totalNumInvocations,
            nd.info.funcID, nd.curOffset⟩]) := by
  have hlen : s.graph.sorted_nodes_.length = nodes.length := by
    simpa using congrArg List.length hinv.statics
  unfold stepBlock
  simp only [hb, hrun, Bool.false_eq_true, if_false]
  by_cases hex : blk.shared.state = .Exit
  · rw [if_pos hex]
    refine ⟨s, rfl, Or.inl ⟨rfl, ?_⟩⟩
    unfold tileOf
    simp [hb, hrun]
  · rw [if_neg hex]
    have hcur : s.graph.cur_node_idx_ ≤ s.graph.num_nodes_ := by
      have := hinv.cursor_le
      simp only [num_nodes_]
      omega
    have hTc : ∀ nd, s.graph.sorted_nodes_[s.graph.cur_node_idx_]? = some nd →
        nd.totalNumInvocations + MEGA ≤ 2 ^ 32 := by
      intro nd hnd
      rw [(hinv.current nd hnd).1]
      exact hT _
    obtain ⟨g', bs', h1, h2, h3, h4⟩ := setBlockState_spec MEGA s.graph blk.shared hcur hTc
    rw [h1]
    simp only
    refine ⟨_, rfl, ?_⟩
    by_cases hend : s.graph.cur_node_idx_ = s.graph.num_nodes_
    · have hst := h2.2 hend
      left
      refine ⟨h3 hst, ?_⟩
      rw [tileOf_set s b blk _ _ _ hb]
      simp [hst]
    · have hclt : s.graph.cur_node_idx_ < s.graph.sorted_nodes_.length := by
        simp only [num_nodes_] at hend hcur
        omega
      obtain ⟨nd, hnd⟩ : ∃ nd, s.graph.sorted_nodes_[s.graph.cur_node_idx_]? = some nd :=
        ⟨_, List.getElem?_eq_getElem hclt⟩
      obtain ⟨h5, h6, h7⟩ := h4 nd hnd
      by_cases hloop : nd.curOffset ≥ nd.totalNumInvocations
      · have hst := h5.2 hloop
        left
        refine ⟨h6 hst, ?_⟩
        rw [tileOf_set s b blk _ _ _ hb]
        simp [hst]
      · obtain ⟨e1, e2, _, _⟩ := h7 (by omega)
        right
        refine ⟨nd, hnd, by omega, (hinv.current nd hnd).1, e2, ?_⟩
        rw [tileOf_set s b blk _ _ _ hb]
        simp [hrun, e1]

end TaskGraph

namespace TaskGraph

/-- A step of a block that holds a tile, under the accounting invariant:
`finishWork` subtracts the tile's count from the current node's
`numRemaining` without underflow; when something remains the cursor stays;
when nothing remains every invocation of the node has been handed out and the
cursor moves to the next node with a non-zero count, armed, or the sentinel. -/
theorem finishWork_shape (MEGA : Nat) (sm : StateManager) (nodes : List NodeState)
    (hM : 0 < MEGA) (hT : ∀ j, cnt MEGA sm nodes j + MEGA ≤ 2 ^ 32)
    (s : Sched) (b : Nat) (blk : Block) (hb : s.blocks[b]? = some blk)
    (hrun : blk.running = true) (hinv : SchedInv MEGA sm nodes s) :
    ∃ s' nd, stepBlock MEGA sm s b = .ok s' ∧
      s.graph.sorted_nodes_[s.graph.cur_node_idx_]? = some nd ∧
      blk.shared.nodeIdx = s.graph.cur_node_idx_ ∧
      numFinished MEGA blk.shared = tileCount MEGA blk ∧
      0 < tileCount MEGA blk ∧ tileCount MEGA blk ≤ nd.numRemaining ∧
      nd.numRemaining < 2 ^ 32 ∧
      tileOf s b s' = [] ∧
      s'.blocks = s.blocks.set b { blk with running := false } ∧
      s'.graph.sorted_nodes_[s.graph.cur_node_idx_]? =
        some ⟨nd.info, nd.curOffset, nd.numRemaining - tileCount MEGA blk,
          nd.totalNumInvocations⟩ ∧
      ((nd.numRemaining ≠ tileCount MEGA blk ∧ advanceOf MEGA s b = [] ∧
          s'.graph.cur_node_idx_ = s.graph.cur_node_idx_) ∨
        (nd.numRemaining = tileCount MEGA blk ∧ advanceOf MEGA s b = [s.graph.cur_node_idx_] ∧
          s.graph.cur_node_idx_ < s'.graph.cur_node_idx_ ∧
          nd.totalNumInvocations ≤ nd.curOffset ∧
          (∀ i, s.graph.cur_node_idx_ < i → i < s'.graph.cur_node_idx_ →
            cnt MEGA sm nodes i = 0) ∧
          (s'.graph.cur_node_idx_ < nodes.length →
            cnt MEGA sm nodes s'.graph.cur_node_idx_ ≠ 0 ∧
            ∃ nd', s'.graph.sorted_nodes_[s'.graph.cur_node_idx_]? = some nd' ∧
              nd'.curOffset = 0))) := by
  have hlen : s.graph.sorted_nodes_.length = nodes.length := by
    simpa using congrArg List.length hinv.statics
  obtain ⟨hidx, hjlt, hnum, hbase⟩ := hinv.holders blk (mem_of_getElem? hb) hrun
  have hclt : s.graph.cur_node_idx_ < s.graph.sorted_nodes_.length := by omega
  obtain ⟨nd, hnd⟩ : ∃ nd, s.graph.sorted_nodes_[s.graph.cur_node_idx_]? = some nd :=
    ⟨_, List.getElem?_eq_getElem hclt⟩
  obtain ⟨hc1, hc2, hc4, hc3⟩ := hinv.current nd hnd
  have hTj := hT s.graph.cur_node_idx_
  have hsub : sub32 blk.shared.numInvocations blk.shared.runOffset =
      blk.shared.numInvocations - blk.shared.runOffset :=
    sub32_of_le _ _ (by omega) (by omega)
  have hMmod : MEGA % 2 ^ 32 = MEGA := Nat.mod_eq_of_lt (by omega)
  have htc : tileCount MEGA blk = min (blk.shared.numInvocations - blk.shared.runOffset) MEGA := by
    simp [tileCount, hrun]
  have hnf : numFinished MEGA blk.shared = tileCount MEGA blk := by
    unfold numFinished
    rw [hsub, hMmod, htc]
  obtain ⟨c, hcdef⟩ : ∃ c, c = tileCount MEGA blk := ⟨_, rfl⟩
  have hcpos : 0 < c := by
    rw [hcdef, htc]; exact lt_min (by omega) hM
  have hle : c ≤ nd.numRemaining := by
    have h1 := le_sum_map_of_mem (tileCount MEGA) s.blocks blk (mem_of_getElem? hb)
    have hout : outstanding MEGA s = (s.blocks.map (tileCount MEGA)).sum := rfl
    rw [hc3, hout, hcdef]
    omega
  have hrem32 : nd.numRemaining < 2 ^ 32 := by omega
  have hsub2 : sub32 nd.numRemaining c = nd.numRemaining - c :=
    sub32_of_le _ _ hrem32 hle
  have hfin : sub32 nd.numRemaining
      (min (sub32 blk.shared.numInvocations blk.shared.runOffset) (MEGA % 2 ^ 32)) =
      nd.numRemaining - c := by
    have := hnf
    unfold numFinished at this
    rw [this, ← hcdef, hsub2]
  have hcond : (min (sub32 blk.shared.numInvocations blk.shared.runOffset) (MEGA % 2 ^ 32)) =
      c := by
    have := hnf
    unfold numFinished at this
    rw [this, ← hcdef]
  obtain ⟨nd2, hnd2⟩ : ∃ nd2 : NodeState, nd2 = ⟨nd.info, nd.curOffset, nd.numRemaining - c,
      nd.totalNumInvocations⟩ := ⟨_, rfl⟩
  obtain ⟨g2, hg2⟩ : ∃ g2 : TaskGraph, g2 =
      ⟨s.graph.sorted_nodes_.set s.graph.cur_node_idx_ nd2, s.graph.cur_node_idx_⟩ := ⟨_, rfl⟩
  have hg2n : g2.sorted_nodes_[s.graph.cur_node_idx_]? = some nd2 := by
    rw [hg2]
    simp only
    rw [List.getElem?_set_self hclt]
  have hstat2 : g2.sorted_nodes_.map NodeState.static = nodes.map NodeState.static := by
    rw [hg2]
    show (s.graph.sorted_nodes_.set s.graph.cur_node_idx_ nd2).map NodeState.static = _
    rw [map_static_set _ _ nd nd2 hnd (by rw [hnd2]; rfl)]
    exact hinv.statics
  have hlen2 : g2.sorted_nodes_.length = nodes.length := by
    simpa using congrArg List.length hstat2
  have hadv : advanceOf MEGA s b =
      if nd.numRemaining = c then [s.graph.cur_node_idx_] else [] := by
    unfold advanceOf
    simp only [hb, hrun, if_true, hidx, hnd, hnf, ← hcdef]
  have htile : ∀ g tmp, tileOf s b ⟨g, tmp, s.blocks.set b { blk with running := false }⟩ = [] := by
    intro g tmp
    rw [tileOf_set s b blk _ _ _ hb]
    simp
  have hfw : finishWork MEGA sm s.graph s.tmp blk.shared =
      if nd.numRemaining = c then
        .ok (advance MEGA sm (s.graph.num_nodes_ - s.graph.cur_node_idx_)
          (s.graph.cur_node_idx_ + 1) g2 s.tmp)
      else .ok (g2, s.tmp) := by
    unfold finishWork
    simp only [hidx, hnd, hcond, hsub2]
    rw [hg2, hnd2]
  unfold stepBlock
  simp only [hb, hrun, if_true, hfw]
  rw [← hcdef]
  by_cases hlast : nd.numRemaining = c
  · simp only [if_pos hlast]
    obtain ⟨m, h1, h2, h3, h4, h5, h6, h7⟩ :=
      advance_spec MEGA sm (s.graph.num_nodes_ - s.graph.cur_node_idx_)
        (s.graph.cur_node_idx_ + 1) g2 s.tmp
        (by simp only [num_nodes_]; rw [hlen2, hlen]; omega) (by rw [hlen2]; omega)
    refine ⟨_, nd, rfl, hnd, hidx, hnf.trans hcdef.symm, hcpos, hle, hrem32, htile _ _, rfl, ?_, Or.inr ?_⟩
    · show (advance MEGA sm _ _ g2 s.tmp).1.sorted_nodes_[s.graph.cur_node_idx_]? = _
      rw [h6 _ (by omega), hg2n, hnd2]
    · refine ⟨hlast, by rw [hadv, if_pos hlast], ?_, ?_, ?_, ?_⟩
      · show _ < (advance MEGA sm _ _ g2 s.tmp).1.cur_node_idx_
        rw [h3]; omega
      · have hout : 0 ≤ outstanding MEGA s := Nat.zero_le _
        have h1' := le_sum_map_of_mem (tileCount MEGA) s.blocks blk (mem_of_getElem? hb)
        have hout2 : outstanding MEGA s = (s.blocks.map (tileCount MEGA)).sum := rfl
        rw [← hcdef] at h1'
        omega
      · intro i hi1 hi2
        have hi2' : i < m := by
          have : (advance MEGA sm (s.graph.num_nodes_ - s.graph.cur_node_idx_)
            (s.graph.cur_node_idx_ + 1) g2 s.tmp).1.cur_node_idx_ = m := h3
          rw [← this]; exact hi2
        rw [← (cnt_congr MEGA sm _ _ hstat2 i).1]
        exact h4 i (by omega) hi2'
      · intro hm
        have hm' : m < g2.sorted_nodes_.length := by
          have : (advance MEGA sm (s.graph.num_nodes_ - s.graph.cur_node_idx_)
            (s.graph.cur_node_idx_ + 1) g2 s.tmp).1.cur_node_idx_ = m := h3
          rw [hlen2, ← this]; exact hm
        obtain ⟨hne, _, nd', hnd', _, ho, _⟩ := h5 hm'
        show cnt MEGA sm nodes (advance MEGA sm _ _ g2 s.tmp).1.cur_node_idx_ ≠ 0 ∧
          ∃ nd', (advance MEGA sm _ _ g2 s.tmp).1.sorted_nodes_[
            (advance MEGA sm _ _ g2 s.tmp).1.cur_node_idx_]? = some nd' ∧ nd'.curOffset = 0
        rw [h3]
        rw [(cnt_congr MEGA sm _ _ hstat2 m).1] at hne
        exact ⟨hne, nd', hnd', ho⟩
  · simp only [if_neg hlast]
    refine ⟨_, nd, rfl, hnd, hidx, hnf.trans hcdef.symm, hcpos, hle, hrem32, htile _ _, rfl, ?_, Or.inl ?_⟩
    · show g2.sorted_nodes_[s.graph.cur_node_idx_]? = _
      rw [hg2n, hnd2]
    · refine ⟨hlast, by rw [hadv, if_neg hlast], ?_⟩
      show g2.cur_node_idx_ = _
      rw [hg2]

end TaskGraph

namespace TaskGraph

theorem numTiles_zero (MEGA : Nat) (hM : 0 < MEGA) : numTiles MEGA 0 = 0 := by
  unfold numTiles
  exact Nat.div_eq_of_lt (by omega)

theorem div_eq_numTiles (MEGA T c : Nat) (hM : 0 < MEGA) (hd : MEGA ∣ c) (h1 : T ≤ c)
    (h2 : c < T + MEGA) : c / MEGA = numTiles MEGA T := by
  obtain ⟨q, rfl⟩ := hd
  rw [Nat.mul_div_cancel_left q hM]
  unfold numTiles
  symm
  apply Nat.div_eq_of_lt_le
  · rw [Nat.mul_comm]; omega
  · rw [Nat.succ_mul, Nat.mul_comm q MEGA]; omega

theorem filter_range_extend (p : Nat → Bool) (c m : Nat) (hcm : c < m) (hc : p c = true)
    (hz : ∀ i, c < i → i < m → p i = false) :
    (List.range m).filter p = (List.range c).filter p ++ [c] := by
  induction m with
  | zero => omega
  | succ m ih =>
    rw [List.range_succ, List.filter_append]
    by_cases hm : c = m
    · subst hm
      simp [hc]
    · rw [ih (by omega) (fun i h1 h2 => hz i h1 (by omega))]
      have := hz m (by omega) (by omega)
      simp [this]

theorem tilesAt_append (tiles : List BlockState) (t : BlockState) (j : Nat) :
    tilesAt (tiles ++ [t]) j = tilesAt tiles j ++ (if t.nodeIdx = j then [t] else []) := by
  unfold tilesAt
  rw [List.filter_append]
  by_cases h : t.nodeIdx = j <;> simp [h]

end TaskGraph

namespace TaskGraph

theorem stepBlock_eq {MEGA : Nat} {sm : StateManager} {s s1 s2 : Sched} {b : Nat}
    (h1 : stepBlock MEGA sm s b = .ok s1) (h2 : stepBlock MEGA sm s b = .ok s2) : s1 = s2 := by
  rw [h1] at h2
  exact Res.ok.inj h2

/-- The record invariant only looks at the graph. -/
theorem tickInv_of_graph_eq (MEGA : Nat) (sm : StateManager) (nodes : List NodeState)
    (s s' : Sched) (tiles : List BlockState) (advs : List Nat)
    (h : TickInv MEGA sm nodes s tiles advs) (hs : SchedInv MEGA sm nodes s')
    (hg : s'.graph = s.graph) : TickInv MEGA sm nodes s' tiles advs := by
  refine ⟨hs, ?_, ?_, ?_, h.tile_order, ?_, ?_⟩
  · rw [hg]; exact h.aligned
  · rw [hg]; exact h.live
  · rw [hg]; exact h.tile_ok
  · rw [hg]; exact h.bases
  · rw [hg]; exact h.advances

theorem stepBlock_tick (MEGA : Nat) (sm : StateManager) (nodes : List NodeState)
    (hM : 0 < MEGA) (hT : ∀ j, cnt MEGA sm nodes j + MEGA ≤ 2 ^ 32)
    (s : Sched) (b : Nat) (tiles : List BlockState) (advs : List Nat)
    (h : TickInv MEGA sm nodes s tiles advs) :
    ∃ s', stepBlock MEGA sm s b = .ok s' ∧
      TickInv MEGA sm nodes s' (tiles ++ tileOf s b s') (advs ++ advanceOf MEGA s b) := by
  obtain ⟨s', hstep, hinv', hmono⟩ := stepBlock_inv MEGA sm nodes hM hT s b h.sched
  refine ⟨s', hstep, ?_⟩
  have hlen : s.graph.sorted_nodes_.length = nodes.length := by
    simpa using congrArg List.length h.sched.statics
  have hlen' : s'.graph.sorted_nodes_.length = nodes.length := by
    simpa using congrArg List.length hinv'.statics
  cases hb : s.blocks[b]? with
  | none =>
    have e : s' = s := by
      have : stepBlock MEGA sm s b = .ok s := by
        unfold stepBlock; simp only [hb]
      exact stepBlock_eq hstep this
    have h1 : tileOf s b s' = [] := by unfold tileOf; simp only [hb]
    have h2 : advanceOf MEGA s b = [] := by unfold advanceOf; simp only [hb]
    rw [h1, h2, List.append_nil, List.append_nil, e]
    exact h
  | some blk =>
    by_cases hrun : blk.running = true
    · -- finishWork
      obtain ⟨s1, nd, hs1, hnd, hidx, hnf, hcpos, hle, _, htile, _, hnd2, hcase⟩ :=
        finishWork_shape MEGA sm nodes hM hT s b blk hb hrun h.sched
      have e := stepBlock_eq hs1 hstep
      subst e
      rw [htile, List.append_nil]
      rcases hcase with ⟨hne, hadv, hcur⟩ | ⟨heq, hadv, hlt, hfull, hskip, harm⟩
      · rw [hadv, List.append_nil]
        refine ⟨hinv', ?_, ?_, ?_, h.tile_order, ?_, ?_⟩
        · intro nd' hnd'
          rw [hcur, hnd2] at hnd'
          cases hnd'
          exact h.aligned nd hnd
        · rw [hcur]; exact h.live
        · intro t ht
          obtain ⟨a1, a2, a3, a4, a5⟩ := h.tile_ok t ht
          refine ⟨a1, a2, a3, a4, ?_⟩
          rw [hcur]
          rcases a5 with a5 | ⟨a5, nd', hnd', a6⟩
          · exact Or.inl a5
          · rw [hnd] at hnd'
            cases hnd'
            exact Or.inr ⟨a5, _, hnd2, a6⟩
        · intro j
          rw [h.bases j]
          have : tilesGiven MEGA sm nodes s1.graph j = tilesGiven MEGA sm nodes s.graph j := by
            unfold tilesGiven
            rw [hcur]
            by_cases hj : j = s.graph.cur_node_idx_
            · subst hj
              rw [hnd2, hnd]
            · simp only [if_neg hj]
          rw [this]
        · rw [hcur]; exact h.advances
      · have hclt : s.graph.cur_node_idx_ < nodes.length := by
          have := getElem?_lt hnd
          omega
        have hlive := h.live hclt
        have hc := h.sched.current nd hnd
        refine ⟨hinv', ?_, ?_, ?_, h.tile_order, ?_, ?_⟩
        · intro nd' hnd'
          have hm : s1.graph.cur_node_idx_ < nodes.length := by
            have := getElem?_lt hnd'
            omega
          obtain ⟨_, nd'', hnd'', h0⟩ := harm hm
          rw [hnd'] at hnd''
          cases hnd''
          rw [h0]
          exact dvd_zero _
        · intro hm
          exact (harm hm).1
        · intro t ht
          obtain ⟨a1, a2, a3, a4, a5⟩ := h.tile_ok t ht
          refine ⟨a1, a2, a3, a4, Or.inl ?_⟩
          rcases a5 with a5 | ⟨a5, _⟩ <;> omega
        · intro j
          rw [h.bases j]
          have : tilesGiven MEGA sm nodes s1.graph j = tilesGiven MEGA sm nodes s.graph j := by
            unfold tilesGiven
            by_cases hj1 : j < s.graph.cur_node_idx_
            · rw [if_pos hj1, if_pos (by omega)]
            · rw [if_neg hj1]
              by_cases hj2 : j = s.graph.cur_node_idx_
              · subst hj2
                rw [if_pos hlt, if_pos rfl, hnd]
                simp only
                symm
                exact div_eq_numTiles MEGA _ _ hM (h.aligned nd hnd) (by rw [← hc.1]; exact hfull)
                  (by rw [← hc.1]; exact hc.2.1)
              · rw [if_neg hj2]
                by_cases hj3 : j < s1.graph.cur_node_idx_
                · rw [if_pos hj3, hskip j (by omega) hj3]
                  exact numTiles_zero MEGA hM
                · rw [if_neg hj3]
                  by_cases hj4 : j = s1.graph.cur_node_idx_
                  · rw [if_pos hj4]
                    cases hx : s1.graph.sorted_nodes_[j]? with
                    | none => rfl
                    | some x =>
                      have hm : s1.graph.cur_node_idx_ < nodes.length := by
                        have := getElem?_lt hx
                        omega
                      obtain ⟨_, nd'', hnd'', h0⟩ := harm hm
                      rw [← hj4, hx] at hnd''
                      cases hnd''
                      simp only [h0, Nat.zero_div]
                  · rw [if_neg hj4]
          rw [this]
        · rw [hadv, h.advances]
          symm
          apply filter_range_extend _ _ _ hlt
          · simpa using hlive
          · intro i h1 h2
            simpa using hskip i h1 h2
    · -- getWork
      have hrun' : blk.running = false := by simpa using hrun
      have hadv : advanceOf MEGA s b = [] := by
        unfold advanceOf
        simp only [hb, hrun', Bool.false_eq_true, if_false]
      rw [hadv, List.append_nil]
      obtain ⟨s1, hs1, hcase⟩ := getWork_shape MEGA sm nodes hT s b blk hb hrun' h.sched
      have e := stepBlock_eq hs1 hstep
      subst e
      rcases hcase with ⟨hg, htile⟩ | ⟨nd, hnd, hlt, htot, hg, htile⟩
      · rw [htile, List.append_nil]
        exact tickInv_of_graph_eq MEGA sm nodes s s1 tiles advs h hinv' hg
      · have hclt : s.graph.cur_node_idx_ < s.graph.sorted_nodes_.length := getElem?_lt hnd
        have hcur : s1.graph.cur_node_idx_ = s.graph.cur_node_idx_ := by rw [hg]
        have hnd1 : s1.graph.sorted_nodes_[s.graph.cur_node_idx_]? =
            some ⟨nd.info, nd.curOffset + MEGA, nd.numRemaining, nd.totalNumInvocations⟩ := by
          rw [hg]
          simp only
          rw [List.getElem?_set_self hclt]
        have hal := h.aligned nd hnd
        rw [htile]
        refine ⟨hinv', ?_, ?_, ?_, ?_, ?_, ?_⟩
        · intro nd' hnd'
          rw [hcur, hnd1] at hnd'
          cases hnd'
          exact Dvd.dvd.add hal (dvd_refl _)
        · rw [hcur]; exact h.live
        · intro t ht
          rw [hcur]
          rcases List.mem_append.1 ht with ht | ht
          · obtain ⟨a1, a2, a3, a4, a5⟩ := h.tile_ok t ht
            refine ⟨a1, a2, a3, a4, ?_⟩
            rcases a5 with a5 | ⟨a5, nd', hnd', a6⟩
            · exact Or.inl a5
            · rw [hnd] at hnd'
              cases hnd'
              exact Or.inr ⟨a5, _, hnd1, by simp only; omega⟩
          · rw [List.mem_singleton] at ht
            subst ht
            exact ⟨rfl, htot, hal, hlt, Or.inr ⟨rfl, _, hnd1, le_rfl⟩⟩
        · rw [List.pairwise_append]
          refine ⟨h.tile_order, List.pairwise_singleton _ _, ?_⟩
          intro a ha t ht
          rw [List.mem_singleton] at ht
          subst ht
          obtain ⟨_, _, _, _, a5⟩ := h.tile_ok a ha
          rcases a5 with a5 | ⟨a5, nd', hnd', a6⟩
          · exact Or.inl a5
          · rw [hnd] at hnd'
            cases hnd'
            exact Or.inr ⟨a5, a6⟩
        · intro j
          rw [tilesAt_append, List.map_append, h.bases j]
          by_cases hj : j = s.graph.cur_node_idx_
          · subst hj
            have e1 : tilesGiven MEGA sm nodes s.graph s.graph.cur_node_idx_ =
                nd.curOffset / MEGA := by
              unfold tilesGiven
              rw [if_neg (by omega), if_pos rfl, hnd]
            have e2 : tilesGiven MEGA sm nodes s1.graph s.graph.cur_node_idx_ =
                nd.curOffset / MEGA + 1 := by
              unfold tilesGiven
              rw [hcur, if_neg (by omega), if_pos rfl, hnd1]
              simp only
              exact Nat.add_div_right _ hM
            rw [e1, e2, List.range_succ, List.map_append]
            simp only [if_true, List.map_cons, List.map_nil]
            rw [Nat.div_mul_cancel hal]
          · have e1 : tilesGiven MEGA sm nodes s1.graph j = tilesGiven MEGA sm nodes s.graph j := by
              unfold tilesGiven
              rw [hcur]
              simp only [if_neg hj]
            rw [e1, if_neg (fun e => hj e.symm)]
            simp
        · rw [hcur]; exact h.advances

end TaskGraph

namespace TaskGraph

theorem runScheduleLog_tick (MEGA : Nat) (sm : StateManager) (nodes : List NodeState)
    (hM : 0 < MEGA) (hT : ∀ j, cnt MEGA sm nodes j + MEGA ≤ 2 ^ 32)
    (sched : List Nat) (s : Sched) (tiles : List BlockState) (advs : List Nat)
    (h : TickInv MEGA sm nodes s tiles advs) :
    ∃ s' tiles' advs', runScheduleLog MEGA sm s sched tiles advs = .ok (s', tiles', advs') ∧
      runSchedule MEGA sm s sched = .ok s' ∧ TickInv MEGA sm nodes s' tiles' advs' := by
  induction sched generalizing s tiles advs with
  | nil => exact ⟨s, tiles, advs, rfl, rfl, h⟩
  | cons b rest ih =>
    obtain ⟨s1, h1, h2⟩ := stepBlock_tick MEGA sm nodes hM hT s b tiles advs h
    obtain ⟨s2, t2, a2, h3, h4, h5⟩ := ih s1 _ _ h2
    refine ⟨s2, t2, a2, ?_, ?_, h5⟩
    · simp only [runScheduleLog, h1]
      exact h3
    · simp only [runSchedule, h1]
      exact h4

theorem startTick_tick (MEGA : Nat) (sm : StateManager) (nodes : List NodeState)
    (tmp : TmpAllocator) (numBlocks : Nat) (hM : 0 < MEGA)
    (hzero : ∀ nd, nd ∈ nodes → nd.numRemaining = 0)
    (s0 : Sched) (hstart : startTick MEGA sm (TaskGraph.new nodes) tmp numBlocks = .ok s0) :
    TickInv MEGA sm nodes s0 [] [] := by
  have hinv := startTick_inv MEGA sm nodes tmp numBlocks hM hzero s0 hstart
  unfold startTick init at hstart
  simp only [TaskGraph.new] at hstart
  cases hn : nodes[0]? with
  | none => simp [hn] at hstart
  | some nd =>
    simp only [hn] at hstart
    rw [computeNumInvocations_fst] at hstart
    by_cases hc : countOf MEGA sm nd = 0
    · simp [hc] at hstart
    · rw [if_neg hc] at hstart
      simp only [Res.ok.injEq] at hstart
      have hlt := getElem?_lt hn
      have hcnt : cnt MEGA sm nodes 0 = countOf MEGA sm nd := by simp [cnt, hn]
      have hcur : s0.graph.cur_node_idx_ = 0 := by rw [← hstart]
      have hnd0 : ∀ nd', s0.graph.sorted_nodes_[0]? = some nd' → nd'.curOffset = 0 := by
        intro nd' hnd'
        rw [← hstart] at hnd'
        simp only at hnd'
        rw [List.getElem?_set_self hlt] at hnd'
        cases hnd'
        rfl
      refine ⟨hinv, ?_, ?_, ?_, List.Pairwise.nil, ?_, ?_⟩
      · intro nd' hnd'
        rw [hcur] at hnd'
        rw [hnd0 nd' hnd']
        exact dvd_zero _
      · intro _
        rw [hcur, hcnt]
        exact hc
      · intro t ht
        cases ht
      · intro j
        have : tilesGiven MEGA sm nodes s0.graph j = 0 := by
          unfold tilesGiven
          rw [hcur, if_neg (by omega)]
          by_cases hj : j = 0
          · subst hj
            rw [if_pos rfl]
            cases hx : s0.graph.sorted_nodes_[0]? with
            | none => rfl
            | some x => simp only [hnd0 x hx, Nat.zero_div]
          · rw [if_neg hj]
        rw [this]
        simp [tilesAt]
      · rw [hcur]
        simp

theorem blockState_eta (t : BlockState) (h : t.state = .Run) :
    t = ⟨.Run, t.nodeIdx, t.numInvocations, t.funcID, t.runOffset⟩ := by
  cases t
  simp only at h
  subst h
  rfl

theorem mem_lanes_tile (MEGA : Nat) (t : BlockState) (h : t.state = .Run)
    (hoff : t.runOffset < t.numInvocations) (hT : t.numInvocations + MEGA ≤ 2 ^ 32)
    (e : Nat × Int) :
    e ∈ (tileInvocations MEGA t).map (fun e => (e.1, e.2.2)) ↔
      ∃ k, t.runOffset ≤ k ∧ k < t.runOffset + MEGA ∧ k < t.numInvocations ∧
        e = (t.nodeIdx, toInt32 k) := by
  rw [blockState_eta t h, tileInvocations_run MEGA _ _ _ _ hoff hT]
  simp only [List.map_map, List.mem_map, List.mem_range'_1, Function.comp]
  constructor
  · rintro ⟨k, ⟨h1, h2⟩, rfl⟩
    exact ⟨k, h1, by omega, by omega, rfl⟩
  · rintro ⟨k, h1, h2, h3, rfl⟩
    exact ⟨k, ⟨h1, by omega⟩, rfl⟩

theorem nodup_lanes_tile (MEGA : Nat) (t : BlockState) (h : t.state = .Run)
    (hoff : t.runOffset < t.numInvocations) (hT : t.numInvocations + MEGA ≤ 2 ^ 32) :
    ((tileInvocations MEGA t).map (fun e => (e.1, e.2.2))).Nodup := by
  rw [blockState_eta t h, tileInvocations_run MEGA _ _ _ _ hoff hT, List.map_map]
  apply List.Nodup.map_on _ (List.nodup_range' _ _)
  intro x hx y hy hxy
  rw [List.mem_range'_1] at hx hy
  simp only [Function.comp, Prod.mk.injEq, true_and] at hxy
  exact toInt32_injOn x y (by omega) (by omega) hxy

/-- The facts about the tiles of a record that satisfies the invariant: no
invocation is given to two lanes, every index given is below the node's
total, and no two tiles have the same node and base. -/
theorem tickInv_lanes (MEGA : Nat) (sm : StateManager) (nodes : List NodeState)
    (hM : 0 < MEGA) (hT : ∀ j, cnt MEGA sm nodes j + MEGA ≤ 2 ^ 32)
    (s : Sched) (tiles : List BlockState) (advs : List Nat)
    (h : TickInv MEGA sm nodes s tiles advs) :
    (lanesOf MEGA tiles).Nodup ∧
    (∀ e, e ∈ lanesOf MEGA tiles → ∃ k, k < cnt MEGA sm nodes e.1 ∧ e.2 = toInt32 k) ∧
    (tiles.map (fun t => (t.nodeIdx, t.runOffset))).Nodup := by
  have hok : ∀ t, t ∈ tiles → t.state = .Run ∧ t.runOffset < t.numInvocations ∧
      t.numInvocations + MEGA ≤ 2 ^ 32 ∧ t.numInvocations = cnt MEGA sm nodes t.nodeIdx := by
    intro t ht
    obtain ⟨a1, a2, _, a4, _⟩ := h.tile_ok t ht
    exact ⟨a1, a4, by rw [a2]; exact hT _, a2⟩
  have hl : lanesOf MEGA tiles =
      tiles.flatMap (fun t => (tileInvocations MEGA t).map (fun e => (e.1, e.2.2))) := by
    unfold lanesOf
    rw [List.map_flatMap]
  refine ⟨?_, ?_, ?_⟩
  · rw [hl, List.nodup_flatMap]
    refine ⟨fun t ht => nodup_lanes_tile MEGA t (hok t ht).1 (hok t ht).2.1 (hok t ht).2.2.1, ?_⟩
    refine List.Pairwise.imp_of_mem ?_ h.tile_order
    intro a b ha hb hab
    show List.Disjoint _ _
    intro e hea heb
    rw [mem_lanes_tile MEGA a (hok a ha).1 (hok a ha).2.1 (hok a ha).2.2.1] at hea
    rw [mem_lanes_tile MEGA b (hok b hb).1 (hok b hb).2.1 (hok b hb).2.2.1] at heb
    obtain ⟨k1, h1, h2, h3, e1⟩ := hea
    obtain ⟨k2, h4, h5, h6, e2⟩ := heb
    rw [e1] at e2
    simp only [Prod.mk.injEq] at e2
    have hk : k1 = k2 := toInt32_injOn k1 k2
      (by have := (hok a ha).2.2.1; omega) (by have := (hok b hb).2.2.1; omega) e2.2
    rcases hab with hab | ⟨_, hab⟩
    · omega
    · omega
  · intro e he
    rw [hl, List.mem_flatMap] at he
    obtain ⟨t, ht, he⟩ := he
    rw [mem_lanes_tile MEGA t (hok t ht).1 (hok t ht).2.1 (hok t ht).2.2.1] at he
    obtain ⟨k, _, _, h3, e1⟩ := he
    refine ⟨k, ?_, by rw [e1]⟩
    rw [e1]
    simp only
    rw [← (hok t ht).2.2.2]
    exact h3
  · unfold List.Nodup
    rw [List.pairwise_map]
    refine List.Pairwise.imp ?_ h.tile_order
    intro a b hab hne
    simp only [Prod.mk.injEq] at hne
    rcases hab with hab | ⟨_, hab⟩ <;> omega

end TaskGraph

/-! ## Temporary allocator: theorems -/

namespace TmpAllocator

theorem roundUpPow2_eq (n : Nat) (h : n + 255 < 2 ^ 64) : roundUpPow2 n 256 = round256 n := by
  unfold roundUpPow2 round256
  rw [Nat.mod_eq_of_lt (by omega)]
  rfl

theorem le_round256 (n : Nat) : n ≤ round256 n := by
  unfold round256
  omega

theorem dvd_round256 (n : Nat) : 256 ∣ round256 n := by
  unfold round256
  exact Nat.dvd_mul_left 256 _

theorem alloc_fst (G : Nat) (t : TmpAllocator) (n : Nat) : (alloc G t n).1 = t.offset_ := by
  unfold alloc
  simp only
  split <;> rfl

theorem alloc_offset (G : Nat) (t : TmpAllocator) (n : Nat) :
    (alloc G t n).2.1.offset_ = (t.offset_ + roundUpPow2 n 256) % 2 ^ 64 := by
  unfold alloc
  simp only
  split <;> rfl

/-- Without overflow of the offset, `allocs` returns the offsets of the
specification and advances the offset by the sum of the rounded sizes. -/
theorem allocs_offsets (G : Nat) : ∀ (ns : List Nat) (t : TmpAllocator),
    t.offset_ + (ns.map round256).sum < 2 ^ 64 →
    (allocs G t ns).1 = bumpOffsets t.offset_ ns ∧
      (allocs G t ns).2.1.offset_ = t.offset_ + (ns.map round256).sum := by
  intro ns
  induction ns with
  | nil => intro t _; exact ⟨rfl, by simp [allocs]⟩
  | cons n ns ih =>
    intro t h
    simp only [List.map_cons, List.sum_cons] at h
    have hn : n + 255 < 2 ^ 64 := by
      have := le_round256 n
      unfold round256 at this h
      omega
    have h1 := alloc_fst G t n
    have h2 := alloc_offset G t n
    rw [roundUpPow2_eq n hn, Nat.mod_eq_of_lt (by omega)] at h2
    obtain ⟨ih1, ih2⟩ := ih (alloc G t n).2.1 (by rw [h2]; omega)
    simp only [allocs, bumpOffsets, List.map_cons, List.sum_cons]
    rw [← h2, ← ih1, ih2, h2, h1]
    exact ⟨rfl, by omega⟩

theorem bumpOffsets_length (o : Nat) (ns : List Nat) : (bumpOffsets o ns).length = ns.length := by
  induction ns generalizing o with
  | nil => rfl
  | cons n ns ih => simp [bumpOffsets, ih]

theorem bumpOffsets_getElem? (ns : List Nat) : ∀ (o i : Nat), i < ns.length →
    (bumpOffsets o ns)[i]? = some (o + ((ns.take i).map round256).sum) := by
  induction ns with
  | nil => intro o i hi; simp at hi
  | cons n ns ih =>
    intro o i hi
    cases i with
    | zero => simp [bumpOffsets]
    | succ i =>
      simp only [bumpOffsets, List.getElem?_cons_succ, List.take_succ_cons, List.map_cons,
        List.sum_cons]
      rw [ih (o + round256 n) i (by simpa using hi)]
      congr 1
      omega

theorem sum_take_succ (ns : List Nat) : ∀ (i n : Nat), ns[i]? = some n →
    ((ns.take (i + 1)).map round256).sum = ((ns.take i).map round256).sum + round256 n := by
  induction ns with
  | nil => intro i n h; simp at h
  | cons a ns ih =>
    intro i n h
    cases i with
    | zero =>
      simp only [List.getElem?_cons_zero, Option.some.injEq] at h
      subst h
      simp
    | succ i =>
      simp only [List.getElem?_cons_succ] at h
      simp only [List.take_succ_cons, List.map_cons, List.sum_cons]
      rw [ih i n h]
      omega

theorem sum_take_mono (ns : List Nat) (i j : Nat) (hij : i ≤ j) :
    ((ns.take i).map round256).sum ≤ ((ns.take j).map round256).sum := by
  induction ns generalizing i j with
  | nil => simp
  | cons a ns ih =>
    cases i with
    | zero => simp
    | succ i =>
      cases j with
      | zero => omega
      | succ j =>
        simp only [List.take_succ_cons, List.map_cons, List.sum_cons]
        have := ih i j (by omega)
        omega

theorem dvd_sum_round256 (l : List Nat) : 256 ∣ (l.map round256).sum := by
  induction l with
  | nil => simp
  | cons a l ih =>
    simp only [List.map_cons, List.sum_cons]
    exact Nat.dvd_add (dvd_round256 a) ih

/-- C18: arena bump allocation. From an allocator whose offset is 0 (after
the constructor or `reset`), for sizes whose rounded sum stays below `2^64`,
the calls `alloc(n_1)`, ..., `alloc(n_k)` return one offset per call, the
`i`-th being the sum of the sizes before it, each rounded up to a multiple of
256; every offset returned is a multiple of 256; and the byte ranges
`[o_i, o_i + n_i)` are pairwise disjoint: the block of an earlier call ends
at or before the offset of a later one. -/
theorem alloc_bump (G : Nat) (t : TmpAllocator) (ns : List Nat) (h0 : t.offset_ = 0)
    (hsum : (ns.map round256).sum < 2 ^ 64) :
    (allocs G t ns).1.length = ns.length ∧
    (∀ i, i < ns.length →
      (allocs G t ns).1[i]? = some (((ns.take i).map (fun n => roundUpPow2 n 256)).sum)) ∧
    (∀ o, o ∈ (allocs G t ns).1 → 256 ∣ o) ∧
    (∀ (i j oi oj ni : Nat), i < j → (allocs G t ns).1[i]? = some oi →
      (allocs G t ns).1[j]? = some oj → ns[i]? = some ni → oi + ni ≤ oj) := by
  obtain ⟨h1, _⟩ := allocs_offsets G ns t (by rw [h0]; omega)
  rw [h0] at h1
  have hget : ∀ i, i < ns.length →
      (allocs G t ns).1[i]? = some (((ns.take i).map round256).sum) := by
    intro i hi
    rw [h1, bumpOffsets_getElem? ns 0 i hi, Nat.zero_add]
  have hround : ∀ n, n ∈ ns → roundUpPow2 n 256 = round256 n := by
    intro n hn
    apply roundUpPow2_eq
    have h2 : round256 n ≤ (ns.map round256).sum :=
      List.single_le_sum (fun _ _ => Nat.zero_le _) _ (List.mem_map.2 ⟨n, hn, rfl⟩)
    have := le_round256 n
    have hr : round256 n = (n + 255) / 256 * 256 := rfl
    omega
  refine ⟨by rw [h1, bumpOffsets_length], ?_, ?_, ?_⟩
  · intro i hi
    have e : (ns.take i).map (fun n => roundUpPow2 n 256) = (ns.take i).map round256 :=
      List.map_congr_left (fun n hn => hround n (List.mem_of_mem_take hn))
    rw [e]
    exact hget i hi
  · intro o ho
    obtain ⟨i, hi⟩ := List.mem_iff_getElem?.1 ho
    have hilt : i < ns.length := by
      have := lt_of_lt_of_eq ((List.getElem?_eq_some_iff.1 hi).1) (by rw [h1, bumpOffsets_length])
      exact this
    rw [hget i hilt] at hi
    cases hi
    exact dvd_sum_round256 _
  · intro i j oi oj ni hij hi hj hni
    have hjlt : j < ns.length := by
      have := lt_of_lt_of_eq ((List.getElem?_eq_some_iff.1 hj).1) (by rw [h1, bumpOffsets_length])
      exact this
    rw [hget i (by omega)] at hi
    rw [hget j hjlt] at hj
    cases hi; cases hj
    have h3 := sum_take_succ ns i ni hni
    have h4 := sum_take_mono ns (i + 1) j (by omega)
    have := le_round256 ni
    omega

theorem alloc_bump_witness :
    (⟨512, 1048576⟩ : TmpAllocator).reset.offset_ = 0 ∧
    ([3145728, 262144, 100].map round256).sum < 2 ^ 64 ∧
    (allocs 65536 (⟨512, 1048576⟩ : TmpAllocator).reset [3145728, 262144, 100]).1.length =
      [3145728, 262144, 100].length ∧
    (∀ i, i < [3145728, 262144, 100].length →
      (allocs 65536 (⟨512, 1048576⟩ : TmpAllocator).reset [3145728, 262144, 100]).1[i]? =
        some ((([3145728, 262144, 100].take i).map (fun n => roundUpPow2 n 256)).sum)) ∧
    (∀ o, o ∈ (allocs 65536 (⟨512, 1048576⟩ : TmpAllocator).reset
      [3145728, 262144, 100]).1 → 256 ∣ o) ∧
    (∀ (i j oi oj ni : Nat), i < j →
      (allocs 65536 (⟨512, 1048576⟩ : TmpAllocator).reset [3145728, 262144, 100]).1[i]? =
        some oi →
      (allocs 65536 (⟨512, 1048576⟩ : TmpAllocator).reset [3145728, 262144, 100]).1[j]? =
        some oj →
      [3145728, 262144, 100][i]? = some ni → oi + ni ≤ oj) :=
  ⟨by decide, by decide,
    alloc_bump 65536 (⟨512, 1048576⟩ : TmpAllocator).reset [3145728, 262144, 100]
      (by decide) (by decide)⟩

/-- C17: the region `alloc` returns need not be mapped. With 1 MiB mapped and
the offset at 0, `alloc(3 MiB)` returns the offset 0 without any `mapMemory`
call (whatever the granularity), so 1 MiB is mapped where the region ends at
3 MiB; with the offset at 1 MiB (granularity 64 KiB) it returns the offset
1 MiB after a single grow of 1 MiB, so 2 MiB are mapped where the region ends
at 4 MiB. -/
theorem alloc_region_not_mapped :
    (∀ G, alloc G ⟨0, 1048576⟩ 3145728 = (0, ⟨3145728, 1048576⟩, [])) ∧
    (1048576 : Nat) < 0 + roundUpPow2 3145728 256 ∧
    alloc 65536 ⟨1048576, 1048576⟩ 3145728 =
      (1048576, ⟨4194304, 2097152⟩, [(1048576, 1048576)]) ∧
    (2097152 : Nat) < 1048576 + roundUpPow2 3145728 256 :=
  ⟨fun G => by simp [alloc, roundUpPow2], by decide, by decide, by decide⟩

theorem alloc_maps_le (G : Nat) (t : TmpAllocator) (n : Nat)
    (h : t.num_mapped_bytes_ + 268435456 < 2 ^ 64) :
    (alloc G t n).2.1.num_mapped_bytes_ ≤ t.num_mapped_bytes_ + 268435456 := by
  unfold alloc
  simp only
  split
  · simp only
    have := Nat.min_le_right (roundUpAlloc G (max t.num_mapped_bytes_ (1024 * 1024)))
      (256 * 1024 * 1024)
    rw [Nat.mod_eq_of_lt (by omega)]
    omega
  · simp only
    omega

theorem allocs_cons_state (G : Nat) (t : TmpAllocator) (n : Nat) (ns : List Nat) :
    (allocs G t (n :: ns)).2.1 = (allocs G (alloc G t n).2.1 ns).2.1 := by
  simp only [allocs]

theorem allocs_cons_maps (G : Nat) (t : TmpAllocator) (n : Nat) (ns : List Nat) :
    (allocs G t (n :: ns)).2.2 = (alloc G t n).2.2 ++ (allocs G (alloc G t n).2.1 ns).2.2 := by
  simp only [allocs]

theorem alloc_grows (G : Nat) (t : TmpAllocator) (n : Nat)
    (h : t.offset_ ≥ t.num_mapped_bytes_) : (alloc G t n).2.2 ≠ [] := by
  unfold alloc
  simp only [if_pos h]
  simp

theorem alloc_keeps (G : Nat) (t : TmpAllocator) (n : Nat)
    (h : ¬ t.offset_ ≥ t.num_mapped_bytes_) :
    (alloc G t n).2.1.num_mapped_bytes_ = t.num_mapped_bytes_ := by
  unfold alloc
  simp only [if_neg h]

/-- C19: after `reset`, repeating a sequence of allocations can map more
memory. The sequence of the specification, `alloc(3 MiB)` then
`alloc(256 KiB)` with 1 MiB mapped (granularity 64 KiB), makes one `mapMemory`
call, and after `reset` the same sequence makes another one. For every
granularity, the sequence `alloc(600 MiB)`, `alloc(256)` run once from a new
allocator makes a `mapMemory` call again when it is repeated after `reset`. -/
theorem remap_after_reset :
    allocs 65536 ⟨0, 1048576⟩ [3145728, 262144] =
      ([0, 3145728], ⟨3407872, 2097152⟩, [(1048576, 1048576)]) ∧
    allocs 65536 (⟨3407872, 2097152⟩ : TmpAllocator).reset [3145728, 262144] =
      ([0, 3145728], ⟨3407872, 4194304⟩, [(2097152, 2097152)]) ∧
    ∀ G, (allocs G (allocs G new [629145600, 256]).2.1.reset [629145600, 256]).2.2 ≠ [] := by
  refine ⟨by decide, by decide, ?_⟩
  intro G
  have hm : (allocs G new [629145600, 256]).2.1.num_mapped_bytes_ ≤ 536870912 := by
    have h1 := alloc_maps_le G new 629145600 (by decide)
    have hn : new.num_mapped_bytes_ = 0 := rfl
    have h2 := alloc_maps_le G (alloc G new 629145600).2.1 256 (by omega)
    rw [allocs_cons_state, allocs_cons_state]
    exact h2.trans (by omega)
  obtain ⟨t1, ht1⟩ : ∃ t1, t1 = (allocs G new [629145600, 256]).2.1 := ⟨_, rfl⟩
  rw [← ht1] at hm ⊢
  rw [allocs_cons_maps, allocs_cons_maps]
  intro hnil
  obtain ⟨ha, hb⟩ := List.append_eq_nil.1 hnil
  obtain ⟨hb, _⟩ := List.append_eq_nil.1 hb
  by_cases h0 : t1.reset.offset_ ≥ t1.reset.num_mapped_bytes_
  · exact alloc_grows G t1.reset 629145600 h0 ha
  · have hk := alloc_keeps G t1.reset 629145600 h0
    have ho := alloc_offset G t1.reset 629145600
    have hr : roundUpPow2 629145600 256 = 629145600 := by decide
    have hz : t1.reset.offset_ = 0 := rfl
    have hmr : t1.reset.num_mapped_bytes_ = t1.num_mapped_bytes_ := rfl
    rw [hr, hz] at ho
    refine alloc_grows G _ 256 ?_ hb
    rw [hk, ho, hmr]
    norm_num
    omega

end TmpAllocator

namespace TaskGraph

theorem allocs_offset_indep (G : Nat) (ns : List Nat) :
    ∀ t t2 : TmpAllocator, t.offset_ = t2.offset_ →
      (TmpAllocator.allocs G t ns).2.1.offset_ = (TmpAllocator.allocs G t2 ns).2.1.offset_ := by
  induction ns with
  | nil => intro t t2 h; simpa [TmpAllocator.allocs] using h
  | cons n ns ih =>
    intro t t2 h
    rw [TmpAllocator.allocs_cons_state, TmpAllocator.allocs_cons_state]
    apply ih
    rw [TmpAllocator.alloc_offset, TmpAllocator.alloc_offset, h]

theorem set_self_of_getElem? {α : Type} (l : List α) (j : Nat) (a : α)
    (h : l[j]? = some a) : l.set j a = l := by
  apply List.ext_getElem?
  intro i
  by_cases hij : j = i
  · subst hij
    rw [List.getElem?_set_self (by
      rcases Nat.lt_or_ge j l.length with hl | hl
      · exact hl
      · rw [List.getElem?_eq_none hl] at h; cases h), h]
  · rw [List.getElem?_set_ne hij]

/-- C20 (as stated, refuted). A graph that contains a `ResetTmpAllocator` node
at the entry position: evaluating its count resets the offset and yields 0, but
the node is not skipped; `init` fails its assertion and the tick ends there. -/
theorem reset_entry_node_not_skipped :
    computeNumInvocations 4 exampleStore ⟨512, 1048576⟩ (resetNode 3) =
      (0, resetNode 3, ⟨0, 1048576⟩) ∧
    init 4 exampleStore (TaskGraph.new [resetNode 3, parallelForNode 7 5]) ⟨512, 1048576⟩ =
      .fault .assertFailed ∧
    ∀ fuel, runTick 4 exampleStore (TaskGraph.new [resetNode 3, parallelForNode 7 5])
      ⟨512, 1048576⟩ fuel = some (.fault .assertFailed) :=
  ⟨by decide, by decide, fun _ => rfl⟩

/-- C20 (amended). Evaluating the count of a `ResetTmpAllocator` node yields 0,
leaves the node as it is and sets the arena offset to 0 (the mapped length is
kept). When the loop of `finishWork` reaches such a node at position `j`, it
goes on at position `j + 1` with the graph unchanged, so the node is passed
over without being armed. Whatever the arena was when the node was evaluated in
two ticks, the same allocations made after it leave the same offset. -/
theorem reset_node_tick (MEGA G : Nat) (sm : StateManager) (g : TaskGraph)
    (tmp1 tmp2 : TmpAllocator) (k j : Nat) (node : NodeState) (ns : List Nat)
    (hn : g.sorted_nodes_[j]? = some node)
    (ht : node.info.type = .ResetTmpAllocator) :
    computeNumInvocations MEGA sm tmp1 node = (0, node, ⟨0, tmp1.num_mapped_bytes_⟩) ∧
    advance MEGA sm (k + 1) j g tmp1 =
      advance MEGA sm k (j + 1) g ⟨0, tmp1.num_mapped_bytes_⟩ ∧
    (TmpAllocator.allocs G (computeNumInvocations MEGA sm tmp1 node).2.2 ns).2.1.offset_ =
      (TmpAllocator.allocs G (computeNumInvocations MEGA sm tmp2 node).2.2 ns).2.1.offset_ := by
  have hc : ∀ tmp, computeNumInvocations MEGA sm tmp node =
      (0, node, ⟨0, tmp.num_mapped_bytes_⟩) := by
    intro tmp
    unfold computeNumInvocations
    rw [ht]
    rfl
  refine ⟨hc tmp1, ?_, ?_⟩
  · rw [advance]
    simp only [hn, hc tmp1, if_pos]
    rw [set_self_of_getElem? _ _ _ hn]
  · rw [hc tmp1, hc tmp2]
    exact allocs_offset_indep G ns _ _ rfl

theorem reset_node_tick_witness :
    exampleSkipGraph.sorted_nodes_[1]? = some (resetNode 3) ∧
    (resetNode 3).info.type = .ResetTmpAllocator ∧
    computeNumInvocations 4 exampleStore ⟨512, 1048576⟩ (resetNode 3) =
      (0, resetNode 3, ⟨0, (⟨512, 1048576⟩ : TmpAllocator).num_mapped_bytes_⟩) ∧
    advance 4 exampleStore (2 + 1) 1 exampleSkipGraph ⟨512, 1048576⟩ =
      advance 4 exampleStore 2 (1 + 1) exampleSkipGraph
        ⟨0, (⟨512, 1048576⟩ : TmpAllocator).num_mapped_bytes_⟩ ∧
    (TmpAllocator.allocs 65536
        (computeNumInvocations 4 exampleStore ⟨512, 1048576⟩ (resetNode 3)).2.2
        [100, 200]).2.1.offset_ =
      (TmpAllocator.allocs 65536
        (computeNumInvocations 4 exampleStore ⟨768, 2097152⟩ (resetNode 3)).2.2
        [100, 200]).2.1.offset_ :=
  ⟨by decide, by decide,
    reset_node_tick 4 65536 exampleStore exampleSkipGraph ⟨512, 1048576⟩ ⟨768, 2097152⟩ 2 1
      (resetNode 3) [100, 200] (by decide) (by decide)⟩

end TaskGraph
namespace JobManager

theorem sub32_int (a b : Nat) : ((sub32 a b : Nat) : Int) = ((a : Int) - b) % 2 ^ 32 := by
  unfold sub32
  omega

theorem isQueueEmpty_iff (head correction tail : Nat) :
    isQueueEmpty head correction tail = true ↔
      ((head : Int) - correction - tail) % 2 ^ 32 ≤ 2 ^ 31 := by
  unfold isQueueEmpty checkGEWrapped
  rw [decide_eq_true_iff]
  have h1 := sub32_int head correction
  have h2 := sub32_int (sub32 head correction) tail
  omega

/-- C24: the wrap-around emptiness probe. For all `head`, `correction`, `tail`
(32-bit or not), `isQueueEmpty` is true exactly when
`(head - correction - tail) mod 2^32` is at most `2^31`; and for unwrapped
counters `H`, `R`, `T` (integers) with `|(H - R) - T| < 2^31`, the probe on
their values modulo `2^32` is true exactly when `H - R ≥ T`. -/
theorem isQueueEmpty_wrapped (head correction tail : Nat) :
    (isQueueEmpty head correction tail = true ↔
      ((head : Int) - correction - tail) % 2 ^ 32 ≤ 2 ^ 31) ∧
    ∀ H R T : Int, |H - R - T| < 2 ^ 31 →
      (isQueueEmpty (H % 2 ^ 32).toNat (R % 2 ^ 32).toNat (T % 2 ^ 32).toNat = true ↔
        H - R ≥ T) := by
  refine ⟨isQueueEmpty_iff head correction tail, ?_⟩
  intro H R T habs
  rw [abs_lt] at habs
  rw [isQueueEmpty_iff]
  omega

theorem isQueueEmpty_wrapped_witness :
    (isQueueEmpty 7 3 4 = true ↔ ((7 : Int) - 3 - 4) % 2 ^ 32 ≤ 2 ^ 31) ∧
    (|(2 ^ 32 + 5 : Int) - 3 - (2 ^ 32 + 1)| < 2 ^ 31 ∧
      (isQueueEmpty ((2 ^ 32 + 5 : Int) % 2 ^ 32).toNat ((3 : Int) % 2 ^ 32).toNat
          (((2 ^ 32 + 1 : Int)) % 2 ^ 32).toNat = true ↔
        (2 ^ 32 + 5 : Int) - 3 ≥ 2 ^ 32 + 1)) :=
  ⟨(isQueueEmpty_wrapped 7 3 4).1,
    by norm_num [abs_lt],
    (isQueueEmpty_wrapped 7 3 4).2 (2 ^ 32 + 5) 3 (2 ^ 32 + 1) (by norm_num [abs_lt])⟩

/-- C25: probe after push; pop. With a push moving `tail` on by one and a pop
moving `head` on by one (modulo `2^32`), the probe gives the same answer on
`(head + 1, correction, tail + 1)` as on `(head, correction, tail)`, for all
values; and from an empty queue (`head - correction = tail` in `uint32_t`
arithmetic) the probe reports non-empty after the push and empty after the
pop that follows. -/
theorem probe_push_pop (q : RunQueue) :
    isQueueEmpty (add32 q.head 1) q.correction (add32 q.tail 1) =
      isQueueEmpty q.head q.correction q.tail ∧
    q.push.pop.probe = q.probe ∧
    (sub32 q.head q.correction = q.tail →
      q.probe = true ∧ q.push.probe = false ∧ q.push.pop.probe = true) := by
  have key : isQueueEmpty (add32 q.head 1) q.correction (add32 q.tail 1) =
      isQueueEmpty q.head q.correction q.tail := by
    rw [Bool.eq_iff_iff, isQueueEmpty_iff, isQueueEmpty_iff]
    unfold add32
    omega
  refine ⟨key, key, ?_⟩
  intro he
  have hp : q.probe = true := by
    unfold RunQueue.probe
    rw [isQueueEmpty_iff]
    have := sub32_int q.head q.correction
    omega
  refine ⟨hp, ?_, ?_⟩
  · unfold RunQueue.probe RunQueue.push
    rw [Bool.eq_false_iff]
    intro h
    rw [isQueueEmpty_iff] at h
    have := sub32_int q.head q.correction
    simp only [add32] at h
    omega
  · have : q.push.pop.probe = q.probe := key
    rw [this, hp]

theorem probe_push_pop_witness :
    isQueueEmpty (add32 (RunQueue.mk 4294967295 7 4294967288).head 1) 7
        (add32 (RunQueue.mk 4294967295 7 4294967288).tail 1) =
      isQueueEmpty 4294967295 7 4294967288 ∧
    (RunQueue.mk 4294967295 7 4294967288).push.pop.probe =
      (RunQueue.mk 4294967295 7 4294967288).probe ∧
    (sub32 4294967295 7 = 4294967288 ∧
      (RunQueue.mk 4294967295 7 4294967288).probe = true ∧
      (RunQueue.mk 4294967295 7 4294967288).push.probe = false ∧
      (RunQueue.mk 4294967295 7 4294967288).push.pop.probe = true) :=
  ⟨(probe_push_pop ⟨4294967295, 7, 4294967288⟩).1,
    (probe_push_pop ⟨4294967295, 7, 4294967288⟩).2.1,
    by decide,
    (probe_push_pop ⟨4294967295, 7, 4294967288⟩).2.2 (by decide)⟩

end JobManager

/-! ## Multi-invocation job entry: work splitting -/

namespace JobManager

theorem localRuns_map_fn (l : List Nat) : localRuns (l.map Call.fn) = l := by
  induction l with
  | nil => rfl
  | cons a l ih => simp [localRuns, ih]

theorem localRuns_append (a b : List Call) : localRuns (a ++ b) = localRuns a ++ localRuns b := by
  induction a with
  | nil => rfl
  | cons c a ih => cases c <;> simp [localRuns, ih]

theorem handedOff_map_fn (l : List Nat) : handedOff (l.map Call.fn) = [] := by
  induction l with
  | nil => rfl
  | cons a l ih => simp [handedOff, ih]

theorem handedOff_append (a b : List Call) : handedOff (a ++ b) = handedOff a ++ handedOff b := by
  induction a with
  | nil => rfl
  | cons c a ih => cases c <;> simp [handedOff, ih]

theorem finishedCounts_map_fn (l : List Nat) : finishedCounts (l.map Call.fn) = [] := by
  induction l with
  | nil => rfl
  | cons a l ih => simp [finishedCounts, ih]

theorem finishedCounts_append (a b : List Call) :
    finishedCounts (a ++ b) = finishedCounts a ++ finishedCounts b := by
  induction a with
  | nil => rfl
  | cons c a ih => cases c <;> simp [finishedCounts, ih]

/-- The loop of `multiInvokeEntry` with `rem` invocations left from index
`idx` on: either no probe before the last invocation reports empty and all
`rem` run here, or the first probe that reports empty, in round `k`, hands
the range from `idx + k` on to `splitJob` before invocation `idx + k - 1`
runs as the last one. -/
theorem multiInvokeLoop_spec (queueAt : Nat → RunQueue) :
    ∀ (fuel iter idx rem : Nat), 1 ≤ rem → idx + rem < 2 ^ 64 → rem ≤ fuel →
      ((∀ i, i + 1 < rem → shouldSplit (queueAt (iter + i)) = false) ∧
        multiInvokeLoop queueAt fuel iter idx rem =
          some (idx + rem, (List.range' idx rem).map Call.fn)) ∨
      (∃ k, 1 ≤ k ∧ k < rem ∧ shouldSplit (queueAt (iter + (k - 1))) = true ∧
        (∀ i, i + 1 < k → shouldSplit (queueAt (iter + i)) = false) ∧
        multiInvokeLoop queueAt fuel iter idx rem =
          some (idx + k, (List.range' idx (k - 1)).map Call.fn ++
            [Call.splitJob (idx + k) (rem - k), Call.fn (idx + k - 1)])) := by
  intro fuel
  induction fuel with
  | zero => intro iter idx rem h1 _ h3; omega
  | succ fuel ih =>
    intro iter idx rem h1 h2 h3
    have e1 : (idx + 1) % 2 ^ 64 = idx + 1 := Nat.mod_eq_of_lt (by omega)
    have e2 : (rem + 2 ^ 64 - 1) % 2 ^ 64 = rem - 1 := by
      have : rem + 2 ^ 64 - 1 = (rem - 1) + 2 ^ 64 := by omega
      rw [this, Nat.add_mod_right]
      exact Nat.mod_eq_of_lt (by omega)
    simp only [multiInvokeLoop, e1, e2]
    rcases Nat.eq_or_lt_of_le h1 with hr1 | hr1
    · -- the last invocation
      left
      subst hr1
      refine ⟨fun i hi => by omega, ?_⟩
      simp
    · cases hp : shouldSplit (queueAt iter) with
      | true =>
        right
        refine ⟨1, le_rfl, hr1, by simpa using hp, fun i hi => by omega, ?_⟩
        have hpos : rem - 1 > 0 := by omega
        simp [hpos]
      | false =>
        have hpos : rem - 1 > 0 := by omega
        simp only [hpos, decide_True, Bool.and_false, Bool.false_eq_true, if_false, if_true]
        rcases ih (iter + 1) (idx + 1) (rem - 1) (by omega) (by omega) (by omega) with
          ⟨hq, hl⟩ | ⟨k, hk1, hk2, hq1, hq2, hl⟩
        · left
          refine ⟨fun i hi => ?_, ?_⟩
          · rcases Nat.eq_zero_or_pos i with h0 | h0
            · subst h0; exact hp
            · have := hq (i - 1) (by omega)
              rwa [show iter + 1 + (i - 1) = iter + i by omega] at this
          · rw [hl]
            have : rem = (rem - 1) + 1 := by omega
            conv_rhs => rw [this, List.range'_succ]
            simp only [List.map_cons, show idx + 1 + (rem - 1) = idx + (rem - 1 + 1) by omega]
        · right
          refine ⟨k + 1, by omega, by omega, ?_, fun i hi => ?_, ?_⟩
          · rwa [show iter + (k + 1 - 1) = iter + 1 + (k - 1) by omega]
          · rcases Nat.eq_zero_or_pos i with h0 | h0
            · subst h0; exact hp
            · have := hq2 (i - 1) (by omega)
              rwa [show iter + 1 + (i - 1) = iter + i by omega] at this
          · rw [hl]
            have : k + 1 - 1 = (k - 1) + 1 := by omega
            rw [this, List.range'_succ]
            simp only [List.map_cons, List.cons_append,
              show idx + 1 + k = idx + (k + 1) by omega,
              show rem - 1 - k = rem - (k + 1) by omega,
              show idx + (k + 1) - 1 = idx + (k - 1 + 1) by omega,
              show idx + 1 + k - 1 = idx + (k - 1 + 1) by omega]

/-- C39. Work splitting, for `multiInvokeEntry(offset, n)` with `n ≥ 1` and
`offset + n` inside `uint64_t`: the entry returns; it runs `k` invocations
itself, `1 ≤ k ≤ n`, on the indices `offset, offset + 1, ...` in increasing
order, each once; no probe before round `k` reported empty; either `k = n`
and there is no call of `splitJob`, or `k < n`, the probe of round `k`
reported empty, and the one call `splitJob(offset + k, n - k)` hands over the
whole remaining range just before the current invocation `offset + k - 1`
runs as the last one; the indices run here followed by the range handed over
are `offset .. offset + n - 1`, and the count passed to
`markInvocationsFinished` is the number of invocations run here. -/
theorem multiInvokeEntry_split (queueAt : Nat → RunQueue) (offset n fuel : Nat) (hn : 1 ≤ n)
    (hr : offset + n < 2 ^ 64) (hf : n ≤ fuel) :
    ∃ calls k, multiInvokeEntry queueAt offset n fuel = some calls ∧ 1 ≤ k ∧ k ≤ n ∧
      localRuns calls = List.range' offset k ∧
      handedOff calls = List.range' (offset + k) (n - k) ∧
      localRuns calls ++ handedOff calls = List.range' offset n ∧
      finishedCounts calls = [(localRuns calls).length] ∧
      (∀ i, i + 1 < k → shouldSplit (queueAt i) = false) ∧
      ((k = n ∧ calls = (List.range' offset n).map Call.fn ++ [Call.markInvocationsFinished n]) ∨
        (k < n ∧ shouldSplit (queueAt (k - 1)) = true ∧
          calls = (List.range' offset (k - 1)).map Call.fn ++
            [Call.splitJob (offset + k) (n - k), Call.fn (offset + k - 1),
              Call.markInvocationsFinished k])) := by
  have hsplit : ∀ k, k ≤ n →
      List.range' offset k ++ List.range' (offset + k) (n - k) = List.range' offset n := by
    intro k hk
    have := List.range'_append offset k (n - k) 1
    simp only [Nat.one_mul] at this
    rw [this, Nat.sub_add_cancel hk]
  have hcnt : ∀ k, k ≤ n → (offset + k + 2 ^ 64 - offset) % 2 ^ 64 = k := by
    intro k hk
    have : offset + k + 2 ^ 64 - offset = k + 2 ^ 64 := by omega
    rw [this, Nat.add_mod_right]
    exact Nat.mod_eq_of_lt (by omega)
  rcases multiInvokeLoop_spec queueAt fuel 0 offset n hn hr hf with
    ⟨hq, hl⟩ | ⟨k, hk1, hk2, hq1, hq2, hl⟩
  · refine ⟨_, n, by simp only [multiInvokeEntry, hl, hcnt n le_rfl], hn, le_rfl, ?_, ?_, ?_, ?_,
      fun i hi => by simpa using hq i hi, Or.inl ⟨rfl, rfl⟩⟩
    · simp [localRuns_append, localRuns_map_fn, localRuns]
    · simp [handedOff_append, handedOff_map_fn, handedOff]
    · simp [localRuns_append, localRuns_map_fn, localRuns, handedOff_append, handedOff_map_fn,
        handedOff]
    · simp [localRuns_append, localRuns_map_fn, localRuns, finishedCounts_append,
        finishedCounts_map_fn, finishedCounts]
  · have hloc : List.range' offset (k - 1) ++ [offset + k - 1] = List.range' offset k := by
      have h1 : k = (k - 1) + 1 := by omega
      conv_rhs => rw [h1, List.range'_concat]
      simp only [Nat.one_mul, show offset + k - 1 = offset + (k - 1) by omega]
    refine ⟨(List.range' offset (k - 1)).map Call.fn ++
        [Call.splitJob (offset + k) (n - k), Call.fn (offset + k - 1),
          Call.markInvocationsFinished k], k,
      by simp only [multiInvokeEntry, hl, hcnt k (le_of_lt hk2)]; simp, hk1,
      le_of_lt hk2, ?_, ?_, ?_, ?_, fun i hi => by simpa using hq2 i hi,
      Or.inr ⟨hk2, by simpa using hq1, rfl⟩⟩
    · simp only [localRuns_append, localRuns_map_fn, localRuns, List.append_nil]
      exact hloc
    · simp [handedOff_append, handedOff_map_fn, handedOff]
    · simp only [localRuns_append, localRuns_map_fn, localRuns, handedOff_append,
        handedOff_map_fn, handedOff, List.append_nil, List.nil_append]
      rw [hloc]
      exact hsplit k (le_of_lt hk2)
    · simp only [localRuns_append, localRuns_map_fn, localRuns, finishedCounts_append,
        finishedCounts_map_fn, finishedCounts, List.append_nil, List.nil_append]
      rw [hloc, List.length_range']

theorem multiInvokeEntry_split_witness :
    multiInvokeEntry (fun i => if i < 2 then busyQueue else idleQueue) 10 5 5 =
      some [.fn 10, .fn 11, .splitJob 13 2, .fn 12, .markInvocationsFinished 3] ∧
    ∃ calls k, multiInvokeEntry (fun i => if i < 2 then busyQueue else idleQueue) 10 5 5 =
        some calls ∧ 1 ≤ k ∧ k ≤ 5 ∧
      localRuns calls = List.range' 10 k ∧
      handedOff calls = List.range' (10 + k) (5 - k) ∧
      localRuns calls ++ handedOff calls = List.range' 10 5 ∧
      finishedCounts calls = [(localRuns calls).length] ∧
      (∀ i, i + 1 < k →
        shouldSplit ((fun i => if i < 2 then busyQueue else idleQueue) i) = false) ∧
      ((k = 5 ∧ calls = (List.range' 10 5).map Call.fn ++ [Call.markInvocationsFinished 5]) ∨
        (k < 5 ∧ shouldSplit ((fun i => if i < 2 then busyQueue else idleQueue) (k - 1)) = true ∧
          calls = (List.range' 10 (k - 1)).map Call.fn ++
            [Call.splitJob (10 + k) (5 - k), Call.fn (10 + k - 1),
              Call.markInvocationsFinished k])) :=
  ⟨by decide, multiInvokeEntry_split (fun i => if i < 2 then busyQueue else idleQueue) 10 5 5
    (by decide) (by decide) (by decide)⟩

end JobManager

namespace TaskGraph

theorem sum_tile_counts (MEGA T : Nat) (k : Nat) :
    ((List.range k).map (fun t => min (T - t * MEGA) MEGA)).sum = min T (k * MEGA) := by
  induction k with
  | zero => simp
  | succ k ih =>
    rw [List.range_succ, List.map_append, List.sum_append, ih, Nat.succ_mul]
    simp only [List.map_cons, List.map_nil, List.sum_cons, List.sum_nil, Nat.add_zero]
    omega

theorem le_numTiles_mul (MEGA T : Nat) (hM : 0 < MEGA) : T ≤ numTiles MEGA T * MEGA := by
  unfold numTiles
  have h1 := Nat.div_add_mod (T + MEGA - 1) MEGA
  have h2 := Nat.mod_lt (T + MEGA - 1) hM
  rw [Nat.mul_comm] at h1
  omega

theorem outstanding_finish (MEGA : Nat) (s : Sched) (b : Nat) (blk : Block) (g : TaskGraph)
    (tmp : TmpAllocator) (hb : s.blocks[b]? = some blk) :
    outstanding MEGA ⟨g, tmp, s.blocks.set b { blk with running := false }⟩ + tileCount MEGA blk =
      outstanding MEGA s := by
  have := sum_map_set (tileCount MEGA) s.blocks b { blk with running := false } blk hb
  have h0 : tileCount MEGA { blk with running := false } = 0 := by simp [tileCount]
  rw [h0] at this
  simp only [outstanding]
  omega

/-- C30: no double dispatch under interleaving. For any number of blocks and
any interleaving `sched` of their `getWork` and `finishWork` steps in a tick
(each step atomic; counts with `count + MEGA ≤ 2^32`, no invocations
remaining when the tick starts), the interleaving runs without a fault, and
for the tiles it hands out: no (node, invocation index) pair is given to more
than one lane; every index given is the `int32_t` value of some `k` below the
node's total; every tile is a `Run` tile of a node with a non-zero count
whose base is a multiple of `MEGA` below the node's total; and no two tiles
have the same node and the same base. -/
theorem no_double_dispatch (MEGA : Nat) (sm : StateManager) (nodes : List NodeState)
    (tmp : TmpAllocator) (numBlocks : Nat) (hM : 0 < MEGA)
    (hT : ∀ j, cnt MEGA sm nodes j + MEGA ≤ 2 ^ 32)
    (hzero : ∀ nd, nd ∈ nodes → nd.numRemaining = 0)
    (s0 : Sched) (hstart : startTick MEGA sm (TaskGraph.new nodes) tmp numBlocks = .ok s0)
    (sched : List Nat) :
    ∃ s tiles advs, runScheduleLog MEGA sm s0 sched [] [] = .ok (s, tiles, advs) ∧
      runSchedule MEGA sm s0 sched = .ok s ∧
      (lanesOf MEGA tiles).Nodup ∧
      (∀ e, e ∈ lanesOf MEGA tiles → ∃ k, k < cnt MEGA sm nodes e.1 ∧ e.2 = toInt32 k) ∧
      (∀ t, t ∈ tiles → t.state = .Run ∧ t.numInvocations = cnt MEGA sm nodes t.nodeIdx ∧
        MEGA ∣ t.runOffset ∧ t.runOffset < cnt MEGA sm nodes t.nodeIdx) ∧
      (tiles.map (fun t => (t.nodeIdx, t.runOffset))).Nodup := by
  have h0 := startTick_tick MEGA sm nodes tmp numBlocks hM hzero s0 hstart
  obtain ⟨s, tiles, advs, h1, h2, h3⟩ :=
    runScheduleLog_tick MEGA sm nodes hM hT sched s0 [] [] h0
  obtain ⟨l1, l2, l3⟩ := tickInv_lanes MEGA sm nodes hM hT s tiles advs h3
  refine ⟨s, tiles, advs, h1, h2, l1, l2, ?_, l3⟩
  intro t ht
  obtain ⟨a1, a2, a3, a4, _⟩ := h3.tile_ok t ht
  exact ⟨a1, a2, a3, by rw [← a2]; exact a4⟩

theorem no_double_dispatch_witness :
    ∃ s0, startTick 4 exampleStore (TaskGraph.new exampleNodes) ⟨0, 0⟩ 2 = .ok s0 ∧
    ∃ s tiles advs,
      runScheduleLog 4 exampleStore s0 [0, 1, 1, 0, 1, 0, 0] [] [] = .ok (s, tiles, advs) ∧
      runSchedule 4 exampleStore s0 [0, 1, 1, 0, 1, 0, 0] = .ok s ∧
      (lanesOf 4 tiles).Nodup ∧
      (∀ e, e ∈ lanesOf 4 tiles →
        ∃ k, k < cnt 4 exampleStore exampleNodes e.1 ∧ e.2 = toInt32 k) ∧
      (∀ t, t ∈ tiles → t.state = .Run ∧
        t.numInvocations = cnt 4 exampleStore exampleNodes t.nodeIdx ∧
        4 ∣ t.runOffset ∧ t.runOffset < cnt 4 exampleStore exampleNodes t.nodeIdx) ∧
      (tiles.map (fun t => (t.nodeIdx, t.runOffset))).Nodup :=
  ⟨_, rfl, no_double_dispatch 4 exampleStore exampleNodes ⟨0, 0⟩ 2 (by decide)
    exampleNodes_counts (by decide) _ rfl [0, 1, 1, 0, 1, 0, 0]⟩

end TaskGraph

namespace TaskGraph

theorem numFinished_tile (MEGA : Nat) (sm : StateManager) (nodes : List NodeState)
    (hT : ∀ j, cnt MEGA sm nodes j + MEGA ≤ 2 ^ 32)
    (s : Sched) (tiles : List BlockState) (advs : List Nat)
    (h : TickInv MEGA sm nodes s tiles advs) (t : BlockState) (ht : t ∈ tiles) :
    t.runOffset < cnt MEGA sm nodes t.nodeIdx ∧
    numFinished MEGA t = min (cnt MEGA sm nodes t.nodeIdx - t.runOffset) MEGA := by
  obtain ⟨_, a2, _, a4, _⟩ := h.tile_ok t ht
  refine ⟨by rw [← a2]; exact a4, ?_⟩
  unfold numFinished
  rw [numFinished_eq MEGA _ _ (by rw [a2]; exact hT _) a4, a2]

theorem sum_numFinished (MEGA : Nat) (sm : StateManager) (nodes : List NodeState)
    (hM : 0 < MEGA) (hT : ∀ j, cnt MEGA sm nodes j + MEGA ≤ 2 ^ 32)
    (s : Sched) (tiles : List BlockState) (advs : List Nat)
    (h : TickInv MEGA sm nodes s tiles advs) (j : Nat) (hj : j < s.graph.cur_node_idx_) :
    ((tilesAt tiles j).map (numFinished MEGA)).sum = cnt MEGA sm nodes j := by
  have h1 : (tilesAt tiles j).map (numFinished MEGA) =
      ((tilesAt tiles j).map (fun t => t.runOffset)).map
        (fun off => min (cnt MEGA sm nodes j - off) MEGA) := by
    rw [List.map_map]
    apply List.map_congr_left
    intro t ht
    unfold tilesAt at ht
    rw [List.mem_filter] at ht
    have e : t.nodeIdx = j := by simpa using ht.2
    have := (numFinished_tile MEGA sm nodes hT s tiles advs h t ht.1).2
    rw [e] at this
    simpa using this
  have h2 : tilesGiven MEGA sm nodes s.graph j = numTiles MEGA (cnt MEGA sm nodes j) := by
    unfold tilesGiven
    rw [if_pos hj]
  rw [h1, h.bases j, h2, List.map_map]
  have h3 := sum_tile_counts MEGA (cnt MEGA sm nodes j) (numTiles MEGA (cnt MEGA sm nodes j))
  have h4 := le_numTiles_mul MEGA (cnt MEGA sm nodes j) hM
  rw [Nat.min_eq_left h4] at h3
  exact h3

/-- C28: completion accounting. For any number of blocks and any interleaving
`sched` of their `getWork` and `finishWork` steps in a tick (each step atomic;
counts with `count + MEGA ≤ 2^32`, no invocations remaining when the tick
starts), the interleaving runs without a fault, and in the state reached: the
bases of the tiles handed out for each node are `0, MEGA, 2*MEGA, ...` in
this order, each below the node's total `T`, and the amount `finishWork`
subtracts for a tile is `min(T - base, MEGA)`; for a node the cursor has
passed these amounts sum to exactly `T`; the `finishWork` calls that advanced
the cursor are, each once and in order, those of the nodes with a non-zero
count below the cursor; and when a block that holds a tile calls `finishWork`
next, the node's `numRemaining` is at least the amount subtracted (no
underflow), it becomes 0 exactly when no invocation of the node is left to
hand out and no other tile is outstanding, and this is exactly when the call
advances the cursor. -/
theorem completion_accounting (MEGA : Nat) (sm : StateManager) (nodes : List NodeState)
    (tmp : TmpAllocator) (numBlocks : Nat) (hM : 0 < MEGA)
    (hT : ∀ j, cnt MEGA sm nodes j + MEGA ≤ 2 ^ 32)
    (hzero : ∀ nd, nd ∈ nodes → nd.numRemaining = 0)
    (s0 : Sched) (hstart : startTick MEGA sm (TaskGraph.new nodes) tmp numBlocks = .ok s0)
    (sched : List Nat) :
    ∃ s tiles advs, runScheduleLog MEGA sm s0 sched [] [] = .ok (s, tiles, advs) ∧
      (∀ j, (tilesAt tiles j).map (fun t => t.runOffset) =
        (List.range (tilesGiven MEGA sm nodes s.graph j)).map (fun t => t * MEGA)) ∧
      (∀ t, t ∈ tiles → t.runOffset < cnt MEGA sm nodes t.nodeIdx ∧
        numFinished MEGA t = min (cnt MEGA sm nodes t.nodeIdx - t.runOffset) MEGA) ∧
      (∀ j, j < s.graph.cur_node_idx_ →
        tilesGiven MEGA sm nodes s.graph j = numTiles MEGA (cnt MEGA sm nodes j) ∧
        ((tilesAt tiles j).map (numFinished MEGA)).sum = cnt MEGA sm nodes j) ∧
      advs = (List.range s.graph.cur_node_idx_).filter
        (fun j => decide (cnt MEGA sm nodes j ≠ 0)) ∧
      ∀ b blk, s.blocks[b]? = some blk → blk.running = true →
        ∃ s' nd nd', stepBlock MEGA sm s b = .ok s' ∧
          s.graph.sorted_nodes_[blk.shared.nodeIdx]? = some nd ∧
          numFinished MEGA blk.shared ≤ nd.numRemaining ∧
          s'.graph.sorted_nodes_[blk.shared.nodeIdx]? = some nd' ∧
          nd'.numRemaining = nd.numRemaining - numFinished MEGA blk.shared ∧
          (nd'.numRemaining = 0 ↔
            (nd.totalNumInvocations ≤ nd.curOffset ∧ outstanding MEGA s' = 0)) ∧
          (nd'.numRemaining = 0 ↔ advanceOf MEGA s b = [blk.shared.nodeIdx]) ∧
          (nd'.numRemaining = 0 → s.graph.cur_node_idx_ < s'.graph.cur_node_idx_) ∧
          (nd'.numRemaining ≠ 0 →
            advanceOf MEGA s b = [] ∧ s'.graph.cur_node_idx_ = s.graph.cur_node_idx_) := by
  have h0 := startTick_tick MEGA sm nodes tmp numBlocks hM hzero s0 hstart
  obtain ⟨s, tiles, advs, h1, h2, h3⟩ :=
    runScheduleLog_tick MEGA sm nodes hM hT sched s0 [] [] h0
  refine ⟨s, tiles, advs, h1, h3.bases,
    fun t ht => numFinished_tile MEGA sm nodes hT s tiles advs h3 t ht, ?_, h3.advances, ?_⟩
  · intro j hj
    refine ⟨?_, sum_numFinished MEGA sm nodes hM hT s tiles advs h3 j hj⟩
    unfold tilesGiven
    rw [if_pos hj]
  · intro b blk hb hrun
    obtain ⟨s', nd, hs', hnd, hidx, hnf, hcpos, hle, _, _, hblocks, hnd2, hcase⟩ :=
      finishWork_shape MEGA sm nodes hM hT s b blk hb hrun h3.sched
    have hc := h3.sched.current nd hnd
    have hout : outstanding MEGA s' + tileCount MEGA blk = outstanding MEGA s := by
      have := outstanding_finish MEGA s b blk s'.graph s'.tmp hb
      rw [← hblocks] at this
      exact this
    have hrem : nd.numRemaining - tileCount MEGA blk =
        (nd.totalNumInvocations - min nd.curOffset nd.totalNumInvocations) +
          outstanding MEGA s' := by
      rw [hc.2.2.2]
      omega
    refine ⟨s', nd, _, hs', by rw [hidx]; exact hnd, by rw [hnf]; exact hle,
      by rw [hidx]; exact hnd2, by simp only; rw [hnf], ?_, ?_, ?_, ?_⟩
    · simp only
      rw [hrem]
      constructor
      · intro h
        refine ⟨?_, by omega⟩
        have h5 : nd.totalNumInvocations - min nd.curOffset nd.totalNumInvocations = 0 := by
          omega
        rcases Nat.le_total nd.curOffset nd.totalNumInvocations with h6 | h6
        · rw [Nat.min_eq_left h6] at h5
          omega
        · exact h6
      · rintro ⟨h5, h6⟩
        rw [Nat.min_eq_right h5, h6]
        omega
    · simp only
      rcases hcase with ⟨hne, hadv, _⟩ | ⟨heq, hadv, _⟩
      · rw [hadv]
        constructor
        · intro h; omega
        · intro h; cases h
      · rw [hadv, hidx]
        constructor
        · intro _; rfl
        · intro _; omega
    · simp only
      rcases hcase with ⟨hne, _, _⟩ | ⟨_, _, hlt, _⟩
      · intro h; omega
      · intro _; exact hlt
    · simp only
      rcases hcase with ⟨_, hadv, hcur⟩ | ⟨heq, _⟩
      · intro _; exact ⟨hadv, hcur⟩
      · intro h; omega

theorem completion_accounting_witness :
    ∃ s0, startTick 4 exampleStore (TaskGraph.new exampleNodes) ⟨0, 0⟩ 2 = .ok s0 ∧
    ∃ s tiles advs,
      runScheduleLog 4 exampleStore s0 [0, 1, 1, 0, 1, 0, 0, 1] [] [] = .ok (s, tiles, advs) ∧
      (∀ j, (tilesAt tiles j).map (fun t => t.runOffset) =
        (List.range (tilesGiven 4 exampleStore exampleNodes s.graph j)).map (fun t => t * 4)) ∧
      (∀ j, j < s.graph.cur_node_idx_ →
        tilesGiven 4 exampleStore exampleNodes s.graph j =
          numTiles 4 (cnt 4 exampleStore exampleNodes j) ∧
        ((tilesAt tiles j).map (numFinished 4)).sum = cnt 4 exampleStore exampleNodes j) ∧
      advs = (List.range s.graph.cur_node_idx_).filter
        (fun j => decide (cnt 4 exampleStore exampleNodes j ≠ 0)) := by
  obtain ⟨s, tiles, advs, h1, h2, _, h4, h5, _⟩ :=
    completion_accounting 4 exampleStore exampleNodes ⟨0, 0⟩ 2 (by decide)
      exampleNodes_counts (by decide) _ rfl [0, 1, 1, 0, 1, 0, 0, 1]
  exact ⟨_, rfl, s, tiles, advs, h1, h2, h4, h5⟩

end TaskGraph

namespace TaskGraph

/-- C29: advance and skip. (1) When a block finishes the last outstanding
tile of the node at sorted position `n` (the `fetch_sub` of `finishWork`
returns `num_finished`), `finishWork` returns with the cursor at a position
`m > n` that is the least position after `n` whose count is non-zero, or the
sentinel `num_nodes` when there is none; the node at `m` then has
`curOffset = 0` and `numRemaining = totalNumInvocations =` its count; every
node between `n` and `m` has count 0 and is exactly as it was. (2) In a tick,
for any number of blocks and any interleaving (counts with
`count + MEGA ≤ 2^32`), the cursor is always at the sentinel or at a node
whose count is non-zero, never at a skipped node. -/
theorem advance_and_skip (MEGA : Nat) (sm : StateManager) (g : TaskGraph)
    (tmp : TmpAllocator) (bs : BlockState) (nd : NodeState)
    (hn : g.sorted_nodes_[bs.nodeIdx]? = some nd)
    (hlast : nd.numRemaining = numFinished MEGA bs) :
    (∃ g' tmp', finishWork MEGA sm g tmp bs = .ok (g', tmp') ∧
      bs.nodeIdx < g'.cur_node_idx_ ∧ g'.cur_node_idx_ ≤ g.num_nodes_ ∧
      (∀ i, bs.nodeIdx < i → i < g'.cur_node_idx_ →
        cnt MEGA sm g.sorted_nodes_ i = 0 ∧ g'.sorted_nodes_[i]? = g.sorted_nodes_[i]?) ∧
      (g'.cur_node_idx_ < g.num_nodes_ →
        cnt MEGA sm g.sorted_nodes_ g'.cur_node_idx_ ≠ 0 ∧
        ∃ nd', g'.sorted_nodes_[g'.cur_node_idx_]? = some nd' ∧ nd'.curOffset = 0 ∧
          nd'.numRemaining = cnt MEGA sm g.sorted_nodes_ g'.cur_node_idx_ ∧
          nd'.totalNumInvocations = cnt MEGA sm g.sorted_nodes_ g'.cur_node_idx_) ∧
      (∀ m, bs.nodeIdx < m → m < g.num_nodes_ → cnt MEGA sm g.sorted_nodes_ m ≠ 0 →
        g'.cur_node_idx_ ≤ m) ∧
      (g'.cur_node_idx_ = g.num_nodes_ ↔
        ∀ i, bs.nodeIdx < i → i < g.num_nodes_ → cnt MEGA sm g.sorted_nodes_ i = 0)) ∧
    ∀ (nodes : List NodeState) (tmp0 : TmpAllocator) (numBlocks : Nat) (s0 : Sched)
      (sched : List Nat), 0 < MEGA → (∀ j, cnt MEGA sm nodes j + MEGA ≤ 2 ^ 32) →
      (∀ n, n ∈ nodes → n.numRemaining = 0) →
      startTick MEGA sm (TaskGraph.new nodes) tmp0 numBlocks = .ok s0 →
      ∃ s, runSchedule MEGA sm s0 sched = .ok s ∧
        (s.graph.cur_node_idx_ = nodes.length ∨
          (s.graph.cur_node_idx_ < nodes.length ∧
            cnt MEGA sm nodes s.graph.cur_node_idx_ ≠ 0)) := by
  constructor
  · have hjlt := getElem?_lt hn
    obtain ⟨nd2, hnd2⟩ : ∃ nd2 : NodeState, nd2 =
        { nd with numRemaining := sub32 nd.numRemaining (numFinished MEGA bs) } := ⟨_, rfl⟩
    obtain ⟨g2, hg2⟩ : ∃ g2 : TaskGraph, g2 =
        ⟨g.sorted_nodes_.set bs.nodeIdx nd2, g.cur_node_idx_⟩ := ⟨_, rfl⟩
    have hstat2 : g2.sorted_nodes_.map NodeState.static =
        g.sorted_nodes_.map NodeState.static := by
      rw [hg2]
      exact map_static_set _ _ nd nd2 hn (by rw [hnd2]; rfl)
    have hlen2 : g2.sorted_nodes_.length = g.sorted_nodes_.length := by rw [hg2]; simp
    obtain ⟨m, h1, h2, h3, h4, h5, h6, h7⟩ :=
      advance_spec MEGA sm (g.num_nodes_ - bs.nodeIdx) (bs.nodeIdx + 1) g2 tmp
        (by simp only [num_nodes_]; rw [hlen2]; omega) (by rw [hlen2]; omega)
    have hfw : finishWork MEGA sm g tmp bs =
        .ok (advance MEGA sm (g.num_nodes_ - bs.nodeIdx) (bs.nodeIdx + 1) g2 tmp) := by
      unfold finishWork
      unfold numFinished at hlast hnd2
      simp only [hn]
      rw [if_pos hlast, hg2, hnd2]
    have hzero : ∀ i, bs.nodeIdx < i → i < m → cnt MEGA sm g.sorted_nodes_ i = 0 := by
      intro i hi1 hi2
      rw [← (cnt_congr MEGA sm _ _ hstat2 i).1]
      exact h4 i (by omega) hi2
    have hnz : m < g.sorted_nodes_.length → cnt MEGA sm g.sorted_nodes_ m ≠ 0 := by
      intro hm
      have := (h5 (by rw [hlen2]; exact hm)).1
      rw [(cnt_congr MEGA sm _ _ hstat2 m).1] at this
      exact this
    refine ⟨_, _, hfw, by rw [h3]; omega, by rw [h3]; simp only [num_nodes_]; omega,
      ?_, ?_, ?_, ?_⟩
    · intro i hi1 hi2
      rw [h3] at hi2
      refine ⟨hzero i hi1 hi2, ?_⟩
      rw [h6 i (by omega), hg2]
      simp only
      rw [List.getElem?_set_ne (by omega)]
    · intro hm
      rw [h3] at hm ⊢
      simp only [num_nodes_] at hm
      obtain ⟨_, _, nd', hnd', ht, ho, hr⟩ := h5 (by rw [hlen2]; exact hm)
      rw [(cnt_congr MEGA sm _ _ hstat2 m).1] at ht hr
      exact ⟨hnz hm, nd', hnd', ho, by rw [hr]; omega, ht⟩
    · intro m' hm1 hm2 hm3
      rw [h3]
      by_contra hc
      exact hm3 (hzero m' hm1 (by omega))
    · rw [h3]
      simp only [num_nodes_]
      constructor
      · intro e i hi1 hi2
        exact hzero i hi1 (by omega)
      · intro hall
        by_contra hc
        have hm : m < g.sorted_nodes_.length := by omega
        exact hnz hm (hall m (by omega) hm)
  · intro nodes tmp0 numBlocks s0 sched hM hT hzero hstart
    have h0 := startTick_tick MEGA sm nodes tmp0 numBlocks hM hzero s0 hstart
    obtain ⟨s, tiles, advs, _, h2, h3⟩ :=
      runScheduleLog_tick MEGA sm nodes hM hT sched s0 [] [] h0
    refine ⟨s, h2, ?_⟩
    have := h3.sched.cursor_le
    by_cases hc : s.graph.cur_node_idx_ = nodes.length
    · exact Or.inl hc
    · exact Or.inr ⟨by omega, h3.live (by omega)⟩

theorem advance_and_skip_witness :
    exampleLastTileGraph.sorted_nodes_[(BlockState.mk .Run 0 10 7 8).nodeIdx]? =
      some ⟨⟨.ParallelFor, 7, { query := 10 }⟩, 12, 2, 10⟩ ∧
    (2 : Nat) = numFinished 4 ⟨.Run, 0, 10, 7, 8⟩ ∧
    (∃ g' tmp', finishWork 4 exampleStore exampleLastTileGraph ⟨0, 0⟩ ⟨.Run, 0, 10, 7, 8⟩ =
        .ok (g', tmp') ∧
      (BlockState.mk .Run 0 10 7 8).nodeIdx < g'.cur_node_idx_ ∧
      g'.cur_node_idx_ ≤ exampleLastTileGraph.num_nodes_ ∧
      (∀ i, (BlockState.mk .Run 0 10 7 8).nodeIdx < i → i < g'.cur_node_idx_ →
        cnt 4 exampleStore exampleLastTileGraph.sorted_nodes_ i = 0 ∧
        g'.sorted_nodes_[i]? = exampleLastTileGraph.sorted_nodes_[i]?) ∧
      (g'.cur_node_idx_ < exampleLastTileGraph.num_nodes_ →
        cnt 4 exampleStore exampleLastTileGraph.sorted_nodes_ g'.cur_node_idx_ ≠ 0 ∧
        ∃ nd', g'.sorted_nodes_[g'.cur_node_idx_]? = some nd' ∧ nd'.curOffset = 0 ∧
          nd'.numRemaining =
            cnt 4 exampleStore exampleLastTileGraph.sorted_nodes_ g'.cur_node_idx_ ∧
          nd'.totalNumInvocations =
            cnt 4 exampleStore exampleLastTileGraph.sorted_nodes_ g'.cur_node_idx_) ∧
      (∀ m, (BlockState.mk .Run 0 10 7 8).nodeIdx < m → m < exampleLastTileGraph.num_nodes_ →
        cnt 4 exampleStore exampleLastTileGraph.sorted_nodes_ m ≠ 0 → g'.cur_node_idx_ ≤ m) ∧
      (g'.cur_node_idx_ = exampleLastTileGraph.num_nodes_ ↔
        ∀ i, (BlockState.mk .Run 0 10 7 8).nodeIdx < i → i < exampleLastTileGraph.num_nodes_ →
          cnt 4 exampleStore exampleLastTileGraph.sorted_nodes_ i = 0)) ∧
    finishWork 4 exampleStore exampleLastTileGraph ⟨0, 0⟩ ⟨.Run, 0, 10, 7, 8⟩ =
      .ok (⟨[⟨⟨.ParallelFor, 7, { query := 10 }⟩, 12, 0, 10⟩, parallelForNode 8 0,
        ⟨⟨.ParallelFor, 9, { query := 5 }⟩, 0, 5, 5⟩], 2⟩, ⟨0, 0⟩) ∧
    ∃ fuel t, runTick 4 exampleStore (TaskGraph.new exampleNodes) ⟨0, 0⟩ fuel = some (.ok t) ∧
      t.presented = [(0, 7, 0), (0, 7, 1), (0, 7, 2), (0, 7, 3), (0, 7, 4), (0, 7, 5),
        (0, 7, 6), (0, 7, 7), (0, 7, 8), (0, 7, 9), (2, 9, 0), (2, 9, 1), (2, 9, 2),
        (2, 9, 3), (2, 9, 4)] :=
  ⟨by decide, by decide,
    (advance_and_skip 4 exampleStore exampleLastTileGraph ⟨0, 0⟩ ⟨.Run, 0, 10, 7, 8⟩
      ⟨⟨.ParallelFor, 7, { query := 10 }⟩, 12, 2, 10⟩ (by decide) (by decide)).1,
    by decide, ⟨8, _, by rfl, by rfl⟩⟩

end TaskGraph

/-! ## Node entries: a tick with a compaction node that has work -/

namespace TaskGraph

theorem runTile_eq (c : Nat) (data : EntryData) (tile : List (Nat × Nat × Int)) :
    runTile c data tile =
      if tile.any (fun e => decide (e.2.1 = c)) then .fault .assertFailed else .ok () := by
  induction tile with
  | nil => rfl
  | cons e rest ih =>
    by_cases h : e.2.1 = c
    · simp [runTile, callEntry, CompactArchetypeEntry.run, h]
    · simp only [runTile, callEntry, h, if_false, ih, List.any_cons, decide_False, Bool.false_or]

theorem blockLoopEntries_step (MEGA : Nat) (sm : StateManager) (c fuel : Nat) (t : Tick) :
    blockLoopEntries MEGA sm c (fuel + 1) t =
      match setBlockState MEGA t.graph t.block with
      | .fault f => some (.fault f)
      | .ok (g, bs) =>
        match bs.state with
        | .Exit => some (.ok { t with graph := g, block := bs })
        | .Loop => blockLoopEntries MEGA sm c fuel { t with graph := g, block := bs }
        | _ =>
          match runTile c (entryData g bs.nodeIdx) (tileInvocations MEGA bs) with
          | .fault f => some (.fault f)
          | .ok _ =>
            match finishWork MEGA sm g t.tmp bs with
            | .fault f => some (.fault f)
            | .ok (g', tmp') =>
              blockLoopEntries MEGA sm c fuel
                { graph := g', tmp := tmp', block := bs,
                  presented := t.presented ++ tileInvocations MEGA bs } := by
  rfl

theorem blockLoop_step (MEGA : Nat) (sm : StateManager) (fuel : Nat) (t : Tick) :
    blockLoop MEGA sm (fuel + 1) t =
      match setBlockState MEGA t.graph t.block with
      | .fault f => some (.fault f)
      | .ok (g, bs) =>
        match bs.state with
        | .Exit => some (.ok { t with graph := g, block := bs })
        | .Loop => blockLoop MEGA sm fuel { t with graph := g, block := bs }
        | _ =>
          match finishWork MEGA sm g t.tmp bs with
          | .fault f => some (.fault f)
          | .ok (g', tmp') =>
            blockLoop MEGA sm fuel
              { graph := g', tmp := tmp', block := bs,
                presented := t.presented ++ tileInvocations MEGA bs } := by
  rfl

/-- More fuel does not change a result the block loop has reached. -/
theorem blockLoopEntries_succ (MEGA : Nat) (sm : StateManager) (c : Nat) :
    ∀ (fuel : Nat) (t : Tick) (r : Res Tick), blockLoopEntries MEGA sm c fuel t = some r →
      blockLoopEntries MEGA sm c (fuel + 1) t = some r := by
  intro fuel
  induction fuel with
  | zero => intro t r h; simp [blockLoopEntries] at h
  | succ fuel ih =>
    intro t r h
    rw [blockLoopEntries_step] at h ⊢
    cases hs : setBlockState MEGA t.graph t.block with
    | fault f => simp only [hs] at h ⊢; exact h
    | ok p =>
      obtain ⟨g, bs⟩ := p
      simp only [hs] at h ⊢
      cases hst : bs.state with
      | Exit => simp only [hst] at h ⊢; exact h
      | Loop => simp only [hst] at h ⊢; exact ih _ _ h
      | Run =>
        simp only [hst] at h ⊢
        cases hrt : runTile c (entryData g bs.nodeIdx) (tileInvocations MEGA bs) with
        | fault f => simp only [hrt] at h ⊢; exact h
        | ok u =>
          simp only [hrt] at h ⊢
          cases hfw : finishWork MEGA sm g t.tmp bs with
          | fault f => simp only [hfw] at h ⊢; exact h
          | ok q => simp only [hfw] at h ⊢; exact ih _ _ h
      | PartialRun =>
        simp only [hst] at h ⊢
        cases hrt : runTile c (entryData g bs.nodeIdx) (tileInvocations MEGA bs) with
        | fault f => simp only [hrt] at h ⊢; exact h
        | ok u =>
          simp only [hrt] at h ⊢
          cases hfw : finishWork MEGA sm g t.tmp bs with
          | fault f => simp only [hfw] at h ⊢; exact h
          | ok q => simp only [hfw] at h ⊢; exact ih _ _ h

theorem blockLoopEntries_mono (MEGA : Nat) (sm : StateManager) (c : Nat) (t : Tick)
    (r : Res Tick) (fuel : Nat) (h : blockLoopEntries MEGA sm c fuel t = some r) (d : Nat) :
    blockLoopEntries MEGA sm c (fuel + d) t = some r := by
  induction d with
  | zero => exact h
  | succ d ih => exact blockLoopEntries_succ MEGA sm c _ t r ih

/-- The block loop with the entry calls made follows the loop without them up
to the first invocation of the compaction entry, where it stops on the failed
assertion. -/
theorem blockLoopEntries_sim (MEGA : Nat) (sm : StateManager) (c : Nat) :
    ∀ (fuel : Nat) (t t' : Tick), blockLoop MEGA sm fuel t = some (.ok t') →
      ∃ added, t'.presented = t.presented ++ added ∧
        blockLoopEntries MEGA sm c fuel t =
          if added.any (fun e => decide (e.2.1 = c)) then some (.fault .assertFailed)
          else some (.ok t') := by
  intro fuel
  induction fuel with
  | zero => intro t t' h; simp [blockLoop] at h
  | succ fuel ih =>
    intro t t' h
    rw [blockLoop_step] at h
    rw [blockLoopEntries_step]
    cases hs : setBlockState MEGA t.graph t.block with
    | fault f => simp [hs] at h
    | ok p =>
      obtain ⟨g, bs⟩ := p
      simp only [hs] at h ⊢
      cases hst : bs.state with
      | Exit =>
        simp only [hst, Option.some.injEq, Res.ok.injEq] at h ⊢
        refine ⟨[], by rw [← h]; simp, ?_⟩
        simp [h]
      | Loop =>
        simp only [hst] at h ⊢
        obtain ⟨added, h1, h2⟩ := ih _ _ h
        exact ⟨added, h1, h2⟩
      | Run =>
        simp only [hst] at h ⊢
        cases hfw : finishWork MEGA sm g t.tmp bs with
        | fault f => simp [hfw] at h
        | ok q =>
          obtain ⟨g', tmp'⟩ := q
          simp only [hfw] at h ⊢
          obtain ⟨added, h1, h2⟩ := ih _ _ h
          refine ⟨tileInvocations MEGA bs ++ added, by rw [h1]; simp, ?_⟩
          rw [runTile_eq, List.any_append]
          cases hany : (tileInvocations MEGA bs).any (fun e => decide (e.2.1 = c)) with
          | true => simp
          | false => simp only [Bool.false_eq_true, if_false, Bool.false_or]; exact h2
      | PartialRun =>
        simp only [hst] at h ⊢
        cases hfw : finishWork MEGA sm g t.tmp bs with
        | fault f => simp [hfw] at h
        | ok q =>
          obtain ⟨g', tmp'⟩ := q
          simp only [hfw] at h ⊢
          obtain ⟨added, h1, h2⟩ := ih _ _ h
          refine ⟨tileInvocations MEGA bs ++ added, by rw [h1]; simp, ?_⟩
          rw [runTile_eq, List.any_append]
          cases hany : (tileInvocations MEGA bs).any (fun e => decide (e.2.1 = c)) with
          | true => simp
          | false => simp only [Bool.false_eq_true, if_false, Bool.false_or]; exact h2

/-- The count of a `CompactArchetype` node is zero exactly when its archetype
is not dirty or has no rows. -/
theorem countOf_compact (MEGA : Nat) (sm : StateManager) (nd : NodeState)
    (hc : nd.info.type = .CompactArchetype) :
    countOf MEGA sm nd = 0 ↔
      (sm.isDirty nd.info.data.archetypeID = false ∨
        sm.numArchetypeRows nd.info.data.archetypeID % 2 ^ 32 = 0) := by
  simp only [countOf, computeNumInvocations, hc]
  cases hd : sm.isDirty nd.info.data.archetypeID <;> simp

/-- A tick on a graph in which a compaction node has a non-zero count stops
on the failed assertion of the compaction entry. -/
theorem runTickEntries_aborts (MEGA : Nat) (sm : StateManager) (c : Nat)
    (nodes : List NodeState) (tmp : TmpAllocator) (hM : 0 < MEGA)
    (hT : ∀ j, cnt MEGA sm nodes j + MEGA ≤ 2 ^ 32) (h0 : cnt MEGA sm nodes 0 ≠ 0)
    (j : Nat) (hf : fid nodes j = c) (hj : cnt MEGA sm nodes j ≠ 0) :
    ∃ fuel, ∀ d, runTickEntries MEGA sm c (TaskGraph.new nodes) tmp (fuel + d) =
      some (.fault .assertFailed) := by
  obtain ⟨fuel, t0, hrun, hpres, _, _⟩ := runTick_trace MEGA sm nodes tmp hM hT h0
  obtain ⟨g', tmp', hinit, _, _⟩ := init_armed MEGA sm (TaskGraph.new nodes) tmp h0
  simp only [runTick, hinit] at hrun
  obtain ⟨added, h1, h2⟩ := blockLoopEntries_sim MEGA sm c fuel _ t0 hrun
  have hmem : (j, fid nodes j, toInt32 0) ∈ added := by
    have : (j, fid nodes j, toInt32 0) ∈ t0.presented := by
      rw [hpres]
      exact (mem_traceFrom MEGA sm nodes _).2 ⟨0, Nat.pos_of_ne_zero hj, rfl, rfl⟩
    simpa [h1] using this
  have hany : added.any (fun e => decide (e.2.1 = c)) = true :=
    List.any_eq_true.2 ⟨_, hmem, by simpa using hf⟩
  rw [hany, if_pos rfl] at h2
  refine ⟨fuel, fun d => ?_⟩
  simp only [runTickEntries, hinit]
  exact blockLoopEntries_mono MEGA sm c _ _ fuel h2 d

/-- C40. The body of `CompactArchetypeEntry::run` fails its assertion on every
invocation. So, on a graph whose `CompactArchetype` nodes carry the function
id of that entry (as `compactArchetypeNode` builds them), a tick that runs to
completion had count zero for every `CompactArchetype` node: its archetype
was not dirty or had zero rows. (`MEGA` positive, every count plus `MEGA`
inside `uint32_t`.) -/
theorem compact_entry_blocks_tick (MEGA : Nat) (sm : StateManager) (c : Nat)
    (nodes : List NodeState) (tmp : TmpAllocator) (hM : 0 < MEGA)
    (hT : ∀ j, cnt MEGA sm nodes j + MEGA ≤ 2 ^ 32)
    (hwf : ∀ nd ∈ nodes, nd.info.type = .CompactArchetype → nd.info.funcID = c)
    (fuel : Nat) (t : Tick)
    (hrun : runTickEntries MEGA sm c (TaskGraph.new nodes) tmp fuel = some (.ok t))
    (j : Nat) (nd : NodeState) (hj : nodes[j]? = some nd)
    (hc : nd.info.type = .CompactArchetype) :
    (∀ i, CompactArchetypeEntry.run nd.info.data i = .fault .assertFailed) ∧
    cnt MEGA sm nodes j = 0 ∧
    (sm.isDirty nd.info.data.archetypeID = false ∨
      sm.numArchetypeRows nd.info.data.archetypeID % 2 ^ 32 = 0) := by
  have hcnt : cnt MEGA sm nodes j = countOf MEGA sm nd := by simp [cnt, hj]
  have hz : cnt MEGA sm nodes j = 0 := by
    by_contra hne
    have h0 : cnt MEGA sm nodes 0 ≠ 0 := by
      intro h0
      cases hn : nodes[0]? with
      | none =>
        rw [List.getElem?_eq_none_iff] at hn
        have := getElem?_lt hj
        omega
      | some n0 =>
        have hz0 : countOf MEGA sm n0 = 0 := by simpa [cnt, hn] using h0
        have := init_zero MEGA sm (TaskGraph.new nodes) tmp n0 (by simpa [TaskGraph.new] using hn) hz0
        simp [runTickEntries, this] at hrun
    have hfid : fid nodes j = c := by
      simp only [fid, hj]
      exact hwf nd (mem_of_getElem? hj) hc
    obtain ⟨fuel0, hab⟩ := runTickEntries_aborts MEGA sm c nodes tmp hM hT h0 j hfid hne
    obtain ⟨g', tmp', hinit, _, _⟩ := init_armed MEGA sm (TaskGraph.new nodes) tmp h0
    have h1 := hab fuel
    simp only [runTickEntries, hinit] at hrun h1
    have h2 := blockLoopEntries_mono MEGA sm c _ _ fuel hrun fuel0
    rw [Nat.add_comm] at h2
    rw [h1] at h2
    cases h2
  exact ⟨fun _ => rfl, hz, (countOf_compact MEGA sm nd hc).1 (hcnt ▸ hz)⟩

theorem compact_entry_blocks_tick_witness :
    runTickEntries 4 dirtyStore 5 (TaskGraph.new [parallelForNode 7 3, compactNode 5 1])
      ⟨0, 0⟩ 4 = some (.fault .assertFailed) ∧
    runTickEntries 4 dirtyStore 5 (TaskGraph.new [parallelForNode 7 3, compactNode 5 2])
      ⟨0, 0⟩ 4 = some (.ok ⟨⟨[⟨⟨.ParallelFor, 7, { query := 3 }⟩, 4, 0, 3⟩, compactNode 5 2], 2⟩,
        ⟨0, 0⟩, ⟨.Exit, 0, 3, 7, 0⟩, [(0, 7, 0), (0, 7, 1), (0, 7, 2)]⟩) ∧
    (∀ i, CompactArchetypeEntry.run (compactNode 5 2).info.data i = .fault .assertFailed) ∧
    cnt 4 dirtyStore [parallelForNode 7 3, compactNode 5 2] 1 = 0 ∧
    (dirtyStore.isDirty (compactNode 5 2).info.data.archetypeID = false ∨
      dirtyStore.numArchetypeRows (compactNode 5 2).info.data.archetypeID % 2 ^ 32 = 0) :=
  ⟨by decide, by decide,
    compact_entry_blocks_tick 4 dirtyStore 5 [parallelForNode 7 3, compactNode 5 2] ⟨0, 0⟩
      (by decide)
      (fun j => by
        rcases j with _ | _ | j <;>
          simp [cnt, countOf, computeNumInvocations, parallelForNode, compactNode, dirtyStore])
      (by decide) 4
      ⟨⟨[⟨⟨.ParallelFor, 7, { query := 3 }⟩, 4, 0, 3⟩, compactNode 5 2], 2⟩,
        ⟨0, 0⟩, ⟨.Exit, 0, 3, 7, 0⟩, [(0, 7, 0), (0, 7, 1), (0, 7, 2)]⟩
      (by decide) 1 (compactNode 5 2) (by decide) (by decide)⟩

end TaskGraph

/-! ## Temporary allocator: the amount mapped by a grow -/

namespace TmpAllocator

/-- Rounding up to a positive granularity does not go below the argument and
reaches it exactly on a multiple, as long as the sum stays in `uint64_t`. -/
theorem roundUpAlloc_bounds (G x : Nat) (hG : 0 < G) (hx : x + G ≤ 2 ^ 64) :
    x ≤ roundUpAlloc G x ∧ (G ∣ x → roundUpAlloc G x = x) := by
  have h1 : (x + G - 1) % 2 ^ 64 = x + G - 1 := Nat.mod_eq_of_lt (by omega)
  have h2 : (x + G - 1) / G * G ≤ x + G - 1 := Nat.div_mul_le_self _ _
  have h3 : x + G - 1 < (x + G - 1) / G * G + G := by
    have := Nat.lt_div_mul_add (a := x + G - 1) hG
    exact this
  have h4 : ((x + G - 1) / G * G) % 2 ^ 64 = (x + G - 1) / G * G := Nat.mod_eq_of_lt (by omega)
  simp only [roundUpAlloc, roundUp, h1, h4]
  refine ⟨by omega, ?_⟩
  rintro ⟨c, rfl⟩
  have h5 : (G * c + G - 1) / G = c := by
    have e1 : c * G = G * c := Nat.mul_comm _ _
    have e2 : (c + 1) * G = G * c + G := by ring
    exact Nat.div_eq_of_lt_le (by omega) (by omega)
  rw [h5, Nat.mul_comm]

/-- C38. Arena growth amount, for a positive allocation granularity `G` and a
mapped length `m` with `max(m, 1 MiB) + G` inside `uint64_t`: `alloc` calls
`mapMemory` exactly when the offset it obtained is at least `m`; the one call
it then makes maps `min(roundUpAlloc(max(m, 1 MiB)), 256 MiB)` bytes at offset
`m` and the mapped length grows by that amount; the amount lies between 1 MiB
and 256 MiB, and it is `m` itself when `1 MiB ≤ m ≤ 256 MiB` and `G` divides
`m`. -/
theorem alloc_growth_amount (G : Nat) (t : TmpAllocator) (n : Nat) (hG : 0 < G)
    (hr : max t.num_mapped_bytes_ (1024 * 1024) + G ≤ 2 ^ 64) :
    ((alloc G t n).2.2 ≠ [] ↔ t.num_mapped_bytes_ ≤ (alloc G t n).1) ∧
    (t.num_mapped_bytes_ ≤ (alloc G t n).1 →
      (alloc G t n).2.2 = [(t.num_mapped_bytes_,
        min (roundUpAlloc G (max t.num_mapped_bytes_ (1024 * 1024))) (256 * 1024 * 1024))]) ∧
    1024 * 1024 ≤ min (roundUpAlloc G (max t.num_mapped_bytes_ (1024 * 1024))) (256 * 1024 * 1024) ∧
    min (roundUpAlloc G (max t.num_mapped_bytes_ (1024 * 1024))) (256 * 1024 * 1024) ≤
      256 * 1024 * 1024 ∧
    (1024 * 1024 ≤ t.num_mapped_bytes_ → t.num_mapped_bytes_ ≤ 256 * 1024 * 1024 →
      G ∣ t.num_mapped_bytes_ →
      min (roundUpAlloc G (max t.num_mapped_bytes_ (1024 * 1024))) (256 * 1024 * 1024) =
        t.num_mapped_bytes_) := by
  obtain ⟨hb1, hb2⟩ := roundUpAlloc_bounds G _ hG hr
  have hfst : (alloc G t n).1 = t.offset_ := alloc_fst G t n
  rw [hfst]
  refine ⟨?_, ?_, ?_, Nat.min_le_right _ _, ?_⟩
  · simp only [alloc]
    split_ifs with h
    · simp [h]
    · simp only [ne_eq, not_true_eq_false, false_iff]
      omega
  · intro h
    simp only [alloc, if_pos (show t.offset_ ≥ t.num_mapped_bytes_ from h)]
  · have : 1024 * 1024 ≤ max t.num_mapped_bytes_ (1024 * 1024) := le_max_right _ _
    exact le_min (le_trans this hb1) (by norm_num)
  · intro h1 h2 h3
    have hm : max t.num_mapped_bytes_ (1024 * 1024) = t.num_mapped_bytes_ := max_eq_left h1
    rw [hm] at hb2 ⊢
    rw [hb2 h3]
    exact min_eq_left h2

theorem alloc_growth_amount_witness :
    (alloc 65536 ⟨2097152, 2097152⟩ 256).2.2 = [(2097152, 2097152)] ∧
    (alloc 65536 ⟨2097152, 2097152⟩ 256).2.1 = ⟨2097408, 4194304⟩ :=
  ⟨by
    have h := (alloc_growth_amount 65536 ⟨2097152, 2097152⟩ 256 (by decide) (by decide)).2.1
      (by decide)
    rw [h]; decide, by decide⟩

end TmpAllocator

/-! ## Generational ID map: the invariant is kept by every operation -/

namespace IDMap

variable {V : Type}

theorem liveB_free {store : List (Node V)} {i g : Nat} {f : FreeNode}
    (h : store[i]? = some ⟨g, .freeNode f⟩) : liveB store i = false := by
  simp [liveB, h]

theorem liveB_uninit {store : List (Node V)} {i g : Nat}
    (h : store[i]? = some ⟨g, .uninit⟩) : liveB store i = false := by
  simp [liveB, h]

theorem liveB_val {store : List (Node V)} {i g : Nat} {v : V}
    (h : store[i]? = some ⟨g, .val v⟩) : liveB store i = true := by
  simp [liveB, h]

theorem lt_of_getElem?_some {α : Type} {l : List α} {i : Nat} {a : α} (h : l[i]? = some a) :
    i < l.length := by
  by_contra hc
  rw [List.getElem?_eq_none (by omega)] at h; cases h

theorem seg_frame {store store' : List (Node V)} {h : Nat} {ids : List Nat}
    (hagree : ∀ i, i ∈ ids → store'[i]? = store[i]?) (hs : Seg store h ids) :
    Seg store' h ids := by
  induction ids generalizing h with
  | nil => exact hs
  | cons i rest ih =>
    obtain ⟨rfl, g, sn, hn, hr⟩ := hs
    refine ⟨rfl, g, sn, ?_, ih (fun j hj => hagree j (List.mem_cons_of_mem _ hj)) hr⟩
    rw [hagree _ (List.mem_cons_self _ _)]; exact hn

theorem seg_nil {store : List (Node V)} {h : Nat} (hs : Seg store h [])
    (store' : List (Node V)) : Seg store' h [] := hs

theorem seg_free {store : List (Node V)} {h : Nat} {ids : List Nat} (hs : Seg store h ids) :
    ∀ i, i ∈ ids → ∃ g sn, store[i]? = some ⟨g, .freeNode ⟨sn, 1⟩⟩ := by
  induction ids generalizing h with
  | nil => intro i hi; cases hi
  | cons j rest ih =>
    obtain ⟨rfl, g, sn, hn, hr⟩ := hs
    intro i hi
    rcases List.mem_cons.1 hi with rfl | hi'
    · exact ⟨g, sn, hn⟩
    · exact ih hr i hi'

theorem seg_freeSlot {store : List (Node V)} {h : Nat} {ids : List Nat} (hs : Seg store h ids) :
    ∀ i, i ∈ ids → FreeSlot store i := by
  intro i hi
  obtain ⟨g, sn, hn⟩ := seg_free hs i hi
  exact ⟨lt_of_getElem?_some hn, liveB_free hn⟩

theorem mem_blockIds {bl : List (Nat × Nat)} {i : Nat} :
    i ∈ blockIds bl ↔ ∃ b, b ∈ bl ∧ b.1 ≤ i ∧ i < b.1 + b.2 := by
  simp only [blockIds, List.mem_flatMap, List.mem_range'_1]

theorem blockIds_cons (b : Nat × Nat) (bl : List (Nat × Nat)) :
    blockIds (b :: bl) = List.range' b.1 b.2 ++ blockIds bl := by
  simp [blockIds]

theorem primSeg_frame {store store' : List (Node V)} {h : Nat} {bl : List (Nat × Nat)}
    (hagree : ∀ i, i ∈ blockIds bl → store'[i]? = store[i]?) (hs : PrimSeg store h bl) :
    PrimSeg store' h bl := by
  induction bl generalizing h with
  | nil => trivial
  | cons b rest ih =>
    obtain ⟨rfl, hk, g, sn, hn, hcov, hr⟩ := hs
    have hin : ∀ j, b.1 ≤ j → j < b.1 + b.2 → store'[j]? = store[j]? := by
      intro j h1 h2
      apply hagree
      rw [blockIds_cons]
      exact List.mem_append_left _ (List.mem_range'_1.2 ⟨h1, h2⟩)
    refine ⟨rfl, hk, g, sn, ?_, ?_, ih (fun j hj => hagree j ?_) hr⟩
    · rw [hin b.1 le_rfl (by omega)]; exact hn
    · intro j h1 h2
      rw [hin j (by omega) h2]; exact hcov j h1 h2
    · rw [blockIds_cons]; exact List.mem_append_right _ hj

theorem primSeg_freeSlot {store : List (Node V)} {h : Nat} {bl : List (Nat × Nat)}
    (hs : PrimSeg store h bl) : ∀ i, i ∈ blockIds bl → FreeSlot store i := by
  induction bl generalizing h with
  | nil => intro i hi; simp [blockIds] at hi
  | cons b rest ih =>
    obtain ⟨rfl, hk, g, sn, hn, hcov, hr⟩ := hs
    intro i hi
    rw [blockIds_cons, List.mem_append, List.mem_range'_1] at hi
    rcases hi with ⟨h1, h2⟩ | hi'
    · rcases Nat.eq_or_lt_of_le h1 with heq | hlt
      · subst heq; exact ⟨lt_of_getElem?_some hn, liveB_free hn⟩
      · obtain ⟨g', hg'⟩ := hcov i hlt h2
        exact ⟨lt_of_getElem?_some hg', liveB_uninit hg'⟩
    · exact ih hr i hi'

theorem chain_frame {C : Nat} {store store' : List (Node V)} {h : Nat}
    {subs : List (List Nat)}
    (hagree : ∀ i, i ∈ subs.flatten → store'[i]? = store[i]?) (hc : Chain C store h subs) :
    Chain C store' h subs := by
  induction subs generalizing h with
  | nil => exact hc
  | cons sub rest ih =>
    obtain ⟨hne, hlen, g, sn, next, tl, hsub, hn, hseg, hr⟩ := hc
    have hin : ∀ j, j ∈ sub → store'[j]? = store[j]? := by
      intro j hj
      apply hagree
      simp only [List.flatten_cons, List.mem_append]
      exact Or.inl hj
    refine ⟨hne, hlen, g, sn, next, tl, hsub, ?_, ?_, ih (fun j hj => hagree j ?_) hr⟩
    · rw [hin h (by rw [hsub]; exact List.mem_cons_self _ _)]; exact hn
    · exact seg_frame (fun j hj => hin j (by rw [hsub]; exact List.mem_cons_of_mem _ hj)) hseg
    · simp only [List.flatten_cons, List.mem_append]
      exact Or.inr hj

theorem chain_freeSlot {C : Nat} {store : List (Node V)} {h : Nat} {subs : List (List Nat)}
    (hc : Chain C store h subs) : ∀ i, i ∈ subs.flatten → FreeSlot store i := by
  induction subs generalizing h with
  | nil => intro i hi; simp at hi
  | cons sub rest ih =>
    obtain ⟨hne, hlen, g, sn, next, tl, hsub, hn, hseg, hr⟩ := hc
    intro i hi
    simp only [List.flatten_cons, List.mem_append] at hi
    rcases hi with hi | hi
    · rw [hsub] at hi
      rcases List.mem_cons.1 hi with rfl | hi'
      · exact ⟨lt_of_getElem?_some hn, liveB_free hn⟩
      · exact seg_freeSlot hseg i hi'
    · exact ih hr i hi

theorem cacheRep_frame {C : Nat} {store store' : List (Node V)} {c : Cache} {g : CacheGhost}
    (hagree : ∀ i, i ∈ g.ids → store'[i]? = store[i]?) (hr : CacheRep C store c g) :
    CacheRep C store' c g := by
  obtain ⟨h1, h2, h3, h4, h5, h6⟩ := hr
  exact ⟨primSeg_frame (fun i hi => hagree i (List.mem_append_left _ hi)) h1, h2, h3,
    seg_frame (fun i hi => hagree i (List.mem_append_right _ hi)) h4, h5, h6⟩

theorem cacheRep_freeSlot {C : Nat} {store : List (Node V)} {c : Cache} {g : CacheGhost}
    (hr : CacheRep C store c g) : ∀ i, i ∈ g.ids → FreeSlot store i := by
  intro i hi
  rcases List.mem_append.1 hi with h | h
  · exact primSeg_freeSlot hr.1 i h
  · exact seg_freeSlot hr.2.2.2.1 i h

theorem assignCachedID_unit (m : IDMap V) (h gen sn : Nat) (v : V)
    (hn : m.store_[h]? = some ⟨gen, .freeNode ⟨sn, 1⟩⟩) :
    assignCachedID m h v =
      some (⟨gen, h⟩, { m with store_ := m.store_.set h ⟨gen, .val v⟩ }, sn) := by
  simp [assignCachedID, hn]

theorem assignCachedID_block (m : IDMap V) (h gen sn k : Nat) (v : V)
    (hn : m.store_[h]? = some ⟨gen, .freeNode ⟨sn, k⟩⟩) (hk : k ≠ 1)
    (hlt : h + 1 < m.store_.length) :
    assignCachedID m h v =
      some (⟨gen, h⟩,
        ⟨m.free_head_,
          (m.store_.set (h + 1) ⟨0, .freeNode ⟨sn, sub32 k 1⟩⟩).set h ⟨gen, .val v⟩⟩,
        h + 1) := by
  simp [assignCachedID, hn, hk, hlt]

theorem liveB_set_ne (store : List (Node V)) (i j : Nat) (nd : Node V) (h : i ≠ j) :
    liveB (store.set i nd) j = liveB store j := by
  simp [liveB, List.getElem?_set_ne h]

theorem genAt_set_ne (store : List (Node V)) (i j : Nat) (nd : Node V) (h : i ≠ j) :
    genAt (store.set i nd) j = genAt store j := by
  simp [genAt, List.getElem?_set_ne h]

theorem freeSlot_set_ne {store : List (Node V)} {i j : Nat} (nd : Node V) (h : i ≠ j)
    (hf : FreeSlot store j) : FreeSlot (store.set i nd) j := by
  refine ⟨by simpa using hf.1, ?_⟩
  rw [liveB_set_ne _ _ _ _ h]; exact hf.2

theorem nodup_mid {A B D : List Nat} {i : Nat} (h : (A ++ i :: B ++ D).Nodup) :
    i ∉ A ∧ i ∉ B ∧ i ∉ D ∧ (A ++ B ++ D).Nodup := by
  have hp : (A ++ i :: B ++ D).Perm (i :: (A ++ B ++ D)) := by
    rw [List.append_assoc, List.append_assoc]
    exact List.perm_middle
  have h2 := (List.Perm.nodup_iff hp).1 h
  rw [List.nodup_cons] at h2
  simp only [List.mem_append, not_or] at h2
  exact ⟨h2.1.1.1, h2.1.1.2, h2.1.2, h2.2⟩

/-- The guarantees of `acquireID` on the paths that do not expand the store:
the free id `i` becomes live, the other free ids stay free (`F'` is `F`
without `i`), and no live node or node of another cache is written. -/
theorem acquirePost_pop {C : Nat} {m : IDMap V} {c c' : Cache} {g g' : CacheGhost}
    {subs subs' : List (List Nat)} {O : List Nat} (h : LInv C m c g subs O)
    (store' : List (Node V)) (i gen : Nat) (f : FreeNode) (v : V) (head' : FreeHead)
    (hi : m.store_[i]? = some ⟨gen, .freeNode f⟩)
    (hi' : store'[i]? = some ⟨gen, .val v⟩)
    (hlen : store'.length = m.store_.length)
    (hiF : i ∈ g.ids ++ subs.flatten)
    (hkeep : ∀ j, j ∉ g.ids ++ subs.flatten → store'[j]? = m.store_[j]?)
    (hlive : ∀ j, j ≠ i → liveB store' j = liveB m.store_ j)
    (hgen : ∀ j, j ≠ i → (∃ g0, m.store_[j]? = some ⟨g0, .uninit⟩) ∨
      genAt store' j = genAt m.store_ j)
    (hrep : CacheRep C store' c' g')
    (hchain : Chain C store' head'.head subs')
    (hsub : ∀ j, j ∈ g'.ids ++ subs'.flatten → j ∈ g.ids ++ subs.flatten ∧ j ≠ i)
    (hnodup : (g'.ids ++ subs'.flatten).Nodup)
    (hmem : ∀ j, j ∈ g.ids ++ subs.flatten → j ≠ i → j ∈ g'.ids ++ subs'.flatten)
    (hcount : (g'.ids ++ subs'.flatten).length + 1 = (g.ids ++ subs.flatten).length) :
    AcquirePost C m g subs O v ⟨gen, i⟩ ⟨head', store'⟩ c' g' subs' := by
  have hnd := h.nodup
  rw [List.nodup_append] at hnd
  obtain ⟨hFnd, hO, hdisj⟩ := hnd
  have hOF : ∀ j, j ∈ O → j ∉ g.ids ++ subs.flatten := fun j hj hjf => hdisj hjf hj
  have hiO : i ∉ O := fun hio => hdisj hiF hio
  have hfree : ∀ j, j ∈ g.ids ++ subs.flatten → FreeSlot m.store_ j := by
    intro j hj
    rcases List.mem_append.1 hj with hj | hj
    · exact cacheRep_freeSlot h.rep j hj
    · exact chain_freeSlot h.chain j hj
  have hl : LInv C ⟨head', store'⟩ c' g' subs' O := by
    refine ⟨by simpa [hlen] using h.size, hrep, hchain, ?_, ?_, ?_⟩
    · rw [List.nodup_append]
      exact ⟨hnodup, hO, fun j hj hjo => hdisj (hsub j hj).1 hjo⟩
    · intro j hj
      have := h.others j hj
      refine ⟨by simpa [hlen] using this.1, ?_⟩
      simp only
      rw [hlive j (fun e => hiO (e ▸ hj))]; exact this.2
    · intro j hj
      simp only [hlen] at hj
      by_cases hji : j = i
      · left; subst hji; exact liveB_val hi'
      · simp only
        rw [hlive j hji]
        rcases h.cover j hj with hl | hf
        · exact Or.inl hl
        · right
          rcases List.mem_append.1 hf with hf | hf
          · exact List.mem_append_left _ (hmem j hf hji)
          · exact List.mem_append_right _ hf
  refine ⟨hl, fun j hj => hkeep j (hOF j hj), ?_, liveB_free hi, hi', ?_, ?_, ?_, ?_, ?_⟩
  · simp only [hlen]; omega
  · intro hge
    have := lt_of_getElem?_some hi
    simp only at hge; omega
  · intro _; right; simp [genAt, hi]
  · intro j hj
    apply hkeep
    intro hjf
    rw [(hfree j hjf).2] at hj; cases hj
  · intro j _ hji
    exact hlive j hji
  · intro j _ hji
    exact hgen j hji

theorem set_val_facts (store : List (Node V)) (i gen : Nat) (v : V) (hilt : i < store.length) :
    (store.set i ⟨gen, .val v⟩)[i]? = some ⟨gen, .val v⟩ ∧
    (store.set i ⟨gen, .val v⟩).length = store.length ∧
    (∀ j, j ≠ i → (store.set i ⟨gen, .val v⟩)[j]? = store[j]?) ∧
    (∀ j, j ≠ i → liveB (store.set i ⟨gen, .val v⟩) j = liveB store j) ∧
    (∀ j, j ≠ i → genAt (store.set i ⟨gen, .val v⟩) j = genAt store j) :=
  ⟨by simp [List.getElem?_set_self hilt], by simp,
    fun j hj => List.getElem?_set_ne (Ne.symm hj),
    fun j hj => liveB_set_ne _ _ _ _ (Ne.symm hj),
    fun j hj => genAt_set_ne _ _ _ _ (Ne.symm hj)⟩

theorem acquireID_overflow_from (C : Nat) (m : IDMap V) (c : Cache) (g : CacheGhost)
    (subs : List (List Nat)) (O : List Nat) (v : V) (junk : Nat)
    (h : LInv C m c g subs O) (hov : c.num_overflow_ids_ > 0) :
    ∃ k m' c' g' subs', acquireID C m c v junk = some (k, m', c') ∧
      AcquirePost C m g subs O v k m' c' g' subs' ∧
      PopShape m m' g g' subs subs' k ∧
      AcquireFrom C m m' c c' g g' subs subs' k ∧ Materialises m m' := by
  obtain ⟨hprim, hcount, hle, hseg, hlen, hlt⟩ := h.rep
  cases hovl : g.overflow with
  | nil => rw [hovl] at hlen; simp at hlen; omega
  | cons i rest =>
    rw [hovl] at hseg hlen
    obtain ⟨hhead, gen, sn, hn, hrest⟩ := hseg
    have hnd1 : (g.ids ++ subs.flatten).Nodup := (List.nodup_append.1 h.nodup).1
    have hids : g.ids = blockIds g.blocks ++ i :: rest := by simp [CacheGhost.ids, hovl]
    rw [hids] at hnd1
    obtain ⟨hiA, hiB, hiD, hnd2⟩ := nodup_mid hnd1
    obtain ⟨hs1, hs2, hs3, hs4, hs5⟩ := set_val_facts m.store_ i gen v (lt_of_getElem?_some hn)
    have hiF : i ∈ g.ids ++ subs.flatten := by rw [hids]; simp
    refine ⟨⟨gen, i⟩, ⟨m.free_head_, m.store_.set i ⟨gen, .val v⟩⟩,
      ⟨c.free_head_, c.num_free_ids_, sn, c.num_overflow_ids_ - 1⟩,
      ⟨g.blocks, rest⟩, subs, ?_, ?_, ?_, ?_, ?_⟩
    · unfold acquireID
      rw [if_pos hov, hhead, assignCachedID_unit m i gen sn v hn]
    · refine acquirePost_pop h _ i gen ⟨sn, 1⟩ v m.free_head_ hn hs1 hs2 hiF
        (fun j hj => hs3 j (fun e => hj (e ▸ hiF))) hs4 (fun j hj => Or.inr (hs5 j hj))
        ⟨primSeg_frame (fun j hj => hs3 j (fun e => hiA (e ▸ hj))) hprim, hcount, hle,
          seg_frame (fun j hj => hs3 j (fun e => hiB (e ▸ hj))) hrest,
          by simp at hlen ⊢; omega, by simp; omega⟩
        (chain_frame (fun j hj => hs3 j (fun e => hiD (e ▸ hj))) h.chain)
        ?_ (by simpa [CacheGhost.ids] using hnd2) ?_ ?_
      · intro j hj
        simp only [CacheGhost.ids, List.mem_append] at hj
        rw [hids]
        simp only [List.mem_append, List.mem_cons]
        rcases hj with (hj | hj) | hj
        · exact ⟨Or.inl (Or.inl hj), fun e => hiA (e ▸ hj)⟩
        · exact ⟨Or.inl (Or.inr (Or.inr hj)), fun e => hiB (e ▸ hj)⟩
        · exact ⟨Or.inr hj, fun e => hiD (e ▸ hj)⟩
      · intro j hj hji
        rw [hids] at hj
        simp only [List.mem_append, List.mem_cons, CacheGhost.ids] at hj ⊢
        rcases hj with (hj | hj | hj) | hj
        · exact Or.inl (Or.inl hj)
        · exact absurd hj hji
        · exact Or.inl (Or.inr hj)
        · exact Or.inr hj
      · rw [hids]
        simp only [CacheGhost.ids, List.length_append, List.length_cons]
        omega
    · refine ⟨by simp, Or.inl ⟨?_, rfl⟩⟩
      show g.ids.Perm (i :: (blockIds g.blocks ++ rest))
      rw [hids]
      exact List.perm_middle
    · left
      exact ⟨hov, by first | rfl | exact hovl, rfl, rfl, rfl, hs2, by simp [genAt, hn], ⟨sn, 1⟩,
        by simp [freeAt, hn]⟩
    · refine ⟨fun j g0 hj => Or.inl ?_, fun j h1 h2 => ?_⟩
      · have hji : j ≠ i := by
          intro e; rw [e, hn] at hj; cases hj
        simp only; rw [hs3 j hji]; exact hj
      · simp only [hs2] at h2; omega

theorem acquireID_overflow (C : Nat) (m : IDMap V) (c : Cache) (g : CacheGhost)
    (subs : List (List Nat)) (O : List Nat) (v : V) (junk : Nat)
    (h : LInv C m c g subs O) (hov : c.num_overflow_ids_ > 0) :
    ∃ k m' c' g' subs', acquireID C m c v junk = some (k, m', c') ∧
      AcquirePost C m g subs O v k m' c' g' subs' ∧
      PopShape m m' g g' subs subs' k := by
  obtain ⟨k, m', c', g', subs', h1, h2, h3, _⟩ :=
    acquireID_overflow_from C m c g subs O v junk h hov
  exact ⟨k, m', c', g', subs', h1, h2, h3⟩

/-- A sublist of unit nodes is a primary sublist of blocks of count 1. -/
theorem primSeg_of_seg {store : List (Node V)} {h : Nat} {ids : List Nat}
    (hs : Seg store h ids) : PrimSeg store h (ids.map (fun i => (i, 1))) := by
  induction ids generalizing h with
  | nil => trivial
  | cons i rest ih =>
    obtain ⟨rfl, g, sn, hn, hr⟩ := hs
    exact ⟨rfl, le_rfl, g, sn, hn, fun j h1 h2 => by simp only at h1 h2; omega, ih hr⟩

theorem blockIds_units (ids : List Nat) : blockIds (ids.map (fun i => (i, 1))) = ids := by
  induction ids with
  | nil => rfl
  | cons i rest ih =>
    rw [List.map_cons, blockIds_cons, ih]
    simp [List.range']

theorem pop_perm_facts {F F' : List Nat} {i : Nat} (hp : F.Perm (i :: F')) (hnd : F.Nodup) :
    (∀ j, j ∈ F' → j ∈ F ∧ j ≠ i) ∧ F'.Nodup ∧ (∀ j, j ∈ F → j ≠ i → j ∈ F') ∧ i ∈ F ∧
      F'.length + 1 = F.length := by
  have h2 := (List.Perm.nodup_iff hp).1 hnd
  rw [List.nodup_cons] at h2
  refine ⟨fun j hj => ⟨hp.mem_iff.2 (List.mem_cons_of_mem _ hj), fun e => h2.1 (e ▸ hj)⟩, h2.2,
    ?_, hp.mem_iff.2 (List.mem_cons_self _ _), ?_⟩
  · intro j hj hji
    rcases List.mem_cons.1 (hp.mem_iff.1 hj) with e | e
    · exact absurd e hji
    · exact e
  · have := hp.length_eq
    simp only [List.length_cons] at this
    omega

theorem acquireID_primary_from (C : Nat) (m : IDMap V) (c : Cache) (g : CacheGhost)
    (subs : List (List Nat)) (O : List Nat) (v : V) (junk : Nat)
    (h : LInv C m c g subs O) (hov : c.num_overflow_ids_ = 0) (hpr : c.num_free_ids_ > 0) :
    ∃ k m' c' g' subs', acquireID C m c v junk = some (k, m', c') ∧
      AcquirePost C m g subs O v k m' c' g' subs' ∧
      PopShape m m' g g' subs subs' k ∧
      AcquireFrom C m m' c c' g g' subs subs' k ∧ Materialises m m' := by
  obtain ⟨hprim, hcount, hle, hseg, hlen, hlt⟩ := h.rep
  have hovl : g.overflow = [] := by
    rw [hov] at hlen; exact List.length_eq_zero.1 hlen
  cases hbl : g.blocks with
  | nil => rw [hbl] at hcount; simp [blockIds] at hcount; omega
  | cons b bl =>
    rw [hbl] at hprim hcount
    obtain ⟨hhead, hk1, gen, sn, hn, hcov, hrest⟩ := hprim
    obtain ⟨i, k⟩ := b
    simp only at hhead hk1 hn hcov
    have hilt := lt_of_getElem?_some hn
    have hnd1 : (g.ids ++ subs.flatten).Nodup := (List.nodup_append.1 h.nodup).1
    have hrange : List.range' i k = i :: List.range' (i + 1) (k - 1) := by
      obtain ⟨k', rfl⟩ : ∃ k', k = k' + 1 := ⟨k - 1, by omega⟩
      rw [List.range'_succ]; simp
    have hids : g.ids ++ subs.flatten =
        i :: (List.range' (i + 1) (k - 1) ++ blockIds bl ++ subs.flatten) := by
      simp [CacheGhost.ids, hovl, hbl, blockIds_cons, hrange]
    have hperm : (g.ids ++ subs.flatten).Perm
        (i :: (List.range' (i + 1) (k - 1) ++ blockIds bl ++ subs.flatten)) := by
      rw [hids]
    obtain ⟨hp1, hp2, hp3, hp4, hp5⟩ := pop_perm_facts hperm hnd1
    rw [hids, List.nodup_cons] at hnd1
    have hiR : i ∉ List.range' (i + 1) (k - 1) ++ blockIds bl ++ subs.flatten := hnd1.1
    simp only [List.mem_append, not_or] at hiR
    have hcount' : k + (blockIds bl).length = c.num_free_ids_ := by
      rw [blockIds_cons] at hcount
      simpa using hcount
    by_cases hk : k = 1
    · -- a block of one id
      subst hk
      obtain ⟨hs1, hs2, hs3, hs4, hs5⟩ := set_val_facts m.store_ i gen v hilt
      refine ⟨⟨gen, i⟩, ⟨m.free_head_, m.store_.set i ⟨gen, .val v⟩⟩,
        ⟨sn, c.num_free_ids_ - 1, c.overflow_head_, c.num_overflow_ids_⟩,
        ⟨bl, []⟩, subs, ?_, ?_, ?_, ?_, ?_⟩
      · unfold acquireID
        rw [if_neg (by omega), if_pos hpr, hhead, assignCachedID_unit m i gen sn v hn]
      · refine acquirePost_pop h _ i gen ⟨sn, 1⟩ v m.free_head_ hn hs1 hs2 hp4
          (fun j hj => hs3 j (fun e => hj (e ▸ hp4))) hs4 (fun j hj => Or.inr (hs5 j hj))
          ⟨primSeg_frame (fun j hj => hs3 j (fun e => hiR.1.2 (e ▸ hj))) hrest,
            by simp only; omega, by simp only; omega, seg_nil (hovl ▸ hseg) _,
            by simp only [List.length_nil]; omega, hlt⟩
          (chain_frame (fun j hj => hs3 j (fun e => hiR.2 (e ▸ hj))) h.chain)
          (by simpa [CacheGhost.ids] using hp1) (by simpa [CacheGhost.ids] using hp2)
          (by simpa [CacheGhost.ids] using hp3) (by simpa [CacheGhost.ids] using hp5)
      · refine ⟨by simp, Or.inl ⟨?_, rfl⟩⟩
        have e : g.ids = i :: (⟨bl, []⟩ : CacheGhost).ids := by
          simp [CacheGhost.ids, hovl, hbl, blockIds_cons]
        rw [e]
      · right; left
        exact ⟨hov, hpr, by simp [hbl, blockIds_cons, List.range'], hovl.symm, rfl, rfl, hs2,
          by simp [genAt, hn], ⟨sn, 1⟩, by simp [freeAt, hn]⟩
      · refine ⟨fun j g0 hj => Or.inl ?_, fun j h1 h2 => ?_⟩
        · have hji : j ≠ i := by
            intro e; rw [e, hn] at hj; cases hj
          simp only; rw [hs3 j hji]; exact hj
        · simp only [hs2] at h2; omega
    · -- a block of several contiguous ids
      have hk2 : 2 ≤ k := by omega
      obtain ⟨g1, hg1⟩ := hcov (i + 1) (by omega) (by omega)
      have hi1lt := lt_of_getElem?_some hg1
      have hklt : k < 2 ^ 32 := by
        obtain ⟨gl, hgl⟩ := hcov (i + k - 1) (by omega) (by omega)
        have := lt_of_getElem?_some hgl
        have := h.size
        simp only [noIdx] at this
        omega
      have hsub32 : sub32 k 1 = k - 1 := TaskGraph.sub32_of_le k 1 hklt hk1
      set store1 := m.store_.set (i + 1) ⟨0, .freeNode ⟨sn, k - 1⟩⟩ with hstore1
      have hlen1 : store1.length = m.store_.length := by simp [hstore1]
      obtain ⟨hs1, hs2, hs3, hs4, hs5⟩ := set_val_facts store1 i gen v (by rw [hlen1]; exact hilt)
      have h1 : ∀ j, j ≠ i + 1 → store1[j]? = m.store_[j]? :=
        fun j hj => List.getElem?_set_ne (Ne.symm hj)
      have hi1F : i + 1 ∈ g.ids ++ subs.flatten := by
        rw [hids]
        simp only [List.mem_cons, List.mem_append, List.mem_range'_1]
        right; left; left; omega
      have hkeep : ∀ j, j ≠ i → j ≠ i + 1 → (store1.set i ⟨gen, .val v⟩)[j]? = m.store_[j]? :=
        fun j hj1 hj2 => by rw [hs3 j hj1, h1 j hj2]
      have hnew : (store1.set i ⟨gen, .val v⟩)[i + 1]? =
          some ⟨0, .freeNode ⟨sn, k - 1⟩⟩ := by
        rw [hs3 (i + 1) (by omega), hstore1, List.getElem?_set_self hi1lt]
      have hi1R : i + 1 ∉ blockIds bl ∧ i + 1 ∉ subs.flatten := by
        have hnd2 := hnd1.2
        rw [List.append_assoc] at hnd2
        have hr : List.range' (i + 1) (k - 1) = (i + 1) :: List.range' (i + 2) (k - 2) := by
          obtain ⟨k', rfl⟩ : ∃ k', k = k' + 2 := ⟨k - 2, by omega⟩
          simp [List.range'_succ]
        rw [hr, List.cons_append, List.nodup_cons] at hnd2
        simpa [not_or] using hnd2.1
      refine ⟨⟨gen, i⟩, ⟨m.free_head_, store1.set i ⟨gen, .val v⟩⟩,
        ⟨i + 1, c.num_free_ids_ - 1, c.overflow_head_, c.num_overflow_ids_⟩,
        ⟨(i + 1, k - 1) :: bl, []⟩, subs, ?_, ?_, ?_, ?_, ?_⟩
      · unfold acquireID
        rw [if_neg (by omega), if_pos hpr, hhead,
          assignCachedID_block m i gen sn k v hn hk (by omega), hsub32]
      · refine acquirePost_pop h _ i gen ⟨sn, k⟩ v m.free_head_ hn hs1 (by rw [hs2, hlen1]) hp4
          (fun j hj => hkeep j (fun e => hj (e ▸ hp4)) (fun e => hj (e ▸ hi1F))) ?_ ?_
          ⟨⟨rfl, by simp only; omega, 0, sn, hnew, ?_, ?_⟩, ?_, by simp only; omega,
            seg_nil (hovl ▸ hseg) _, by simp only [List.length_nil]; omega, hlt⟩
          (chain_frame (fun j hj => hkeep j (fun e => hiR.2 (e ▸ hj))
            (fun e => hi1R.2 (e ▸ hj))) h.chain)
          (by simpa [CacheGhost.ids, blockIds_cons] using hp1)
          (by simpa [CacheGhost.ids, blockIds_cons] using hp2)
          (by simpa [CacheGhost.ids, blockIds_cons] using hp3)
          (by simpa [CacheGhost.ids, blockIds_cons] using hp5)
        · intro j hj
          by_cases hj1 : j = i + 1
          · subst hj1
            rw [liveB_free hnew, liveB_uninit hg1]
          · simp only [liveB, hkeep j hj hj1]
        · intro j hj
          by_cases hj1 : j = i + 1
          · subst hj1; exact Or.inl ⟨g1, hg1⟩
          · right; simp only [genAt, hkeep j hj hj1]
        · intro j hj1 hj2
          simp only at hj1 hj2
          rw [hkeep j (by omega) (by omega)]
          exact hcov j (by omega) (by omega)
        · exact primSeg_frame (fun j hj => hkeep j (fun e => hiR.1.2 (e ▸ hj))
            (fun e => hi1R.1 (e ▸ hj))) hrest
        · simp only [blockIds_cons, List.length_append, List.length_range']
          omega
      · refine ⟨by simp [hstore1], Or.inl ⟨?_, rfl⟩⟩
        have e : g.ids = i :: (⟨(i + 1, k - 1) :: bl, []⟩ : CacheGhost).ids := by
          simp [CacheGhost.ids, hovl, hbl, blockIds_cons, hrange]
        rw [e]
      · right; left
        exact ⟨hov, hpr, by simp [hbl, blockIds_cons, hrange], hovl.symm, rfl, rfl,
          by rw [hs2, hlen1], by simp [genAt, hn], ⟨sn, k⟩, by simp [freeAt, hn]⟩
      · refine ⟨fun j g0 hj => ?_, fun j h1 h2 => ?_⟩
        · by_cases hj1 : j = i + 1
          · right
            rw [hj1]
            exact ⟨by simp [genAt, hnew], fun g2 hc => by rw [hnew] at hc; cases hc⟩
          · left
            have hji : j ≠ i := by
              intro e; rw [e, hn] at hj; cases hj
            simp only; rw [hkeep j hji hj1]; exact hj
        · simp only [hs2, hlen1] at h2; omega

theorem acquireID_primary (C : Nat) (m : IDMap V) (c : Cache) (g : CacheGhost)
    (subs : List (List Nat)) (O : List Nat) (v : V) (junk : Nat)
    (h : LInv C m c g subs O) (hov : c.num_overflow_ids_ = 0) (hpr : c.num_free_ids_ > 0) :
    ∃ k m' c' g' subs', acquireID C m c v junk = some (k, m', c') ∧
      AcquirePost C m g subs O v k m' c' g' subs' ∧
      PopShape m m' g g' subs subs' k := by
  obtain ⟨k, m', c', g', subs', h1, h2, h3, _⟩ :=
    acquireID_primary_from C m c g subs O v junk h hov hpr
  exact ⟨k, m', c', g', subs', h1, h2, h3⟩

theorem blocks_nil_of_length {store : List (Node V)} {h : Nat} {bl : List (Nat × Nat)}
    (hs : PrimSeg store h bl) (hlen : (blockIds bl).length = 0) : bl = [] := by
  cases bl with
  | nil => rfl
  | cons b rest =>
    obtain ⟨_, hk, _⟩ := hs
    rw [blockIds_cons] at hlen
    simp at hlen
    omega

theorem acquireID_global_from (C : Nat) (m : IDMap V) (c : Cache) (g : CacheGhost)
    (subs : List (List Nat)) (O : List Nat) (v : V) (junk : Nat)
    (h : LInv C m c g subs O) (hov : c.num_overflow_ids_ = 0) (hpr : c.num_free_ids_ = 0)
    (hhd : m.free_head_.head ≠ noIdx) :
    ∃ k m' c' g' subs', acquireID C m c v junk = some (k, m', c') ∧
      AcquirePost C m g subs O v k m' c' g' subs' ∧
      PopShape m m' g g' subs subs' k ∧
      AcquireFrom C m m' c c' g g' subs subs' k ∧ Materialises m m' := by
  obtain ⟨hprim, hcount, hle, hseg, hlen, hlt⟩ := h.rep
  have hovl : g.overflow = [] := by
    rw [hov] at hlen; exact List.length_eq_zero.1 hlen
  have hbl : g.blocks = [] := blocks_nil_of_length hprim (by rw [hcount, hpr])
  cases hsubs : subs with
  | nil =>
    have := h.chain
    rw [hsubs] at this
    exact absurd this hhd
  | cons sub rest =>
    have hch := h.chain
    rw [hsubs] at hch
    obtain ⟨hne, hsl, gen, sn, next, tl, hsub, hn, hsegtl, hrest⟩ := hch
    set hd := m.free_head_.head with hhdef
    have hilt := lt_of_getElem?_some hn
    have hnd1 : (g.ids ++ subs.flatten).Nodup := (List.nodup_append.1 h.nodup).1
    have hids : g.ids ++ subs.flatten = hd :: (tl ++ rest.flatten) := by
      simp [CacheGhost.ids, hovl, hbl, blockIds, hsubs, hsub]
    have hperm : (g.ids ++ subs.flatten).Perm (hd :: (tl ++ rest.flatten)) := by rw [hids]
    obtain ⟨hp1, hp2, hp3, hp4, hp5⟩ := pop_perm_facts hperm hnd1
    rw [hids, List.nodup_cons] at hnd1
    have hiR := hnd1.1
    simp only [List.mem_append, not_or] at hiR
    obtain ⟨hs1, hs2, hs3, hs4, hs5⟩ := set_val_facts m.store_ hd gen v hilt
    have hset : (m.store_.set hd ⟨gen, .freeNode ⟨sn, 1⟩⟩).set hd ⟨gen, .val v⟩ =
        m.store_.set hd ⟨gen, .val v⟩ := List.set_set _ _ _ _
    have htl : tl.length = C - 1 := by
      rw [hsub] at hsl; simp at hsl; omega
    refine ⟨⟨gen, hd⟩, ⟨⟨add32 m.free_head_.gen 1, next⟩, m.store_.set hd ⟨gen, .val v⟩⟩,
      ⟨sn, C - 1, c.overflow_head_, c.num_overflow_ids_⟩,
      ⟨tl.map (fun i => (i, 1)), []⟩, rest, ?_, ?_, ?_, ?_, ?_⟩
    · unfold acquireID
      rw [if_neg (by omega), if_neg (by omega), if_pos hhd]
      simp only [← hhdef, hn]
      rw [assignCachedID_unit _ hd gen sn v
        (by simp only; exact List.getElem?_set_self hilt)]
      simp only [hset]
    · rw [← hsubs]
      have hrep' : CacheRep C (m.store_.set hd ⟨gen, .val v⟩)
          ⟨sn, C - 1, c.overflow_head_, c.num_overflow_ids_⟩ ⟨tl.map (fun i => (i, 1)), []⟩ :=
        ⟨primSeg_of_seg (seg_frame (fun j hj => hs3 j (fun e => hiR.1 (e ▸ hj))) hsegtl),
          by simp only [blockIds_units]; exact htl, by simp only; omega,
          seg_nil (hovl ▸ hseg) _, by simp only [List.length_nil]; omega, hlt⟩
      exact acquirePost_pop h _ hd gen ⟨sn, next⟩ v ⟨add32 m.free_head_.gen 1, next⟩ hn hs1 hs2
        hp4 (fun j hj => hs3 j (fun e => hj (e ▸ hp4))) hs4 (fun j hj => Or.inr (hs5 j hj))
        hrep'
        (chain_frame (fun j hj => hs3 j (fun e => hiR.2 (e ▸ hj))) hrest)
        (by simpa [CacheGhost.ids, blockIds_units] using hp1)
        (by simpa [CacheGhost.ids, blockIds_units] using hp2)
        (by simpa [CacheGhost.ids, blockIds_units] using hp3)
        (by simpa [CacheGhost.ids, blockIds_units] using hp5)
    · refine ⟨by simp, Or.inr ⟨by simp [CacheGhost.ids, hovl, hbl, blockIds], ?_⟩⟩
      simp [CacheGhost.ids, blockIds_units, hsub, hhdef]
    · right; right; left
      exact ⟨hov, hpr, hhd, rfl, hovl.symm, hs2, by simp [genAt, hn], ⟨sn, next⟩, tl,
        by simp [freeAt, hn], by simp [hsub], rfl, rfl, rfl⟩
    · refine ⟨fun j g0 hj => Or.inl ?_, fun j h1 h2 => ?_⟩
      · have hji : j ≠ hd := by
          intro e; rw [e, hn] at hj; cases hj
        simp only; rw [hs3 j hji]; exact hj
      · simp only [hs2] at h2; omega

theorem acquireID_global (C : Nat) (m : IDMap V) (c : Cache) (g : CacheGhost)
    (subs : List (List Nat)) (O : List Nat) (v : V) (junk : Nat)
    (h : LInv C m c g subs O) (hov : c.num_overflow_ids_ = 0) (hpr : c.num_free_ids_ = 0)
    (hhd : m.free_head_.head ≠ noIdx) :
    ∃ k m' c' g' subs', acquireID C m c v junk = some (k, m', c') ∧
      AcquirePost C m g subs O v k m' c' g' subs' ∧
      PopShape m m' g g' subs subs' k := by
  obtain ⟨k, m', c', g', subs', h1, h2, h3, _⟩ :=
    acquireID_global_from C m c g subs O v junk h hov hpr hhd
  exact ⟨k, m', c', g', subs', h1, h2, h3⟩

theorem acquireID_expand_from (C : Nat) (hC : 2 ≤ C) (m : IDMap V) (c : Cache) (g : CacheGhost)
    (subs : List (List Nat)) (O : List Nat) (v : V) (junk : Nat)
    (h : LInv C m c g subs O) (hsize : m.store_.length + C < noIdx)
    (hov : c.num_overflow_ids_ = 0) (hpr : c.num_free_ids_ = 0)
    (hhd : m.free_head_.head = noIdx) :
    ∃ k m' c' g' subs', acquireID C m c v junk = some (k, m', c') ∧
      AcquirePost C m g subs O v k m' c' g' subs' ∧
      AcquireFrom C m m' c c' g g' subs subs' k ∧ Materialises m m' := by
  obtain ⟨hprim, hcount, hle, hseg, hlen, hlt⟩ := h.rep
  have hovl : g.overflow = [] := by
    rw [hov] at hlen; exact List.length_eq_zero.1 hlen
  have hbl : g.blocks = [] := blocks_nil_of_length hprim (by rw [hcount, hpr])
  have hsubs : subs = [] := by
    cases hs : subs with
    | nil => rfl
    | cons sub rest =>
      have := h.chain
      rw [hs] at this
      exact absurd hhd this.1
  have hF : g.ids ++ subs.flatten = [] := by simp [CacheGhost.ids, hovl, hbl, blockIds, hsubs]
  set n := m.store_.length with hn
  set store1 := m.store_ ++ List.replicate C (⟨junk, .uninit⟩ : Node V) with hstore1
  set store2 := store1.set n ⟨0, .val v⟩ with hstore2
  set store3 := store2.set (n + 1) ⟨0, .freeNode ⟨noIdx, C - 1⟩⟩ with hstore3
  have hlen3 : store3.length = n + C := by simp [hstore3, hstore2, hstore1, hn]
  have hlen2 : store2.length = n + C := by simp [hstore2, hstore1, hn]
  have hold : ∀ j, j < n → store3[j]? = m.store_[j]? := by
    intro j hj
    rw [hstore3, List.getElem?_set_ne (by omega), hstore2, List.getElem?_set_ne (by omega),
      hstore1, List.getElem?_append_left (by omega)]
  have hfirst : store3[n]? = some ⟨0, .val v⟩ := by
    rw [hstore3, List.getElem?_set_ne (by omega), hstore2,
      List.getElem?_set_self (by simp [hstore1, hn]; omega)]
  have hsecond : store3[n + 1]? = some ⟨0, .freeNode ⟨noIdx, C - 1⟩⟩ := by
    rw [hstore3, List.getElem?_set_self (by rw [hlen2]; omega)]
  have hrest : ∀ j, n + 1 < j → j < n + C → store3[j]? = some ⟨junk, .uninit⟩ := by
    intro j h1 h2
    rw [hstore3, List.getElem?_set_ne (by omega), hstore2, List.getElem?_set_ne (by omega),
      hstore1, List.getElem?_append_right (by omega), List.getElem?_replicate]
    rw [if_pos (by omega)]
  have hOlt : ∀ j, j ∈ O → j < n := fun j hj => (h.others j hj).1
  have hliveold : ∀ j, j < n → liveB store3 j = liveB m.store_ j := by
    intro j hj; simp only [liveB, hold j hj]
  refine ⟨⟨0, n⟩, ⟨m.free_head_, store3⟩, ⟨n + 1, C - 1, c.overflow_head_, c.num_overflow_ids_⟩,
    ⟨[(n + 1, C - 1)], []⟩, [], ?_, ?_, ?_, ?_⟩
  · unfold acquireID
    rw [if_neg (by omega), if_neg (by omega), if_neg (by simp [hhd])]
    simp only [← hn, ← hstore1, ← hstore2]
    rw [if_pos (by rw [hlen2]; omega)]
  · refine ⟨⟨by simp only [hlen3]; exact hsize, ?_, ?_, ?_, ?_, ?_⟩, ?_, ?_, ?_, hfirst, ?_,
      ?_, ?_, ?_, ?_⟩
    · exact ⟨⟨rfl, by simp only; omega, 0, noIdx, hsecond,
        fun j h1 h2 => ⟨junk, hrest j h1 (by simp only at h2; omega)⟩, rfl⟩,
        by simp [blockIds], by simp only; omega, seg_nil (hovl ▸ hseg) _,
        by simp only [List.length_nil]; omega, hlt⟩
    · simp only; rw [hhd]; rfl
    · simp only [CacheGhost.ids, blockIds, List.flatMap_cons, List.flatMap_nil, List.append_nil,
        List.flatten_nil]
      rw [List.nodup_append]
      refine ⟨List.nodup_range' _ _, (List.nodup_append.1 h.nodup).2.1, ?_⟩
      intro j hj hjo
      have := hOlt j hjo
      simp only [List.mem_range'_1] at hj
      omega
    · intro j hj
      have hjn := hOlt j hj
      have := h.others j hj
      refine ⟨?_, ?_⟩
      · show j < store3.length
        rw [hlen3]; omega
      · show liveB store3 j = false
        rw [hliveold j hjn]; exact this.2
    · intro j hj
      simp only [hlen3] at hj
      rcases Nat.lt_trichotomy j n with hlt' | heq | hgt
      · rw [hliveold j hlt']
        rcases h.cover j hlt' with hl | hf
        · exact Or.inl hl
        · right
          rw [hF, List.nil_append] at hf
          exact List.mem_append_right _ hf
      · left; rw [heq]; exact liveB_val hfirst
      · right
        simp only [CacheGhost.ids, blockIds, List.flatMap_cons, List.flatMap_nil, List.append_nil,
          List.flatten_nil, List.mem_append, List.mem_range'_1]
        left; omega
    · intro j hj
      exact hold j (hOlt j hj)
    · rw [hF]
      simp only [CacheGhost.ids, blockIds, List.flatMap_cons, List.flatMap_nil, List.append_nil,
        List.flatten_nil, List.length_range', List.length_nil, hlen3]
      omega
    · simp [liveB, hn]
    · intro _; rfl
    · intro hlt'; simp only at hlt'; omega
    · intro j hj
      have hjlt : j < n := by
        by_contra hc
        simp [liveB, List.getElem?_eq_none (not_lt.1 hc)] at hj
      exact hold j hjlt
    · intro j hj _
      exact hliveold j hj
    · intro j hj _
      right; simp only [genAt, hold j hj]
  · right; right; right
    exact ⟨hov, hpr, hhd, rfl, by simp [blockIds], hovl.symm, hsubs.symm, rfl, hlen3⟩
  · refine ⟨fun j g0 hj => Or.inl ?_, fun j h1 h2 => ?_⟩
    · simp only; rw [hold j (lt_of_getElem?_some hj)]; exact hj
    · simp only [hlen3] at h2
      rcases Nat.lt_trichotomy j (n + 1) with h | h | h
      · have e : j = n := by omega
        right; rw [e]; simp [genAt, hfirst]
      · right; rw [h]; simp [genAt, hsecond]
      · left; exact ⟨junk, hrest j h h2⟩

theorem acquireID_expand (C : Nat) (hC : 2 ≤ C) (m : IDMap V) (c : Cache) (g : CacheGhost)
    (subs : List (List Nat)) (O : List Nat) (v : V) (junk : Nat)
    (h : LInv C m c g subs O) (hsize : m.store_.length + C < noIdx)
    (hov : c.num_overflow_ids_ = 0) (hpr : c.num_free_ids_ = 0)
    (hhd : m.free_head_.head = noIdx) :
    ∃ k m' c' g' subs', acquireID C m c v junk = some (k, m', c') ∧
      AcquirePost C m g subs O v k m' c' g' subs' := by
  obtain ⟨k, m', c', g', subs', h1, h2, _⟩ :=
    acquireID_expand_from C hC m c g subs O v junk h hsize hov hpr hhd
  exact ⟨k, m', c', g', subs', h1, h2⟩

/-- `acquireID` in a state satisfying the invariant: it returns, and its
result satisfies the guarantees of `AcquirePost`. -/
theorem acquireID_linv (C : Nat) (hC : 2 ≤ C) (m : IDMap V) (c : Cache) (g : CacheGhost)
    (subs : List (List Nat)) (O : List Nat) (v : V) (junk : Nat)
    (h : LInv C m c g subs O) (hsize : m.store_.length + C < noIdx) :
    ∃ k m' c' g' subs', acquireID C m c v junk = some (k, m', c') ∧
      AcquirePost C m g subs O v k m' c' g' subs' := by
  by_cases hov : c.num_overflow_ids_ > 0
  · obtain ⟨k, m', c', g', subs', h1, h2, _⟩ := acquireID_overflow C m c g subs O v junk h hov
    exact ⟨k, m', c', g', subs', h1, h2⟩
  · by_cases hpr : c.num_free_ids_ > 0
    · obtain ⟨k, m', c', g', subs', h1, h2, _⟩ :=
        acquireID_primary C m c g subs O v junk h (by omega) hpr
      exact ⟨k, m', c', g', subs', h1, h2⟩
    · by_cases hhd : m.free_head_.head = noIdx
      · exact acquireID_expand C hC m c g subs O v junk h hsize (by omega) (by omega) hhd
      · obtain ⟨k, m', c', g', subs', h1, h2, _⟩ :=
          acquireID_global C m c g subs O v junk h (by omega) (by omega) hhd
        exact ⟨k, m', c', g', subs', h1, h2⟩

/-- `acquireID` when the cache holds an id or the global chain has a sublist:
it returns without expanding the store, taking the id as `PopShape` says. -/
theorem acquireID_shape (C : Nat) (m : IDMap V) (c : Cache) (g : CacheGhost)
    (subs : List (List Nat)) (O : List Nat) (v : V) (junk : Nat)
    (h : LInv C m c g subs O) (hne : g.ids ≠ [] ∨ subs ≠ []) :
    ∃ k m' c' g' subs', acquireID C m c v junk = some (k, m', c') ∧
      AcquirePost C m g subs O v k m' c' g' subs' ∧
      PopShape m m' g g' subs subs' k := by
  by_cases hov : c.num_overflow_ids_ > 0
  · exact acquireID_overflow C m c g subs O v junk h hov
  · by_cases hpr : c.num_free_ids_ > 0
    · exact acquireID_primary C m c g subs O v junk h (by omega) hpr
    · by_cases hhd : m.free_head_.head = noIdx
      · exfalso
        obtain ⟨hprim, hcount, hle, hseg, hlen, hlt⟩ := h.rep
        have hovl : g.overflow = [] := List.length_eq_zero.1 (by omega)
        have hbl : g.blocks = [] := blocks_nil_of_length hprim (by omega)
        rcases hne with hg | hs
        · exact hg (by simp [CacheGhost.ids, hovl, hbl, blockIds])
        · cases hsubs : subs with
          | nil => exact hs hsubs
          | cons sub rest =>
            have hch := h.chain
            rw [hsubs] at hch
            exact hch.1 hhd
      · exact acquireID_global C m c g subs O v junk h (by omega) (by omega) hhd

theorem not_free_of_live {C : Nat} {m : IDMap V} {c : Cache} {g : CacheGhost}
    {subs : List (List Nat)} {O : List Nat} (h : LInv C m c g subs O) (i : Nat)
    (hl : liveB m.store_ i = true) : i ∉ g.ids ++ subs.flatten ++ O := by
  intro hi
  have hf : FreeSlot m.store_ i := by
    rcases List.mem_append.1 hi with hi | hi
    · rcases List.mem_append.1 hi with hi | hi
      · exact cacheRep_freeSlot h.rep i hi
      · exact chain_freeSlot h.chain i hi
    · exact h.others i hi
  rw [hf.2] at hl; cases hl

theorem lt_of_liveB {store : List (Node V)} {i : Nat} (hl : liveB store i = true) :
    i < store.length := by
  by_contra hc
  simp [liveB, List.getElem?_eq_none (not_lt.1 hc)] at hl

/-- The guarantees of a release that writes the store only at the live ids
`ids`, where every id of `ids` becomes a free node. -/
theorem releasePost_push {C : Nat} {m : IDMap V} {c c' : Cache} {g g' : CacheGhost}
    {subs subs' : List (List Nat)} {O : List Nat} (h : LInv C m c g subs O)
    (ids : List Nat) (bumps : Nat → Nat) (store' : List (Node V)) (head' : FreeHead)
    (hlive : ∀ i, i ∈ ids → liveB m.store_ i = true)
    (hlen : store'.length = m.store_.length)
    (hkeep : ∀ j, j ∉ ids → j ∉ g.ids ++ subs.flatten → store'[j]? = m.store_[j]?)
    (hliveF : ∀ j, j ∈ g.ids ++ subs.flatten → liveB store' j = false)
    (hgenF : ∀ j, j ∈ g.ids ++ subs.flatten → genAt store' j = genAt m.store_ j)
    (hfree : ∀ i, i ∈ ids → liveB store' i = false)
    (hgen : ∀ i, i ∈ ids → genAt store' i = (genAt m.store_ i + bumps i) % 2 ^ 32)
    (hrep : CacheRep C store' c' g')
    (hchain : Chain C store' head'.head subs')
    (hperm : (g'.ids ++ subs'.flatten).Perm (ids ++ (g.ids ++ subs.flatten)))
    (hnd : ids.Nodup) :
    ReleasePost C m g subs O ids bumps ⟨head', store'⟩ c' g' subs' := by
  have hnotF : ∀ i, i ∈ ids → i ∉ g.ids ++ subs.flatten ++ O :=
    fun i hi => not_free_of_live h i (hlive i hi)
  have hOF : ∀ j, j ∈ O → j ∉ ids ∧ j ∉ g.ids ++ subs.flatten := by
    intro j hj
    refine ⟨fun hji => hnotF j hji (List.mem_append_right _ hj), fun hjf => ?_⟩
    exact (List.nodup_append.1 h.nodup).2.2 hjf hj
  have hliveall : ∀ j, j ∉ ids → liveB store' j = liveB m.store_ j := by
    intro j hj
    by_cases hjf : j ∈ g.ids ++ subs.flatten
    · rw [hliveF j hjf]
      have : FreeSlot m.store_ j := by
        rcases List.mem_append.1 hjf with hi | hi
        · exact cacheRep_freeSlot h.rep j hi
        · exact chain_freeSlot h.chain j hi
      exact this.2.symm
    · simp only [liveB, hkeep j hj hjf]
  refine ⟨⟨by simpa [hlen] using h.size, hrep, hchain, ?_, ?_, ?_⟩, ?_, hlen, ?_, hgen, ?_,
    hfree, ?_, hliveall⟩
  · have hp2 : (g'.ids ++ subs'.flatten ++ O).Perm (ids ++ (g.ids ++ subs.flatten ++ O)) := by
      rw [← List.append_assoc]
      exact List.Perm.append_right O hperm
    rw [List.Perm.nodup_iff hp2, List.nodup_append]
    exact ⟨hnd, h.nodup, fun i hi hif => hnotF i hi hif⟩
  · intro j hj
    have := h.others j hj
    refine ⟨by simpa [hlen] using this.1, ?_⟩
    simp only
    rw [hliveall j (hOF j hj).1]; exact this.2
  · intro j hj
    simp only [hlen] at hj
    by_cases hji : j ∈ ids
    · right
      exact List.mem_append_left _ (hperm.mem_iff.2 (List.mem_append_left _ hji))
    · simp only
      rw [hliveall j hji]
      rcases h.cover j hj with hl | hf
      · exact Or.inl hl
      · right
        rcases List.mem_append.1 hf with hf | hf
        · exact List.mem_append_left _ (hperm.mem_iff.2 (List.mem_append_right _ hf))
        · exact List.mem_append_right _ hf
  · intro j hj
    exact hkeep j (hOF j hj).1 (hOF j hj).2
  · have := hperm.length_eq
    simp only [List.length_append] at this ⊢
    omega
  · intro j hj
    by_cases hjf : j ∈ g.ids ++ subs.flatten
    · exact hgenF j hjf
    · simp only [genAt, hkeep j hj hjf]
  · intro j hj hl
    apply hkeep j hj
    intro hjf
    exact not_free_of_live h j hl (List.mem_append_left _ hjf)

theorem set_free_facts (store : List (Node V)) (i gen : Nat) (f : FreeNode)
    (hilt : i < store.length) :
    (store.set i ⟨gen, .freeNode f⟩)[i]? = some ⟨gen, .freeNode f⟩ ∧
    (store.set i ⟨gen, .freeNode f⟩).length = store.length ∧
    (∀ j, j ≠ i → (store.set i ⟨gen, .freeNode f⟩)[j]? = store[j]?) ∧
    liveB (store.set i ⟨gen, .freeNode f⟩) i = false ∧
    genAt (store.set i ⟨gen, .freeNode f⟩) i = gen :=
  ⟨by simp [List.getElem?_set_self hilt], by simp,
    fun j hj => List.getElem?_set_ne (Ne.symm hj),
    by simp [liveB, List.getElem?_set_self hilt],
    by simp [genAt, List.getElem?_set_self hilt]⟩

/-- `releaseID` of a live id in a state satisfying the invariant: it returns,
and its result satisfies the guarantees of `ReleasePost` with one generation
bump. -/
theorem releaseID_linv_to (C : Nat) (m : IDMap V) (c : Cache) (g : CacheGhost)
    (subs : List (List Nat)) (O : List Nat) (id : Nat)
    (h : LInv C m c g subs O) (hl : liveB m.store_ id = true) :
    ∃ m' c' g' subs', releaseID C m c id = some (m', c') ∧
      ReleasePost C m g subs O [id] (fun _ => 1) m' c' g' subs' ∧
      ReleaseTo C m m' c c' g g' subs subs' id := by
  obtain ⟨hprim, hcount, hle, hseg, hlen, hlt⟩ := h.rep
  have hidlt := lt_of_liveB hl
  have hnd : m.store_[id]? = some m.store_[id] := List.getElem?_eq_getElem hidlt
  have hnotF := not_free_of_live h id hl
  simp only [List.mem_append, not_or, CacheGhost.ids] at hnotF
  obtain ⟨⟨⟨hnA, hnB⟩, hnD⟩, hnO⟩ := hnotF
  have hgen0 : genAt m.store_ id = m.store_[id].gen := by simp [genAt, hnd]
  have hlive1 : ∀ i, i ∈ [id] → liveB m.store_ i = true := by
    intro i hi; rw [List.mem_singleton.1 hi]; exact hl
  have hidne : id ≠ noIdx := by have := h.size; omega
  -- every path writes the store at `id` only
  have hpost : ∀ (f : FreeNode) (head' : FreeHead) (c' : Cache) (g' : CacheGhost)
      (subs' : List (List Nat)),
      CacheRep C (m.store_.set id ⟨add32 m.store_[id].gen 1, .freeNode f⟩) c' g' →
      Chain C (m.store_.set id ⟨add32 m.store_[id].gen 1, .freeNode f⟩) head'.head subs' →
      (g'.ids ++ subs'.flatten).Perm ([id] ++ (g.ids ++ subs.flatten)) →
      ReleasePost C m g subs O [id] (fun _ => 1)
        ⟨head', m.store_.set id ⟨add32 m.store_[id].gen 1, .freeNode f⟩⟩ c' g' subs' := by
    intro f head' c' g' subs' hrep hchain hperm
    obtain ⟨hs1, hs2, hs3, hs4, hs5⟩ :=
      set_free_facts m.store_ id (add32 m.store_[id].gen 1) f hidlt
    have hidF : id ∉ g.ids ++ subs.flatten := by
      simp only [List.mem_append, not_or, CacheGhost.ids]
      exact ⟨⟨hnA, hnB⟩, hnD⟩
    refine releasePost_push h [id] (fun _ => 1) _ head' hlive1 hs2
      (fun j hj _ => hs3 j (by simpa using hj)) ?_ ?_ ?_ ?_ hrep hchain hperm
      (List.nodup_singleton _)
    · intro j hj
      have hji : j ≠ id := fun e => hidF (e ▸ hj)
      rw [liveB_set_ne _ _ _ _ (Ne.symm hji)]
      rcases List.mem_append.1 hj with hi | hi
      · exact (cacheRep_freeSlot h.rep j hi).2
      · exact (chain_freeSlot h.chain j hi).2
    · intro j hj
      have hji : j ≠ id := fun e => hidF (e ▸ hj)
      exact genAt_set_ne _ _ _ _ (Ne.symm hji)
    · intro i hi; rw [List.mem_singleton.1 hi]; exact hs4
    · intro i hi
      rw [List.mem_singleton.1 hi, hs5, hgen0]; rfl
  have hagree : ∀ (f : FreeNode) (j : Nat), j ≠ id →
      (m.store_.set id ⟨add32 m.store_[id].gen 1, .freeNode f⟩)[j]? = m.store_[j]? :=
    fun f j hj => List.getElem?_set_ne (Ne.symm hj)
  have hself : ∀ (f : FreeNode),
      (m.store_.set id ⟨add32 m.store_[id].gen 1, .freeNode f⟩)[id]? =
        some ⟨add32 m.store_[id].gen 1, .freeNode f⟩ :=
    fun f => List.getElem?_set_self hidlt
  by_cases hfree : c.num_free_ids_ < C
  · -- push onto the primary sublist
    refine ⟨_, _, ⟨(id, 1) :: g.blocks, g.overflow⟩, subs, ?_,
      hpost ⟨c.free_head_, 1⟩ m.free_head_ ⟨id, c.num_free_ids_ + 1, c.overflow_head_,
        c.num_overflow_ids_⟩ _ _ ?_ ?_ ?_, ?_⟩
    · unfold releaseID
      simp only [hnd]
      rw [if_pos hfree]
    · refine ⟨⟨rfl, le_rfl, _, _, hself _, fun j h1 h2 => by simp only at h1 h2; omega,
        primSeg_frame (fun j hj => hagree _ j (fun e => hnA (e ▸ hj))) hprim⟩, ?_,
        by simp only; omega, seg_frame (fun j hj => hagree _ j (fun e => hnB (e ▸ hj))) hseg,
        hlen, hlt⟩
      simp only [blockIds_cons, List.length_append, List.length_range']
      omega
    · exact chain_frame (fun j hj => hagree _ j (fun e => hnD (e ▸ hj))) h.chain
    · simp [CacheGhost.ids, blockIds_cons, List.range']
    · left; exact ⟨hfree, rfl, rfl, rfl, rfl, rfl⟩
  · by_cases hflush : c.num_overflow_ids_ + 1 = C
    · -- push onto the overflow sublist, which goes to the global chain
      refine ⟨_, _, ⟨g.blocks, []⟩, (id :: g.overflow) :: subs, ?_,
        hpost ⟨c.overflow_head_, m.free_head_.head⟩ ⟨add32 m.free_head_.gen 1, id⟩
          ⟨c.free_head_, c.num_free_ids_, noIdx, 0⟩ _ _ ?_ ?_ ?_, ?_⟩
      · unfold releaseID
        simp only [hnd]
        rw [if_neg hfree]
        simp only [if_pos hlt, hflush, if_true, hself, List.set_set]
      · exact ⟨primSeg_frame (fun j hj => hagree _ j (fun e => hnA (e ▸ hj))) hprim, hcount, hle,
          rfl, rfl, by simp only; omega⟩
      · refine ⟨hidne, by simp only [List.length_cons]; omega, _, _, _, _, rfl, hself _,
          seg_frame (fun j hj => hagree _ j (fun e => hnB (e ▸ hj))) hseg,
          chain_frame (fun j hj => hagree _ j (fun e => hnD (e ▸ hj))) h.chain⟩
      · simp only [CacheGhost.ids, List.append_nil, List.flatten_cons, List.singleton_append]
        have : (blockIds g.blocks ++ (id :: g.overflow ++ subs.flatten)).Perm
            (id :: (blockIds g.blocks ++ (g.overflow ++ subs.flatten))) := by
          rw [List.cons_append]
          exact List.perm_middle
        simp [List.append_assoc]
      · right; right
        exact ⟨by omega, hflush, rfl, rfl, rfl, rfl, by simp only [freeAt, hself], rfl⟩
    · -- push onto the overflow sublist
      refine ⟨_, _, ⟨g.blocks, id :: g.overflow⟩, subs, ?_,
        hpost ⟨c.overflow_head_, 1⟩ m.free_head_
          ⟨c.free_head_, c.num_free_ids_, id, c.num_overflow_ids_ + 1⟩ _ _ ?_ ?_ ?_, ?_⟩
      · unfold releaseID
        simp only [hnd]
        rw [if_neg hfree]
        simp only [if_pos hlt, hflush, if_false]
      · exact ⟨primSeg_frame (fun j hj => hagree _ j (fun e => hnA (e ▸ hj))) hprim, hcount, hle,
          ⟨rfl, _, _, hself _, seg_frame (fun j hj => hagree _ j (fun e => hnB (e ▸ hj))) hseg⟩,
          by simp only [List.length_cons]; omega, by simp only; omega⟩
      · exact chain_frame (fun j hj => hagree _ j (fun e => hnD (e ▸ hj))) h.chain
      · simp only [CacheGhost.ids, List.singleton_append]
        have : (blockIds g.blocks ++ (id :: g.overflow ++ subs.flatten)).Perm
            (id :: (blockIds g.blocks ++ (g.overflow ++ subs.flatten))) := by
          rw [List.cons_append]
          exact List.perm_middle
        simp [List.append_assoc]
      · right; left
        exact ⟨by omega, by omega, rfl, rfl, rfl, rfl, rfl⟩

theorem releaseID_linv (C : Nat) (m : IDMap V) (c : Cache) (g : CacheGhost)
    (subs : List (List Nat)) (O : List Nat) (id : Nat)
    (h : LInv C m c g subs O) (hl : liveB m.store_ id = true) :
    ∃ m' c' g' subs', releaseID C m c id = some (m', c') ∧
      ReleasePost C m g subs O [id] (fun _ => 1) m' c' g' subs' := by
  obtain ⟨m', c', g', subs', h1, h2, _⟩ := releaseID_linv_to C m c g subs O id h hl
  exact ⟨m', c', g', subs', h1, h2⟩

theorem segTo_seg {store : List (Node V)} {h : Nat} {l : List Nat}
    (hs : SegTo store noIdx h l) : Seg store h l := by
  induction l generalizing h with
  | nil => exact hs
  | cons i rest ih =>
    obtain ⟨rfl, g, sn, hn, hr⟩ := hs
    exact ⟨rfl, g, sn, hn, ih hr⟩

theorem segTo_frame {store store' : List (Node V)} {e h : Nat} {l : List Nat}
    (hagree : ∀ i, i ∈ l → store'[i]? = store[i]?) (hs : SegTo store e h l) :
    SegTo store' e h l := by
  induction l generalizing h with
  | nil => exact hs
  | cons i rest ih =>
    obtain ⟨rfl, g, sn, hn, hr⟩ := hs
    refine ⟨rfl, g, sn, ?_, ih (fun j hj => hagree j (List.mem_cons_of_mem _ hj)) hr⟩
    rw [hagree _ (List.mem_cons_self _ _)]; exact hn

theorem segTo_append {store : List (Node V)} {e p h : Nat} {A B : List Nat}
    (hA : SegTo store p h A) (hB : SegTo store e p B) : SegTo store e h (A ++ B) := by
  induction A generalizing h with
  | nil => cases hA; exact hB
  | cons i rest ih =>
    obtain ⟨rfl, g, sn, hn, hr⟩ := hA
    exact ⟨rfl, g, sn, hn, ih hr⟩

theorem segTo_append_seg {store : List (Node V)} {p h : Nat} {A B : List Nat}
    (hA : SegTo store p h A) (hB : Seg store p B) : Seg store h (A ++ B) := by
  induction A generalizing h with
  | nil => cases hA; exact hB
  | cons i rest ih =>
    obtain ⟨rfl, g, sn, hn, hr⟩ := hA
    exact ⟨rfl, g, sn, hn, ih hr⟩

theorem seg_split {store : List (Node V)} {h : Nat} {l : List Nat} (hs : Seg store h l)
    (n : Nat) : ∃ p, SegTo store p h (l.take n) ∧ Seg store p (l.drop n) := by
  induction l generalizing h n with
  | nil => exact ⟨h, by simp [SegTo], by simpa using hs⟩
  | cons i rest ih =>
    cases n with
    | zero => exact ⟨h, rfl, hs⟩
    | succ n =>
      obtain ⟨rfl, g, sn, hn, hr⟩ := hs
      obtain ⟨p, h1, h2⟩ := ih hr n
      exact ⟨p, ⟨rfl, g, sn, hn, h1⟩, h2⟩

/-- Rewriting `subNext` of the last node of a sublist. -/
theorem segTo_set_last {store : List (Node V)} {e h : Nat} {l : List Nat} {z : Nat}
    (hs : SegTo store e h (l ++ [z])) (hnd : (l ++ [z]).Nodup) :
    ∃ g, store[z]? = some ⟨g, .freeNode ⟨e, 1⟩⟩ ∧
      ∀ y, SegTo (store.set z ⟨g, .freeNode ⟨y, 1⟩⟩) y h (l ++ [z]) := by
  induction l generalizing h with
  | nil =>
    obtain ⟨rfl, g, sn, hn, hr⟩ := hs
    cases hr
    refine ⟨g, hn, fun y => ⟨rfl, g, y, ?_, rfl⟩⟩
    exact List.getElem?_set_self (lt_of_getElem?_some hn)
  | cons i rest ih =>
    obtain ⟨rfl, g, sn, hn, hr⟩ := hs
    have hnd' : (rest ++ [z]).Nodup := (List.nodup_cons.1 hnd).2
    have hne : z ≠ h := by
      intro e1
      have := (List.nodup_cons.1 hnd).1
      exact this (by rw [← e1]; simp)
    obtain ⟨g', hz, hall⟩ := ih hr hnd'
    refine ⟨g', hz, fun y => ⟨rfl, g, sn, ?_, hall y⟩⟩
    rw [List.getElem?_set_ne hne]; exact hn

/-- The walk of lines 302-305 along a sublist. -/
theorem walkOverflow_segTo {store : List (Node V)} {p h : Nat} {l : List Nat} {z : Nat}
    (hs : SegTo store p h (l ++ [z])) (x : Nat) :
    walkOverflow store (l.length + 1) x h = some (z, p) := by
  induction l generalizing h x with
  | nil =>
    obtain ⟨rfl, g, sn, hn, hr⟩ := hs
    cases hr
    simp [walkOverflow, freeAt, hn]
  | cons i rest ih =>
    obtain ⟨rfl, g, sn, hn, hr⟩ := hs
    have := ih hr h
    simp only [List.length_cons, walkOverflow, freeAt, hn]
    exact this

theorem chainTo_frame {C : Nat} {store store' : List (Node V)} {e h : Nat}
    {subs : List (List Nat)}
    (hagree : ∀ i, i ∈ subs.flatten → store'[i]? = store[i]?)
    (hc : ChainTo C store e h subs) : ChainTo C store' e h subs := by
  induction subs generalizing h with
  | nil => exact hc
  | cons sub rest ih =>
    obtain ⟨hlen, g, sn, next, tl, hsub, hn, hseg, hr⟩ := hc
    have hin : ∀ j, j ∈ sub → store'[j]? = store[j]? := by
      intro j hj
      apply hagree
      simp only [List.flatten_cons, List.mem_append]
      exact Or.inl hj
    refine ⟨hlen, g, sn, next, tl, hsub, ?_, ?_, ih (fun j hj => hagree j ?_) hr⟩
    · rw [hin h (by rw [hsub]; exact List.mem_cons_self _ _)]; exact hn
    · exact seg_frame (fun j hj => hin j (by rw [hsub]; exact List.mem_cons_of_mem _ hj)) hseg
    · simp only [List.flatten_cons, List.mem_append]
      exact Or.inr hj

theorem chainTo_append {C : Nat} {store : List (Node V)} {e x h : Nat}
    {A B : List (List Nat)}
    (hA : ChainTo C store x h A) (hB : ChainTo C store e x B) :
    ChainTo C store e h (A ++ B) := by
  induction A generalizing h with
  | nil => cases hA; exact hB
  | cons sub rest ih =>
    obtain ⟨hlen, g, sn, next, tl, hsub, hn, hseg, hr⟩ := hA
    exact ⟨hlen, g, sn, next, tl, hsub, hn, hseg, ih hr⟩

theorem chainTo_chain {C : Nat} {store : List (Node V)} {e h : Nat}
    {A subs : List (List Nat)}
    (hA : ChainTo C store e h A) (hB : Chain C store e subs)
    (hne : ∀ i, i ∈ A.flatten → i ≠ noIdx) : Chain C store h (A ++ subs) := by
  induction A generalizing h with
  | nil => cases hA; exact hB
  | cons sub rest ih =>
    obtain ⟨hlen, g, sn, next, tl, hsub, hn, hseg, hr⟩ := hA
    refine ⟨hne h (by simp [hsub]), hlen, g, sn, next, tl, hsub, hn, hseg,
      ih hr (fun i hi => hne i (by simp only [List.flatten_cons, List.mem_append]; exact Or.inr hi))⟩

theorem chainTo_single {C : Nat} {store : List (Node V)} {h : Nat} {sub : List Nat}
    (hs : Seg store h sub) (hlen : sub.length = C) (hC : 0 < C) :
    ChainTo C store 1 h [sub] := by
  cases sub with
  | nil => simp at hlen; omega
  | cons i tl =>
    obtain ⟨rfl, g, sn, hn, hr⟩ := hs
    exact ⟨hlen, g, sn, 1, tl, rfl, hn, hr, rfl⟩

/-- Storing `x` into `globalNext` of the head of the last sublist. -/
theorem chainTo_relink {C : Nat} {store : List (Node V)} {e h : Nat}
    {A : List (List Nat)} {t : Nat} {tl : List Nat}
    (hc : ChainTo C store e h (A ++ [t :: tl])) (hnd : (A ++ [t :: tl]).flatten.Nodup)
    (x : Nat) :
    ∃ store', setGlobalNext store t x = some store' ∧ store'.length = store.length ∧
      (∀ j, j ≠ t → store'[j]? = store[j]?) ∧
      liveB store' t = liveB store t ∧ genAt store' t = genAt store t ∧
      ChainTo C store' x h (A ++ [t :: tl]) := by
  induction A generalizing h with
  | nil =>
    obtain ⟨hlen, g, sn, next, tl', hsub, hn, hseg, hr⟩ := hc
    have ht : t = h := by injection hsub
    have htl : tl = tl' := by injection hsub
    subst ht; subst htl
    have hlt := lt_of_getElem?_some hn
    have hself : (store.set t ⟨g, .freeNode ⟨sn, x⟩⟩)[t]? = some ⟨g, .freeNode ⟨sn, x⟩⟩ :=
      List.getElem?_set_self hlt
    have htn : t ∉ tl := by
      have : (t :: tl).Nodup := by simpa using hnd
      exact (List.nodup_cons.1 this).1
    refine ⟨store.set t ⟨g, .freeNode ⟨sn, x⟩⟩, by simp [setGlobalNext, hn], by simp,
      fun j hj => List.getElem?_set_ne (Ne.symm hj), by simp [liveB, hself, hn],
      by simp [genAt, hself, hn], hlen, g, sn, x, tl, rfl, hself, ?_, rfl⟩
    exact seg_frame (fun j hj => List.getElem?_set_ne (fun e1 => htn (by rw [e1]; exact hj))) hseg
  | cons sub rest ih =>
    obtain ⟨hlen, g, sn, next, tl', hsub, hn, hseg, hr⟩ := hc
    have hnd2 : (sub ++ (rest ++ [t :: tl]).flatten).Nodup := by simpa using hnd
    have hnd' : (rest ++ [t :: tl]).flatten.Nodup := (List.nodup_append.1 hnd2).2.1
    have htsub : t ∉ sub := by
      intro hm
      exact (List.nodup_append.1 hnd2).2.2 hm (by simp)
    obtain ⟨store', h1, h2, h3, h4, h5, h6⟩ := ih hr hnd'
    refine ⟨store', h1, h2, h3, h4, h5, hlen, g, sn, next, tl', hsub, ?_, ?_, h6⟩
    · rw [h3 h (fun e1 => htsub (by rw [← e1, hsub]; exact List.mem_cons_self _ _))]; exact hn
    · exact seg_frame (fun j hj => h3 j (fun e1 => htsub (by
        rw [← e1, hsub]; exact List.mem_cons_of_mem _ hj))) hseg

theorem add32_add32_one (g : Nat) : add32 (add32 g 1) 1 = (g + 2) % 2 ^ 32 := by
  unfold add32
  omega

/-- The effect of `n` calls of `linkToNext` from index `base` on distinct
ids inside the store. -/
theorem linkRange_spec (keys : List Key) (past : Key) (n base : Nat) (store : List (Node V))
    (hin : ∀ idx, base ≤ idx → idx < base + n → kid keys past idx < store.length)
    (hinj : ∀ i j, base ≤ i → i < base + n → base ≤ j → j < base + n →
      kid keys past i = kid keys past j → i = j) :
    ∃ store', linkRange keys past n base store = some store' ∧
      store'.length = store.length ∧
      (∀ x, (∀ idx, base ≤ idx → idx < base + n → x ≠ kid keys past idx) →
        store'[x]? = store[x]?) ∧
      (∀ idx, base ≤ idx → idx < base + n →
        store'[kid keys past idx]? =
          some ⟨add32 (genAt store (kid keys past idx)) 1,
            .freeNode ⟨kid keys past (idx + 1), 1⟩⟩) := by
  induction n generalizing base store with
  | zero =>
    exact ⟨store, rfl, rfl, fun _ _ => rfl, fun idx h1 h2 => by omega⟩
  | succ n ih =>
    have hb := hin base le_rfl (by omega)
    have hnd : store[kid keys past base]? = some store[kid keys past base] :=
      List.getElem?_eq_getElem hb
    obtain ⟨store1, hs1⟩ : ∃ store1, store1 = store.set (kid keys past base)
        ⟨add32 store[kid keys past base].gen 1, .freeNode ⟨kid keys past (base + 1), 1⟩⟩ :=
      ⟨_, rfl⟩
    have hl1 : store1.length = store.length := by rw [hs1]; simp
    have hlink : linkToNext keys past store base = some store1 := by
      unfold linkToNext
      simp only [kid] at hnd hs1
      simp only [hnd, hs1]
    obtain ⟨store', h1, h2, h3, h4⟩ := ih (base + 1) store1
      (fun idx h1 h2 => by rw [hl1]; exact hin idx (by omega) (by omega))
      (fun i j a b c d e => hinj i j (by omega) (by omega) (by omega) (by omega) e)
    refine ⟨store', ?_, by rw [h2, hl1], ?_, ?_⟩
    · simp only [linkRange, hlink]; exact h1
    · intro x hx
      rw [h3 x (fun idx a b => hx idx (by omega) (by omega)), hs1]
      exact List.getElem?_set_ne (Ne.symm (hx base le_rfl (by omega)))
    · intro idx a b
      by_cases hib : idx = base
      · subst hib
        rw [h3 _ (fun j c d e => by
          have := hinj idx j le_rfl (by omega) (by omega) (by omega) e
          omega), hs1, List.getElem?_set_self hb]
        simp [genAt, hnd]
      · rw [h4 idx (by omega) (by omega)]
        have hne : kid keys past base ≠ kid keys past idx := fun e =>
          hib (hinj base idx le_rfl (by omega) a b e).symm
        rw [hs1, genAt_set_ne _ _ _ _ hne]

/-- Nodes linked one to the next form a sublist. -/
theorem segTo_of_links (f : Nat → Nat) (store : List (Node V)) (e : Nat) (n base : Nat)
    (h : ∀ idx, base ≤ idx → idx < base + (n + 1) →
      ∃ g, store[f idx]? =
        some ⟨g, .freeNode ⟨if idx + 1 < base + (n + 1) then f (idx + 1) else e, 1⟩⟩) :
    SegTo store e (f base) ((List.range' base (n + 1)).map f) := by
  induction n generalizing base with
  | zero =>
    obtain ⟨g, hg⟩ := h base le_rfl (by omega)
    simp only [Nat.zero_add, List.range'_one, List.map_cons, List.map_nil]
    refine ⟨rfl, g, _, hg, ?_⟩
    simp [SegTo]
  | succ n ih =>
    obtain ⟨g, hg⟩ := h base le_rfl (by omega)
    rw [List.range'_succ, List.map_cons]
    refine ⟨rfl, g, _, hg, ?_⟩
    rw [if_pos (by omega)]
    apply ih (base + 1)
    intro idx a b
    obtain ⟨g', hg'⟩ := h idx (by omega) (by omega)
    refine ⟨g', ?_⟩
    rw [hg']
    have : (idx + 1 < base + (n + 1 + 1)) = (idx + 1 < base + 1 + (n + 1)) := by
      apply propext; constructor <;> intro <;> omega
    simp only [this]

/-- Linking the keys `base .. base + n` into one sublist that ends with `e`:
`m` calls of `linkToNext` followed by the write of the last node, where `m` is
`n + 1` in the full-chunk loop and `n` for the final chunk. -/
theorem linkSub_spec (keys : List Key) (past : Key) (n m base e : Nat)
    (store : List (Node V)) (hm : m = n + 1 ∨ m = n)
    (hin : ∀ idx, base ≤ idx → idx < base + (n + 1) → kid keys past idx < store.length)
    (hinj : ∀ i j, base ≤ i → i < base + (n + 1) → base ≤ j → j < base + (n + 1) →
      kid keys past i = kid keys past j → i = j) :
    ∃ store1 store2, linkRange keys past m base store = some store1 ∧
      bumpFree store1 (kid keys past (base + n)) e = some store2 ∧
      store2.length = store.length ∧
      (∀ x, x ∉ (List.range' base (n + 1)).map (kid keys past) → store2[x]? = store[x]?) ∧
      SegTo store2 e (kid keys past base) ((List.range' base (n + 1)).map (kid keys past)) ∧
      (∀ x, x ∈ (List.range' base (n + 1)).map (kid keys past) →
        liveB store2 x = false ∧
        (genAt store2 x = (genAt store x + 1) % 2 ^ 32 ∨
         genAt store2 x = (genAt store x + 2) % 2 ^ 32)) := by
  have hmle : base + m ≤ base + (n + 1) := by omega
  obtain ⟨store1, h1, h2, h3, h4⟩ := linkRange_spec keys past m base store
    (fun idx a b => hin idx a (by omega))
    (fun i j a b c d e => hinj i j a (by omega) c (by omega) e)
  have hlast := hin (base + n) (by omega) (by omega)
  have hlast1 : kid keys past (base + n) < store1.length := by rw [h2]; exact hlast
  have hnd1 : store1[kid keys past (base + n)]? = some store1[kid keys past (base + n)] :=
    List.getElem?_eq_getElem hlast1
  obtain ⟨store2, hs2⟩ : ∃ store2, store2 = store1.set (kid keys past (base + n))
      ⟨add32 store1[kid keys past (base + n)].gen 1, .freeNode ⟨e, 1⟩⟩ := ⟨_, rfl⟩
  have hbump : bumpFree store1 (kid keys past (base + n)) e = some store2 := by
    unfold bumpFree
    simp only [hnd1, hs2]
  have hself : store2[kid keys past (base + n)]? =
      some ⟨add32 store1[kid keys past (base + n)].gen 1, .freeNode ⟨e, 1⟩⟩ := by
    rw [hs2]; exact List.getElem?_set_self hlast1
  have hother : ∀ x, x ≠ kid keys past (base + n) → store2[x]? = store1[x]? := by
    intro x hx; rw [hs2]; exact List.getElem?_set_ne (Ne.symm hx)
  have hg1 : store1[kid keys past (base + n)].gen = genAt store1 (kid keys past (base + n)) := by
    simp [genAt, hnd1]
  -- the node of every key in the range
  have hnode : ∀ idx, base ≤ idx → idx < base + (n + 1) →
      ∃ g, store2[kid keys past idx]? =
        some ⟨g, .freeNode ⟨if idx + 1 < base + (n + 1) then kid keys past (idx + 1) else e, 1⟩⟩ ∧
        (g = (genAt store (kid keys past idx) + 1) % 2 ^ 32 ∨
         g = (genAt store (kid keys past idx) + 2) % 2 ^ 32) := by
    intro idx a b
    by_cases hil : idx = base + n
    · subst hil
      rw [if_neg (by omega)]
      refine ⟨_, hself, ?_⟩
      rw [hg1]
      rcases hm with hm | hm
      · right
        have := h4 (base + n) (by omega) (by omega)
        simp only [genAt, this]
        exact add32_add32_one _
      · left
        have := h3 (kid keys past (base + n)) (fun j c d e1 => by
          have := hinj (base + n) j (by omega) (by omega) c (by omega) e1
          omega)
        simp only [genAt, this]
        rfl
    · have hne : kid keys past idx ≠ kid keys past (base + n) := fun e1 =>
        hil (hinj idx (base + n) a b (by omega) (by omega) e1)
      rw [hother _ hne, h4 idx a (by omega), if_pos (by omega)]
      exact ⟨_, rfl, Or.inl rfl⟩
  refine ⟨store1, store2, h1, hbump, by rw [hs2]; simp [h2], ?_, ?_, ?_⟩
  · intro x hx
    have hx' : ∀ idx, base ≤ idx → idx < base + (n + 1) → x ≠ kid keys past idx := by
      intro idx a b e1
      apply hx
      rw [e1]
      exact List.mem_map.2 ⟨idx, List.mem_range'_1.2 ⟨a, b⟩, rfl⟩
    rw [hother x (hx' _ (by omega) (by omega)), h3 x (fun idx a b => hx' idx a (by omega))]
  · apply segTo_of_links
    intro idx a b
    obtain ⟨g, hg, _⟩ := hnode idx a b
    exact ⟨g, hg⟩
  · intro x hx
    obtain ⟨idx, hidx, rfl⟩ := List.mem_map.1 hx
    have hidx' : base ≤ idx ∧ idx < base + (n + 1) := List.mem_range'_1.1 hidx
    obtain ⟨g, hg, hgen⟩ := hnode idx hidx'.1 hidx'.2
    refine ⟨by simp [liveB, hg], ?_⟩
    simpa [genAt, hg] using hgen

/-- Linking a new sublist after the sublists done so far. -/
theorem openChain_snoc {C : Nat} (hC : 0 < C) {store : List (Node V)} {first : Nat}
    {tail : Option Nat} {done : List (List Nat)} {h : Nat} {sub : List Nat}
    (ho : OpenChain C store first tail done) (hs : Seg store h sub) (hlen : sub.length = C)
    (hfirst : done = [] → first = h) (hnd : (done ++ [sub]).flatten.Nodup) :
    ∃ store', linkTail store tail h = some store' ∧ store'.length = store.length ∧
      (∀ j, j ∉ done.flatten → store'[j]? = store[j]?) ∧
      (∀ j, liveB store' j = liveB store j ∧ genAt store' j = genAt store j) ∧
      OpenChain C store' first (some h) (done ++ [sub]) ∧ Seg store' h sub := by
  obtain ⟨i, tl', rfl⟩ : ∃ i tl', sub = i :: tl' := by
    cases sub with
    | nil => simp at hlen; omega
    | cons i tl' => exact ⟨i, tl', rfl⟩
  have hih : h = i := hs.1
  subst hih
  rcases ho with ⟨rfl, rfl⟩ | ⟨A, t, tl, rfl, rfl, hc⟩
  · refine ⟨store, rfl, rfl, fun _ _ => rfl, fun _ => ⟨rfl, rfl⟩, Or.inr ⟨[], h, tl', rfl, rfl, ?_⟩,
      hs⟩
    rw [hfirst rfl]
    exact chainTo_single hs hlen hC
  · have hnd2 : ((A ++ [t :: tl]).flatten ++ (h :: tl')).Nodup := by simpa using hnd
    have hndA : (A ++ [t :: tl]).flatten.Nodup := (List.nodup_append.1 hnd2).1
    have htA : t ∈ (A ++ [t :: tl]).flatten := by simp
    have htsub : ∀ j, j ∈ h :: tl' → j ≠ t := by
      intro j hj e1
      exact (List.nodup_append.1 hnd2).2.2 htA (e1 ▸ hj)
    obtain ⟨store', h1, h2, h3, h4, h5, h6⟩ := chainTo_relink hc hndA h
    have hs' : Seg store' h (h :: tl') := seg_frame (fun j hj => h3 j (htsub j hj)) hs
    refine ⟨store', h1, h2, fun j hj => h3 j (fun e1 => hj (e1 ▸ htA)), ?_,
      Or.inr ⟨A ++ [t :: tl], h, tl', rfl, rfl, ?_⟩, hs'⟩
    · intro j
      by_cases hjt : j = t
      · subst hjt; exact ⟨h4, h5⟩
      · simp only [liveB, genAt, h3 j hjt, and_self]
    · exact chainTo_append h6 (chainTo_single hs' hlen hC)

/-- Storing the old global head into the head of the last sublist done. -/
theorem openChain_close {C : Nat} {store : List (Node V)} {first t : Nat}
    {done : List (List Nat)} (ho : OpenChain C store first (some t) done)
    (hnd : done.flatten.Nodup) (x : Nat) :
    ∃ store', setGlobalNext store t x = some store' ∧ store'.length = store.length ∧
      (∀ j, j ∉ done.flatten → store'[j]? = store[j]?) ∧
      (∀ j, liveB store' j = liveB store j ∧ genAt store' j = genAt store j) ∧
      ChainTo C store' x first done := by
  rcases ho with ⟨_, h0⟩ | ⟨A, t', tl, rfl, ht, hc⟩
  · cases h0
  · cases ht
    have htA : t ∈ (A ++ [t :: tl]).flatten := by simp
    obtain ⟨store', h1, h2, h3, h4, h5, h6⟩ := chainTo_relink hc hnd x
    refine ⟨store', h1, h2, fun j hj => h3 j (fun e1 => hj (e1 ▸ htA)), ?_, h6⟩
    intro j
    by_cases hjt : j = t
    · subst hjt; exact ⟨h4, h5⟩
    · simp only [liveB, genAt, h3 j hjt, and_self]

theorem openChain_none {C : Nat} {store : List (Node V)} {first : Nat}
    {done : List (List Nat)} (ho : OpenChain C store first none done) : done = [] := by
  rcases ho with ⟨h, _⟩ | ⟨A, t', tl, _, ht, _⟩
  · exact h
  · cases ht

theorem openChain_some_ne {C : Nat} {store : List (Node V)} {first t : Nat}
    {done : List (List Nat)} (ho : OpenChain C store first (some t) done) : done ≠ [] := by
  rcases ho with ⟨_, h0⟩ | ⟨A, t', tl, rfl, _, _⟩
  · cases h0
  · simp

theorem openChain_frame {C : Nat} {store store' : List (Node V)} {first : Nat}
    {tail : Option Nat} {done : List (List Nat)}
    (hagree : ∀ i, i ∈ done.flatten → store'[i]? = store[i]?)
    (ho : OpenChain C store first tail done) : OpenChain C store' first tail done := by
  rcases ho with h | ⟨A, t, tl, h1, h2, hc⟩
  · exact Or.inl h
  · exact Or.inr ⟨A, t, tl, h1, h2, chainTo_frame hagree hc⟩

theorem nodup_map_kid (keys : List Key) (past : Key) (n : Nat) (hn : n ≤ keys.length)
    (hkinj : ∀ i j, i < keys.length → j < keys.length →
      kid keys past i = kid keys past j → i = j) :
    ((List.range n).map (kid keys past)).Nodup := by
  apply List.Nodup.map_on _ (List.nodup_range n)
  intro i hi j hj e
  exact hkinj i j (by have := List.mem_range.1 hi; omega)
    (by have := List.mem_range.1 hj; omega) e

theorem range_append_range' (a b : Nat) :
    List.range a ++ List.range' a b = List.range (a + b) := by
  rw [List.range_eq_range', List.range_eq_range']
  have := List.range'_append 0 a b 1
  rw [Nat.add_comm a b]
  simpa using this

/-- One iteration of the first loop of `bulkRelease` on a full chunk. -/
theorem chunk_step (C : Nat) (hC : 0 < C) (keys : List Key) (past : Key)
    (store0 : List (Node V)) (st : BulkLoop V) (done : List (List Nat))
    (hinv : BulkInv C keys past store0 st done) (hfull : st.base_idx + C ≤ keys.length)
    (hkin : ∀ idx, idx < keys.length → kid keys past idx < store0.length)
    (hkinj : ∀ i j, i < keys.length → j < keys.length →
      kid keys past i = kid keys past j → i = j) :
    ∃ store1 store2 store3, linkRange keys past C st.base_idx st.store = some store1 ∧
      bumpFree store1 (kid keys past (st.base_idx + C - 1)) noIdx = some store2 ∧
      linkTail store2 st.global_tail_node (kid keys past st.base_idx) = some store3 ∧
      BulkInv C keys past store0
        ⟨store3, st.base_idx + C, keys.length - st.base_idx, some (kid keys past st.base_idx)⟩
        (done ++ [(List.range' st.base_idx C).map (kid keys past)]) := by
  obtain ⟨n, rfl⟩ : ∃ n, C = n + 1 := ⟨C - 1, by omega⟩
  obtain ⟨store1, store2, h1, h2, h3, h4, h5, h6⟩ :=
    linkSub_spec keys past n (n + 1) st.base_idx noIdx st.store (Or.inl rfl)
      (fun idx a b => by rw [hinv.len]; exact hkin idx (by omega))
      (fun i j a b c d e => hkinj i j (by omega) (by omega) e)
  have hflat : (done ++ [(List.range' st.base_idx (n + 1)).map (kid keys past)]).flatten =
      (List.range (st.base_idx + (n + 1))).map (kid keys past) := by
    rw [List.flatten_append, hinv.flat, ← range_append_range', List.map_append]
    simp
  have hnd : (done ++ [(List.range' st.base_idx (n + 1)).map (kid keys past)]).flatten.Nodup := by
    rw [hflat]; exact nodup_map_kid keys past _ hfull hkinj
  have hnd2 : (done.flatten ++ (List.range' st.base_idx (n + 1)).map (kid keys past)).Nodup := by
    simpa using hnd
  have hdisj : ∀ x, x ∈ done.flatten →
      x ∉ (List.range' st.base_idx (n + 1)).map (kid keys past) :=
    fun x hx hx' => (List.nodup_append.1 hnd2).2.2 hx hx'
  have hopen : OpenChain (n + 1) store2 (kid keys past 0) st.global_tail_node done :=
    openChain_frame (fun i hi => h4 i (hdisj i hi)) hinv.chain
  have hfirst : done = [] → kid keys past 0 = kid keys past st.base_idx := by
    intro hd
    have := hinv.flat
    rw [hd] at this
    have hb : st.base_idx = 0 := by
      have := congrArg List.length this
      simpa using this.symm
    rw [hb]
  obtain ⟨store3, g1, g2, g3, g4, g5, g6⟩ :=
    openChain_snoc hC hopen (segTo_seg h5) (by simp) hfirst hnd
  refine ⟨store1, store2, store3, h1, by simpa using h2, g1, ?_⟩
  refine ⟨by simp only; rw [g2, h3, hinv.len], hfull, fun _ hb => by simp only at hb ⊢; omega,
    ?_, hflat, ?_, g5⟩
  · intro x hx
    have hx' : x ∉ done.flatten ∧ x ∉ (List.range' st.base_idx (n + 1)).map (kid keys past) := by
      simpa using hx
    simp only
    rw [g3 x hx'.1, h4 x hx'.2, hinv.keep x hx'.1]
  · intro x hx
    have hx' : x ∈ done.flatten ∨ x ∈ (List.range' st.base_idx (n + 1)).map (kid keys past) := by
      simpa using hx
    simp only
    rw [(g4 x).1, (g4 x).2]
    rcases hx' with hd | hs
    · have e1 := h4 x (hdisj x hd)
      have := hinv.free x hd
      simp only [liveB, genAt, e1] at this ⊢
      exact this
    · have hnd' : x ∉ done.flatten := fun hd => hdisj x hd hs
      have e1 := hinv.keep x hnd'
      have := h6 x hs
      simp only [genAt, e1] at this ⊢
      exact this

/-- The first loop of `bulkRelease` returns, with its invariant, at the first
index where fewer than `C` keys remain. -/
theorem chunkLoop_spec (C : Nat) (hC : 0 < C) (keys : List Key) (past : Key)
    (store0 : List (Node V))
    (hkin : ∀ idx, idx < keys.length → kid keys past idx < store0.length)
    (hkinj : ∀ i j, i < keys.length → j < keys.length →
      kid keys past i = kid keys past j → i = j) :
    ∀ (fuel : Nat) (st : BulkLoop V) (done : List (List Nat)),
      BulkInv C keys past store0 st done → keys.length < st.base_idx + fuel →
      ∃ st' done', chunkLoop C keys past fuel st = some st' ∧
        BulkInv C keys past store0 st' done' ∧
        (st'.base_idx = keys.length ∨
          (st'.base_idx < keys.length ∧ st'.num_remaining = keys.length - st'.base_idx ∧
            st'.num_remaining < C)) := by
  intro fuel
  induction fuel with
  | zero =>
    intro st done hinv hf
    have := hinv.base_le
    omega
  | succ fuel ih =>
    intro st done hinv hf
    by_cases hlt : st.base_idx < keys.length
    · by_cases hrem : keys.length - st.base_idx < C
      · refine ⟨{ st with num_remaining := keys.length - st.base_idx }, done, ?_, ?_,
          Or.inr ⟨hlt, rfl, hrem⟩⟩
        · simp only [chunkLoop, if_pos hlt, if_pos hrem]
        · exact ⟨hinv.len, hinv.base_le, fun _ hb => by simp only at hb; omega, hinv.keep,
            hinv.flat, hinv.free, hinv.chain⟩
      · have hfull : st.base_idx + C ≤ keys.length := by omega
        obtain ⟨store1, store2, store3, h1, h2, h3, h4⟩ :=
          chunk_step C hC keys past store0 st done hinv hfull hkin hkinj
        obtain ⟨st', done', g1, g2, g3⟩ := ih _ _ h4 (by simp only; omega)
        refine ⟨st', done', ?_, g2, g3⟩
        simp only [chunkLoop, if_pos hlt, if_neg hrem]
        simp only [kid] at h2 h3
        simp only [h1, h2, h3]
        exact g1
    · refine ⟨st, done, ?_, hinv, Or.inl ?_⟩
      · simp only [chunkLoop, if_neg hlt]
      · have := hinv.base_le
        omega

theorem bulkStore_mono {store0 S S' : List (Node V)} {ids F : List Nat}
    (hS : BulkStore store0 ids F S) (hlen : S'.length = S.length)
    (hkeep : ∀ j, j ∉ ids → j ∉ F → S'[j]? = S[j]?)
    (hsame : ∀ j, liveB S' j = liveB S j ∧ genAt S' j = genAt S j) :
    BulkStore store0 ids F S' := by
  refine ⟨by rw [hlen, hS.len], fun j a b => by rw [hkeep j a b, hS.keep j a b], ?_, ?_⟩
  · intro j hj
    rw [(hsame j).1, (hsame j).2]
    exact hS.keepF j hj
  · intro j hj
    rw [(hsame j).1, (hsame j).2]
    exact hS.bump j hj

/-- The guarantees of a release from the description of the store it leaves. -/
theorem releasePost_of_bulkStore {C : Nat} {m : IDMap V} {c c' : Cache} {g g' : CacheGhost}
    {subs subs' : List (List Nat)} {O : List Nat} (h : LInv C m c g subs O)
    (ids : List Nat) (store' : List (Node V)) (head' : FreeHead)
    (hlive : ∀ i, i ∈ ids → liveB m.store_ i = true) (hnd : ids.Nodup)
    (hS : BulkStore m.store_ ids (g.ids ++ subs.flatten) store')
    (hrep : CacheRep C store' c' g')
    (hchain : Chain C store' head'.head subs')
    (hperm : (g'.ids ++ subs'.flatten).Perm (ids ++ (g.ids ++ subs.flatten))) :
    ∃ bumps : Nat → Nat, (∀ i, bumps i = 1 ∨ bumps i = 2) ∧
      ReleasePost C m g subs O ids bumps ⟨head', store'⟩ c' g' subs' := by
  refine ⟨fun i => if genAt store' i = (genAt m.store_ i + 1) % 2 ^ 32 then 1 else 2, ?_, ?_⟩
  · intro i
    by_cases hi : genAt store' i = (genAt m.store_ i + 1) % 2 ^ 32
    · left; simp only [if_pos hi]
    · right; simp only [if_neg hi]
  · refine releasePost_push h ids _ store' head' hlive hS.len hS.keep
      (fun j hj => (hS.keepF j hj).1) (fun j hj => (hS.keepF j hj).2)
      (fun i hi => (hS.bump i hi).1) ?_ hrep hchain hperm hnd
    intro i hi
    by_cases hg : genAt store' i = (genAt m.store_ i + 1) % 2 ^ 32
    · simp only [if_pos hg]; exact hg
    · simp only [if_neg hg]
      rcases (hS.bump i hi).2 with h1 | h2
      · exact absurd h1 hg
      · exact h2

theorem free_lt {C : Nat} {m : IDMap V} {c : Cache} {g : CacheGhost}
    {subs : List (List Nat)} {O : List Nat} (h : LInv C m c g subs O) (j : Nat)
    (hj : j ∈ g.ids ++ subs.flatten) : FreeSlot m.store_ j := by
  rcases List.mem_append.1 hj with hi | hi
  · exact cacheRep_freeSlot h.rep j hi
  · exact chain_freeSlot h.chain j hi

theorem nodup_ids_free {C : Nat} {m : IDMap V} {c : Cache} {g : CacheGhost}
    {subs : List (List Nat)} {O : List Nat} (h : LInv C m c g subs O) (ids : List Nat)
    (hlive : ∀ i, i ∈ ids → liveB m.store_ i = true) (hnd : ids.Nodup) :
    (ids ++ (g.ids ++ subs.flatten)).Nodup := by
  rw [List.nodup_append]
  refine ⟨hnd, (List.nodup_append.1 h.nodup).1, fun i hi hf => ?_⟩
  exact not_free_of_live h i (hlive i hi) (List.mem_append_left _ hf)

/-- The last part of `bulkRelease` (lines 321-337): the sublists `done` go in
front of the global chain. -/
theorem bulk_finish {C : Nat} {m : IDMap V} {c c' : Cache} {g g' : CacheGhost}
    {subs : List (List Nat)} {O : List Nat} (h : LInv C m c g subs O) (ids : List Nat)
    (hlive : ∀ i, i ∈ ids → liveB m.store_ i = true) (hnd : ids.Nodup)
    (S : List (Node V)) (hS : BulkStore m.store_ ids (g.ids ++ subs.flatten) S)
    (hsubs : ∀ j, j ∈ subs.flatten → S[j]? = m.store_[j]?)
    (first : Nat) (tail : Option Nat) (done : List (List Nat))
    (hopen : OpenChain C S first tail done) (hrep : CacheRep C S c' g')
    (hperm : (g'.ids ++ (done ++ subs).flatten).Perm (ids ++ (g.ids ++ subs.flatten))) :
    ∃ m' bumps,
      ((tail = none ∧ m' = ⟨m.free_head_, S⟩) ∨
       (∃ t store', tail = some t ∧ setGlobalNext S t m.free_head_.head = some store' ∧
          m' = ⟨⟨add32 m.free_head_.gen 1, first⟩, store'⟩)) ∧
      (∀ i, bumps i = 1 ∨ bumps i = 2) ∧
      ReleasePost C m g subs O ids bumps m' c' (g') (done ++ subs) := by
  have hndL : (g'.ids ++ (done.flatten ++ subs.flatten)).Nodup := by
    have := (List.Perm.nodup_iff hperm).2 (nodup_ids_free h ids hlive hnd)
    simpa using this
  have hndD : done.flatten.Nodup :=
    (List.nodup_append.1 (List.nodup_append.1 hndL).2.1).1
  have hDg : ∀ j, j ∈ g'.ids → j ∉ done.flatten := fun j hj hd =>
    (List.nodup_append.1 hndL).2.2 hj (List.mem_append_left _ hd)
  have hDs : ∀ j, j ∈ subs.flatten → j ∉ done.flatten := fun j hj hd =>
    (List.nodup_append.1 (List.nodup_append.1 hndL).2.1).2.2 hd hj
  have hDin : ∀ j, j ∈ done.flatten → j ∈ ids ++ (g.ids ++ subs.flatten) := by
    intro j hj
    apply hperm.mem_iff.1
    simp only [List.flatten_append, List.mem_append]
    exact Or.inr (Or.inl hj)
  have hDne : ∀ j, j ∈ done.flatten → j ≠ noIdx := by
    intro j hj
    have hlt : j < m.store_.length := by
      rcases List.mem_append.1 (hDin j hj) with hi | hf
      · exact lt_of_liveB (hlive j hi)
      · exact (free_lt h j hf).1
    have := h.size
    omega
  cases tail with
  | none =>
    have hd : done = [] := openChain_none hopen
    subst hd
    obtain ⟨bumps, hb, hpost⟩ := releasePost_of_bulkStore h ids S m.free_head_ hlive hnd hS hrep
      (chain_frame hsubs h.chain) (by simpa using hperm)
    exact ⟨_, bumps, Or.inl ⟨rfl, rfl⟩, hb, by simpa using hpost⟩
  | some t =>
    obtain ⟨store', h1, h2, h3, h4, h5⟩ := openChain_close hopen hndD m.free_head_.head
    have hS' : BulkStore m.store_ ids (g.ids ++ subs.flatten) store' := by
      refine bulkStore_mono hS h2 (fun j a b => h3 j (fun hd => ?_)) h4
      rcases List.mem_append.1 (hDin j hd) with hi | hf
      · exact a hi
      · exact b hf
    have hchain : Chain C store' first (done ++ subs) := by
      refine chainTo_chain h5 (chain_frame (fun j hj => ?_) h.chain) hDne
      rw [h3 j (hDs j hj), hsubs j hj]
    obtain ⟨bumps, hb, hpost⟩ := releasePost_of_bulkStore h ids store'
      ⟨add32 m.free_head_.gen 1, first⟩ hlive hnd hS'
      (cacheRep_frame (fun j hj => h3 j (hDg j hj)) hrep) hchain hperm
    exact ⟨_, bumps, Or.inr ⟨t, store', rfl, h1, rfl⟩, hb, hpost⟩

theorem kid_getElem? (keys : List Key) (past : Key) (idx : Nat) (h : idx < keys.length) :
    (keys.map Key.id)[idx]? = some (kid keys past idx) := by
  simp [kid, keyAt, List.getD_eq_getElem?_getD, List.getElem?_eq_getElem h]

theorem map_kid_range (keys : List Key) (past : Key) :
    (List.range keys.length).map (kid keys past) = keys.map Key.id := by
  apply List.ext_getElem? 
  intro i
  by_cases hi : i < keys.length
  · rw [kid_getElem? keys past i hi]
    simp [List.getElem?_range hi, hi]
  · rw [List.getElem?_eq_none (by simpa using hi), List.getElem?_eq_none (by simpa using hi)]

theorem kid_mem (keys : List Key) (past : Key) (idx : Nat) (h : idx < keys.length) :
    kid keys past idx ∈ keys.map Key.id :=
  List.mem_iff_getElem?.2 ⟨idx, kid_getElem? keys past idx h⟩

theorem kid_inj (keys : List Key) (past : Key) (hnd : (keys.map Key.id).Nodup) :
    ∀ i j, i < keys.length → j < keys.length → kid keys past i = kid keys past j → i = j := by
  intro i j hi hj e
  apply List.getElem?_inj (by simpa using hi) hnd
  rw [kid_getElem? keys past i hi, kid_getElem? keys past j hj, e]

/-- The description of the store once the keys before `base_idx` are linked
by the first loop and the keys `rem` after it by the second. -/
theorem bulkStore_of_inv {C : Nat} {m : IDMap V} {c : Cache} {g : CacheGhost}
    {subs : List (List Nat)} {O : List Nat} (h : LInv C m c g subs O)
    (keys : List Key) (past : Key) (st : BulkLoop V) (done : List (List Nat))
    (hinv : BulkInv C keys past m.store_ st done) (rem : List Nat) (S : List (Node V))
    (hl : ∀ i, i ∈ keys.map Key.id → liveB m.store_ i = true)
    (hnd : (keys.map Key.id).Nodup)
    (hids : done.flatten ++ rem = keys.map Key.id)
    (hlen : S.length = st.store.length)
    (hkeep : ∀ x, x ∉ rem → S[x]? = st.store[x]?)
    (hbump : ∀ x, x ∈ rem → liveB S x = false ∧
      (genAt S x = (genAt st.store x + 1) % 2 ^ 32 ∨
       genAt S x = (genAt st.store x + 2) % 2 ^ 32)) :
    BulkStore m.store_ (keys.map Key.id) (g.ids ++ subs.flatten) S ∧
      (∀ x, x ∉ keys.map Key.id → S[x]? = m.store_[x]?) ∧
      (∀ x, x ∈ done.flatten → S[x]? = st.store[x]?) := by
  have hnd2 : (done.flatten ++ rem).Nodup := by rw [hids]; exact hnd
  have hmem : ∀ x, x ∈ keys.map Key.id ↔ x ∈ done.flatten ∨ x ∈ rem := by
    intro x; rw [← hids, List.mem_append]
  have hout : ∀ x, x ∉ keys.map Key.id → S[x]? = m.store_[x]? := by
    intro x hx
    rw [hmem] at hx
    rw [hkeep x (fun a => hx (Or.inr a)), hinv.keep x (fun a => hx (Or.inl a))]
  have hdone : ∀ x, x ∈ done.flatten → S[x]? = st.store[x]? :=
    fun x hx => hkeep x (fun a => (List.nodup_append.1 hnd2).2.2 hx a)
  refine ⟨⟨by rw [hlen, hinv.len], fun j a _ => hout j a, ?_, ?_⟩, hout, hdone⟩
  · intro j hj
    have hji : j ∉ keys.map Key.id := fun a =>
      not_free_of_live h j (hl j a) (List.mem_append_left _ hj)
    simp only [liveB, genAt, hout j hji]
    exact ⟨(free_lt h j hj).2, trivial⟩
  · intro i hi
    rcases (hmem i).1 hi with hd | hr
    · simp only [liveB, genAt, hdone i hd]
      exact hinv.free i hd
    · have hnd' : i ∉ done.flatten := fun a => (List.nodup_append.1 hnd2).2.2 a hr
      have := hbump i hr
      simp only [genAt, hinv.keep i hnd'] at this ⊢
      exact this

theorem chainTo_lengths {C : Nat} {store : List (Node V)} {e : Nat} :
    ∀ (subs : List (List Nat)) (h : Nat), ChainTo C store e h subs →
      ∀ sub, sub ∈ subs → sub.length = C := by
  intro subs
  induction subs with
  | nil => intro h _ sub hs; cases hs
  | cons s rest ih =>
    intro h hc sub hs
    obtain ⟨hlen, g, sn, next, tl, _, _, _, hr⟩ := hc
    rcases List.mem_cons.1 hs with e1 | e1
    · rw [e1]; exact hlen
    · exact ih next hr sub e1

theorem openChain_lengths {C : Nat} {store : List (Node V)} {first : Nat}
    {tail : Option Nat} {done : List (List Nat)} (ho : OpenChain C store first tail done) :
    ∀ sub, sub ∈ done → sub.length = C := by
  rcases ho with ⟨h, _⟩ | ⟨A, t, tl, _, _, hc⟩
  · intro sub hs; rw [h] at hs; cases hs
  · exact chainTo_lengths done _ hc

theorem length_flatten_const {C : Nat} : ∀ (L : List (List Nat)),
    (∀ sub, sub ∈ L → sub.length = C) → L.flatten.length = L.length * C := by
  intro L
  induction L with
  | nil => intro _; simp
  | cons s rest ih =>
    intro h
    rw [List.flatten_cons, List.length_append, h s (List.mem_cons_self _ _),
      ih (fun sub hs => h sub (List.mem_cons_of_mem _ hs)), List.length_cons, Nat.succ_mul]
    omega

theorem bulkInv_done_length {C : Nat} {keys : List Key} {past : Key} {store0 : List (Node V)}
    {st : BulkLoop V} {done : List (List Nat)} (hinv : BulkInv C keys past store0 st done) :
    done.length * C = st.base_idx := by
  rw [← length_flatten_const done (openChain_lengths hinv.chain), hinv.flat]
  simp

theorem div_mod_of_eq {C k d r : Nat} (hk : k = d * C + r) (hr : r < C) :
    k % C = r ∧ k / C = d := by
  have hC : 0 < C := by omega
  subst hk
  constructor
  · rw [Nat.mul_comm, Nat.mul_add_mod, Nat.mod_eq_of_lt hr]
  · rw [Nat.mul_comm, Nat.mul_add_div hC, Nat.div_eq_of_lt hr, Nat.add_zero]

theorem bulkInv_first {C : Nat} {keys : List Key} {past : Key} {store0 : List (Node V)}
    {st : BulkLoop V} {done : List (List Nat)} (hinv : BulkInv C keys past store0 st done)
    (hd : done = []) : kid keys past 0 = kid keys past st.base_idx := by
  have := hinv.flat
  rw [hd] at this
  have hb : st.base_idx = 0 := by
    have := congrArg List.length this
    simpa using this.symm
  rw [hb]

/-- The handling of the final chunk in `bulkRelease` (lines 278-317). -/
theorem bulkRemainder_spec (C : Nat) (hC : 0 < C) (m : IDMap V) (c : Cache) (g : CacheGhost)
    (subs : List (List Nat)) (O : List Nat) (keys : List Key) (past : Key)
    (h : LInv C m c g subs O) (hk : 0 < keys.length)
    (hl : ∀ i, i ∈ keys.map Key.id → liveB m.store_ i = true)
    (hnd : (keys.map Key.id).Nodup)
    (st : BulkLoop V) (done : List (List Nat))
    (hinv : BulkInv C keys past m.store_ st done)
    (hexit : st.base_idx = keys.length ∨
      (st.base_idx < keys.length ∧ st.num_remaining = keys.length - st.base_idx ∧
        st.num_remaining < C)) :
    ∃ st' c' g' done', bulkRemainder C keys past c st = some (st', c') ∧
      BulkStore m.store_ (keys.map Key.id) (g.ids ++ subs.flatten) st'.store ∧
      (∀ j, j ∈ subs.flatten → st'.store[j]? = m.store_[j]?) ∧
      OpenChain C st'.store (kid keys past 0) st'.global_tail_node done' ∧
      CacheRep C st'.store c' g' ∧
      (g'.ids ++ (done' ++ subs).flatten).Perm (keys.map Key.id ++ (g.ids ++ subs.flatten)) ∧
      g'.blocks = g.blocks ∧ (∀ sub, sub ∈ done' → sub.length = C) ∧
      BulkShape C keys.length c.num_overflow_ids_ done'.length c'.num_overflow_ids_ := by
  have hkin : ∀ idx, idx < keys.length → kid keys past idx < m.store_.length :=
    fun idx hi => lt_of_liveB (hl _ (kid_mem keys past idx hi))
  have hkinj := kid_inj keys past hnd
  have hdl := openChain_lengths hinv.chain
  have hdb := bulkInv_done_length hinv
  have hFnd : (g.ids ++ subs.flatten).Nodup := (List.nodup_append.1 h.nodup).1
  have hdisj : ∀ x, x ∈ keys.map Key.id → x ∉ g.ids ++ subs.flatten :=
    fun x hx hf => not_free_of_live h x (hl x hx) (List.mem_append_left _ hf)
  obtain ⟨hprim, hcount, hle, hseg, hovlen, hovlt⟩ := h.rep
  rcases hexit with hb | ⟨hb, hr, hrC⟩
  · -- every key was in a full chunk
    have hrem : st.num_remaining = C := hinv.rem (by omega) hb
    have hflat : done.flatten = keys.map Key.id := by
      rw [hinv.flat, hb, map_kid_range]
    have hids : done.flatten ++ [] = keys.map Key.id := by rw [List.append_nil, hflat]
    obtain ⟨hS, hout, _⟩ := bulkStore_of_inv h keys past st done hinv [] st.store hl hnd hids
      rfl (fun _ _ => rfl) (fun x hx => by cases hx)
    refine ⟨st, c, g, done, ?_, hS,
      fun j hj => hout j (fun a => hdisj j a (List.mem_append_right _ hj)), hinv.chain,
      cacheRep_frame (fun j hj => hout j (fun a => hdisj j a (List.mem_append_left _ hj))) h.rep,
      ?_, rfl, hdl, ?_⟩
    · simp [bulkRemainder, hrem]
    · rw [List.perm_iff_count]
      intro a
      simp only [List.flatten_append, List.count_append, hflat]
      omega
    · have hdm := div_mod_of_eq (show keys.length = done.length * C + 0 by omega) hC
      exact Or.inl ⟨hdm.1, hdm.2.symm, rfl⟩
  · obtain ⟨n, hn⟩ : ∃ n, keys.length - st.base_idx = n + 1 :=
      ⟨keys.length - st.base_idx - 1, by omega⟩
    have hn1 : keys.length - 1 - st.base_idx = n := by omega
    have hn2 : keys.length - 1 = st.base_idx + n := by omega
    have hrn : st.num_remaining = n + 1 := by omega
    obtain ⟨store1, store2, h1, h2, h3, h4, h5, h6⟩ :=
      linkSub_spec keys past n n st.base_idx c.overflow_head_ st.store (Or.inr rfl)
        (fun idx a b => by rw [hinv.len]; exact hkin idx (by omega))
        (fun i j a b c' d e => hkinj i j (by omega) (by omega) e)
    have h1' : linkRange keys past (keys.length - 1 - st.base_idx) st.base_idx st.store =
        some store1 := by rw [hn1]; exact h1
    have h2' : bumpFree store1 (keyAt keys past (keys.length - 1)).id c.overflow_head_ =
        some store2 := by rw [hn2]; exact h2
    obtain ⟨rem, hremdef⟩ : ∃ rem, rem = (List.range' st.base_idx (n + 1)).map (kid keys past) :=
      ⟨_, rfl⟩
    rw [← hremdef] at h4 h5 h6
    have hremlen : rem.length = n + 1 := by rw [hremdef]; simp
    have hids : done.flatten ++ rem = keys.map Key.id := by
      rw [hinv.flat, hremdef, ← List.map_append, range_append_range', ← map_kid_range keys past]
      congr 2
      omega
    obtain ⟨hS, hout, hdone⟩ :=
      bulkStore_of_inv h keys past st done hinv rem store2 hl hnd hids h3 h4 h6
    have hdoneids : ∀ x, x ∈ done.flatten → x ∈ keys.map Key.id := by
      intro x hx; rw [← hids]; exact List.mem_append_left _ hx
    have hseg2 : Seg store2 c.overflow_head_ g.overflow :=
      seg_frame (fun j hj => hout j (fun a =>
        hdisj j a (List.mem_append_left _ (List.mem_append_right _ hj)))) hseg
    have hopen2 : OpenChain C store2 (kid keys past 0) st.global_tail_node done :=
      openChain_frame hdone hinv.chain
    have hne : st.num_remaining ≠ C := by omega
    have hdm := div_mod_of_eq (show keys.length = done.length * C + (n + 1) by omega)
      (by omega)
    by_cases hfit : c.num_overflow_ids_ < C - st.num_remaining
    · -- the final chunk joins the overflow sublist
      refine ⟨⟨store2, st.base_idx, st.num_remaining, st.global_tail_node⟩,
        ⟨c.free_head_, c.num_free_ids_, kid keys past st.base_idx,
          c.num_overflow_ids_ + st.num_remaining⟩,
        ⟨g.blocks, rem ++ g.overflow⟩, done, ?_, hS,
        fun j hj => hout j (fun a => hdisj j a (List.mem_append_right _ hj)), hopen2, ?_, ?_,
        rfl, hdl, Or.inr (Or.inl ⟨by omega, by omega, hdm.2.symm, by simp only; omega⟩)⟩
      · unfold bulkRemainder
        rw [if_pos hne]
        simp only [h1', h2', if_pos hfit]
        rfl
      · refine ⟨primSeg_frame (fun j hj => hout j (fun a =>
          hdisj j a (List.mem_append_left _ (List.mem_append_left _ hj)))) hprim, hcount, hle,
          segTo_append_seg h5 hseg2, ?_, ?_⟩
        · simp only [List.length_append, hremlen, hovlen]; omega
        · simp only; omega
      · rw [List.perm_iff_count]
        intro a
        have e1 := congrArg (List.count a) hids
        simp only [CacheGhost.ids, List.flatten_append, List.count_append] at e1 ⊢
        omega
    · -- the final chunk and the front of the overflow sublist make a full sublist
      obtain ⟨nfo, hnfodef⟩ : ∃ nfo, nfo = C - st.num_remaining := ⟨_, rfl⟩
      have hnfo : 1 ≤ nfo ∧ nfo ≤ g.overflow.length ∧ nfo + (n + 1) = C := by omega
      obtain ⟨p, hto, hdrop⟩ := seg_split hseg2 nfo
      have htlen : (g.overflow.take nfo).length = nfo := by
        rw [List.length_take]; omega
      obtain ⟨A', z, hAz⟩ : ∃ A' z, g.overflow.take nfo = A' ++ [z] := by
        have hne' : g.overflow.take nfo ≠ [] := by
          intro e; rw [e] at htlen; simp at htlen; omega
        exact ⟨_, _, (List.dropLast_append_getLast hne').symm⟩
      have hA'len : A'.length + 1 = nfo := by rw [← htlen, hAz]; simp
      rw [hAz] at hto
      have hwalk : walkOverflow store2 nfo noIdx c.overflow_head_ = some (z, p) := by
        rw [← hA'len]; exact walkOverflow_segTo hto noIdx
      have hzov : z ∈ g.overflow := List.mem_of_mem_take (by rw [hAz]; simp)
      have hzF : z ∈ g.ids ++ subs.flatten :=
        List.mem_append_left _ (List.mem_append_right _ hzov)
      have hz_ids : z ∉ keys.map Key.id := fun a => hdisj z a hzF
      have hsegto : SegTo store2 p (kid keys past st.base_idx) ((rem ++ A') ++ [z]) := by
        rw [List.append_assoc]; exact segTo_append h5 hto
      have hndIF := nodup_ids_free h _ hl hnd
      have hsub_take : (g.overflow.take nfo).Sublist (g.ids ++ subs.flatten) :=
        (List.take_sublist _ _).trans
          ((List.sublist_append_right _ _).trans (List.sublist_append_left _ _))
      have hnd_new : (keys.map Key.id ++ g.overflow.take nfo).Nodup :=
        hndIF.sublist (List.Sublist.append (List.Sublist.refl _) hsub_take)
      have hnd_sub : ((rem ++ A') ++ [z]).Nodup := by
        rw [List.append_assoc, ← hAz]
        refine hnd_new.sublist (List.Sublist.append ?_ (List.Sublist.refl _))
        rw [← hids]; exact List.sublist_append_right _ _
      obtain ⟨gz, hz, hall⟩ := segTo_set_last hsegto hnd_sub
      obtain ⟨store3, hs3⟩ : ∃ store3, store3 = store2.set z ⟨gz, .freeNode ⟨noIdx, 1⟩⟩ :=
        ⟨_, rfl⟩
      have hset : setSubNext store2 z noIdx = some store3 := by
        simp [setSubNext, hz, hs3]
      have hzlt := lt_of_getElem?_some hz
      have h3len : store3.length = store2.length := by rw [hs3]; simp
      have h3ne : ∀ j, j ≠ z → store3[j]? = store2[j]? := fun j hj => by
        rw [hs3]; exact List.getElem?_set_ne (Ne.symm hj)
      have h3same : ∀ j, liveB store3 j = liveB store2 j ∧ genAt store3 j = genAt store2 j := by
        intro j
        by_cases hj : j = z
        · subst hj; simp [liveB, genAt, hs3, List.getElem?_set_self hzlt, hz]
        · simp only [liveB, genAt, h3ne j hj, and_self]
      have hseg3 : Seg store3 (kid keys past st.base_idx) (rem ++ g.overflow.take nfo) := by
        rw [hAz, ← List.append_assoc, hs3]; exact segTo_seg (hall noIdx)
      have hsublen : (rem ++ g.overflow.take nfo).length = C := by
        rw [List.length_append, htlen, hremlen]; omega
      have hopen3 : OpenChain C store3 (kid keys past 0) st.global_tail_node done :=
        openChain_frame (fun i hi => h3ne i (fun e => hz_ids (e ▸ hdoneids i hi))) hopen2
      have hflat' : (done ++ [rem ++ g.overflow.take nfo]).flatten =
          keys.map Key.id ++ g.overflow.take nfo := by
        rw [← hids]; simp
      have hnd' : (done ++ [rem ++ g.overflow.take nfo]).flatten.Nodup := by
        rw [hflat']; exact hnd_new
      obtain ⟨store4, g1, g2, g3, g4, g5, g6⟩ :=
        openChain_snoc hC hopen3 hseg3 hsublen (bulkInv_first hinv) hnd'
      have hovnd : (g.overflow.take nfo ++ g.overflow.drop nfo).Nodup := by
        rw [List.take_append_drop]
        exact (List.nodup_append.1 (List.nodup_append.1 hFnd).1).2.1
      have hzdrop : z ∉ g.overflow.drop nfo := fun a =>
        (List.nodup_append.1 hovnd).2.2 (by rw [hAz]; simp) a
      have hagree4 : ∀ j, j ∉ keys.map Key.id → j ≠ z → store4[j]? = store2[j]? := by
        intro j a b
        rw [g3 j (fun hd => a (hdoneids j hd)), h3ne j b]
      have hpl : (done ++ [rem ++ g.overflow.take nfo]).length = keys.length / C + 1 := by
        simp only [List.length_append, List.length_singleton]
        omega
      refine ⟨⟨store4, st.base_idx, st.num_remaining, some (kid keys past st.base_idx)⟩,
        ⟨c.free_head_, c.num_free_ids_, p, c.num_overflow_ids_ - nfo⟩,
        ⟨g.blocks, g.overflow.drop nfo⟩, done ++ [rem ++ g.overflow.take nfo], ?_, ?_, ?_, g5,
        ?_, ?_, rfl, ?_, Or.inr (Or.inr ⟨by omega, by omega, hpl, by simp only; omega⟩)⟩
      · unfold bulkRemainder
        rw [if_pos hne]
        have hnz : ¬ (C - st.num_remaining = 0) := by omega
        rw [hnfodef] at hwalk
        simp only [kid] at g1
        simp only [h1', h2', if_neg hfit, if_neg hnz, hwalk, hset, g1]
        rw [hnfodef]
        rfl
      · exact bulkStore_mono
          (bulkStore_mono hS h3len (fun j _ b => h3ne j (fun e => b (e ▸ hzF))) h3same) g2
          (fun j a _ => g3 j (fun hd => a (hdoneids j hd))) g4
      · intro j hj
        have hjF : j ∈ g.ids ++ subs.flatten := List.mem_append_right _ hj
        have hjz : j ≠ z := by
          intro e
          exact (List.nodup_append.1 hFnd).2.2
            (List.mem_append_right _ hzov) (e ▸ hj)
        show store4[j]? = m.store_[j]?
        rw [hagree4 j (fun a => hdisj j a hjF) hjz, hout j (fun a => hdisj j a hjF)]
      · refine ⟨primSeg_frame (fun j hj => ?_) hprim, hcount, hle,
          seg_frame (fun j hj => ?_) hdrop, ?_, ?_⟩
        · have hjF : j ∈ g.ids ++ subs.flatten :=
            List.mem_append_left _ (List.mem_append_left _ hj)
          have hjz : j ≠ z := by
            intro e
            exact (List.nodup_append.1 (List.nodup_append.1 hFnd).1).2.2 hj (e ▸ hzov)
          show store4[j]? = m.store_[j]?
          rw [hagree4 j (fun a => hdisj j a hjF) hjz, hout j (fun a => hdisj j a hjF)]
        · have hjov : j ∈ g.overflow := List.mem_of_mem_drop hj
          have hjF : j ∈ g.ids ++ subs.flatten :=
            List.mem_append_left _ (List.mem_append_right _ hjov)
          exact hagree4 j (fun a => hdisj j a hjF) (fun e => hzdrop (e ▸ hj))
        · simp only [List.length_drop, hovlen]
        · simp only; omega
      · rw [List.perm_iff_count]
        intro a
        have e1 := congrArg (List.count a) hids
        have e2 := congrArg (List.count a) (List.take_append_drop nfo g.overflow)
        simp only [CacheGhost.ids, List.flatten_append, List.flatten_cons, List.flatten_nil,
          List.count_append, List.append_nil] at e1 e2 ⊢
        omega
      · intro sub hs
        rcases List.mem_append.1 hs with hs | hs
        · exact hdl sub hs
        · rw [List.mem_singleton.1 hs]; exact hsublen

/-- `bulkRelease` of distinct live ids in a state satisfying the invariant:
it returns, and its result satisfies the guarantees of `ReleasePost`, every
released id having its generation bumped once or twice. -/
theorem bulkRelease_linv (C : Nat) (hC : 0 < C) (m : IDMap V) (c : Cache) (g : CacheGhost)
    (subs : List (List Nat)) (O : List Nat) (keys : List Key) (past : Key)
    (h : LInv C m c g subs O)
    (hl : ∀ i, i ∈ keys.map Key.id → liveB m.store_ i = true)
    (hnd : (keys.map Key.id).Nodup) :
    ∃ m' c' g' subs' bumps, bulkRelease C m c keys past = some (m', c') ∧
      (∀ i, bumps i = 1 ∨ bumps i = 2) ∧
      ReleasePost C m g subs O (keys.map Key.id) bumps m' c' g' subs' := by
  by_cases hk : keys.length = 0
  · have hkeys : keys = [] := List.length_eq_zero.1 hk
    subst hkeys
    have hS : BulkStore m.store_ [] (g.ids ++ subs.flatten) m.store_ :=
      ⟨rfl, fun _ _ _ => rfl, fun j hj => ⟨(free_lt h j hj).2, rfl⟩, fun i hi => by cases hi⟩
    obtain ⟨bumps, hb, hpost⟩ := releasePost_of_bulkStore h [] m.store_ m.free_head_
      (fun i hi => by cases hi) List.nodup_nil hS h.rep h.chain (by simp)
    exact ⟨m, c, g, subs, bumps, by simp [bulkRelease], hb, hpost⟩
  · have hkin : ∀ idx, idx < keys.length → kid keys past idx < m.store_.length :=
      fun idx hi => lt_of_liveB (hl _ (kid_mem keys past idx hi))
    have hinv0 : BulkInv C keys past m.store_ ⟨m.store_, 0, 0, none⟩ [] :=
      ⟨rfl, Nat.zero_le _, fun h0 => by simp at h0, fun _ _ => rfl, by simp,
        fun x hx => by simp at hx, Or.inl ⟨rfl, rfl⟩⟩
    obtain ⟨st, done, hloop, hinv, hexit⟩ :=
      chunkLoop_spec C hC keys past m.store_ hkin (kid_inj keys past hnd) (keys.length + 1)
        ⟨m.store_, 0, 0, none⟩ [] hinv0 (by simp only; omega)
    obtain ⟨st', c', g', done', hrem, hS, hsubs, hopen, hrep, hperm, _, _, _⟩ :=
      bulkRemainder_spec C hC m c g subs O keys past h (by omega) hl hnd st done hinv hexit
    obtain ⟨m', bumps, hm, hb, hpost⟩ :=
      bulk_finish h (keys.map Key.id) hl hnd st'.store hS hsubs (kid keys past 0)
        st'.global_tail_node done' hopen hrep hperm
    refine ⟨m', c', g', done' ++ subs, bumps, ?_, hb, hpost⟩
    unfold bulkRelease
    rw [if_neg hk]
    simp only [hloop, hrem]
    rcases hm with ⟨ht, rfl⟩ | ⟨t, store', ht, hset, rfl⟩
    · simp only [ht]
    · simp only [ht, hset]
      rfl

theorem flatMap_perm_eraseIdx (f : CacheGhost → List Nat) :
    ∀ (gh : List CacheGhost) (ci : Nat) (g : CacheGhost), gh[ci]? = some g →
      (gh.flatMap f).Perm (f g ++ (gh.eraseIdx ci).flatMap f) := by
  intro gh
  induction gh with
  | nil => intro ci g hg; simp at hg
  | cons a t ih =>
    intro ci g hg
    cases ci with
    | zero =>
      simp only [List.getElem?_cons_zero, Option.some.injEq] at hg
      subst hg
      simp
    | succ ci =>
      simp only [List.getElem?_cons_succ] at hg
      have := ih ci g hg
      simp only [List.flatMap_cons, List.eraseIdx_cons_succ]
      exact (List.Perm.append_left (f a) this).trans (List.perm_append_comm_assoc _ _ _)

theorem eraseIdx_set_self {α : Type} (l : List α) (i : Nat) (a : α) :
    (l.set i a).eraseIdx i = l.eraseIdx i := by
  induction l generalizing i with
  | nil => simp
  | cons x t ih =>
    cases i with
    | zero => simp
    | succ i => simp [ih]

theorem mem_eraseIdx_of_getElem? {α : Type} (l : List α) (i j : Nat) (a : α)
    (h : l[j]? = some a) (hne : j ≠ i) : a ∈ l.eraseIdx i := by
  induction l generalizing i j with
  | nil => simp at h
  | cons x t ih =>
    cases i with
    | zero =>
      cases j with
      | zero => exact absurd rfl hne
      | succ j =>
        simp only [List.getElem?_cons_succ] at h
        simpa using List.mem_iff_getElem?.2 ⟨j, h⟩
    | succ i =>
      cases j with
      | zero =>
        simp only [List.getElem?_cons_zero, Option.some.injEq] at h
        subst h
        simp
      | succ j =>
        simp only [List.getElem?_cons_succ] at h
        simp only [List.eraseIdx_cons_succ]
        exact List.mem_cons_of_mem _ (ih i j h (fun e => hne (by rw [e])))

theorem freeIds_perm (gh : List CacheGhost) (subs : List (List Nat)) (ci : Nat)
    (g : CacheGhost) (hg : gh[ci]? = some g) :
    (freeIds gh subs).Perm
      (g.ids ++ subs.flatten ++ (gh.eraseIdx ci).flatMap CacheGhost.ids) := by
  unfold freeIds
  have := flatMap_perm_eraseIdx CacheGhost.ids gh ci g hg
  refine (List.Perm.append_right _ this).trans ?_
  rw [List.append_assoc, List.append_assoc]
  exact List.Perm.append_left _ List.perm_append_comm

theorem inv_freeSlot {C : Nat} {s : Sys V} {gh : List CacheGhost} {subs : List (List Nat)}
    (h : Inv C s gh subs) : ∀ i, i ∈ freeIds gh subs → FreeSlot s.map.store_ i := by
  intro i hi
  rcases List.mem_append.1 hi with hc | hs
  · obtain ⟨g, hg, hig⟩ := List.mem_flatMap.1 hc
    obtain ⟨j, hj⟩ := List.mem_iff_getElem?.1 hg
    have hjlt : j < s.caches.length := by
      rw [h.caches_len]; exact lt_of_getElem?_some hj
    exact cacheRep_freeSlot (h.caches j _ g (List.getElem?_eq_getElem hjlt) hj) i hig
  · exact chain_freeSlot h.chain i hs

/-- The invariant of the whole system, seen from the cache with index `ci`. -/
theorem linv_of_inv {C : Nat} {s : Sys V} {gh : List CacheGhost} {subs : List (List Nat)}
    (h : Inv C s gh subs) (ci : Nat) (c : Cache) (g : CacheGhost)
    (hc : s.caches[ci]? = some c) (hg : gh[ci]? = some g) :
    LInv C s.map c g subs ((gh.eraseIdx ci).flatMap CacheGhost.ids) := by
  have hp := freeIds_perm gh subs ci g hg
  refine ⟨h.size, h.caches ci c g hc hg, h.chain, (List.Perm.nodup_iff hp).1 h.nodup, ?_, ?_⟩
  · intro i hi
    exact inv_freeSlot h i (hp.mem_iff.2 (List.mem_append_right _ hi))
  · intro i hi
    rcases h.cover i hi with hl | hf
    · exact Or.inl hl
    · exact Or.inr (hp.mem_iff.1 hf)

/-- The invariant of the whole system after a call through the cache with
index `ci` that kept the invariant seen from that cache and wrote nothing the
other caches hold. -/
theorem inv_of_linv {C : Nat} {s : Sys V} {gh : List CacheGhost} {subs : List (List Nat)}
    (h : Inv C s gh subs) (ci : Nat) (c : Cache) (g : CacheGhost)
    (hc : s.caches[ci]? = some c) (hg : gh[ci]? = some g)
    {m' : IDMap V} {c' : Cache} {g' : CacheGhost} {subs' : List (List Nat)}
    (hl : LInv C m' c' g' subs' ((gh.eraseIdx ci).flatMap CacheGhost.ids))
    (hframe : ∀ i, i ∈ (gh.eraseIdx ci).flatMap CacheGhost.ids →
      m'.store_[i]? = s.map.store_[i]?) :
    Inv C ⟨m', s.caches.set ci c'⟩ (gh.set ci g') subs' := by
  have hcilt : ci < gh.length := lt_of_getElem?_some hg
  have hg' : (gh.set ci g')[ci]? = some g' := List.getElem?_set_self hcilt
  have hp := freeIds_perm (gh.set ci g') subs' ci g' hg'
  rw [eraseIdx_set_self] at hp
  refine ⟨hl.size, by simp [h.caches_len], ?_, hl.chain, (List.Perm.nodup_iff hp).2 hl.nodup, ?_⟩
  · intro j cj gj hcj hgj
    by_cases hj : j = ci
    · subst hj
      have hjlt : j < s.caches.length := lt_of_getElem?_some hc
      simp only [List.getElem?_set_self hjlt, Option.some.injEq] at hcj
      rw [hg'] at hgj
      cases hgj; subst hcj
      exact hl.rep
    · simp only [List.getElem?_set_ne (Ne.symm hj)] at hcj
      rw [List.getElem?_set_ne (Ne.symm hj)] at hgj
      refine cacheRep_frame (fun i hi => hframe i ?_) (h.caches j cj gj hcj hgj)
      exact List.mem_flatMap.2 ⟨gj, mem_eraseIdx_of_getElem? gh ci j gj hgj hj, hi⟩
  · intro i hi
    rcases hl.cover i hi with hlv | hf
    · exact Or.inl hlv
    · exact Or.inr (hp.mem_iff.2 hf)

/-- Live and free indices together are the whole store. -/
theorem liveCount_add_free {C : Nat} {s : Sys V} {gh : List CacheGhost}
    {subs : List (List Nat)} (h : Inv C s gh subs) :
    liveCount s.map.store_ + (freeIds gh subs).length = s.map.store_.length := by
  have hperm : ((List.range s.map.store_.length).filter
      (fun i => !liveB s.map.store_ i)).Perm (freeIds gh subs) := by
    rw [List.perm_ext_iff_of_nodup ((List.nodup_range _).filter _) h.nodup]
    intro i
    simp only [List.mem_filter, List.mem_range, Bool.not_eq_eq_eq_not, Bool.not_true]
    constructor
    · rintro ⟨hi, hl⟩
      rcases h.cover i hi with hlv | hf
      · rw [hl] at hlv; cases hlv
      · exact hf
    · intro hf
      exact inv_freeSlot h i hf
  have h1 := List.length_eq_countP_add_countP (liveB s.map.store_)
    (List.range s.map.store_.length)
  have h2 : List.countP (fun a => decide ¬liveB s.map.store_ a = true)
      (List.range s.map.store_.length) = (freeIds gh subs).length := by
    rw [← hperm.length_eq, List.countP_eq_length_filter]
    congr 2
    funext i
    cases liveB s.map.store_ i <;> simp
  rw [h2] at h1
  simp only [List.length_range] at h1
  unfold liveCount
  omega

theorem freeIds_length (gh : List CacheGhost) (subs : List (List Nat)) (ci : Nat)
    (g : CacheGhost) (hg : gh[ci]? = some g) :
    (freeIds gh subs).length =
      (g.ids ++ subs.flatten).length + ((gh.eraseIdx ci).flatMap CacheGhost.ids).length := by
  rw [(freeIds_perm gh subs ci g hg).length_eq, List.length_append]

theorem held_live {store : List (Node V)} {k : Key} (h : held store k = true) :
    liveB store k.id = true := by
  unfold held at h
  simp only [Bool.and_eq_true] at h
  exact h.1

/-- One valid call keeps the invariant and changes the number of live
indices by the number of ids it acquires or releases. -/
theorem step_inv (C : Nat) (hC : 2 ≤ C) (s : Sys V) (gh : List CacheGhost)
    (subs : List (List Nat)) (h : Inv C s gh subs) (op : Op V)
    (hv : validOp C s op = true) :
    ∃ s' ks gh' subs', Sys.step C s op = some (s', ks) ∧ Inv C s' gh' subs' ∧
      liveCount s'.map.store_ + released [op] = liveCount s.map.store_ + acquires [op] ∧
      s'.caches.length = s.caches.length := by
  have hcount := liveCount_add_free h
  cases op with
  | acquire ci v junk =>
    simp only [validOp, Bool.and_eq_true, decide_eq_true_eq] at hv
    obtain ⟨hci, hroom⟩ := hv
    have hc : s.caches[ci]? = some s.caches[ci] := List.getElem?_eq_getElem hci
    have hci' : ci < gh.length := by rw [← h.caches_len]; exact hci
    have hg : gh[ci]? = some gh[ci] := List.getElem?_eq_getElem hci'
    obtain ⟨k, m', c', g', subs', hacq, hpost⟩ :=
      acquireID_linv C hC s.map _ _ subs _ v junk (linv_of_inv h ci _ _ hc hg) hroom
    have hinv' := inv_of_linv h ci _ _ hc hg hpost.linv hpost.frame
    have hcount' := liveCount_add_free hinv'
    have hci2 : ci < (gh.set ci g').length := by simpa using hci'
    have hl1 := freeIds_length gh subs ci _ hg
    have hl2 := freeIds_length (gh.set ci g') subs' ci g' (List.getElem?_set_self hci')
    rw [eraseIdx_set_self] at hl2
    have hcnt := hpost.count
    refine ⟨_, [k], _, _, ?_, hinv', ?_, by simp⟩
    · simp only [Sys.step, hc, hacq]
    · simp only [released, acquires] at hcount' ⊢
      omega
  | release ci id =>
    simp only [validOp, Bool.and_eq_true, decide_eq_true_eq] at hv
    obtain ⟨hci, hlive⟩ := hv
    have hc : s.caches[ci]? = some s.caches[ci] := List.getElem?_eq_getElem hci
    have hci' : ci < gh.length := by rw [← h.caches_len]; exact hci
    have hg : gh[ci]? = some gh[ci] := List.getElem?_eq_getElem hci'
    obtain ⟨m', c', g', subs', hrel, hpost⟩ :=
      releaseID_linv C s.map _ _ subs _ id (linv_of_inv h ci _ _ hc hg) hlive
    have hinv' := inv_of_linv h ci _ _ hc hg hpost.linv hpost.frame
    have hcount' := liveCount_add_free hinv'
    have hl1 := freeIds_length gh subs ci _ hg
    have hl2 := freeIds_length (gh.set ci g') subs' ci g' (List.getElem?_set_self hci')
    rw [eraseIdx_set_self] at hl2
    have hcnt := hpost.count
    have hlen := hpost.len
    refine ⟨_, [], _, _, ?_, hinv', ?_, by simp⟩
    · simp only [Sys.step, hc, hrel]
    · simp only [released, acquires, List.length_singleton] at hcount' hcnt ⊢
      omega
  | bulk ci keys past =>
    simp only [validOp, Bool.and_eq_true, decide_eq_true_eq, List.all_eq_true] at hv
    obtain ⟨⟨⟨hci, hheld⟩, hnd⟩, _⟩ := hv
    have hc : s.caches[ci]? = some s.caches[ci] := List.getElem?_eq_getElem hci
    have hci' : ci < gh.length := by rw [← h.caches_len]; exact hci
    have hg : gh[ci]? = some gh[ci] := List.getElem?_eq_getElem hci'
    have hlive : ∀ i, i ∈ keys.map Key.id → liveB s.map.store_ i = true := by
      intro i hi
      obtain ⟨k, hk, rfl⟩ := List.mem_map.1 hi
      exact held_live (hheld k hk)
    obtain ⟨m', c', g', subs', bumps, hrel, _, hpost⟩ :=
      bulkRelease_linv C (by omega) s.map _ _ subs _ keys past
        (linv_of_inv h ci _ _ hc hg) hlive hnd
    have hinv' := inv_of_linv h ci _ _ hc hg hpost.linv hpost.frame
    have hcount' := liveCount_add_free hinv'
    have hl1 := freeIds_length gh subs ci _ hg
    have hl2 := freeIds_length (gh.set ci g') subs' ci g' (List.getElem?_set_self hci')
    rw [eraseIdx_set_self] at hl2
    have hcnt := hpost.count
    have hlen := hpost.len
    refine ⟨_, [], _, _, ?_, hinv', ?_, by simp⟩
    · simp only [Sys.step, hc, hrel]
    · simp only [released, acquires, List.length_map] at hcount' hcnt ⊢
      omega

theorem released_cons (op : Op V) (rest : List (Op V)) :
    released (op :: rest) = released [op] + released rest := by
  cases op <;> simp [released, Nat.add_comm]

theorem acquires_cons (op : Op V) (rest : List (Op V)) :
    acquires (op :: rest) = acquires [op] + acquires rest := by
  cases op <;> simp [acquires, Nat.add_comm]

/-- A sequence of valid calls returns, keeps the invariant, and leaves as
many live indices as it acquired and did not release. -/
theorem run_inv (C : Nat) (hC : 2 ≤ C) :
    ∀ (ops : List (Op V)) (s : Sys V) (gh : List CacheGhost) (subs : List (List Nat)),
      Inv C s gh subs → validRun C s ops = true →
      ∃ s' ks gh' subs', Sys.run C s ops = some (s', ks) ∧ Inv C s' gh' subs' ∧
        liveCount s'.map.store_ + released ops = liveCount s.map.store_ + acquires ops ∧
        s'.caches.length = s.caches.length := by
  intro ops
  induction ops with
  | nil =>
    intro s gh subs h _
    exact ⟨s, [], gh, subs, rfl, h, by simp [released, acquires], rfl⟩
  | cons op rest ih =>
    intro s gh subs h hv
    simp only [validRun, Bool.and_eq_true] at hv
    obtain ⟨hv1, hv2⟩ := hv
    obtain ⟨s1, ks1, gh1, subs1, hstep, hinv1, hc1, hl1⟩ := step_inv C hC s gh subs h op hv1
    simp only [hstep] at hv2
    obtain ⟨s2, ks2, gh2, subs2, hrun, hinv2, hc2, hl2⟩ := ih s1 gh1 subs1 hinv1 hv2
    refine ⟨s2, ks1 ++ ks2, gh2, subs2, ?_, hinv2, ?_, by rw [hl2, hl1]⟩
    · simp only [Sys.run, hstep, hrun]
    · rw [released_cons, acquires_cons]
      omega

theorem initStore_getElem? (C cap i : Nat) (hi : i < cap) :
    ((List.range cap).map (initNode C cap) : List (Node V))[i]? = some (initNode C cap i) := by
  simp [List.getElem?_range hi]

theorem add_mod_of_base {C b t : Nat} (hb : b % C = 0) (ht : t < C) : (b + t) % C = t := by
  rw [Nat.add_mod, hb, Nat.zero_add, Nat.mod_mod, Nat.mod_eq_of_lt ht]

/-- The nodes after the first of a chunk, as the constructor links them. -/
theorem seg_init (C cap b : Nat) (hb : b % C = 0) (hle : b + C ≤ cap) :
    ∀ k t, t + k = C → 1 ≤ t →
      Seg ((List.range cap).map (initNode C cap) : List (Node V))
        (if k = 0 then noIdx else b + t) (List.range' (b + t) k) := by
  intro k
  induction k with
  | zero => intro t _ _; rfl
  | succ k ih =>
    intro t htk ht
    have htC : t < C := by omega
    have hmod := add_mod_of_base hb htC
    rw [List.range'_succ, if_neg (Nat.succ_ne_zero k)]
    refine ⟨rfl, 0, if t = C - 1 then noIdx else b + t + 1, ?_, ?_⟩
    · rw [initStore_getElem? C cap (b + t) (by omega)]
      unfold initNode
      simp only [hmod]
      by_cases hlast : t = C - 1
      · simp only [if_pos hlast]
      · have ht0 : ¬ t = 0 := by omega
        simp only [if_neg hlast, if_neg ht0]
    · by_cases hlast : t = C - 1
      · have hk : k = 0 := by omega
        subst hk
        simp only [if_pos hlast]
        rfl
      · have hk : ¬ k = 0 := by omega
        have := ih (t + 1) (by omega) (by omega)
        simp only [if_neg hk] at this
        simp only [if_neg hlast]
        exact this

/-- The global chain the constructor builds: one sublist per chunk. -/
theorem chain_init (C cap : Nat) (hC : 2 ≤ C) (hsz : cap < noIdx) :
    ∀ n b, b % C = 0 → b + n * C = cap →
      Chain C ((List.range cap).map (initNode C cap) : List (Node V))
        (if n = 0 then noIdx else b)
        ((List.range' b n C).map (fun b => List.range' b C)) := by
  intro n
  induction n with
  | zero => intro b _ _; rfl
  | succ n ih =>
    intro b hb hcap
    rw [Nat.succ_mul] at hcap
    have hnext : (if b + C < cap then b + C else noIdx) = (if n = 0 then noIdx else b + C) := by
      by_cases hn : n = 0
      · subst hn
        simp only [Nat.zero_mul, Nat.zero_add] at hcap
        rw [if_neg (by omega), if_pos rfl]
      · have : C ≤ n * C := Nat.le_mul_of_pos_left C (Nat.pos_of_ne_zero hn)
        rw [if_pos (by omega), if_neg hn]
    have hb2 : (b + C) % C = 0 := by
      simp [Nat.add_mod, hb]
    rw [if_neg (Nat.succ_ne_zero n), List.range'_succ, List.map_cons]
    have hsub : List.range' b C = b :: List.range' (b + 1) (C - 1) := by
      obtain ⟨c, rfl⟩ : ∃ c, C = c + 1 := ⟨C - 1, by omega⟩
      rw [List.range'_succ]; rfl
    refine ⟨by omega, by simp, 0, b + 1, if n = 0 then noIdx else b + C,
      List.range' (b + 1) (C - 1), hsub, ?_, ?_, ?_⟩
    · rw [initStore_getElem? C cap b (by omega)]
      unfold initNode
      have h0 : ¬ (0 = C - 1) := by omega
      simp only [hb, if_neg h0, Nat.sub_zero, if_true, hnext]
    · have := @seg_init V C cap b hb (by omega) (C - 1) 1 (by omega) le_rfl
      rw [if_neg (by omega)] at this
      exact this
    · exact ih (b + C) hb2 (by omega)

theorem flatten_chunks (C : Nat) : ∀ n b,
    ((List.range' b n C).map (fun b => List.range' b C)).flatten = List.range' b (n * C) := by
  intro n
  induction n with
  | zero => intro b; simp
  | succ n ih =>
    intro b
    rw [List.range'_succ, List.map_cons, List.flatten_cons, ih, Nat.succ_mul]
    simp

theorem flatMap_replicate_nil (n : Nat) :
    (List.replicate n (⟨[], []⟩ : CacheGhost)).flatMap CacheGhost.ids = [] := by
  induction n with
  | zero => rfl
  | succ n ih => simp [List.replicate_succ, CacheGhost.ids, blockIds, ih]

/-- The constructor establishes the invariant, with no live index. -/
theorem new_inv (C cap n : Nat) (hC : 2 ≤ C) (hcap : cap % C = 0) (hsz : cap < noIdx) :
    ∃ s0 : Sys V, Sys.new C cap n = some s0 ∧ s0.caches.length = n ∧
      s0.map.store_.length = cap ∧ liveCount s0.map.store_ = 0 ∧
      ∃ subs, Inv C s0 (List.replicate n ⟨[], []⟩) subs := by
  have hC0 : ¬ C = 0 := by omega
  have hdiv : cap / C * C = cap := Nat.div_mul_cancel (Nat.dvd_of_mod_eq_zero hcap)
  have hhead : (if cap > 0 then 0 else noIdx) = (if cap / C = 0 then noIdx else 0) := by
    by_cases h0 : cap = 0
    · subst h0; simp
    · have : cap / C ≠ 0 := by
        intro e; rw [e] at hdiv; omega
      rw [if_pos (by omega), if_neg this]
  have hflat : ((List.range' 0 (cap / C) C).map (fun b => List.range' b C)).flatten =
      List.range cap := by
    rw [flatten_chunks, hdiv, List.range_eq_range']
  refine ⟨⟨⟨⟨0, if cap > 0 then 0 else noIdx⟩, (List.range cap).map (initNode C cap)⟩,
    List.replicate n Cache.new⟩, ?_, by simp, by simp, ?_,
    (List.range' 0 (cap / C) C).map (fun b => List.range' b C), ?_⟩
  · simp [Sys.new, IDMap.new, hC0, hcap]
  · unfold liveCount
    rw [List.countP_eq_zero]
    intro i hi
    have hi' : i < cap := by simpa using hi
    simp only [liveB, initStore_getElem? C cap i hi', initNode]
    split_ifs <;> simp
  · refine ⟨by simpa using hsz, by simp, ?_, ?_, ?_, ?_⟩
    · intro i c g hc hg
      have hc' : c = Cache.new := by
        have := List.mem_iff_getElem?.2 ⟨i, hc⟩
        exact List.eq_of_mem_replicate this
      have hg' : g = ⟨[], []⟩ := by
        have := List.mem_iff_getElem?.2 ⟨i, hg⟩
        exact List.eq_of_mem_replicate this
      subst hc'; subst hg'
      exact ⟨rfl, rfl, Nat.zero_le _, rfl, rfl, by simp only [Cache.new]; omega⟩
    · simp only [hhead]
      exact chain_init C cap hC hsz (cap / C) 0 (Nat.zero_mod C) (by omega)
    · unfold freeIds
      rw [flatMap_replicate_nil, hflat, List.nil_append]
      exact List.nodup_range cap
    · intro i hi
      right
      unfold freeIds
      rw [flatMap_replicate_nil, hflat, List.nil_append]
      simpa using hi

/-- C9: partition invariant. After the constructor (capacity a multiple of
`C`, `2 ≤ C`, any number `n` of caches) and after every sequence of valid
`acquireID`, `releaseID` and `bulkRelease` calls made one after the other
through these caches, the calls all return and the representation invariant
holds: every cache holds its primary blocks and its overflow sublist, the
global chain is a list of sublists, no index occurs twice among the ids of
the caches and of the chain, an index of the store is live exactly when it
occurs in none of them, and the number of live indices plus the number of
ids released is the number of `acquireID` calls. -/
theorem partition_invariant (C cap n : Nat) (hC : 2 ≤ C) (hcap : cap % C = 0)
    (hsz : cap < noIdx) (s0 : Sys V) (ops : List (Op V))
    (h0 : Sys.new C cap n = some s0) (hv : validRun C s0 ops = true) :
    ∃ s ks gh subs, Sys.run C s0 ops = some (s, ks) ∧ Inv C s gh subs ∧
      (∀ i, i < s.map.store_.length →
        (liveB s.map.store_ i = true ↔ i ∉ freeIds gh subs)) ∧
      liveCount s.map.store_ + released ops = acquires ops := by
  obtain ⟨s0', hnew, _, _, hlive0, subs0, hinv0⟩ := @new_inv V C cap n hC hcap hsz
  rw [hnew] at h0
  have e : s0' = s0 := Option.some.inj h0
  rw [e] at hinv0 hlive0
  obtain ⟨s, ks, gh, subs, hrun, hinv, hcnt, _⟩ :=
    run_inv C hC ops s0 _ subs0 hinv0 hv
  refine ⟨s, ks, gh, subs, hrun, hinv, ?_, by omega⟩
  intro i hi
  constructor
  · intro hl hf
    have := (inv_freeSlot hinv i hf).2
    rw [hl] at this
    cases this
  · intro hnf
    rcases hinv.cover i hi with hl | hf
    · exact hl
    · exact absurd hf hnf

theorem partition_invariant_witness :
    (Sys.new 2 2 2 : Option (Sys Nat)) = some exampleSys ∧
    validRun 2 exampleSys exampleOps = true ∧
    ∃ s ks gh subs, Sys.run 2 exampleSys exampleOps = some (s, ks) ∧ Inv 2 s gh subs ∧
      (∀ i, i < s.map.store_.length →
        (liveB s.map.store_ i = true ↔ i ∉ freeIds gh subs)) ∧
      liveCount s.map.store_ + released exampleOps = acquires exampleOps :=
  ⟨by decide, by decide,
    partition_invariant 2 2 2 (by decide) (by decide) (by decide) exampleSys exampleOps
      (by decide) (by decide)⟩

theorem succ_mod_ne (x : Nat) : (x + 1) % 2 ^ 32 ≠ x := by
  omega

/-- C10: acquire/release round trip. In every state reached from the
constructor (capacity a multiple of `C`, `2 ≤ C`) by valid calls, for every
cache `c` of the system: `acquireID(c, v)` returns a key `K` (when the store
has room to expand), the following `releaseID(c, K.id)` returns, and the
generation stored at slot `K.id` is then `K.gen + 1` modulo `2^32`, which is
strictly greater than `K.gen` when `K.gen < 2^32 - 1` and never equal to
`K.gen`; the slot is no longer live, and the release leaves the generation of
every other slot unchanged. -/
theorem acquire_release_round_trip (C cap n : Nat) (hC : 2 ≤ C) (hcap : cap % C = 0)
    (hsz : cap < noIdx) (s0 : Sys V) (ops : List (Op V))
    (h0 : Sys.new C cap n = some s0) (hv : validRun C s0 ops = true) :
    ∃ s ks, Sys.run C s0 ops = some (s, ks) ∧
      ∀ (ci : Nat) (c : Cache) (v : V) (junk : Nat), s.caches[ci]? = some c →
        s.map.store_.length + C < noIdx →
        ∃ K m1 c1 m2 c2, acquireID C s.map c v junk = some (K, m1, c1) ∧
          releaseID C m1 c1 K.id = some (m2, c2) ∧
          genAt m1.store_ K.id = K.gen ∧
          genAt m2.store_ K.id = (K.gen + 1) % 2 ^ 32 ∧
          (K.gen < 2 ^ 32 - 1 → K.gen < genAt m2.store_ K.id) ∧
          genAt m2.store_ K.id ≠ K.gen ∧
          liveB m2.store_ K.id = false ∧
          (∀ j, j ≠ K.id → genAt m2.store_ j = genAt m1.store_ j) := by
  obtain ⟨s0', hnew, _, _, _, subs0, hinv0⟩ := @new_inv V C cap n hC hcap hsz
  rw [hnew] at h0
  have e : s0' = s0 := Option.some.inj h0
  rw [e] at hinv0
  obtain ⟨s, ks, gh, subs, hrun, hinv, _, _⟩ := run_inv C hC ops s0 _ subs0 hinv0 hv
  refine ⟨s, ks, hrun, ?_⟩
  intro ci c v junk hc hroom
  have hci : ci < gh.length := by rw [← hinv.caches_len]; exact lt_of_getElem?_some hc
  have hg : gh[ci]? = some gh[ci] := List.getElem?_eq_getElem hci
  obtain ⟨K, m1, c1, g1, subs1, hacq, hpost⟩ :=
    acquireID_linv C hC s.map c _ subs _ v junk (linv_of_inv hinv ci c _ hc hg) hroom
  have hlive : liveB m1.store_ K.id = true := liveB_val hpost.stored
  have hgen1 : genAt m1.store_ K.id = K.gen := by simp [genAt, hpost.stored]
  obtain ⟨m2, c2, g2, subs2, hrel, hpost2⟩ :=
    releaseID_linv C m1 c1 g1 subs1 _ K.id hpost.linv hlive
  have hgen2 : genAt m2.store_ K.id = (K.gen + 1) % 2 ^ 32 := by
    rw [hpost2.gen_bump K.id (List.mem_singleton.2 rfl), hgen1]
  refine ⟨K, m1, c1, m2, c2, hacq, hrel, hgen1, hgen2, ?_, ?_,
    hpost2.not_live K.id (List.mem_singleton.2 rfl), ?_⟩
  · intro hlt
    rw [hgen2, Nat.mod_eq_of_lt (by omega)]
    omega
  · rw [hgen2]; exact succ_mod_ne K.gen
  · intro j hj
    exact hpost2.gen_kept j (by simpa using hj)

theorem acquire_release_round_trip_witness :
    (Sys.new 2 2 2 : Option (Sys Nat)) = some exampleSys ∧
    validRun 2 exampleSys exampleOps = true ∧
    ∃ s ks, Sys.run 2 exampleSys exampleOps = some (s, ks) ∧
      ∀ (ci : Nat) (c : Cache) (v : Nat) (junk : Nat), s.caches[ci]? = some c →
        s.map.store_.length + 2 < noIdx →
        ∃ K m1 c1 m2 c2, acquireID 2 s.map c v junk = some (K, m1, c1) ∧
          releaseID 2 m1 c1 K.id = some (m2, c2) ∧
          genAt m1.store_ K.id = K.gen ∧
          genAt m2.store_ K.id = (K.gen + 1) % 2 ^ 32 ∧
          (K.gen < 2 ^ 32 - 1 → K.gen < genAt m2.store_ K.id) ∧
          genAt m2.store_ K.id ≠ K.gen ∧
          liveB m2.store_ K.id = false ∧
          (∀ j, j ≠ K.id → genAt m2.store_ j = genAt m1.store_ j) :=
  ⟨by decide, by decide,
    acquire_release_round_trip 2 2 2 (by decide) (by decide) (by decide) exampleSys exampleOps
      (by decide) (by decide)⟩

theorem run_append (C : Nat) : ∀ (A B : List (Op V)) (s s1 s2 : Sys V) (k1 k2 : List Key),
    Sys.run C s A = some (s1, k1) → Sys.run C s1 B = some (s2, k2) →
    Sys.run C s (A ++ B) = some (s2, k1 ++ k2) := by
  intro A
  induction A with
  | nil =>
    intro B s s1 s2 k1 k2 hA hB
    simp only [Sys.run, Option.some.injEq, Prod.mk.injEq] at hA
    obtain ⟨rfl, rfl⟩ := hA
    simpa using hB
  | cons op rest ih =>
    intro B s s1 s2 k1 k2 hA hB
    simp only [Sys.run] at hA
    cases hstep : Sys.step C s op with
    | none => simp [hstep] at hA
    | some r =>
      obtain ⟨s', ks⟩ := r
      simp only [hstep] at hA
      cases hrest : Sys.run C s' rest with
      | none => simp [hrest] at hA
      | some r' =>
        obtain ⟨s'', ks'⟩ := r'
        simp only [hrest, Option.some.injEq, Prod.mk.injEq] at hA
        obtain ⟨rfl, rfl⟩ := hA
        have := ih B s' s'' s2 ks' k2 hrest hB
        simp only [List.cons_append, Sys.run, hstep, List.append_eq, this, List.append_assoc]

theorem validRun_append (C : Nat) : ∀ (A B : List (Op V)) (s s1 : Sys V) (k1 : List Key),
    Sys.run C s A = some (s1, k1) → validRun C s A = true → validRun C s1 B = true →
    validRun C s (A ++ B) = true := by
  intro A
  induction A with
  | nil =>
    intro B s s1 k1 hA _ hB
    simp only [Sys.run, Option.some.injEq, Prod.mk.injEq] at hA
    obtain ⟨rfl, rfl⟩ := hA
    simpa using hB
  | cons op rest ih =>
    intro B s s1 k1 hA hvA hB
    simp only [Sys.run] at hA
    simp only [validRun, Bool.and_eq_true] at hvA
    cases hstep : Sys.step C s op with
    | none => simp [hstep] at hA
    | some r =>
      obtain ⟨s', ks⟩ := r
      simp only [hstep] at hA hvA
      cases hrest : Sys.run C s' rest with
      | none => simp [hrest] at hA
      | some r' =>
        obtain ⟨s'', ks'⟩ := r'
        simp only [hrest, Option.some.injEq, Prod.mk.injEq] at hA
        obtain ⟨rfl, rfl⟩ := hA
        have := ih B s' s'' ks' hrest hvA.2 hB
        simp only [List.cons_append, validRun, hstep, List.append_eq, this, hvA.1, Bool.and_self]

/-- One round of the scenario: both handles are held when they are released,
and the generation of slot 1 advances by two. -/
theorem bulkRound_step (n : Nat) :
    Sys.run 2 (bulkRoundState n) (bulkRound n) =
      some (bulkRoundState (n + 1), bulkRoundKeys n) ∧
    validRun 2 (bulkRoundState n) (bulkRound n) = true := by
  have e1 : (n % 4294967296 + 1) % 4294967296 = (n + 1) % 4294967296 := by omega
  have e2 : ((2 * n % 4294967296 + 1) % 4294967296 + 1) % 4294967296 =
      2 * (n + 1) % 4294967296 := by omega
  constructor
  · simp [bulkRoundState, bulkRound, bulkRoundKeys, Sys.run, Sys.step, acquireID,
      assignCachedID, Cache.new, noIdx, bulkRelease, chunkLoop, linkRange, linkToNext, keyAt,
      bumpFree, linkTail, setGlobalNext, bulkRemainder, add32, e1, e2]
    omega
  · simp [bulkRoundState, bulkRound, validRun, validOp, held, liveB, genAt, Sys.step, acquireID,
      assignCachedID, Cache.new, noIdx, bulkRelease, chunkLoop, linkRange, linkToNext, keyAt,
      bumpFree, linkTail, setGlobalNext, bulkRemainder, add32]

theorem bulkRounds_succ (start count : Nat) :
    bulkRounds start (count + 1) = bulkRound start ++ bulkRounds (start + 1) count := by
  simp [bulkRounds, List.range'_succ]

/-- The rounds `start .. start + count` of the scenario. -/
theorem bulkRounds_run : ∀ count start,
    Sys.run 2 (bulkRoundState start) (bulkRounds start count) =
      some (bulkRoundState (start + count),
        (List.range' start count).flatMap bulkRoundKeys) ∧
    validRun 2 (bulkRoundState start) (bulkRounds start count) = true := by
  intro count
  induction count with
  | zero => intro start; exact ⟨rfl, rfl⟩
  | succ count ih =>
    intro start
    obtain ⟨h1, h2⟩ := bulkRound_step start
    obtain ⟨h3, h4⟩ := ih (start + 1)
    rw [bulkRounds_succ]
    refine ⟨?_, validRun_append 2 _ _ _ _ _ h1 h2 h4⟩
    have := run_append 2 _ _ _ _ _ _ _ h1 h3
    rw [this, List.range'_succ, List.flatMap_cons]
    congr 3
    omega

theorem releasesOf_append (id : Nat) (A B : List (Op V)) :
    releasesOf id (A ++ B) = releasesOf id A + releasesOf id B := by
  induction A with
  | nil => simp [releasesOf]
  | cons op rest ih =>
    cases op <;> simp [releasesOf, ih] <;> omega

theorem releasesOf_bulkRound (id n : Nat) : releasesOf id (bulkRound n) ≤ 1 := by
  simp only [bulkRound, releasesOf, List.map_cons, List.map_nil, List.count_cons,
    List.count_nil]
  by_cases h0 : id = 0
  · subst h0; simp
  · by_cases h1 : id = 1
    · subst h1; simp
    · have e0 : (0 == id) = false := by simp; omega
      have e1 : (1 == id) = false := by simp; omega
      simp [e0, e1]

theorem releasesOf_bulkRounds (id : Nat) : ∀ count start,
    releasesOf id (bulkRounds start count) ≤ count := by
  intro count
  induction count with
  | zero => intro start; simp [bulkRounds, releasesOf]
  | succ count ih =>
    intro start
    rw [bulkRounds_succ, releasesOf_append]
    have := releasesOf_bulkRound id start
    have := ih (start + 1)
    omega

theorem bulkRound_acquires (n : Nat) :
    ∃ s, Sys.run 2 (bulkRoundState n) [.acquire 0 () 0, .acquire 0 () 0] =
      some (s, bulkRoundKeys n) ∧
    validRun 2 (bulkRoundState n) [.acquire 0 () 0, .acquire 0 () 0] = true := by
  refine ⟨⟨⟨⟨add32 ((2 * n) % 2 ^ 32) 1, noIdx⟩,
    [⟨n % 2 ^ 32, .val ()⟩, ⟨(2 * n) % 2 ^ 32, .val ()⟩]⟩, [Cache.new]⟩, ?_, ?_⟩
  · simp [bulkRoundState, bulkRoundKeys, Sys.run, Sys.step, acquireID,
      assignCachedID, Cache.new, noIdx, add32]
  · simp [bulkRoundState, validRun, validOp, Sys.step, acquireID,
      assignCachedID, Cache.new, noIdx, add32]

/-- C8: handle uniqueness does not hold with `bulkRelease`. With `C = 2`,
capacity 2 and one cache, `2^31` rounds of two `acquireID` calls followed by
`bulkRelease` of the two handles they returned (every call valid, every
handle held when released, each slot released `2^31` times), and then two
more `acquireID` calls: the last call returns the handle `(gen 0, id 1)`,
which an `acquireID` call of the first round returned already. -/
theorem handle_returned_twice :
    ∃ (s : Sys Unit) (ks : List Key),
      (Sys.new 2 2 1 : Option (Sys Unit)) = some (bulkRoundState 0) ∧
      validRun 2 (bulkRoundState 0)
        (bulkRounds 0 (2 ^ 31) ++ [.acquire 0 () 0, .acquire 0 () 0]) = true ∧
      (∀ id, releasesOf id
        (bulkRounds 0 (2 ^ 31) ++ [.acquire 0 () 0, .acquire 0 () 0]) < 2 ^ 32) ∧
      Sys.run 2 (bulkRoundState 0)
        (bulkRounds 0 (2 ^ 31) ++ [.acquire 0 () 0, .acquire 0 () 0]) =
          some (s, ks ++ [⟨2 ^ 31, 0⟩, ⟨0, 1⟩]) ∧
      (⟨0, 1⟩ : Key) ∈ ks := by
  obtain ⟨h1, h2⟩ := bulkRounds_run (2 ^ 31) 0
  obtain ⟨s, h3, h4⟩ := bulkRound_acquires (0 + 2 ^ 31)
  have hk : bulkRoundKeys (0 + 2 ^ 31) = [⟨2 ^ 31, 0⟩, ⟨0, 1⟩] := by
    simp [bulkRoundKeys]
  rw [hk] at h3
  refine ⟨s, (List.range' 0 (2 ^ 31)).flatMap bulkRoundKeys, by decide,
    validRun_append 2 _ _ _ _ _ h1 h2 h4, ?_, run_append 2 _ _ _ _ _ _ _ h1 h3, ?_⟩
  · intro id
    rw [releasesOf_append]
    have := releasesOf_bulkRounds id (2 ^ 31) 0
    have h0 : releasesOf id ([.acquire 0 () 0, .acquire 0 () 0] : List (Op Unit)) = 0 := rfl
    rw [h0]
    omega
  · refine List.mem_flatMap.2 ⟨0, List.mem_range'_1.2 ⟨le_rfl, by norm_num⟩, ?_⟩
    simp [bulkRoundKeys]

theorem freeAt_of_getElem? {store : List (Node V)} {i g : Nat} {f : FreeNode}
    (h : store[i]? = some ⟨g, .freeNode f⟩) : freeAt store i = some f := by
  simp [freeAt, h]

/-- The walk along a sublist returns its ids. -/
theorem walkSub_seg {store : List (Node V)} (hsz : store.length ≤ noIdx) :
    ∀ (l : List Nat) (h fuel : Nat), Seg store h l → l.length < fuel →
      walkSub store fuel h = some l := by
  intro l
  induction l with
  | nil =>
    intro h fuel hs hf
    obtain ⟨f, rfl⟩ : ∃ f, fuel = f + 1 := ⟨fuel - 1, by simp at hf; omega⟩
    have h0 : h = noIdx := hs
    simp [walkSub, h0]
  | cons i rest ih =>
    intro h fuel hs hf
    obtain ⟨f, rfl⟩ : ∃ f, fuel = f + 1 := ⟨fuel - 1, by simp at hf; omega⟩
    obtain ⟨rfl, g, sn, hn, hr⟩ := hs
    have hne : h ≠ noIdx := by
      have := lt_of_getElem?_some hn
      omega
    simp only [walkSub, if_neg hne, freeAt_of_getElem? hn]
    rw [ih sn f hr (by simp at hf; omega)]

/-- The walk along the global chain returns its sublists. -/
theorem walkChain_chain {C : Nat} {store : List (Node V)} (hsz : store.length ≤ noIdx) :
    ∀ (subs : List (List Nat)) (h fuelSub fuel : Nat), Chain C store h subs →
      C < fuelSub → subs.length < fuel → walkChain store fuelSub fuel h = some subs := by
  intro subs
  induction subs with
  | nil =>
    intro h fuelSub fuel hc _ hf
    obtain ⟨f, rfl⟩ : ∃ f, fuel = f + 1 := ⟨fuel - 1, by simp at hf; omega⟩
    have h0 : h = noIdx := hc
    simp [walkChain, h0]
  | cons sub rest ih =>
    intro h fuelSub fuel hc hfs hf
    obtain ⟨f, rfl⟩ : ∃ f, fuel = f + 1 := ⟨fuel - 1, by simp at hf; omega⟩
    obtain ⟨hne, hlen, g, sn, next, tl, hsub, hn, hseg, hr⟩ := hc
    obtain ⟨fs, rfl⟩ : ∃ fs, fuelSub = fs + 1 := ⟨fuelSub - 1, by omega⟩
    have hws : walkSub store (fs + 1) h = some sub := by
      simp only [walkSub, if_neg hne, freeAt_of_getElem? hn]
      rw [walkSub_seg hsz tl sn fs hseg (by rw [hsub] at hlen; simp at hlen; omega), hsub]
    simp only [walkChain, if_neg hne, freeAt_of_getElem? hn, hws]
    rw [ih next (fs + 1) f hr hfs (by simp at hf; omega)]

theorem chain_lengths {C : Nat} {store : List (Node V)} :
    ∀ (subs : List (List Nat)) (h : Nat), Chain C store h subs →
      ∀ sub, sub ∈ subs → sub.length = C := by
  intro subs
  induction subs with
  | nil => intro h _ sub hs; cases hs
  | cons s rest ih =>
    intro h hc sub hs
    obtain ⟨_, hlen, g, sn, next, tl, _, _, _, hr⟩ := hc
    rcases List.mem_cons.1 hs with e | e
    · rw [e]; exact hlen
    · exact ih next hr sub e

/-- The states reached from the constructor by valid calls satisfy the
invariant. -/
theorem reach_inv (C cap n : Nat) (hC : 2 ≤ C) (hcap : cap % C = 0) (hsz : cap < noIdx)
    (s0 : Sys V) (ops : List (Op V)) (h0 : Sys.new C cap n = some s0)
    (hv : validRun C s0 ops = true) :
    ∃ s ks gh subs, Sys.run C s0 ops = some (s, ks) ∧ Inv C s gh subs := by
  obtain ⟨s0', hnew, _, _, _, subs0, hinv0⟩ := @new_inv V C cap n hC hcap hsz
  rw [hnew] at h0
  have e : s0' = s0 := Option.some.inj h0
  rw [e] at hinv0
  obtain ⟨s, ks, gh, subs, hrun, hinv, _, _⟩ := run_inv C hC ops s0 _ subs0 hinv0 hv
  exact ⟨s, ks, gh, subs, hrun, hinv⟩

theorem chain_freeNode {C : Nat} {store : List (Node V)} :
    ∀ (subs : List (List Nat)) (h : Nat), Chain C store h subs →
      ∀ i, i ∈ subs.flatten → ∃ f, freeAt store i = some f := by
  intro subs
  induction subs with
  | nil => intro h _ i hi; simp at hi
  | cons s rest ih =>
    intro h hc i hi
    obtain ⟨_, _, g, sn, next, tl, hsub, hn, hseg, hr⟩ := hc
    simp only [List.flatten_cons, List.mem_append] at hi
    rcases hi with hi | hi
    · rw [hsub] at hi
      rcases List.mem_cons.1 hi with e | e
      · rw [e]; exact ⟨_, freeAt_of_getElem? hn⟩
      · obtain ⟨g', sn', hn'⟩ := seg_free hseg i e
        exact ⟨_, freeAt_of_getElem? hn'⟩
    · exact ih next hr i hi

theorem chain_head {C : Nat} {store : List (Node V)} {h : Nat} {subs : List (List Nat)}
    (hc : Chain C store h subs) : h = noIdx ∨ h ∈ subs.flatten := by
  cases subs with
  | nil => exact Or.inl hc
  | cons s rest =>
    obtain ⟨_, _, g, sn, next, tl, hsub, _, _, _⟩ := hc
    right
    simp [hsub]

/-- C11: chunk-size invariant. After the constructor (capacity a multiple of
`C`, `2 ≤ C`) and after every sequence of valid `acquireID`, `releaseID` and
`bulkRelease` calls, following the global chain from the free head through
`globalNext`, and every sublist from its head through `subNext` until `~0u`,
ends at `~0u` (with any fuel above the size of the result), and every
sublist found has exactly `C` ids. -/
theorem chunk_size_invariant (C cap n : Nat) (hC : 2 ≤ C) (hcap : cap % C = 0)
    (hsz : cap < noIdx) (s0 : Sys V) (ops : List (Op V))
    (h0 : Sys.new C cap n = some s0) (hv : validRun C s0 ops = true) :
    ∃ s ks subs, Sys.run C s0 ops = some (s, ks) ∧
      (∀ fuelSub fuel, C < fuelSub → subs.length < fuel →
        walkChain s.map.store_ fuelSub fuel s.map.free_head_.head = some subs) ∧
      ∀ sub, sub ∈ subs → sub.length = C := by
  obtain ⟨s, ks, gh, subs, hrun, hinv⟩ := reach_inv C cap n hC hcap hsz s0 ops h0 hv
  refine ⟨s, ks, subs, hrun, ?_, chain_lengths subs _ hinv.chain⟩
  intro fuelSub fuel hfs hf
  exact walkChain_chain (Nat.le_of_lt hinv.size) subs _ fuelSub fuel hinv.chain hfs hf

theorem chunk_size_invariant_witness :
    (Sys.new 2 4 1 : Option (Sys Nat)) = some exampleChainSys ∧
    validRun 2 exampleChainSys exampleChainOps = true ∧
    ∃ s ks subs, Sys.run 2 exampleChainSys exampleChainOps = some (s, ks) ∧
      (∀ fuelSub fuel, 2 < fuelSub → subs.length < fuel →
        walkChain s.map.store_ fuelSub fuel s.map.free_head_.head = some subs) ∧
      ∀ sub, sub ∈ subs → sub.length = 2 :=
  ⟨by decide, by decide,
    chunk_size_invariant 2 4 1 (by decide) (by decide) (by decide) exampleChainSys
      exampleChainOps (by decide) (by decide)⟩

/-- C12: the global free head never points to a live node. After the
constructor (capacity a multiple of `C`, `2 ≤ C`) and after every sequence of
valid `acquireID`, `releaseID` and `bulkRelease` calls, the index in the
global free head is `~0u` or the index of a node inside the store that is a
free node, and every node reached from it through the `globalNext` links of
the sublist heads and the `subNext` links of the sublists is inside the
store, not live, and a free node. -/
theorem global_chain_free (C cap n : Nat) (hC : 2 ≤ C) (hcap : cap % C = 0)
    (hsz : cap < noIdx) (s0 : Sys V) (ops : List (Op V))
    (h0 : Sys.new C cap n = some s0) (hv : validRun C s0 ops = true) :
    ∃ s ks subs, Sys.run C s0 ops = some (s, ks) ∧
      (∀ fuelSub fuel, C < fuelSub → subs.length < fuel →
        walkChain s.map.store_ fuelSub fuel s.map.free_head_.head = some subs) ∧
      (s.map.free_head_.head = noIdx ∨
        (s.map.free_head_.head < s.map.store_.length ∧
          liveB s.map.store_ s.map.free_head_.head = false ∧
          ∃ f, freeAt s.map.store_ s.map.free_head_.head = some f)) ∧
      ∀ i, i ∈ subs.flatten →
        i < s.map.store_.length ∧ liveB s.map.store_ i = false ∧
          ∃ f, freeAt s.map.store_ i = some f := by
  obtain ⟨s, ks, gh, subs, hrun, hinv⟩ := reach_inv C cap n hC hcap hsz s0 ops h0 hv
  have hall : ∀ i, i ∈ subs.flatten →
      i < s.map.store_.length ∧ liveB s.map.store_ i = false ∧
        ∃ f, freeAt s.map.store_ i = some f := by
    intro i hi
    have := chain_freeSlot hinv.chain i hi
    exact ⟨this.1, this.2, chain_freeNode subs _ hinv.chain i hi⟩
  refine ⟨s, ks, subs, hrun, ?_, ?_, hall⟩
  · intro fuelSub fuel hfs hf
    exact walkChain_chain (Nat.le_of_lt hinv.size) subs _ fuelSub fuel hinv.chain hfs hf
  · rcases chain_head hinv.chain with h | h
    · exact Or.inl h
    · exact Or.inr (hall _ h)

theorem global_chain_free_witness :
    (Sys.new 2 4 1 : Option (Sys Nat)) = some exampleChainSys ∧
    validRun 2 exampleChainSys exampleChainOps = true ∧
    ∃ s ks subs, Sys.run 2 exampleChainSys exampleChainOps = some (s, ks) ∧
      (∀ fuelSub fuel, 2 < fuelSub → subs.length < fuel →
        walkChain s.map.store_ fuelSub fuel s.map.free_head_.head = some subs) ∧
      (s.map.free_head_.head = noIdx ∨
        (s.map.free_head_.head < s.map.store_.length ∧
          liveB s.map.store_ s.map.free_head_.head = false ∧
          ∃ f, freeAt s.map.store_ s.map.free_head_.head = some f)) ∧
      ∀ i, i ∈ subs.flatten →
        i < s.map.store_.length ∧ liveB s.map.store_ i = false ∧
          ∃ f, freeAt s.map.store_ i = some f :=
  ⟨by decide, by decide,
    global_chain_free 2 4 1 (by decide) (by decide) (by decide) exampleChainSys
      exampleChainOps (by decide) (by decide)⟩

/-- `bulkRelease` of distinct live ids in a state satisfying the invariant:
the guarantees of `ReleasePost`, with the sublists `pushed` in front of the
global chain and the shape of the result. -/
theorem bulkRelease_shape (C : Nat) (hC : 0 < C) (m : IDMap V) (c : Cache) (g : CacheGhost)
    (subs : List (List Nat)) (O : List Nat) (keys : List Key) (past : Key)
    (h : LInv C m c g subs O)
    (hl : ∀ i, i ∈ keys.map Key.id → liveB m.store_ i = true)
    (hnd : (keys.map Key.id).Nodup) :
    ∃ m' c' g' pushed bumps, bulkRelease C m c keys past = some (m', c') ∧
      (∀ i, bumps i = 1 ∨ bumps i = 2) ∧
      ReleasePost C m g subs O (keys.map Key.id) bumps m' c' g' (pushed ++ subs) ∧
      g'.blocks = g.blocks ∧ (∀ sub, sub ∈ pushed → sub.length = C) ∧
      BulkShape C keys.length c.num_overflow_ids_ pushed.length c'.num_overflow_ids_ ∧
      (g'.ids ++ pushed.flatten).Perm (keys.map Key.id ++ g.ids) := by
  by_cases hk : keys.length = 0
  · have hkeys : keys = [] := List.length_eq_zero.1 hk
    subst hkeys
    have hS : BulkStore m.store_ [] (g.ids ++ subs.flatten) m.store_ :=
      ⟨rfl, fun _ _ _ => rfl, fun j hj => ⟨(free_lt h j hj).2, rfl⟩, fun i hi => by cases hi⟩
    obtain ⟨bumps, hb, hpost⟩ := releasePost_of_bulkStore h [] m.store_ m.free_head_
      (fun i hi => by cases hi) List.nodup_nil hS h.rep h.chain (by simp)
    refine ⟨m, c, g, [], bumps, by simp [bulkRelease], hb, hpost, rfl, ?_, ?_, ?_⟩
    · intro sub hs; cases hs
    · exact Or.inl ⟨by simp, by simp, rfl⟩
    · simp
  · have hkin : ∀ idx, idx < keys.length → kid keys past idx < m.store_.length :=
      fun idx hi => lt_of_liveB (hl _ (kid_mem keys past idx hi))
    have hinv0 : BulkInv C keys past m.store_ ⟨m.store_, 0, 0, none⟩ [] :=
      ⟨rfl, Nat.zero_le _, fun h0 => by simp at h0, fun _ _ => rfl, by simp,
        fun x hx => by simp at hx, Or.inl ⟨rfl, rfl⟩⟩
    obtain ⟨st, done, hloop, hinv, hexit⟩ :=
      chunkLoop_spec C hC keys past m.store_ hkin (kid_inj keys past hnd) (keys.length + 1)
        ⟨m.store_, 0, 0, none⟩ [] hinv0 (by simp only; omega)
    obtain ⟨st', c', g', done', hrem, hS, hsubs, hopen, hrep, hperm, hbl, hdl, hshape⟩ :=
      bulkRemainder_spec C hC m c g subs O keys past h (by omega) hl hnd st done hinv hexit
    obtain ⟨m', bumps, hm, hb, hpost⟩ :=
      bulk_finish h (keys.map Key.id) hl hnd st'.store hS hsubs (kid keys past 0)
        st'.global_tail_node done' hopen hrep hperm
    refine ⟨m', c', g', done', bumps, ?_, hb, hpost, hbl, hdl, hshape, ?_⟩
    · unfold bulkRelease
      rw [if_neg hk]
      simp only [hloop, hrem]
      rcases hm with ⟨ht, rfl⟩ | ⟨t, store', ht, hset, rfl⟩
      · simp only [ht]
      · simp only [ht, hset]
        rfl
    · have hp2 : ((g'.ids ++ done'.flatten) ++ subs.flatten).Perm
          ((keys.map Key.id ++ g.ids) ++ subs.flatten) := by
        simpa [List.append_assoc] using hperm
      exact (List.perm_append_right_iff _).1 hp2

theorem bulkShape_ite {C k o pushed o' : Nat} (h : BulkShape C k o pushed o') :
    pushed = (if k % C = 0 then k / C else if o + k % C < C then k / C else k / C + 1) ∧
    o' = (if k % C = 0 then o else if o + k % C < C then o + k % C else o + k % C - C) := by
  rcases h with ⟨h1, h2, h3⟩ | ⟨h1, h2, h3, h4⟩ | ⟨h1, h2, h3, h4⟩
  · simp only [if_pos h1]; exact ⟨h2, h3⟩
  · have h0 : ¬ k % C = 0 := by omega
    simp only [if_neg h0, if_pos h2]; exact ⟨h3, h4⟩
  · have h0 : ¬ k % C = 0 := by omega
    have h5 : ¬ o + k % C < C := by omega
    simp only [if_neg h0, if_neg h5]; exact ⟨h3, h4⟩

theorem validOp_bulk {C : Nat} {s : Sys V} {ci : Nat} {keys : List Key} {past : Key}
    (hv : validOp C s (.bulk ci keys past) = true) :
    ci < s.caches.length ∧ (∀ i, i ∈ keys.map Key.id → liveB s.map.store_ i = true) ∧
      (keys.map Key.id).Nodup ∧ (∀ k, k ∈ keys → held s.map.store_ k = true) := by
  simp only [validOp, Bool.and_eq_true, decide_eq_true_eq, List.all_eq_true] at hv
  obtain ⟨⟨⟨hci, hheld⟩, hnd⟩, _⟩ := hv
  refine ⟨hci, ?_, hnd, hheld⟩
  intro i hi
  obtain ⟨k, hk, rfl⟩ := List.mem_map.1 hi
  exact held_live (hheld k hk)

/-- C14: bulk-release shape. In every state reached from the constructor
(capacity a multiple of `C`, `2 ≤ C`) by valid calls, whose global chain is
`subs`, for every cache `c` (it holds `o = c.num_overflow_ids_ < C` overflow
ids) and every valid `bulkRelease(c, keys, k)` of `k` held handles on
distinct ids: the call returns; the global chain is then `pushed ++ subs`,
the old chain unchanged after the sublists `pushed`, each of exactly `C` ids;
the overflow sublist of the cache has `c'.num_overflow_ids_` ids; and with
`r = k % C`, `pushed` has `k / C` sublists and the overflow is unchanged in
number when `r = 0`, `k / C` sublists and `o + r` overflow ids when `r > 0`
and `o + r < C`, and `k / C + 1` sublists and `o + r - C` overflow ids
otherwise. -/
theorem bulk_release_shape (C cap n : Nat) (hC : 2 ≤ C) (hcap : cap % C = 0)
    (hsz : cap < noIdx) (s0 : Sys V) (ops : List (Op V))
    (h0 : Sys.new C cap n = some s0) (hv : validRun C s0 ops = true) :
    ∃ s ks subs, Sys.run C s0 ops = some (s, ks) ∧
      (∀ fuelSub fuel, C < fuelSub → subs.length < fuel →
        walkChain s.map.store_ fuelSub fuel s.map.free_head_.head = some subs) ∧
      ∀ (ci : Nat) (c : Cache) (keys : List Key) (past : Key), s.caches[ci]? = some c →
        validOp C s (.bulk ci keys past) = true →
        ∃ m' c' pushed ov', bulkRelease C s.map c keys past = some (m', c') ∧
          (∀ fuelSub fuel, C < fuelSub → (pushed ++ subs).length < fuel →
            walkChain m'.store_ fuelSub fuel m'.free_head_.head = some (pushed ++ subs)) ∧
          (∀ sub, sub ∈ pushed → sub.length = C) ∧
          (∀ fuel, ov'.length < fuel →
            walkSub m'.store_ fuel c'.overflow_head_ = some ov') ∧
          ov'.length = c'.num_overflow_ids_ ∧
          c.num_overflow_ids_ < C ∧
          pushed.length =
            (if keys.length % C = 0 then keys.length / C
             else if c.num_overflow_ids_ + keys.length % C < C then keys.length / C
             else keys.length / C + 1) ∧
          c'.num_overflow_ids_ =
            (if keys.length % C = 0 then c.num_overflow_ids_
             else if c.num_overflow_ids_ + keys.length % C < C then
               c.num_overflow_ids_ + keys.length % C
             else c.num_overflow_ids_ + keys.length % C - C) := by
  obtain ⟨s, ks, gh, subs, hrun, hinv⟩ := reach_inv C cap n hC hcap hsz s0 ops h0 hv
  refine ⟨s, ks, subs, hrun, ?_, ?_⟩
  · intro fuelSub fuel hfs hf
    exact walkChain_chain (Nat.le_of_lt hinv.size) subs _ fuelSub fuel hinv.chain hfs hf
  · intro ci c keys past hc hvb
    obtain ⟨hci, hlive, hnd, _⟩ := validOp_bulk hvb
    have hci' : ci < gh.length := by rw [← hinv.caches_len]; exact hci
    have hg : gh[ci]? = some gh[ci] := List.getElem?_eq_getElem hci'
    have hlinv := linv_of_inv hinv ci c _ hc hg
    obtain ⟨m', c', g', pushed, bumps, hrel, _, hpost, _, hlen, hshape, _⟩ :=
      bulkRelease_shape C (by omega) s.map c _ subs _ keys past hlinv hlive hnd
    have hsz' : m'.store_.length ≤ noIdx := Nat.le_of_lt hpost.linv.size
    obtain ⟨_, _, _, hseg, hovlen, _⟩ := hpost.linv.rep
    obtain ⟨hs1, hs2⟩ := bulkShape_ite hshape
    refine ⟨m', c', pushed, g'.overflow, hrel, ?_, hlen, ?_, hovlen, hlinv.rep.2.2.2.2.2,
      hs1, hs2⟩
    · intro fuelSub fuel hfs hf
      exact walkChain_chain hsz' _ _ fuelSub fuel hpost.linv.chain hfs hf
    · intro fuel hf
      exact walkSub_seg hsz' _ _ fuel hseg hf

theorem bulk_release_shape_witness :
    (Sys.new 4 12 1 : Option (Sys Nat)) = some exampleNineSys ∧
    validRun 4 exampleNineSys exampleNineOps = true ∧
    ∃ s ks subs, Sys.run 4 exampleNineSys exampleNineOps = some (s, ks) ∧
      (∀ fuelSub fuel, 4 < fuelSub → subs.length < fuel →
        walkChain s.map.store_ fuelSub fuel s.map.free_head_.head = some subs) ∧
      ∀ (ci : Nat) (c : Cache) (keys : List Key) (past : Key), s.caches[ci]? = some c →
        validOp 4 s (.bulk ci keys past) = true →
        ∃ m' c' pushed ov', bulkRelease 4 s.map c keys past = some (m', c') ∧
          (∀ fuelSub fuel, 4 < fuelSub → (pushed ++ subs).length < fuel →
            walkChain m'.store_ fuelSub fuel m'.free_head_.head = some (pushed ++ subs)) ∧
          (∀ sub, sub ∈ pushed → sub.length = 4) ∧
          (∀ fuel, ov'.length < fuel →
            walkSub m'.store_ fuel c'.overflow_head_ = some ov') ∧
          ov'.length = c'.num_overflow_ids_ ∧
          c.num_overflow_ids_ < 4 ∧
          pushed.length =
            (if keys.length % 4 = 0 then keys.length / 4
             else if c.num_overflow_ids_ + keys.length % 4 < 4 then keys.length / 4
             else keys.length / 4 + 1) ∧
          c'.num_overflow_ids_ =
            (if keys.length % 4 = 0 then c.num_overflow_ids_
             else if c.num_overflow_ids_ + keys.length % 4 < 4 then
               c.num_overflow_ids_ + keys.length % 4
             else c.num_overflow_ids_ + keys.length % 4 - 4) :=
  ⟨by decide, by decide,
    bulk_release_shape 4 12 1 (by decide) (by decide) (by decide) exampleNineSys
      exampleNineOps (by decide) (by decide)⟩

/-- The scenario of the specification: with `C = 4`, `bulkRelease` of the nine
handles of nine `acquireID` calls puts the two sublists `0..3` and `4..7` on
the global chain and leaves the id 8 in the overflow sublist of the cache. -/
theorem bulkRelease_nine_keys :
    validRun 4 exampleNineSys (exampleNineOps ++ [.bulk 0 exampleNineKeys ⟨0, 0⟩]) = true ∧
    (Sys.run 4 exampleNineSys (exampleNineOps ++ [.bulk 0 exampleNineKeys ⟨0, 0⟩])).map
      (fun r => (r.2, walkChain r.1.map.store_ 5 3 r.1.map.free_head_.head,
        r.1.caches.map (fun c => (walkSub r.1.map.store_ 5 c.overflow_head_,
          c.num_overflow_ids_)))) =
      some (exampleNineKeys, some [[0, 1, 2, 3], [4, 5, 6, 7]], [(some [8], 1)]) :=
  ⟨by decide, by rfl⟩

theorem chain_nil_of_flatten {C : Nat} {store : List (Node V)} {h : Nat}
    {D subs : List (List Nat)} (hc : Chain C store h (D ++ subs)) (hD : D.flatten = []) :
    D = [] := by
  cases D with
  | nil => rfl
  | cons s rest =>
    obtain ⟨_, _, g, sn, next, tl, hsub, _, _, _⟩ := hc
    rw [hsub] at hD
    simp at hD

/-- Consecutive `acquireID` calls take the ids of the cache and then the ids
of the first sublists of the global chain, without expanding the store. -/
theorem acquireN_reuse (C : Nat) (junk : Nat) (subs : List (List Nat)) (O : List Nat) :
    ∀ (vs : List V) (m : IDMap V) (c : Cache) (g : CacheGhost) (D : List (List Nat)),
      LInv C m c g (D ++ subs) O → vs.length = g.ids.length + D.flatten.length →
      ∃ ks m' c' g', acquireN C junk m c vs = some (ks, m', c') ∧
        (ks.map Key.id).Perm (g.ids ++ D.flatten) ∧
        m'.store_.length = m.store_.length ∧
        LInv C m' c' g' subs O ∧ g'.ids = [] := by
  intro vs
  induction vs with
  | nil =>
    intro m c g D h hlen
    have hg : g.ids = [] :=
      List.length_eq_zero.1 (by simp only [List.length_nil] at hlen; omega)
    have hDf : D.flatten = [] :=
      List.length_eq_zero.1 (by simp only [List.length_nil] at hlen; omega)
    have hD : D = [] := chain_nil_of_flatten h.chain hDf
    subst hD
    exact ⟨[], m, c, g, rfl, by simp [hg], rfl, by simpa using h, hg⟩
  | cons v vs ih =>
    intro m c g D h hlen
    have hne : g.ids ≠ [] ∨ D ++ subs ≠ [] := by
      by_cases hg : g.ids = []
      · right
        intro hD
        have : D = [] := (List.append_eq_nil.1 hD).1
        rw [hg, this] at hlen
        simp at hlen
      · exact Or.inl hg
    obtain ⟨k, m1, c1, g1, subs1, hacq, hpost, hlen1, hshape⟩ :=
      acquireID_shape C m c g (D ++ subs) O v junk h hne
    rcases hshape with ⟨hperm, hsubs1⟩ | ⟨hg, hsubs1⟩
    · subst hsubs1
      have hl := hperm.length_eq
      obtain ⟨ks, m2, c2, g2, hrest, hp2, hlen2, hlinv2, hg2⟩ :=
        ih m1 c1 g1 D hpost.linv (by simp only [List.length_cons] at hlen hl; omega)
      refine ⟨k :: ks, m2, c2, g2, ?_, ?_, by rw [hlen2, hlen1], hlinv2, hg2⟩
      · simp only [acquireN, hacq, hrest]
      · simp only [List.map_cons]
        exact (List.Perm.cons k.id hp2).trans
          (List.Perm.append_right D.flatten hperm.symm)
    · cases D with
      | nil =>
        rw [hg] at hlen
        simp at hlen
      | cons sub D' =>
        simp only [List.cons_append, List.cons.injEq] at hsubs1
        obtain ⟨hsub, hsubs1⟩ := hsubs1
        subst hsubs1
        obtain ⟨ks, m2, c2, g2, hrest, hp2, hlen2, hlinv2, hg2⟩ :=
          ih m1 c1 g1 D' hpost.linv (by
            rw [hg, hsub] at hlen
            simp only [List.length_cons, List.length_nil, List.flatten_cons,
              List.length_append] at hlen ⊢
            omega)
        refine ⟨k :: ks, m2, c2, g2, ?_, ?_, by rw [hlen2, hlen1], hlinv2, hg2⟩
        · simp only [acquireN, hacq, hrest]
        · simp only [List.map_cons, hg, List.nil_append, List.flatten_cons, hsub,
            List.cons_append]
          exact List.Perm.cons k.id hp2

/-- C13: bulk-release reuse. In every state reached from the constructor
(capacity a multiple of `C`, `2 ≤ C`) by valid calls, for every cache `c`
whose primary and overflow sublists are empty and every valid
`bulkRelease(c, keys, k)` of `k` held handles on distinct ids: the call
returns, the `k` following `acquireID` calls on the same cache return, the
ids of the keys they return are the released ids, each once, in some order,
and the store has the length it had before. -/
theorem bulk_release_reuse (C cap n : Nat) (hC : 2 ≤ C) (hcap : cap % C = 0)
    (hsz : cap < noIdx) (s0 : Sys V) (ops : List (Op V))
    (h0 : Sys.new C cap n = some s0) (hv : validRun C s0 ops = true) :
    ∃ s ks0, Sys.run C s0 ops = some (s, ks0) ∧
      ∀ (ci : Nat) (c : Cache) (keys : List Key) (past : Key) (vs : List V) (junk : Nat),
        s.caches[ci]? = some c → c.num_free_ids_ = 0 → c.num_overflow_ids_ = 0 →
        validOp C s (.bulk ci keys past) = true → vs.length = keys.length →
        ∃ m1 c1 ks m2 c2, bulkRelease C s.map c keys past = some (m1, c1) ∧
          acquireN C junk m1 c1 vs = some (ks, m2, c2) ∧
          (ks.map Key.id).Perm (keys.map Key.id) ∧ (ks.map Key.id).Nodup ∧
          m2.store_.length = s.map.store_.length := by
  obtain ⟨s, ks0, gh, subs, hrun, hinv⟩ := reach_inv C cap n hC hcap hsz s0 ops h0 hv
  refine ⟨s, ks0, hrun, ?_⟩
  intro ci c keys past vs junk hc hfree hov hvb hvs
  obtain ⟨hci, hlive, hnd, _⟩ := validOp_bulk hvb
  have hci' : ci < gh.length := by rw [← hinv.caches_len]; exact hci
  have hg : gh[ci]? = some gh[ci] := List.getElem?_eq_getElem hci'
  have hlinv := linv_of_inv hinv ci c _ hc hg
  obtain ⟨hprim, hcount, _, _, hovlen, _⟩ := hlinv.rep
  have hgids : (gh[ci]).ids = [] := by
    have h1 : blockIds (gh[ci]).blocks = [] := List.length_eq_zero.1 (by omega)
    have h2 : (gh[ci]).overflow = [] := List.length_eq_zero.1 (by omega)
    simp [CacheGhost.ids, h1, h2]
  obtain ⟨m1, c1, g1, pushed, bumps, hrel, _, hpost, _, _, _, hperm⟩ :=
    bulkRelease_shape C (by omega) s.map c _ subs _ keys past hlinv hlive hnd
  rw [hgids, List.append_nil] at hperm
  have hl := hperm.length_eq
  obtain ⟨ks, m2, c2, g2, hacq, hp2, hlen2, _, _⟩ :=
    acquireN_reuse C junk subs _ vs m1 c1 g1 pushed hpost.linv (by
      simp only [List.length_append, List.length_map] at hl ⊢
      omega)
  have hp3 := hp2.trans hperm
  exact ⟨m1, c1, ks, m2, c2, hrel, hacq, hp3, (List.Perm.nodup_iff hp3).2 hnd,
    by rw [hlen2, hpost.len]⟩

theorem bulk_release_reuse_witness :
    (Sys.new 4 12 1 : Option (Sys Nat)) = some exampleNineSys ∧
    validRun 4 exampleNineSys (List.replicate 12 (.acquire 0 0 0)) = true ∧
    ∃ s ks0, Sys.run 4 exampleNineSys (List.replicate 12 (.acquire 0 0 0)) = some (s, ks0) ∧
      ∀ (ci : Nat) (c : Cache) (keys : List Key) (past : Key) (vs : List Nat) (junk : Nat),
        s.caches[ci]? = some c → c.num_free_ids_ = 0 → c.num_overflow_ids_ = 0 →
        validOp 4 s (.bulk ci keys past) = true → vs.length = keys.length →
        ∃ m1 c1 ks m2 c2, bulkRelease 4 s.map c keys past = some (m1, c1) ∧
          acquireN 4 junk m1 c1 vs = some (ks, m2, c2) ∧
          (ks.map Key.id).Perm (keys.map Key.id) ∧ (ks.map Key.id).Nodup ∧
          m2.store_.length = s.map.store_.length :=
  ⟨by decide, by decide,
    bulk_release_reuse 4 12 1 (by decide) (by decide) (by decide) exampleNineSys
      (List.replicate 12 (.acquire 0 0 0)) (by decide) (by decide)⟩

/-- C15: `bulkRelease` does not bump generations as `releaseID` does. With
`C = 4`, after nine `acquireID` calls (handles of generation 0 on the ids
0 to 8), `bulkRelease` of the nine handles leaves the generation 2 at the
ids 3 and 7, the last keys of the two full chunks, where `releaseID` once per
key leaves 1; each entry below is the id and the generation of a handle,
the generation stored after `bulkRelease`, and the one stored after the
`releaseID` calls. -/
theorem bulkRelease_bumps_twice :
    validRun 4 exampleNineSys (exampleNineOps ++ [.bulk 0 exampleNineKeys ⟨0, 0⟩]) = true ∧
    (Sys.run 4 exampleNineSys exampleNineOps).bind (fun r =>
      (r.1.caches[0]?).bind (fun c =>
        (bulkRelease 4 r.1.map c r.2 ⟨0, 0⟩).bind (fun b =>
          (releaseEach 4 r.1.map c r.2).map (fun e =>
            r.2.map (fun k =>
              (k.id, k.gen, genAt b.1.store_ k.id, genAt e.1.store_ k.id)))))) =
      some [(0, 0, 1, 1), (1, 0, 1, 1), (2, 0, 1, 1), (3, 0, 2, 1), (4, 0, 1, 1),
        (5, 0, 1, 1), (6, 0, 1, 1), (7, 0, 2, 1), (8, 0, 1, 1)] :=
  ⟨by decide, by rfl⟩

/-- The scenario of the specification: with `C = 4` and capacity 8, after
eight `acquireID` calls and `releaseID` of the first five ids in order, the
next `acquireID` returns the id 4 of the last release with generation 1. -/
theorem recycle_scenario :
    (Sys.new 4 8 1 : Option (Sys Nat)) = some exampleEightSys ∧
    validRun 4 exampleEightSys (exampleEightOps ++ [.acquire 0 0 0]) = true ∧
    (Sys.run 4 exampleEightSys (exampleEightOps ++ [.acquire 0 0 0])).map
      (fun r => r.2.getLast?) = some (some ⟨1, 4⟩) :=
  ⟨by decide, by decide, by rfl⟩

theorem acquireID_counts {C : Nat} {m m' : IDMap V} {c c' : Cache} {v : V} {junk : Nat}
    {k : Key} (h : acquireID C m c v junk = some (k, m', c')) :
    (0 < c.num_overflow_ids_ ∧ c'.num_overflow_ids_ = c.num_overflow_ids_ - 1 ∧
      c'.num_free_ids_ = c.num_free_ids_) ∨
    (c.num_overflow_ids_ = 0 ∧ c'.num_overflow_ids_ = 0) := by
  unfold acquireID at h
  by_cases hov : c.num_overflow_ids_ > 0
  · rw [if_pos hov] at h
    cases ha : assignCachedID m c.overflow_head_ v with
    | none => simp [ha] at h
    | some r =>
      obtain ⟨k1, m1, hd⟩ := r
      simp only [ha, Option.some.injEq, Prod.mk.injEq] at h
      obtain ⟨_, _, rfl⟩ := h
      exact Or.inl ⟨hov, rfl, rfl⟩
  · rw [if_neg hov] at h
    right
    refine ⟨by omega, ?_⟩
    by_cases hpr : c.num_free_ids_ > 0
    · rw [if_pos hpr] at h
      cases ha : assignCachedID m c.free_head_ v with
      | none => simp [ha] at h
      | some r =>
        obtain ⟨k1, m1, hd⟩ := r
        simp only [ha, Option.some.injEq, Prod.mk.injEq] at h
        obtain ⟨_, _, rfl⟩ := h
        simp only
        omega
    · rw [if_neg hpr] at h
      simp only at h
      split at h
      · split at h
        · split at h
          · cases h
          · simp only [Option.some.injEq, Prod.mk.injEq] at h
            obtain ⟨_, _, rfl⟩ := h
            simp only
            omega
        · cases h
      · split at h
        · simp only [Option.some.injEq, Prod.mk.injEq] at h
          obtain ⟨_, _, rfl⟩ := h
          simp only
          omega
        · cases h

theorem acquireID_cacheOrd {C : Nat} {m m' : IDMap V} {c c' : Cache} {v : V} {junk : Nat}
    {k : Key} (h : acquireID C m c v junk = some (k, m', c')) (ho : CacheOrd C c) :
    CacheOrd C c' := by
  intro hpos
  rcases acquireID_counts h with ⟨h1, h2, h3⟩ | ⟨_, h2⟩
  · rw [h3]; exact ho h1
  · omega

theorem releaseID_counts {C : Nat} {m m' : IDMap V} {c c' : Cache} {id : Nat}
    (h : releaseID C m c id = some (m', c')) :
    (c.num_free_ids_ < C ∧ c'.num_overflow_ids_ = c.num_overflow_ids_) ∨
    (¬ c.num_free_ids_ < C ∧ c'.num_free_ids_ = c.num_free_ids_) := by
  unfold releaseID at h
  cases hn : m.store_[id]? with
  | none => simp [hn] at h
  | some nd =>
    simp only [hn] at h
    by_cases hfree : c.num_free_ids_ < C
    · rw [if_pos hfree] at h
      simp only [Option.some.injEq, Prod.mk.injEq] at h
      obtain ⟨_, rfl⟩ := h
      exact Or.inl ⟨hfree, rfl⟩
    · rw [if_neg hfree] at h
      right
      refine ⟨hfree, ?_⟩
      by_cases hovlt : c.num_overflow_ids_ < C
      · simp only [if_pos hovlt] at h
        by_cases hfl : c.num_overflow_ids_ + 1 = C
        · simp only [hfl, if_true] at h
          cases hs : (m.store_.set id
              ⟨add32 nd.gen 1, .freeNode ⟨c.overflow_head_, 1⟩⟩)[id]? with
          | none => simp [hs] at h
          | some nd2 =>
            obtain ⟨g2, sl⟩ := nd2
            cases sl with
            | freeNode f =>
              simp only [hs, Option.some.injEq, Prod.mk.injEq] at h
              rw [← h.2]
            | val x => simp [hs] at h
            | uninit => simp [hs] at h
        · simp only [hfl, if_false, Option.some.injEq, Prod.mk.injEq] at h
          rw [← h.2]
      · simp only [if_neg hovlt] at h
        by_cases hfl : c.num_overflow_ids_ = C
        · simp only [hfl, if_true] at h
          cases hs : (m.store_.set id ⟨add32 nd.gen 1, .freeNode ⟨0, 1⟩⟩)[c.overflow_head_]? with
          | none => simp [hs] at h
          | some nd2 =>
            obtain ⟨g2, sl⟩ := nd2
            cases sl with
            | freeNode f =>
              simp only [hs, Option.some.injEq, Prod.mk.injEq] at h
              rw [← h.2]
            | val x => simp [hs] at h
            | uninit => simp [hs] at h
        · simp only [hfl, if_false, Option.some.injEq, Prod.mk.injEq] at h
          rw [← h.2]

theorem releaseID_cacheOrd {C : Nat} {m m' : IDMap V} {c c' : Cache} {id : Nat}
    (h : releaseID C m c id = some (m', c')) (ho : CacheOrd C c)
    (hle : c.num_free_ids_ ≤ C) : CacheOrd C c' := by
  intro hpos
  rcases releaseID_counts h with ⟨h1, h2⟩ | ⟨h1, h2⟩
  · rw [h2] at hpos
    have := ho hpos
    omega
  · omega

theorem mem_set_cases {α : Type} {l : List α} {i : Nat} {a x : α} (h : x ∈ l.set i a) :
    x = a ∨ x ∈ l := by
  induction l generalizing i with
  | nil => simp at h
  | cons y t ih =>
    cases i with
    | zero =>
      simp only [List.set_cons_zero, List.mem_cons] at h
      rcases h with h | h
      · exact Or.inl h
      · exact Or.inr (List.mem_cons_of_mem _ h)
    | succ i =>
      simp only [List.set_cons_succ, List.mem_cons] at h
      rcases h with h | h
      · exact Or.inr (by rw [h]; exact List.mem_cons_self _ _)
      · rcases ih h with h1 | h1
        · exact Or.inl h1
        · exact Or.inr (List.mem_cons_of_mem _ h1)

/-- One valid `acquireID` or `releaseID` call keeps `CacheOrd` of every
cache. -/
theorem step_cacheOrd (C : Nat) (s s' : Sys V) (gh : List CacheGhost)
    (subs : List (List Nat)) (h : Inv C s gh subs) (op : Op V) (ks : List Key)
    (hstep : Sys.step C s op = some (s', ks)) (hnb : noBulk [op] = true)
    (ho : ∀ c, c ∈ s.caches → CacheOrd C c) : ∀ c, c ∈ s'.caches → CacheOrd C c := by
  cases op with
  | acquire ci v junk =>
    simp only [Sys.step] at hstep
    cases hc : s.caches[ci]? with
    | none => simp [hc] at hstep
    | some c0 =>
      simp only [hc] at hstep
      cases ha : acquireID C s.map c0 v junk with
      | none => simp [ha] at hstep
      | some r =>
        obtain ⟨k, m', c'⟩ := r
        simp only [ha, Option.some.injEq, Prod.mk.injEq] at hstep
        obtain ⟨rfl, _⟩ := hstep
        intro c hcm
        rcases mem_set_cases hcm with e | e
        · rw [e]
          exact acquireID_cacheOrd ha (ho c0 (List.mem_iff_getElem?.2 ⟨ci, hc⟩))
        · exact ho c e
  | release ci id =>
    simp only [Sys.step] at hstep
    cases hc : s.caches[ci]? with
    | none => simp [hc] at hstep
    | some c0 =>
      simp only [hc] at hstep
      cases ha : releaseID C s.map c0 id with
      | none => simp [ha] at hstep
      | some r =>
        obtain ⟨m', c'⟩ := r
        simp only [ha, Option.some.injEq, Prod.mk.injEq] at hstep
        obtain ⟨rfl, _⟩ := hstep
        intro c hcm
        rcases mem_set_cases hcm with e | e
        · rw [e]
          have hci : ci < gh.length := by
            rw [← h.caches_len]; exact lt_of_getElem?_some hc
          have hrep := h.caches ci c0 _ hc (List.getElem?_eq_getElem hci)
          exact releaseID_cacheOrd ha (ho c0 (List.mem_iff_getElem?.2 ⟨ci, hc⟩)) hrep.2.2.1
        · exact ho c e
  | bulk ci keys past => simp [noBulk] at hnb

theorem noBulk_cons (op : Op V) (rest : List (Op V)) (h : noBulk (op :: rest) = true) :
    noBulk [op] = true ∧ noBulk rest = true := by
  cases op <;> simp [noBulk] at h ⊢ <;> exact h

/-- A sequence of valid `acquireID` and `releaseID` calls returns and keeps
the invariant and `CacheOrd` of every cache. -/
theorem run_cacheOrd (C : Nat) (hC : 2 ≤ C) :
    ∀ (ops : List (Op V)) (s : Sys V) (gh : List CacheGhost) (subs : List (List Nat)),
      Inv C s gh subs → validRun C s ops = true → noBulk ops = true →
      (∀ c, c ∈ s.caches → CacheOrd C c) →
      ∃ s' ks gh' subs', Sys.run C s ops = some (s', ks) ∧ Inv C s' gh' subs' ∧
        ∀ c, c ∈ s'.caches → CacheOrd C c := by
  intro ops
  induction ops with
  | nil =>
    intro s gh subs h _ _ ho
    exact ⟨s, [], gh, subs, rfl, h, ho⟩
  | cons op rest ih =>
    intro s gh subs h hv hnb ho
    simp only [validRun, Bool.and_eq_true] at hv
    obtain ⟨hv1, hv2⟩ := hv
    obtain ⟨hnb1, hnb2⟩ := noBulk_cons op rest hnb
    obtain ⟨s1, ks1, gh1, subs1, hstep, hinv1, _, _⟩ := step_inv C hC s gh subs h op hv1
    simp only [hstep] at hv2
    have ho1 := step_cacheOrd C s s1 gh subs h op ks1 hstep hnb1 ho
    obtain ⟨s2, ks2, gh2, subs2, hrun, hinv2, ho2⟩ := ih s1 gh1 subs1 hinv1 hv2 hnb2 ho1
    exact ⟨s2, ks1 ++ ks2, gh2, subs2, by simp only [Sys.run, hstep, hrun], hinv2, ho2⟩

/-- `releaseID(c, id)` followed by `acquireID(c, v)` when the release does not
push the overflow sublist onto the global chain: the key returned has the id
released and the generation the release stored. -/
theorem release_acquire (C : Nat) (m : IDMap V) (c : Cache) (id : Nat) (v : V) (junk : Nat)
    (hl : liveB m.store_ id = true) (ho : CacheOrd C c) (hle : c.num_free_ids_ ≤ C)
    (hovlt : c.num_overflow_ids_ < C)
    (hnf : ¬ (c.num_free_ids_ = C ∧ c.num_overflow_ids_ + 1 = C)) :
    ∃ m1 c1 m2 c2, releaseID C m c id = some (m1, c1) ∧
      acquireID C m1 c1 v junk = some (⟨add32 (genAt m.store_ id) 1, id⟩, m2, c2) ∧
      m2.store_.length = m.store_.length ∧ m1.free_head_ = m.free_head_ := by
  have hidlt := lt_of_liveB hl
  have hnd : m.store_[id]? = some m.store_[id] := List.getElem?_eq_getElem hidlt
  have hgen : genAt m.store_ id = m.store_[id].gen := by simp [genAt, hnd]
  have hself : ∀ (f : FreeNode),
      (m.store_.set id ⟨add32 m.store_[id].gen 1, .freeNode f⟩)[id]? =
        some ⟨add32 m.store_[id].gen 1, .freeNode f⟩ :=
    fun f => List.getElem?_set_self hidlt
  by_cases hfree : c.num_free_ids_ < C
  · have hov0 : ¬ (c.num_overflow_ids_ > 0) := by
      intro hp
      have := ho hp
      omega
    refine ⟨⟨m.free_head_, m.store_.set id
        ⟨add32 m.store_[id].gen 1, .freeNode ⟨c.free_head_, 1⟩⟩⟩,
      ⟨id, c.num_free_ids_ + 1, c.overflow_head_, c.num_overflow_ids_⟩,
      ⟨m.free_head_, (m.store_.set id
        ⟨add32 m.store_[id].gen 1, .freeNode ⟨c.free_head_, 1⟩⟩).set id
          ⟨add32 m.store_[id].gen 1, .val v⟩⟩,
      ⟨c.free_head_, c.num_free_ids_ + 1 - 1, c.overflow_head_, c.num_overflow_ids_⟩,
      ?_, ?_, by simp, rfl⟩
    · unfold releaseID
      simp only [hnd]
      rw [if_pos hfree]
    · unfold acquireID
      simp only
      rw [if_neg hov0, if_pos (by omega : c.num_free_ids_ + 1 > 0),
        assignCachedID_unit _ id _ c.free_head_ v (hself _), hgen]
  · have hfl : ¬ (c.num_overflow_ids_ + 1 = C) := fun e => hnf ⟨by omega, e⟩
    refine ⟨⟨m.free_head_, m.store_.set id
        ⟨add32 m.store_[id].gen 1, .freeNode ⟨c.overflow_head_, 1⟩⟩⟩,
      ⟨c.free_head_, c.num_free_ids_, id, c.num_overflow_ids_ + 1⟩,
      ⟨m.free_head_, (m.store_.set id
        ⟨add32 m.store_[id].gen 1, .freeNode ⟨c.overflow_head_, 1⟩⟩).set id
          ⟨add32 m.store_[id].gen 1, .val v⟩⟩,
      ⟨c.free_head_, c.num_free_ids_, c.overflow_head_, c.num_overflow_ids_ + 1 - 1⟩,
      ?_, ?_, by simp, rfl⟩
    · unfold releaseID
      simp only [hnd]
      rw [if_neg hfree]
      simp only [if_pos hovlt, hfl, if_false]
    · unfold acquireID
      simp only
      rw [if_pos (by omega : c.num_overflow_ids_ + 1 > 0),
        assignCachedID_unit _ id _ c.overflow_head_ v (hself _), hgen]

/-- C16 (amended): recycling order. In every state reached from the
constructor (capacity a multiple of `C`, `2 ≤ C`) by valid `acquireID` and
`releaseID` calls (no `bulkRelease`), for every cache `c` and live id:
`releaseID(c, id)` returns and, unless the cache has a full primary sublist
and `C - 1` overflow ids (the release then pushes the overflow sublist onto
the global chain), it leaves the global free head as it is and the
`acquireID(c, v)` that follows returns the same id, with the generation of
the released slot plus one modulo `2^32` (exactly one greater when that
generation is below `2^32 - 1`), and does not expand the store. -/
theorem recycling_order (C cap n : Nat) (hC : 2 ≤ C) (hcap : cap % C = 0)
    (hsz : cap < noIdx) (s0 : Sys V) (ops : List (Op V))
    (h0 : Sys.new C cap n = some s0) (hv : validRun C s0 ops = true)
    (hnb : noBulk ops = true) :
    ∃ s ks, Sys.run C s0 ops = some (s, ks) ∧
      ∀ (ci : Nat) (c : Cache) (id : Nat) (v : V) (junk : Nat), s.caches[ci]? = some c →
        liveB s.map.store_ id = true →
        ¬ (c.num_free_ids_ = C ∧ c.num_overflow_ids_ + 1 = C) →
        ∃ m1 c1 K m2 c2, releaseID C s.map c id = some (m1, c1) ∧
          m1.free_head_ = s.map.free_head_ ∧
          acquireID C m1 c1 v junk = some (K, m2, c2) ∧
          K.id = id ∧ K.gen = (genAt s.map.store_ id + 1) % 2 ^ 32 ∧
          (genAt s.map.store_ id < 2 ^ 32 - 1 → K.gen = genAt s.map.store_ id + 1) ∧
          m2.store_.length = s.map.store_.length := by
  obtain ⟨s0', hnew, _, _, _, subs0, hinv0⟩ := @new_inv V C cap n hC hcap hsz
  rw [hnew] at h0
  have e : s0' = s0 := Option.some.inj h0
  rw [e] at hinv0 hnew
  have hord0 : ∀ c, c ∈ s0.caches → CacheOrd C c := by
    intro c hc
    have hs0 : s0.caches = List.replicate n Cache.new := by
      simp only [Sys.new] at hnew
      cases hm : (IDMap.new C cap : Option (IDMap V)) with
      | none => simp [hm] at hnew
      | some m0 =>
        simp only [hm, Option.some.injEq] at hnew
        rw [← hnew]
    rw [hs0] at hc
    rw [List.eq_of_mem_replicate hc]
    intro hp
    simp [Cache.new] at hp
  obtain ⟨s, ks, gh, subs, hrun, hinv, hord⟩ :=
    run_cacheOrd C hC ops s0 _ subs0 hinv0 hv hnb hord0
  refine ⟨s, ks, hrun, ?_⟩
  intro ci c id v junk hc hl hnf
  have hci : ci < gh.length := by rw [← hinv.caches_len]; exact lt_of_getElem?_some hc
  have hrep := hinv.caches ci c _ hc (List.getElem?_eq_getElem hci)
  obtain ⟨m1, c1, m2, c2, hrel, hacq, hlen, hhead⟩ :=
    release_acquire C s.map c id v junk hl (hord c (List.mem_iff_getElem?.2 ⟨ci, hc⟩))
      hrep.2.2.1 hrep.2.2.2.2.2 hnf
  refine ⟨m1, c1, _, m2, c2, hrel, hhead, hacq, rfl, rfl, ?_, hlen⟩
  intro hlt
  show add32 (genAt s.map.store_ id) 1 = genAt s.map.store_ id + 1
  unfold add32
  exact Nat.mod_eq_of_lt (by omega)

theorem recycling_order_witness :
    (Sys.new 4 8 1 : Option (Sys Nat)) = some exampleEightSys ∧
    validRun 4 exampleEightSys exampleEightOps = true ∧
    noBulk exampleEightOps = true ∧
    ∃ s ks, Sys.run 4 exampleEightSys exampleEightOps = some (s, ks) ∧
      ∀ (ci : Nat) (c : Cache) (id : Nat) (v : Nat) (junk : Nat), s.caches[ci]? = some c →
        liveB s.map.store_ id = true →
        ¬ (c.num_free_ids_ = 4 ∧ c.num_overflow_ids_ + 1 = 4) →
        ∃ m1 c1 K m2 c2, releaseID 4 s.map c id = some (m1, c1) ∧
          m1.free_head_ = s.map.free_head_ ∧
          acquireID 4 m1 c1 v junk = some (K, m2, c2) ∧
          K.id = id ∧ K.gen = (genAt s.map.store_ id + 1) % 2 ^ 32 ∧
          (genAt s.map.store_ id < 2 ^ 32 - 1 → K.gen = genAt s.map.store_ id + 1) ∧
          m2.store_.length = s.map.store_.length :=
  ⟨by decide, by decide, by decide,
    recycling_order 4 8 1 (by decide) (by decide) (by decide) exampleEightSys
      exampleEightOps (by decide) (by decide) (by decide)⟩

theorem relRounds_succ (count : Nat) : relRounds (count + 1) = relRound ++ relRounds count := by
  simp [relRounds, List.replicate_succ]

theorem relRound_step (n : Nat) :
    Sys.run 2 (relRoundState n) relRound =
      some (relRoundState (n + 1), [⟨n % 2 ^ 32, 0⟩]) ∧
    validRun 2 (relRoundState n) relRound = true := by
  constructor
  · simp [relRoundState, relRound, Sys.run, Sys.step, acquireID, assignCachedID, releaseID,
      noIdx, add32]
  · simp [relRoundState, relRound, validRun, validOp, liveB, Sys.step, acquireID,
      assignCachedID, releaseID, noIdx, add32]

theorem relRounds_run : ∀ count n,
    ∃ ks, Sys.run 2 (relRoundState n) (relRounds count) =
        some (relRoundState (n + count), ks) ∧
      validRun 2 (relRoundState n) (relRounds count) = true := by
  intro count
  induction count with
  | zero => intro n; exact ⟨[], rfl, rfl⟩
  | succ count ih =>
    intro n
    obtain ⟨h1, h2⟩ := relRound_step n
    obtain ⟨ks, h3, h4⟩ := ih (n + 1)
    rw [relRounds_succ]
    refine ⟨[⟨n % 2 ^ 32, 0⟩] ++ ks, ?_, validRun_append 2 _ _ _ _ _ h1 h2 h4⟩
    have := run_append 2 _ _ _ _ _ _ _ h1 h3
    rw [this]
    congr 3
    omega

theorem noBulk_append (A B : List (Op V)) (hA : noBulk A = true) (hB : noBulk B = true) :
    noBulk (A ++ B) = true := by
  induction A with
  | nil => simpa using hB
  | cons op rest ih =>
    cases op with
    | bulk ci keys past => simp [noBulk] at hA
    | acquire ci v junk =>
      simp only [noBulk, List.cons_append] at hA ⊢
      exact ih hA
    | release ci id =>
      simp only [noBulk, List.cons_append] at hA ⊢
      exact ih hA

theorem noBulk_relRounds (count : Nat) : noBulk (relRounds count) = true := by
  induction count with
  | zero => rfl
  | succ count ih =>
    rw [relRounds_succ]
    exact noBulk_append _ _ rfl ih

theorem relRound_acquire (n : Nat) :
    Sys.run 2 (relRoundState n) [.acquire 0 () 0] =
      some (relHeldState n, [⟨n % 2 ^ 32, 0⟩]) ∧
    validRun 2 (relRoundState n) [.acquire 0 () 0] = true := by
  constructor
  · simp [relRoundState, relHeldState, Sys.run, Sys.step, acquireID, assignCachedID, noIdx]
  · simp [relRoundState, validRun, validOp, Sys.step, acquireID, assignCachedID, noIdx]

theorem relHeld_release_acquire (n : Nat) :
    Sys.run 2 (relHeldState n) [.release 0 0, .acquire 0 () 0] =
      some (relHeldState (n + 1), [⟨(n + 1) % 2 ^ 32, 0⟩]) ∧
    validRun 2 (relHeldState n) [.release 0 0, .acquire 0 () 0] = true := by
  constructor
  · simp [relHeldState, Sys.run, Sys.step, acquireID, assignCachedID, releaseID, noIdx, add32]
  · simp [relHeldState, validRun, validOp, liveB, Sys.step, acquireID, assignCachedID,
      releaseID, noIdx, add32]

/-- C16 as stated fails when the generation wraps. With `C = 2`, capacity 2
and one cache, after `2^32 - 1` rounds of `acquireID` and `releaseID` of the
id 0 and one more `acquireID` (no `bulkRelease`, every call valid), the
handle held is `(gen 2^32 - 1, id 0)`; `releaseID` of it does not push the
overflow sublist onto the global chain (the primary sublist of the cache
holds one id), and the `acquireID` that follows returns the same id with
generation 0, not one greater. -/
theorem recycled_generation_wraps :
    ∃ (s s' : Sys Unit) (ks : List Key),
      (Sys.new 2 2 1 : Option (Sys Unit)) = some (bulkRoundState 0) ∧
      noBulk (relRounds (2 ^ 32 - 1) ++ [.acquire 0 () 0]) = true ∧
      validRun 2 (bulkRoundState 0) (relRounds (2 ^ 32 - 1) ++ [.acquire 0 () 0]) = true ∧
      Sys.run 2 (bulkRoundState 0) (relRounds (2 ^ 32 - 1) ++ [.acquire 0 () 0]) =
        some (s, ks ++ [⟨2 ^ 32 - 1, 0⟩]) ∧
      s.caches = [⟨1, 1, noIdx, 0⟩] ∧
      held s.map.store_ ⟨2 ^ 32 - 1, 0⟩ = true ∧
      validRun 2 s [.release 0 0, .acquire 0 () 0] = true ∧
      Sys.run 2 s [.release 0 0, .acquire 0 () 0] = some (s', [⟨0, 0⟩]) := by
  have hN : (2 : Nat) ^ 32 - 1 = (2 ^ 32 - 2) + 1 := by norm_num
  have hfirst : Sys.run 2 (bulkRoundState 0) relRound = some (relRoundState 1, [⟨0, 0⟩]) ∧
      validRun 2 (bulkRoundState 0) relRound = true := ⟨by decide, by decide⟩
  obtain ⟨ks, h1, h2⟩ := relRounds_run (2 ^ 32 - 2) 1
  have hst : relRoundState (1 + (2 ^ 32 - 2)) = relRoundState (2 ^ 32 - 1) := by
    congr 1
  rw [hst] at h1
  obtain ⟨h3, h4⟩ := relRound_acquire (2 ^ 32 - 1)
  obtain ⟨h5, h6⟩ := relHeld_release_acquire (2 ^ 32 - 1)
  have hk1 : ((2 : Nat) ^ 32 - 1) % 2 ^ 32 = 2 ^ 32 - 1 := by norm_num
  have hk2 : ((2 : Nat) ^ 32 - 1 + 1) % 2 ^ 32 = 0 := by norm_num
  rw [hk1] at h3
  rw [hk2] at h5
  have hrun1 := run_append 2 _ _ _ _ _ _ _ hfirst.1 h1
  have hval1 := validRun_append 2 _ _ _ _ _ hfirst.1 hfirst.2 h2
  rw [← relRounds_succ, ← hN] at hrun1 hval1
  refine ⟨relHeldState (2 ^ 32 - 1), relHeldState (2 ^ 32 - 1 + 1), [⟨0, 0⟩] ++ ks,
    by decide, noBulk_append _ _ (noBulk_relRounds _) rfl,
    validRun_append 2 _ _ _ _ _ hrun1 hval1 h4, run_append 2 _ _ _ _ _ _ _ hrun1 h3,
    rfl, ?_, h6, h5⟩
  simp [held, relHeldState, liveB, genAt]

end IDMap

/-! ## ID map: the key reads of `bulkRelease` -/

namespace IDMap

/-- C36. `bulkRelease` with `ids_per_cache_ = 2` on the two keys with ids 0
and 1: the inner loop of the full chunk calls `linkToNext(0)` and
`linkToNext(1)`, and `linkToNext(1)` reads `keys[2]`, the element after the
array: whatever key `past` lies there, its id is what the loop stores as
`subNext` of slot 1 (the statement after the loop then overwrites it with
`~0u`, so the final store does not show it). -/
theorem bulkRelease_reads_past_keys :
    ∀ past : Key,
      linkToNext [⟨0, 0⟩, ⟨0, 1⟩] past [⟨0, Slot.val 7⟩, ⟨0, Slot.val 8⟩] 1 =
        some [⟨0, Slot.val 7⟩, ⟨1, Slot.freeNode ⟨past.id, 1⟩⟩] ∧
      linkRange [⟨0, 0⟩, ⟨0, 1⟩] past 2 0 [⟨0, Slot.val 7⟩, ⟨0, Slot.val 8⟩] =
        some [⟨1, Slot.freeNode ⟨1, 1⟩⟩, ⟨1, Slot.freeNode ⟨past.id, 1⟩⟩] ∧
      bulkRelease 2 ⟨⟨0, noIdx⟩, [⟨0, Slot.val 7⟩, ⟨0, Slot.val 8⟩]⟩ Cache.new
          [⟨0, 0⟩, ⟨0, 1⟩] past =
        some (⟨⟨1, 0⟩, [⟨1, Slot.freeNode ⟨1, noIdx⟩⟩, ⟨2, Slot.freeNode ⟨noIdx, 1⟩⟩]⟩,
          Cache.new) := by
  intro past
  refine ⟨?_, ?_, ?_⟩
  · simp [linkToNext, keyAt, add32]
  · simp [linkRange, linkToNext, keyAt, add32]
  · simp [bulkRelease, chunkLoop, bulkRemainder, linkRange, linkToNext, keyAt, add32, bumpFree,
      linkTail, setGlobalNext, noIdx, Cache.new]

end IDMap

/-! ## Generational ID map: source order of `acquireID`, placement of
`releaseID`, cache counts -/

namespace IDMap

variable {V : Type}

/-- The walk along a primary sublist returns its blocks. -/
theorem walkBlocks_primSeg {store : List (Node V)} (hsz : store.length ≤ noIdx) :
    ∀ (bl : List (Nat × Nat)) (h fuel : Nat), PrimSeg store h bl → bl.length < fuel →
      walkBlocks store fuel h = some bl := by
  intro bl
  induction bl with
  | nil =>
    intro h fuel hs hf
    obtain ⟨f, rfl⟩ : ∃ f, fuel = f + 1 := ⟨fuel - 1, by simp at hf; omega⟩
    have h0 : h = noIdx := hs
    simp [walkBlocks, h0]
  | cons b rest ih =>
    intro h fuel hs hf
    obtain ⟨f, rfl⟩ : ∃ f, fuel = f + 1 := ⟨fuel - 1, by simp at hf; omega⟩
    obtain ⟨rfl, _, g, sn, hn, _, hr⟩ := hs
    have hne : b.1 ≠ noIdx := by
      have := lt_of_getElem?_some hn
      omega
    simp only [walkBlocks, if_neg hne, freeAt_of_getElem? hn]
    rw [ih sn f hr (by simp at hf; omega)]

/-- In a state satisfying the invariant, following the links finds the
contents the invariant names. -/
theorem walked_of_linv {C : Nat} {m : IDMap V} {c : Cache} {g : CacheGhost}
    {subs : List (List Nat)} {O : List Nat} (h : LInv C m c g subs O) :
    Walked C m c g subs := by
  have hsz : m.store_.length ≤ noIdx := Nat.le_of_lt h.size
  obtain ⟨hprim, _, _, hseg, _, _⟩ := h.rep
  exact ⟨fun fuel hf => walkBlocks_primSeg hsz _ _ fuel hprim hf,
    fun fuel hf => walkSub_seg hsz _ _ fuel hseg hf,
    fun fuelSub fuel hfs hf => walkChain_chain hsz subs _ fuelSub fuel h.chain hfs hf⟩

/-- `acquireID` in a state satisfying the invariant: it returns, its result
satisfies the guarantees of `AcquirePost`, and the id is taken as
`AcquireFrom` says. -/
theorem acquireID_from (C : Nat) (hC : 2 ≤ C) (m : IDMap V) (c : Cache) (g : CacheGhost)
    (subs : List (List Nat)) (O : List Nat) (v : V) (junk : Nat)
    (h : LInv C m c g subs O) (hsize : m.store_.length + C < noIdx) :
    ∃ k m' c' g' subs', acquireID C m c v junk = some (k, m', c') ∧
      AcquirePost C m g subs O v k m' c' g' subs' ∧
      AcquireFrom C m m' c c' g g' subs subs' k ∧ Materialises m m' := by
  by_cases hov : c.num_overflow_ids_ > 0
  · obtain ⟨k, m', c', g', subs', h1, h2, _, h3, h4⟩ :=
      acquireID_overflow_from C m c g subs O v junk h hov
    exact ⟨k, m', c', g', subs', h1, h2, h3, h4⟩
  · by_cases hpr : c.num_free_ids_ > 0
    · obtain ⟨k, m', c', g', subs', h1, h2, _, h3, h4⟩ :=
        acquireID_primary_from C m c g subs O v junk h (by omega) hpr
      exact ⟨k, m', c', g', subs', h1, h2, h3, h4⟩
    · by_cases hhd : m.free_head_.head = noIdx
      · exact acquireID_expand_from C hC m c g subs O v junk h hsize (by omega) (by omega) hhd
      · obtain ⟨k, m', c', g', subs', h1, h2, _, h3, h4⟩ :=
          acquireID_global_from C m c g subs O v junk h (by omega) (by omega) hhd
        exact ⟨k, m', c', g', subs', h1, h2, h3, h4⟩

theorem length_blockIds (bl : List (Nat × Nat)) :
    (blockIds bl).length = (bl.map (fun b => b.2)).sum := by
  induction bl with
  | nil => rfl
  | cons b rest ih => simp [blockIds_cons, ih]

/-- The counters of a cache against its contents. -/
theorem cacheRep_counts {C : Nat} {store : List (Node V)} {c : Cache} {g : CacheGhost}
    (h : CacheRep C store c g) :
    (g.blocks.map (fun b => b.2)).sum = c.num_free_ids_ ∧
    g.overflow.length = c.num_overflow_ids_ ∧
    (0 < c.num_free_ids_ ↔ g.blocks ≠ []) ∧ (0 < c.num_overflow_ids_ ↔ g.overflow ≠ []) := by
  obtain ⟨hprim, hcount, _, _, hlen, _⟩ := h
  refine ⟨by rw [← length_blockIds]; exact hcount, hlen, ?_, ?_⟩
  · constructor
    · intro hp hb
      rw [hb] at hcount
      simp [blockIds] at hcount
      omega
    · intro hb
      by_contra hc
      exact hb (blocks_nil_of_length hprim (by omega))
  · rw [← hlen]
    exact ⟨fun hp => List.ne_nil_of_length_pos hp, fun hb => List.length_pos.2 hb⟩

theorem chain_nil_iff {C : Nat} {store : List (Node V)} {h : Nat} {subs : List (List Nat)}
    (hc : Chain C store h subs) : h = noIdx ↔ subs = [] := by
  cases subs with
  | nil => exact ⟨fun _ => rfl, fun _ => hc⟩
  | cons s rest => exact ⟨fun e => absurd e hc.1, fun e => by cases e⟩

/-- C31. Acquire source order. In every state reached from the constructor
(capacity a multiple of `C`, `2 ≤ C`) by valid calls, with the cache's
primary blocks `g.blocks`, overflow ids `g.overflow` and the global chain
`subs` as found by following the links (the counters being positive exactly
when the lists are non-empty, every chain sublist having `C` ids),
`acquireID` with room to expand below `~0u` returns a key whose slot then
holds the value, and takes its id as `AcquireFrom` says: from the head of the
overflow sublist when that is non-empty; otherwise from the front of the
primary sublist when that is non-empty; otherwise, popping the first sublist
of the global chain, it returns that sublist's head and leaves its other
`C - 1` ids as the primary sublist; and only when the global chain is empty as
well it expands the store by exactly `C` slots, returns the first new slot
with generation 0 and leaves the other `C - 1` new slots as the primary
sublist. The lists after the call are again what following the links finds. -/
theorem acquire_source_order (C cap n : Nat) (hC : 2 ≤ C) (hcap : cap % C = 0)
    (hsz : cap < noIdx) (s0 : Sys V) (ops : List (Op V))
    (h0 : Sys.new C cap n = some s0) (hv : validRun C s0 ops = true) :
    ∃ s ks, Sys.run C s0 ops = some (s, ks) ∧
      ∀ (ci : Nat) (c : Cache) (v : V) (junk : Nat), s.caches[ci]? = some c →
        s.map.store_.length + C < noIdx →
        ∃ g subs k m' c' g' subs', Walked C s.map c g subs ∧
          (0 < c.num_overflow_ids_ ↔ g.overflow ≠ []) ∧
          (0 < c.num_free_ids_ ↔ g.blocks ≠ []) ∧
          (s.map.free_head_.head = noIdx ↔ subs = []) ∧
          (∀ sub, sub ∈ subs → sub.length = C) ∧
          acquireID C s.map c v junk = some (k, m', c') ∧
          m'.store_[k.id]? = some ⟨k.gen, .val v⟩ ∧
          Walked C m' c' g' subs' ∧
          AcquireFrom C s.map m' c c' g g' subs subs' k := by
  obtain ⟨s, ks, gh, subs, hrun, hinv⟩ := reach_inv C cap n hC hcap hsz s0 ops h0 hv
  refine ⟨s, ks, hrun, ?_⟩
  intro ci c v junk hc hroom
  have hci : ci < gh.length := by rw [← hinv.caches_len]; exact lt_of_getElem?_some hc
  have hg : gh[ci]? = some gh[ci] := List.getElem?_eq_getElem hci
  have hl := linv_of_inv hinv ci c _ hc hg
  obtain ⟨k, m', c', g', subs', hacq, hpost, hfrom, _⟩ :=
    acquireID_from C hC s.map c _ subs _ v junk hl hroom
  obtain ⟨_, _, h3, h4⟩ := cacheRep_counts hl.rep
  exact ⟨gh[ci], subs, k, m', c', g', subs', walked_of_linv hl, h4, h3, chain_nil_iff hl.chain,
    chain_lengths subs _ hl.chain, hacq, hpost.stored, walked_of_linv hpost.linv, hfrom⟩

theorem acquire_source_order_witness :
    (Sys.new 2 4 1 : Option (Sys Nat)) = some exampleChainSys ∧
    validRun 2 exampleChainSys exampleChainOps = true ∧
    ∃ s ks, Sys.run 2 exampleChainSys exampleChainOps = some (s, ks) ∧
      ∀ (ci : Nat) (c : Cache) (v : Nat) (junk : Nat), s.caches[ci]? = some c →
        s.map.store_.length + 2 < noIdx →
        ∃ g subs k m' c' g' subs', Walked 2 s.map c g subs ∧
          (0 < c.num_overflow_ids_ ↔ g.overflow ≠ []) ∧
          (0 < c.num_free_ids_ ↔ g.blocks ≠ []) ∧
          (s.map.free_head_.head = noIdx ↔ subs = []) ∧
          (∀ sub, sub ∈ subs → sub.length = 2) ∧
          acquireID 2 s.map c v junk = some (k, m', c') ∧
          m'.store_[k.id]? = some ⟨k.gen, .val v⟩ ∧
          Walked 2 m' c' g' subs' ∧
          AcquireFrom 2 s.map m' c c' g g' subs subs' k :=
  ⟨by decide, by decide,
    acquire_source_order 2 4 1 (by decide) (by decide) (by decide) exampleChainSys
      exampleChainOps (by decide) (by decide)⟩

/-- C32. Release placement. In every state reached from the constructor
(capacity a multiple of `C`, `2 ≤ C`) by valid calls, with the cache's
primary blocks `g.blocks` (their counts adding up to `num_free_ids_`),
overflow ids `g.overflow` and the global chain `subs` as found by following
the links, `releaseID(cache, id)` of a live id returns and places the id as
`ReleaseTo` says: as a new first block of the primary sublist when the
primary holds fewer than `C` ids; otherwise at the head of the overflow
sublist; and when the overflow thereby has exactly `C` ids, that whole
sublist becomes the first sublist of the global chain, its head holding the
previous global head in `globalNext`, the global head generation one greater
(modulo `2^32`) and the overflow empty. The lists after the call are again
what following the links finds, so the other ids of the primary, the overflow
and the global chain stay where they were, in their order. -/
theorem release_placement (C cap n : Nat) (hC : 2 ≤ C) (hcap : cap % C = 0)
    (hsz : cap < noIdx) (s0 : Sys V) (ops : List (Op V))
    (h0 : Sys.new C cap n = some s0) (hv : validRun C s0 ops = true) :
    ∃ s ks, Sys.run C s0 ops = some (s, ks) ∧
      ∀ (ci : Nat) (c : Cache) (id : Nat), s.caches[ci]? = some c →
        liveB s.map.store_ id = true →
        ∃ g subs m' c' g' subs', Walked C s.map c g subs ∧
          (g.blocks.map (fun b => b.2)).sum = c.num_free_ids_ ∧
          g.overflow.length = c.num_overflow_ids_ ∧
          releaseID C s.map c id = some (m', c') ∧
          Walked C m' c' g' subs' ∧
          ReleaseTo C s.map m' c c' g g' subs subs' id := by
  obtain ⟨s, ks, gh, subs, hrun, hinv⟩ := reach_inv C cap n hC hcap hsz s0 ops h0 hv
  refine ⟨s, ks, hrun, ?_⟩
  intro ci c id hc hl
  have hci : ci < gh.length := by rw [← hinv.caches_len]; exact lt_of_getElem?_some hc
  have hg : gh[ci]? = some gh[ci] := List.getElem?_eq_getElem hci
  have hli := linv_of_inv hinv ci c _ hc hg
  obtain ⟨m', c', g', subs', hrel, hpost, hto⟩ := releaseID_linv_to C s.map c _ subs _ id hli hl
  obtain ⟨h1, h2, _, _⟩ := cacheRep_counts hli.rep
  exact ⟨gh[ci], subs, m', c', g', subs', walked_of_linv hli, h1, h2, hrel,
    walked_of_linv hpost.linv, hto⟩

theorem release_placement_witness :
    (Sys.new 4 8 1 : Option (Sys Nat)) = some exampleEightSys ∧
    validRun 4 exampleEightSys exampleEightOps = true ∧
    ∃ s ks, Sys.run 4 exampleEightSys exampleEightOps = some (s, ks) ∧
      ∀ (ci : Nat) (c : Cache) (id : Nat), s.caches[ci]? = some c →
        liveB s.map.store_ id = true →
        ∃ g subs m' c' g' subs', Walked 4 s.map c g subs ∧
          (g.blocks.map (fun b => b.2)).sum = c.num_free_ids_ ∧
          g.overflow.length = c.num_overflow_ids_ ∧
          releaseID 4 s.map c id = some (m', c') ∧
          Walked 4 m' c' g' subs' ∧
          ReleaseTo 4 s.map m' c c' g g' subs subs' id :=
  ⟨by decide, by decide,
    release_placement 4 8 1 (by decide) (by decide) (by decide) exampleEightSys
      exampleEightOps (by decide) (by decide)⟩

/-- The caches after the constructor hold nothing. -/
theorem new_cacheOrd (C cap n : Nat) (s0 : Sys V) (h0 : Sys.new C cap n = some s0) :
    ∀ c, c ∈ s0.caches → CacheOrd C c := by
  intro c hc
  have hs0 : s0.caches = List.replicate n Cache.new := by
    simp only [Sys.new] at h0
    cases hm : (IDMap.new C cap : Option (IDMap V)) with
    | none => simp [hm] at h0
    | some m0 =>
      simp only [hm, Option.some.injEq] at h0
      rw [← h0]
  rw [hs0] at hc
  rw [List.eq_of_mem_replicate hc]
  intro hp
  simp [Cache.new] at hp

/-- C34. Cache-count invariant. After the constructor (capacity a multiple of
`C`, `2 ≤ C`) and after every sequence of valid `acquireID`, `releaseID` and
`bulkRelease` calls, for each cache: following `subNext` from `free_head_`
until `~0u` finds the blocks of the primary sublist, and `num_free_ids_` is
the sum of their counts (a node with count `k` standing for `k` contiguous
ids); following `subNext` from `overflow_head_` finds the overflow sublist,
and `num_overflow_ids_` is its length; `num_free_ids_ ≤ C` and
`num_overflow_ids_ < C`; and when the sequence has no `bulkRelease`, a
non-empty overflow implies `num_free_ids_ = C`. -/
theorem cache_count_invariant (C cap n : Nat) (hC : 2 ≤ C) (hcap : cap % C = 0)
    (hsz : cap < noIdx) (s0 : Sys V) (ops : List (Op V))
    (h0 : Sys.new C cap n = some s0) (hv : validRun C s0 ops = true) :
    ∃ s ks, Sys.run C s0 ops = some (s, ks) ∧
      ∀ (ci : Nat) (c : Cache), s.caches[ci]? = some c →
        ∃ blocks overflow,
          (∀ fuel, blocks.length < fuel →
            walkBlocks s.map.store_ fuel c.free_head_ = some blocks) ∧
          (blocks.map (fun b => b.2)).sum = c.num_free_ids_ ∧
          (∀ fuel, overflow.length < fuel →
            walkSub s.map.store_ fuel c.overflow_head_ = some overflow) ∧
          overflow.length = c.num_overflow_ids_ ∧
          c.num_free_ids_ ≤ C ∧ c.num_overflow_ids_ < C ∧
          (noBulk ops = true → 0 < c.num_overflow_ids_ → c.num_free_ids_ = C) := by
  obtain ⟨s, ks, gh, subs, hrun, hinv⟩ := reach_inv C cap n hC hcap hsz s0 ops h0 hv
  refine ⟨s, ks, hrun, ?_⟩
  intro ci c hc
  have hci : ci < gh.length := by rw [← hinv.caches_len]; exact lt_of_getElem?_some hc
  have hg : gh[ci]? = some gh[ci] := List.getElem?_eq_getElem hci
  have hl := linv_of_inv hinv ci c _ hc hg
  obtain ⟨w1, w2, _⟩ := walked_of_linv hl
  obtain ⟨h1, h2, _, _⟩ := cacheRep_counts hl.rep
  refine ⟨gh[ci].blocks, gh[ci].overflow, w1, h1, w2, h2, hl.rep.2.2.1, hl.rep.2.2.2.2.2, ?_⟩
  intro hnb
  obtain ⟨s0', hnew, _, _, _, subs0, hinv0⟩ := @new_inv V C cap n hC hcap hsz
  rw [hnew] at h0
  have e : s0' = s0 := Option.some.inj h0
  rw [e] at hinv0 hnew
  obtain ⟨s', ks', _, _, hrun', _, hord⟩ :=
    run_cacheOrd C hC ops s0 _ subs0 hinv0 hv hnb (new_cacheOrd C cap n s0 hnew)
  rw [hrun] at hrun'
  have es : s = s' := by
    have := Option.some.inj hrun'
    exact congrArg Prod.fst this
  rw [← es] at hord
  exact hord c (List.mem_iff_getElem?.2 ⟨ci, hc⟩)

theorem cache_count_invariant_witness :
    (Sys.new 4 8 1 : Option (Sys Nat)) = some exampleEightSys ∧
    validRun 4 exampleEightSys exampleEightOps = true ∧
    ∃ s ks, Sys.run 4 exampleEightSys exampleEightOps = some (s, ks) ∧
      ∀ (ci : Nat) (c : Cache), s.caches[ci]? = some c →
        ∃ blocks overflow,
          (∀ fuel, blocks.length < fuel →
            walkBlocks s.map.store_ fuel c.free_head_ = some blocks) ∧
          (blocks.map (fun b => b.2)).sum = c.num_free_ids_ ∧
          (∀ fuel, overflow.length < fuel →
            walkSub s.map.store_ fuel c.overflow_head_ = some overflow) ∧
          overflow.length = c.num_overflow_ids_ ∧
          c.num_free_ids_ ≤ 4 ∧ c.num_overflow_ids_ < 4 ∧
          (noBulk exampleEightOps = true → 0 < c.num_overflow_ids_ → c.num_free_ids_ = 4) :=
  ⟨by decide, by decide,
    cache_count_invariant 4 8 1 (by decide) (by decide) (by decide) exampleEightSys
      exampleEightOps (by decide) (by decide)⟩

end IDMap

namespace IDMap

theorem flushRounds_succ (count : Nat) :
    flushRounds (count + 1) = flushRound ++ flushRounds count := by
  simp [flushRounds, List.replicate_succ]

theorem flushRound_step (r : Nat) :
    ∃ ks, Sys.run 2 (flushRoundState r) flushRound = some (flushRoundState (r + 1), ks) ∧
    validRun 2 (flushRoundState r) flushRound = true := by
  refine ⟨[⟨(r + 1) % 2 ^ 32, 1⟩, ⟨(r + 1) % 2 ^ 32, 0⟩, ⟨(r + 1) % 2 ^ 32, 3⟩,
    ⟨(r + 1) % 2 ^ 32, 2⟩], ?_, ?_⟩
  · simp [flushRoundState, flushRound, Sys.run, Sys.step, acquireID, assignCachedID, releaseID,
      noIdx, add32]
    omega
  · simp [flushRoundState, flushRound, validRun, validOp, liveB, Sys.step, acquireID,
      assignCachedID, releaseID, noIdx, add32]

theorem flushRounds_run : ∀ count r,
    ∃ ks, Sys.run 2 (flushRoundState r) (flushRounds count) =
        some (flushRoundState (r + count), ks) ∧
      validRun 2 (flushRoundState r) (flushRounds count) = true := by
  intro count
  induction count with
  | zero => intro r; exact ⟨[], rfl, rfl⟩
  | succ count ih =>
    intro r
    obtain ⟨ks1, h1, h2⟩ := flushRound_step r
    obtain ⟨ks, h3, h4⟩ := ih (r + 1)
    rw [flushRounds_succ]
    refine ⟨ks1 ++ ks, ?_, validRun_append 2 _ _ _ _ _ h1 h2 h4⟩
    have := run_append 2 _ _ _ _ _ _ _ h1 h3
    have e : r + 1 + count = r + (count + 1) := by omega
    rw [this, e]

theorem flushRound_mid_run (r : Nat) :
    Sys.run 2 (flushRoundState r) [.release 0 0, .release 0 1, .release 0 2] =
      some (flushMidState r, []) := by
  simp [flushRoundState, flushMidState, Sys.run, Sys.step, releaseID, noIdx, add32]

theorem flushRound_mid_valid (r : Nat) :
    validRun 2 (flushRoundState r) [.release 0 0, .release 0 1, .release 0 2] = true := by
  simp [flushRoundState, validRun, validOp, liveB, Sys.step, releaseID, noIdx, add32]

theorem flushMid_release :
    releaseID 2 (flushMidState (2 ^ 31 - 2)).map ⟨1, 2, 2, 1⟩ 3 =
      some (⟨⟨0, 3⟩, [⟨2147483647, .freeNode ⟨noIdx, 1⟩⟩, ⟨2147483647, .freeNode ⟨0, 1⟩⟩,
        ⟨2147483647, .freeNode ⟨noIdx, 1⟩⟩, ⟨2147483647, .freeNode ⟨2, noIdx⟩⟩,
        ⟨0, .val ()⟩, ⟨0, .val ()⟩]⟩, ⟨1, 2, noIdx, 0⟩) := by
  decide

/-- C32 as stated fails when the generation of the global free head wraps.
With `C = 2`, capacity 6 and one cache: six `acquireID` calls take all ids,
then `2^31 - 2` rounds of { `releaseID` of the ids 0, 1, 2, 3, four
`acquireID` calls } and `releaseID` of the ids 0, 1, 2 (every call valid).
The global free head then has generation `2^32 - 1`, the primary sublist of
the cache is full and its overflow sublist holds one id. `releaseID` of the
live id 3 puts it at the head of the overflow sublist, which reaches 2 ids
and is pushed onto the global chain, and the generation of the global free
head is then 0, not one greater. -/
theorem global_head_generation_wraps :
    ∃ (s : Sys Unit) (ks : List Key) (m' : IDMap Unit) (c' : Cache),
      (Sys.new 2 6 1 : Option (Sys Unit)) =
        some ⟨⟨⟨0, 0⟩, (List.range 6).map (initNode 2 6)⟩, [Cache.new]⟩ ∧
      validRun 2 (⟨⟨⟨0, 0⟩, (List.range 6).map (initNode 2 6)⟩, [Cache.new]⟩ : Sys Unit)
        (List.replicate 6 (.acquire 0 () 0) ++ flushRounds (2 ^ 31 - 2) ++
          [.release 0 0, .release 0 1, .release 0 2]) = true ∧
      Sys.run 2 (⟨⟨⟨0, 0⟩, (List.range 6).map (initNode 2 6)⟩, [Cache.new]⟩ : Sys Unit)
        (List.replicate 6 (.acquire 0 () 0) ++ flushRounds (2 ^ 31 - 2) ++
          [.release 0 0, .release 0 1, .release 0 2]) = some (s, ks) ∧
      s.caches = [⟨1, 2, 2, 1⟩] ∧ s.map.free_head_ = ⟨2 ^ 32 - 1, noIdx⟩ ∧
      liveB s.map.store_ 3 = true ∧
      releaseID 2 s.map ⟨1, 2, 2, 1⟩ 3 = some (m', c') ∧
      m'.free_head_ = ⟨0, 3⟩ ∧ c' = ⟨1, 2, noIdx, 0⟩ ∧
      freeAt m'.store_ 3 = some ⟨2, noIdx⟩ := by
  have hinit : Sys.run 2 (⟨⟨⟨0, 0⟩, (List.range 6).map (initNode 2 6)⟩, [Cache.new]⟩ : Sys Unit)
        (List.replicate 6 (.acquire 0 () 0)) =
        some (flushRoundState 0, [⟨0, 0⟩, ⟨0, 1⟩, ⟨0, 2⟩, ⟨0, 3⟩, ⟨0, 4⟩, ⟨0, 5⟩]) ∧
      validRun 2 (⟨⟨⟨0, 0⟩, (List.range 6).map (initNode 2 6)⟩, [Cache.new]⟩ : Sys Unit)
        (List.replicate 6 (.acquire 0 () 0)) = true := ⟨by decide, by decide⟩
  obtain ⟨ks, h1, h2⟩ := flushRounds_run (2 ^ 31 - 2) 0
  rw [Nat.zero_add] at h1
  have h3 := flushRound_mid_run (2 ^ 31 - 2)
  have h4 := flushRound_mid_valid (2 ^ 31 - 2)
  have hrun1 := run_append 2 _ _ _ _ _ _ _ hinit.1 h1
  have hval1 := validRun_append 2 _ _ _ _ _ hinit.1 hinit.2 h2
  have hrun2 := run_append 2 _ _ _ _ _ _ _ hrun1 h3
  have hval2 := validRun_append 2 _ _ _ _ _ hrun1 hval1 h4
  exact ⟨flushMidState (2 ^ 31 - 2), _, _, _, by decide, hval2, hrun2, rfl, by decide,
    by decide, flushMid_release, rfl, rfl, by decide⟩

end IDMap

/-! ## Generational ID map: acquiring from a fresh map -/

namespace IDMap

variable {V : Type}

theorem range'_eq_cons {n L a : Nat} {rest : List Nat} (h : List.range' n L = a :: rest) :
    1 ≤ L ∧ a = n ∧ rest = List.range' (n + 1) (L - 1) := by
  cases L with
  | zero => simp at h
  | succ L =>
    rw [List.range'_succ] at h
    simp only [List.cons.injEq] at h
    exact ⟨by omega, h.1.symm, by simpa using h.2.symm⟩

/-- What `acquireID` does to the generations stored below the size of the
store: a slot that holds a node keeps its generation; a slot of uninitialised
memory stays as it is or gets generation 0. -/
theorem acquireID_gen {C : Nat} {m m' : IDMap V} {c c' : Cache} {g g' : CacheGhost}
    {subs subs' : List (List Nat)} {O : List Nat} {v : V} {k : Key}
    (hpost : AcquirePost C m g subs O v k m' c' g' subs')
    (hfrom : AcquireFrom C m m' c c' g g' subs subs' k) (hmat : Materialises m m') :
    ∀ i, i < m.store_.length →
      (∃ g0, m.store_[i]? = some ⟨g0, .uninit⟩ ∧
        (m'.store_[i]? = some ⟨g0, .uninit⟩ ∨ genAt m'.store_ i = 0)) ∨
      genAt m'.store_ i = genAt m.store_ i := by
  intro i hi
  by_cases hu : ∃ g0, m.store_[i]? = some ⟨g0, .uninit⟩
  · obtain ⟨g0, hg0⟩ := hu
    left
    refine ⟨g0, hg0, ?_⟩
    rcases hmat.1 i g0 hg0 with h | h
    · exact Or.inl h
    · exact Or.inr h.1
  · right
    by_cases hik : i = k.id
    · have hst : genAt m'.store_ k.id = k.gen := by simp [genAt, hpost.stored]
      rw [hik, hst]
      rcases hfrom with h | h | h | h
      · exact h.2.2.2.2.2.2.1
      · exact h.2.2.2.2.2.2.2.1
      · exact h.2.2.2.2.2.2.1
      · obtain ⟨_, _, _, hk, _⟩ := h
        rw [hk] at hik
        simp only at hik
        omega
    · rcases hpost.gen_kept i hi hik with h | h
      · exact absurd h hu
      · exact h

/-- The map after its constructor and a cache after its own, seen from that
cache. -/
theorem new_fresh (C cap : Nat) (hC : 2 ≤ C) (hcap : cap % C = 0) (hsz : cap < noIdx)
    (m0 : IDMap V) (h0 : IDMap.new C cap = some m0) : FreshAfter C cap 0 m0 Cache.new := by
  have hC0 : ¬ C = 0 := by omega
  have hdiv : cap / C * C = cap := Nat.div_mul_cancel (Nat.dvd_of_mod_eq_zero hcap)
  have hhead : (if cap > 0 then 0 else noIdx) = (if cap / C = 0 then noIdx else 0) := by
    by_cases h0 : cap = 0
    · subst h0; simp
    · have : cap / C ≠ 0 := by
        intro e; rw [e] at hdiv; omega
      rw [if_pos (by omega), if_neg this]
  have hflat : ((List.range' 0 (cap / C) C).map (fun b => List.range' b C)).flatten =
      List.range' 0 cap := by
    rw [flatten_chunks, hdiv]
  have hm : m0 = ⟨⟨0, if cap > 0 then 0 else noIdx⟩, (List.range cap).map (initNode C cap)⟩ := by
    simp only [IDMap.new, hC0, hcap, if_false, ne_eq, not_true_eq_false,
      Option.some.injEq] at h0
    exact h0.symm
  subst hm
  refine ⟨⟨[], []⟩, (List.range' 0 (cap / C) C).map (fun b => List.range' b C), ?_, rfl, ?_,
    Nat.zero_le _, ?_, ?_, Or.inl (by simp), ?_⟩
  · refine ⟨?_, ?_, ?_, ?_, ?_, ?_⟩
    · simpa using hsz
    · exact ⟨rfl, rfl, Nat.zero_le _, rfl, rfl, by simp only [Cache.new]; omega⟩
    · simp only [hhead]
      exact chain_init C cap hC hsz (cap / C) 0 (Nat.zero_mod C) (by omega)
    · simp only [CacheGhost.ids, blockIds, List.flatMap_nil, List.nil_append, List.append_nil,
        hflat]
      exact List.nodup_range' _ _
    · intro i hi
      cases hi
    · intro i hi
      right
      simp only [CacheGhost.ids, blockIds, List.flatMap_nil, List.nil_append, List.append_nil,
        hflat, List.mem_range'_1]
      simp only [List.length_map, List.length_range] at hi
      omega
  · simp only [blockIds, List.flatMap_nil, List.nil_append, hflat, List.length_map,
      List.length_range, Nat.sub_zero]
  · simp only [List.length_map, List.length_range]
    exact Nat.dvd_of_mod_eq_zero hcap
  · simp
  · intro i hi
    right
    have hi' : i < cap := by simpa using hi
    simp only [genAt, initStore_getElem? C cap i hi', initNode]
    split_ifs <;> rfl

/-- One more acquire on a fresh map, for any implementation whose call takes
the id as `AcquireFrom` says and keeps the invariant: the key is
`(gen 0, id n)`, and the store is expanded exactly when `n` is at least the
capacity and a multiple of `C`. -/
theorem fresh_core (C cap : Nat) (hcap : cap % C = 0) (n : Nat)
    (m m' : IDMap V) (c c' : Cache) (g g' : CacheGhost) (subs subs' : List (List Nat)) (k : Key)
    (hl : LInv C m c g subs []) (hov : g.overflow = [])
    (hids : blockIds g.blocks ++ subs.flatten = List.range' n (m.store_.length - n))
    (hn : n ≤ m.store_.length) (hdvd : C ∣ m.store_.length) (hcapl : cap ≤ m.store_.length)
    (hlen : m.store_.length = cap ∨ m.store_.length < n + C)
    (hgen : ∀ i, i < m.store_.length →
      (∃ g0, m.store_[i]? = some ⟨g0, .uninit⟩) ∨ genAt m.store_ i = 0)
    (hlinv' : LInv C m' c' g' subs' [])
    (hfrom : AcquireFrom C m m' c c' g g' subs subs' k) (hmat : Materialises m m')
    (hkept : ∀ i, i < m.store_.length →
      (∃ g0, m.store_[i]? = some ⟨g0, .uninit⟩ ∧
        (m'.store_[i]? = some ⟨g0, .uninit⟩ ∨ genAt m'.store_ i = 0)) ∨
      genAt m'.store_ i = genAt m.store_ i) :
    k = ⟨0, n⟩ ∧ FreshAfter C cap (n + 1) m' c' ∧
      (m'.store_.length = m.store_.length + C ↔ cap ≤ n ∧ C ∣ n) ∧
      (m'.store_.length = m.store_.length ∨ m'.store_.length = m.store_.length + C) := by
  have hcapd : C ∣ cap := Nat.dvd_of_mod_eq_zero hcap
  obtain ⟨_, hcount, _, _, hovlen, _⟩ := hl.rep
  -- generations after the call
  have hgen' : ∀ i, i < m'.store_.length →
      (∃ g0, m'.store_[i]? = some ⟨g0, .uninit⟩) ∨ genAt m'.store_ i = 0 := by
    intro i hi
    by_cases hold : i < m.store_.length
    · rcases hkept i hold with ⟨g0, _, h1 | h1⟩ | h1
      · exact Or.inl ⟨g0, h1⟩
      · exact Or.inr h1
      · rcases hgen i hold with ⟨g0, hg0⟩ | h0
        · rcases hmat.1 i g0 hg0 with h2 | h2
          · exact Or.inl ⟨g0, h2⟩
          · exact Or.inr h2.1
        · right; rw [h1, h0]
    · exact hmat.2 i (by omega) hi
  -- the key returned by a pop has generation 0
  have hk0 : (∃ f, freeAt m.store_ k.id = some f) → k.gen = genAt m.store_ k.id →
      k.id < m.store_.length → k.gen = 0 := by
    rintro ⟨f, hf⟩ hkg hlt
    rcases hgen k.id hlt with ⟨g0, hg0⟩ | h0
    · simp [freeAt, hg0] at hf
    · rw [hkg, h0]
  -- no expansion while ids are left
  have hnoexp : n < m.store_.length → ¬ (cap ≤ n ∧ C ∣ n) := by
    rintro hlt ⟨h1, h2⟩
    rcases hlen with e | e
    · omega
    · have hd : C ∣ m.store_.length - n := Nat.dvd_sub' hdvd h2
      have := Nat.le_of_dvd (by omega) hd
      omega
  rcases hfrom with hf | hf | hf | hf
  · -- the overflow sublist is empty
    obtain ⟨hpos, _⟩ := hf
    rw [hov] at hovlen
    simp at hovlen
    omega
  · obtain ⟨_, _, hb, hov', hs', _, hlen', hkg, hfree⟩ := hf
    rw [hb, List.cons_append] at hids
    obtain ⟨hL, hkid, hrest⟩ := range'_eq_cons hids.symm
    have hlt : n < m.store_.length := by omega
    have hkey : k = ⟨0, n⟩ := by
      have := hk0 hfree hkg (by omega)
      cases k; simp only at this hkid; rw [this, hkid]
    refine ⟨hkey, ⟨g', subs', hlinv', by rw [hov', hov], ?_, by omega,
      by rw [hlen']; exact hdvd, by omega, by omega, hgen'⟩, ?_, Or.inl hlen'⟩
    · rw [hs', hrest, hlen']
      congr 1
    · rw [hlen']
      exact ⟨fun e => by omega, fun e => absurd e (hnoexp hlt)⟩
  · obtain ⟨_, hpr, _, _, hov', hlen', hkg, f, tl, hfree, hsubs, hbl', _, _⟩ := hf
    have hb0 : blockIds g.blocks = [] := List.length_eq_zero.1 (by rw [hcount, hpr])
    rw [hb0, hsubs, List.nil_append, List.flatten_cons, List.cons_append] at hids
    obtain ⟨hL, hkid, hrest⟩ := range'_eq_cons hids.symm
    have hlt : n < m.store_.length := by omega
    have hkey : k = ⟨0, n⟩ := by
      have := hk0 ⟨f, hfree⟩ hkg (by omega)
      cases k; simp only at this hkid; rw [this, hkid]
    refine ⟨hkey, ⟨g', subs', hlinv', by rw [hov', hov], ?_, by omega,
      by rw [hlen']; exact hdvd, by omega, by omega, hgen'⟩, ?_, Or.inl hlen'⟩
    · rw [hbl', blockIds_units, hrest, hlen']
      congr 1
    · rw [hlen']
      exact ⟨fun e => by omega, fun e => absurd e (hnoexp hlt)⟩
  · obtain ⟨_, hpr, hhd, hk, hbl', hov', hs', _, hlen'⟩ := hf
    have hb0 : blockIds g.blocks = [] := List.length_eq_zero.1 (by rw [hcount, hpr])
    have hs0 : subs = [] := (chain_nil_iff hl.chain).1 hhd
    rw [hb0, hs0] at hids
    have hLn : m.store_.length = n := by
      have := congrArg List.length hids
      simp at this
      omega
    refine ⟨by rw [hk, hLn], ⟨g', subs', hlinv', by rw [hov', hov], ?_,
      by omega, ?_, by omega, by omega, hgen'⟩, ?_, Or.inr hlen'⟩
    · rw [hbl', hs', hs0, hlen', hLn]
      simp only [List.flatten_nil, List.append_nil]
      congr 1
      omega
    · rw [hlen']
      exact Nat.dvd_add hdvd (dvd_refl C)
    · exact ⟨fun _ => ⟨by omega, by rw [← hLn]; exact hdvd⟩, fun _ => hlen'⟩

/-- Acquire number `n` on a fresh map (`n` acquires made, no release): it
returns the handle `(gen 0, id n)`, and it expands the store exactly when `n`
is at least the capacity and a multiple of `C`. -/
theorem fresh_step (C cap junk : Nat) (hC : 2 ≤ C) (hcap : cap % C = 0) (n : Nat)
    (m : IDMap V) (c : Cache) (h : FreshAfter C cap n m c)
    (hroom : m.store_.length + C < noIdx) (v : V) :
    ∃ k m' c', acquireID C m c v junk = some (k, m', c') ∧ k = ⟨0, n⟩ ∧
      FreshAfter C cap (n + 1) m' c' ∧
      (m'.store_.length = m.store_.length + C ↔ cap ≤ n ∧ C ∣ n) ∧
      (m'.store_.length = m.store_.length ∨ m'.store_.length = m.store_.length + C) ∧
      (∀ i, i < m.store_.length →
        (∃ g0, m.store_[i]? = some ⟨g0, .uninit⟩ ∧
          (m'.store_[i]? = some ⟨g0, .uninit⟩ ∨ genAt m'.store_ i = 0)) ∨
        genAt m'.store_ i = genAt m.store_ i) := by
  obtain ⟨g, subs, hl, hov, hids, hn, hdvd, hcapl, hlen, hgen⟩ := h
  obtain ⟨k, m', c', g', subs', hacq, hpost, hfrom, hmat⟩ :=
    acquireID_from C hC m c g subs [] v junk hl hroom
  have hkept := acquireID_gen hpost hfrom hmat
  obtain ⟨hk, hf, hexp, hor⟩ := fresh_core C cap hcap n m m' c c' g g' subs subs' k hl hov hids
    hn hdvd hcapl hlen hgen hpost.linv hfrom hmat hkept
  exact ⟨k, m', c', hacq, hk, hf, hexp, hor, hkept⟩

/-- Consecutive acquires on a fresh map return the ids in increasing order,
all with generation 0. -/
theorem fresh_run (C cap junk : Nat) (hC : 2 ≤ C) (hcap : cap % C = 0) :
    ∀ (vs : List V) (n : Nat) (m : IDMap V) (c : Cache), FreshAfter C cap n m c →
      cap + n + vs.length + 2 * C < noIdx →
      ∃ m' c', acquireN C junk m c vs =
          some ((List.range' n vs.length).map (fun i => ⟨0, i⟩), m', c') ∧
        FreshAfter C cap (n + vs.length) m' c' := by
  intro vs
  induction vs with
  | nil => intro n m c h _; exact ⟨m, c, rfl, h⟩
  | cons v vs ih =>
    intro n m c h hroom
    have hlenb : m.store_.length < cap + n + C := by
      obtain ⟨g, subs, _, _, _, _, _, _, hlen, _⟩ := h
      omega
    obtain ⟨k, m1, c1, hacq, hk, h1, _⟩ :=
      fresh_step C cap junk hC hcap n m c h (by simp only [List.length_cons] at hroom; omega) v
    obtain ⟨m2, c2, hrun, h2⟩ := ih (n + 1) m1 c1 h1
      (by simp only [List.length_cons] at hroom; omega)
    have e : n + 1 + vs.length = n + (v :: vs).length := by
      simp only [List.length_cons]; omega
    refine ⟨m2, c2, ?_, e ▸ h2⟩
    simp only [acquireN, hacq, hrun, hk, List.length_cons, List.range'_succ, List.map_cons]

/-- The free nodes an eager expansion writes are linked in index order. -/
theorem seg_eager (store : List (Node V)) (e : Nat) :
    ∀ k a, a + k = e →
      (∀ j, a ≤ j → j < e →
        store[j]? = some ⟨0, .freeNode ⟨if j + 1 < e then j + 1 else noIdx, 1⟩⟩) →
      Seg store (if k = 0 then noIdx else a) (List.range' a k) := by
  intro k
  induction k with
  | zero => intro a _ _; rfl
  | succ k ih =>
    intro a hak hn
    rw [List.range'_succ, if_neg (Nat.succ_ne_zero k)]
    refine ⟨rfl, 0, if a + 1 < e then a + 1 else noIdx, hn a le_rfl (by omega), ?_⟩
    have := ih (a + 1) (by omega) (fun j h1 h2 => hn j (by omega) h2)
    by_cases hk : k = 0
    · rw [if_pos hk] at this
      rw [if_neg (by omega)]
      exact this
    · rw [if_neg hk] at this
      rw [if_pos (by omega)]
      exact this

/-- The eager `acquireID` in a state satisfying the invariant, seen from the
one cache in use: it returns, keeps the invariant and takes the id as
`AcquireFrom` says. -/
theorem acquireIDEager_from (C : Nat) (hC : 2 ≤ C) (m : IDMap V) (c : Cache) (g : CacheGhost)
    (subs : List (List Nat)) (v : V)
    (h : LInv C m c g subs []) (hsize : m.store_.length + C < noIdx) :
    ∃ k m' c' g' subs', acquireIDEager C m c v = some (k, m', c') ∧
      LInv C m' c' g' subs' [] ∧
      AcquireFrom C m m' c c' g g' subs subs' k ∧ Materialises m m' ∧
      (∀ i, i < m.store_.length →
        (∃ g0, m.store_[i]? = some ⟨g0, .uninit⟩ ∧
          (m'.store_[i]? = some ⟨g0, .uninit⟩ ∨ genAt m'.store_ i = 0)) ∨
        genAt m'.store_ i = genAt m.store_ i) := by
  by_cases hcond : c.num_overflow_ids_ > 0 ∨ c.num_free_ids_ > 0 ∨ m.free_head_.head ≠ noIdx
  · obtain ⟨k, m', c', g', subs', hacq, hpost, hfrom, hmat⟩ :=
      acquireID_from C hC m c g subs [] v 0 h hsize
    refine ⟨k, m', c', g', subs', ?_, hpost.linv, hfrom, hmat, acquireID_gen hpost hfrom hmat⟩
    unfold acquireIDEager
    rw [if_pos hcond, hacq]
  · simp only [not_or, not_lt, Nat.le_zero, ne_eq, not_not] at hcond
    obtain ⟨hov, hpr, hhd⟩ := hcond
    obtain ⟨hprim, hcount, hle, hseg, hlen, hlt⟩ := h.rep
    have hovl : g.overflow = [] := by
      rw [hov] at hlen; exact List.length_eq_zero.1 hlen
    have hbl : g.blocks = [] := blocks_nil_of_length hprim (by rw [hcount, hpr])
    have hsubs : subs = [] := (chain_nil_iff h.chain).1 hhd
    have hF : g.ids ++ subs.flatten ++ [] = [] := by
      simp [CacheGhost.ids, hovl, hbl, blockIds, hsubs]
    set n := m.store_.length with hn
    set rest : List (Node V) := (List.range' (n + 1) (C - 1)).map
      (fun i => ⟨0, .freeNode ⟨if i + 1 < n + C then i + 1 else noIdx, 1⟩⟩) with hrest
    set store' := m.store_ ++ ((⟨0, .val v⟩ : Node V) :: rest) with hstore'
    have hlen' : store'.length = n + C := by
      simp only [hstore', hrest, List.length_append, List.length_cons, List.length_map,
        List.length_range', ← hn]
      omega
    have hold : ∀ j, j < n → store'[j]? = m.store_[j]? := by
      intro j hj
      rw [hstore', List.getElem?_append_left (by omega)]
    have hfirst : store'[n]? = some ⟨0, .val v⟩ := by
      rw [hstore', List.getElem?_append_right (by omega)]
      simp [← hn]
    have hnew : ∀ j, n + 1 ≤ j → j < n + C →
        store'[j]? = some ⟨0, .freeNode ⟨if j + 1 < n + C then j + 1 else noIdx, 1⟩⟩ := by
      intro j h1 h2
      rw [hstore', List.getElem?_append_right (by omega)]
      obtain ⟨d, hd⟩ : ∃ d, j - m.store_.length = d + 1 := ⟨j - n - 1, by omega⟩
      rw [hd, List.getElem?_cons_succ, hrest, List.getElem?_map,
        List.getElem?_range' _ _ (by omega)]
      have e : n + 1 + 1 * d = j := by omega
      simp only [e, Option.map_some']
    have hsegnew : Seg store' (n + 1) (List.range' (n + 1) (C - 1)) := by
      have := seg_eager store' (n + C) (C - 1) (n + 1) (by omega) hnew
      rwa [if_neg (by omega)] at this
    have hliveold : ∀ j, j < n → liveB store' j = liveB m.store_ j := by
      intro j hj; simp only [liveB, hold j hj]
    refine ⟨⟨0, n⟩, ⟨m.free_head_, store'⟩,
      ⟨n + 1, C - 1, c.overflow_head_, c.num_overflow_ids_⟩,
      ⟨(List.range' (n + 1) (C - 1)).map (fun i => (i, 1)), []⟩, [], ?_, ?_, ?_, ?_, ?_⟩
    · unfold acquireIDEager
      rw [if_neg (by simp [hov, hpr, hhd]), if_pos (by omega)]
    · refine ⟨by simp only [hlen']; exact hsize, ?_, ?_, ?_, (fun i hi => by cases hi), ?_⟩
      · exact ⟨primSeg_of_seg hsegnew, by simp [blockIds_units], by simp only; omega,
          seg_nil (hovl ▸ hseg) _, by simp only [List.length_nil]; omega, hlt⟩
      · simp only; rw [hhd]; rfl
      · simp only [CacheGhost.ids, blockIds_units, List.append_nil, List.flatten_nil]
        exact List.nodup_range' _ _
      · intro j hj
        simp only [hlen'] at hj
        rcases Nat.lt_trichotomy j n with hlt' | heq | hgt
        · left
          rw [hliveold j hlt']
          rcases h.cover j hlt' with hl | hf
          · exact hl
          · rw [hF] at hf; cases hf
        · left; rw [heq]; exact liveB_val hfirst
        · right
          simp only [CacheGhost.ids, blockIds_units, List.append_nil, List.flatten_nil,
            List.mem_range'_1]
          omega
    · right; right; right
      exact ⟨hov, hpr, hhd, rfl, by simp only [blockIds_units], hovl.symm, hsubs.symm, rfl,
        hlen'⟩
    · refine ⟨fun j g0 hj => Or.inl ?_, fun j h1 h2 => Or.inr ?_⟩
      · simp only; rw [hold j (lt_of_getElem?_some hj)]; exact hj
      · simp only [hlen'] at h2
        rcases Nat.eq_or_lt_of_le h1 with e | e
        · rw [← e]; simp [genAt, hfirst]
        · simp [genAt, hnew j (by omega) h2]
    · intro i hi
      right
      simp only [genAt, hold i hi]

/-- Consecutive eager acquires on a fresh map return the ids in increasing
order, all with generation 0. -/
theorem eager_run (C cap : Nat) (hC : 2 ≤ C) (hcap : cap % C = 0) :
    ∀ (vs : List V) (n : Nat) (m : IDMap V) (c : Cache), FreshAfter C cap n m c →
      cap + n + vs.length + 2 * C < noIdx →
      ∃ m' c', acquireNEager C m c vs =
          some ((List.range' n vs.length).map (fun i => ⟨0, i⟩), m', c') ∧
        FreshAfter C cap (n + vs.length) m' c' := by
  intro vs
  induction vs with
  | nil => intro n m c h _; exact ⟨m, c, rfl, h⟩
  | cons v vs ih =>
    intro n m c h hroom
    obtain ⟨g, subs, hl, hov, hids, hn, hdvd, hcapl, hlen, hgen⟩ := h
    obtain ⟨k, m1, c1, g1, subs1, hacq, hl1, hfrom, hmat, hkept⟩ :=
      acquireIDEager_from C hC m c g subs v hl
        (by simp only [List.length_cons] at hroom; omega)
    obtain ⟨hk, h1, _⟩ := fresh_core C cap hcap n m m1 c c1 g g1 subs subs1 k hl hov hids hn
      hdvd hcapl hlen hgen hl1 hfrom hmat hkept
    obtain ⟨m2, c2, hrun, h2⟩ := ih (n + 1) m1 c1 h1
      (by simp only [List.length_cons] at hroom; omega)
    have e : n + 1 + vs.length = n + (v :: vs).length := by
      simp only [List.length_cons]; omega
    refine ⟨m2, c2, ?_, e ▸ h2⟩
    simp only [acquireNEager, hacq, hrun, hk, List.length_cons, List.range'_succ, List.map_cons]

/-- C33 as stated fails in its last part. With `C = 3` and capacity 0, the
first `acquireID` expands the store by the slots 0, 1, 2 and writes slots 0
and 1 only; slot 2 keeps what `expand` returned, here with 5 in its
generation field. The second `acquireID` pops slot 1, whose count is 2, and
stores the next node of the block in slot 2 with generation 0: the stored
generation of a slot that existed before the call changes from 5 to 0. -/
theorem materialise_writes_generation :
    ∃ (m0 m1 m2 : IDMap Unit) (c1 c2 : Cache),
      IDMap.new 3 0 = some m0 ∧
      acquireN 3 5 m0 Cache.new [()] = some ([⟨0, 0⟩], m1, c1) ∧
      m1.store_ = [⟨0, .val ()⟩, ⟨0, .freeNode ⟨noIdx, 2⟩⟩, ⟨5, .uninit⟩] ∧
      acquireID 3 m1 c1 () 5 = some (⟨0, 1⟩, m2, c2) ∧
      m2.store_ = [⟨0, .val ()⟩, ⟨0, .val ()⟩, ⟨0, .freeNode ⟨noIdx, 1⟩⟩] ∧
      genAt m1.store_ 2 = 5 ∧ genAt m2.store_ 2 = 0 :=
  ⟨⟨⟨0, noIdx⟩, []⟩,
    ⟨⟨0, noIdx⟩, [⟨0, .val ()⟩, ⟨0, .freeNode ⟨noIdx, 2⟩⟩, ⟨5, .uninit⟩]⟩,
    ⟨⟨0, noIdx⟩, [⟨0, .val ()⟩, ⟨0, .val ()⟩, ⟨0, .freeNode ⟨noIdx, 1⟩⟩]⟩,
    ⟨1, 2, noIdx, 0⟩, ⟨2, 1, noIdx, 0⟩,
    by decide, by decide, rfl, by decide, rfl, by decide, by decide⟩

/-- C33 (amended). Lazy materialisation on a fresh map of capacity `cap` (a
multiple of `C`, `2 ≤ C`) used through one cache, with room below `~0u`: the
`acquireID` calls number `0 .. n - 1`, with no release in between, return the
handles `(gen 0, id 0), ..., (gen 0, id n - 1)`, and the call number `n`
returns `(gen 0, id n)`; the store then has the least size that is a multiple
of `C` and at least `cap` and `n`, and call number `n` expands it (by `C`
slots) exactly when `n ≥ cap` and `C` divides `n`, that is first at call
number `cap` and then once every `C` calls; the call leaves the generation of
every slot that holds a live value or a free node as it is, while a slot of
uninitialised memory stays as it is or gets generation 0; and the variant
that initialises every new slot when it expands the store returns the same
handles for the same `n + 1` calls. -/
theorem lazy_materialisation (C cap junk : Nat) (hC : 2 ≤ C) (hcap : cap % C = 0)
    (vs : List V) (v : V) (hroom : cap + vs.length + 1 + 2 * C < noIdx)
    (m0 : IDMap V) (h0 : IDMap.new C cap = some m0) :
    ∃ m c k m' c',
      acquireN C junk m0 Cache.new vs =
        some ((List.range vs.length).map (fun i => ⟨0, i⟩), m, c) ∧
      acquireID C m c v junk = some (k, m', c') ∧ k = ⟨0, vs.length⟩ ∧
      (C ∣ m.store_.length ∧ cap ≤ m.store_.length ∧ vs.length ≤ m.store_.length ∧
        (m.store_.length = cap ∨ m.store_.length < vs.length + C)) ∧
      (m'.store_.length = m.store_.length + C ↔ cap ≤ vs.length ∧ C ∣ vs.length) ∧
      (m'.store_.length = m.store_.length ∨ m'.store_.length = m.store_.length + C) ∧
      (∀ i, i < m.store_.length →
        (∃ g0, m.store_[i]? = some ⟨g0, .uninit⟩ ∧
          (m'.store_[i]? = some ⟨g0, .uninit⟩ ∨ genAt m'.store_ i = 0)) ∨
        genAt m'.store_ i = genAt m.store_ i) ∧
      (∃ me ce, acquireNEager C m0 Cache.new (vs ++ [v]) =
        some ((List.range vs.length).map (fun i => ⟨0, i⟩) ++ [k], me, ce)) := by
  have hf0 := new_fresh C cap hC hcap (by omega) m0 h0
  obtain ⟨m, c, hrun, hf⟩ := fresh_run C cap junk hC hcap vs 0 m0 Cache.new hf0 (by omega)
  rw [Nat.zero_add] at hf
  have hfacts : C ∣ m.store_.length ∧ cap ≤ m.store_.length ∧ vs.length ≤ m.store_.length ∧
      (m.store_.length = cap ∨ m.store_.length < vs.length + C) := by
    obtain ⟨g, subs, _, _, _, h1, h2, h3, h4, _⟩ := hf
    exact ⟨h2, h3, h1, h4⟩
  obtain ⟨k, m', c', hacq, hk, _, hexp, hor, hgen⟩ :=
    fresh_step C cap junk hC hcap vs.length m c hf (by omega) v
  obtain ⟨me, ce, herun, _⟩ := eager_run C cap hC hcap (vs ++ [v]) 0 m0 Cache.new hf0
    (by simp only [List.length_append, List.length_singleton]; omega)
  refine ⟨m, c, k, m', c', by rw [hrun, List.range_eq_range'], hacq, hk, hfacts, hexp, hor, hgen,
    me, ce, ?_⟩
  rw [herun, hk]
  simp only [List.length_append, List.length_singleton, List.range'_concat, List.map_append,
    List.map_cons, List.map_nil, List.range_eq_range', Nat.zero_add, Nat.one_mul]

theorem lazy_materialisation_witness :
    (IDMap.new 3 3 : Option (IDMap Unit)) =
      some ⟨⟨0, 0⟩, (List.range 3).map (initNode 3 3)⟩ ∧
    ∃ m c k m' c',
      acquireN 3 5 (⟨⟨0, 0⟩, (List.range 3).map (initNode 3 3)⟩ : IDMap Unit) Cache.new
          [(), (), (), ()] =
        some ((List.range 4).map (fun i => ⟨0, i⟩), m, c) ∧
      acquireID 3 m c () 5 = some (k, m', c') ∧ k = ⟨0, 4⟩ ∧
      (3 ∣ m.store_.length ∧ 3 ≤ m.store_.length ∧ 4 ≤ m.store_.length ∧
        (m.store_.length = 3 ∨ m.store_.length < 4 + 3)) ∧
      (m'.store_.length = m.store_.length + 3 ↔ 3 ≤ 4 ∧ 3 ∣ 4) ∧
      (m'.store_.length = m.store_.length ∨ m'.store_.length = m.store_.length + 3) ∧
      (∀ i, i < m.store_.length →
        (∃ g0, m.store_[i]? = some ⟨g0, .uninit⟩ ∧
          (m'.store_[i]? = some ⟨g0, .uninit⟩ ∨ genAt m'.store_ i = 0)) ∨
        genAt m'.store_ i = genAt m.store_ i) ∧
      (∃ me ce, acquireNEager 3 (⟨⟨0, 0⟩, (List.range 3).map (initNode 3 3)⟩ : IDMap Unit)
          Cache.new ([(), (), (), ()] ++ [()]) =
        some ((List.range 4).map (fun i => ⟨0, i⟩) ++ [k], me, ce)) :=
  ⟨by decide,
    lazy_materialisation 3 3 5 (by decide) (by decide) [(), (), (), ()] () (by decide)
      ⟨⟨0, 0⟩, (List.range 3).map (initNode 3 3)⟩ (by decide)⟩


end IDMap

/-! ## Generational ID map: where `globalNext` holds a count -/

namespace IDMap

variable {V : Type}

/-- The nodes of a primary sublist: the first slot of a block holds the
block's count, the other slots it covers hold no node. -/
theorem primSeg_block {store : List (Node V)} {h : Nat} {bl : List (Nat × Nat)}
    (hs : PrimSeg store h bl) :
    ∀ b, b ∈ bl → 1 ≤ b.2 ∧ (∃ g sn, store[b.1]? = some ⟨g, .freeNode ⟨sn, b.2⟩⟩) ∧
      ∀ j, b.1 < j → j < b.1 + b.2 → ∃ g', store[j]? = some ⟨g', .uninit⟩ := by
  induction bl generalizing h with
  | nil => intro b hb; cases hb
  | cons b0 rest ih =>
    obtain ⟨_, hk, g, sn, hn, hcov, hr⟩ := hs
    intro b hb
    rcases List.mem_cons.1 hb with e | e
    · rw [e]; exact ⟨hk, ⟨g, sn, hn⟩, hcov⟩
    · exact ih hr b e

/-- The heads of the sublists of the global chain: each holds in `globalNext`
the head of the next sublist, the last one `~0u`; the other nodes of a
sublist are linked with count 1. -/
theorem chain_links {C : Nat} {store : List (Node V)} :
    ∀ (subs : List (List Nat)) (h : Nat), Chain C store h subs →
      ∀ n sub, subs[n]? = some sub → ∃ hd tl g sn, sub = hd :: tl ∧
        store[hd]? = some ⟨g, .freeNode
          ⟨sn, ((subs[n + 1]?).map (fun s => s.headD noIdx)).getD noIdx⟩⟩ ∧
        Seg store sn tl := by
  intro subs
  induction subs with
  | nil => intro h _ n sub hn; simp at hn
  | cons s rest ih =>
    intro h hc n sub hn
    obtain ⟨_, _, g, sn, next, tl, hsub, hnode, hseg, hr⟩ := hc
    cases n with
    | zero =>
      simp only [List.getElem?_cons_zero, Option.some.injEq] at hn
      subst hn
      refine ⟨h, tl, g, sn, hsub, ?_, hseg⟩
      have hnext : ((((s :: rest)[0 + 1]?).map (fun s => s.headD noIdx)).getD noIdx) = next := by
        cases rest with
        | nil =>
          have : next = noIdx := hr
          simp [this]
        | cons s' r =>
          obtain ⟨_, _, _, _, _, tl', hs', _⟩ := hr
          simp [hs']
      rw [hnext]
      exact hnode
    | succ n =>
      simp only [List.getElem?_cons_succ] at hn ⊢
      exact ih next hr n sub hn

/-- C35. Contiguous blocks stay in the primary sublist. In every state
reached from the constructor (capacity a multiple of `C`, `2 ≤ C`) by valid
calls, with the contents `gh` of the caches and the global chain `subs` as
found by following the links: a free node whose `globalNext` is not 1 is the
first node of a block of some cache's primary sublist, `globalNext` being the
block's count, or the head of a sublist of the global chain; every node of an
overflow sublist and every non-head node of a sublist of the global chain has
`globalNext = 1`; the head of each sublist of the global chain holds in
`globalNext` the head of the next sublist, the last one `~0u`; and when
`acquireID` pops the head of the global chain, `assignCachedID` runs on a map
`m1` in which that node's `globalNext` has been set to 1, the other slots
being as before, so that the count it reads is 1 and the cache's new head is
the node's `subNext`. -/
theorem contiguous_blocks_in_primary (C cap n : Nat) (hC : 2 ≤ C) (hcap : cap % C = 0)
    (hsz : cap < noIdx) (s0 : Sys V) (ops : List (Op V))
    (h0 : Sys.new C cap n = some s0) (hv : validRun C s0 ops = true) :
    ∃ (s : Sys V) (ks : List Key) (gh : List CacheGhost) (subs : List (List Nat)),
      Sys.run C s0 ops = some (s, ks) ∧ gh.length = s.caches.length ∧
      (∀ (ci : Nat) (c : Cache) (g : CacheGhost), s.caches[ci]? = some c → gh[ci]? = some g →
        Walked C s.map c g subs) ∧
      (∀ (i : Nat) (f : FreeNode), freeAt s.map.store_ i = some f → f.globalNext ≠ 1 →
        (∃ (ci : Nat) (g : CacheGhost), gh[ci]? = some g ∧ (i, f.globalNext) ∈ g.blocks) ∨
        (∃ sub, sub ∈ subs ∧ sub.head? = some i)) ∧
      (∀ (ci : Nat) (g : CacheGhost) (i : Nat), gh[ci]? = some g → i ∈ g.overflow →
        ∃ sn, freeAt s.map.store_ i = some ⟨sn, 1⟩) ∧
      (∀ sub i, sub ∈ subs → i ∈ sub.tail → ∃ sn, freeAt s.map.store_ i = some ⟨sn, 1⟩) ∧
      (∀ k sub, subs[k]? = some sub → ∃ hd sn, sub.head? = some hd ∧
        freeAt s.map.store_ hd =
          some ⟨sn, ((subs[k + 1]?).map (fun s => s.headD noIdx)).getD noIdx⟩) ∧
      (∀ (ci : Nat) (c : Cache) (v : V) (junk : Nat), s.caches[ci]? = some c →
        c.num_overflow_ids_ = 0 → c.num_free_ids_ = 0 → s.map.free_head_.head ≠ noIdx →
        ∃ f m1 k m' c', freeAt s.map.store_ s.map.free_head_.head = some f ∧
          m1.free_head_ = ⟨add32 s.map.free_head_.gen 1, f.globalNext⟩ ∧
          freeAt m1.store_ s.map.free_head_.head = some ⟨f.subNext, 1⟩ ∧
          (∀ j, j ≠ s.map.free_head_.head → m1.store_[j]? = s.map.store_[j]?) ∧
          assignCachedID m1 s.map.free_head_.head v = some (k, m', c'.free_head_) ∧
          acquireID C s.map c v junk = some (k, m', c') ∧
          k.id = s.map.free_head_.head ∧ c'.free_head_ = f.subNext ∧
          c'.num_free_ids_ = C - 1) := by
  obtain ⟨s, ks, gh, subs, hrun, hinv⟩ := reach_inv C cap n hC hcap hsz s0 ops h0 hv
  have hrep : ∀ (ci : Nat) (g : CacheGhost), gh[ci]? = some g → ∃ c, s.caches[ci]? = some c ∧
      CacheRep C s.map.store_ c g := by
    intro ci g hg
    have hlt : ci < s.caches.length := by
      rw [hinv.caches_len]; exact lt_of_getElem?_some hg
    exact ⟨_, List.getElem?_eq_getElem hlt, hinv.caches ci _ g (List.getElem?_eq_getElem hlt) hg⟩
  have hunit : ∀ {h : Nat} {ids : List Nat}, Seg s.map.store_ h ids → ∀ i, i ∈ ids →
      ∃ sn, freeAt s.map.store_ i = some ⟨sn, 1⟩ := by
    intro h ids hs i hi
    obtain ⟨g, sn, hn⟩ := seg_free hs i hi
    exact ⟨sn, freeAt_of_getElem? hn⟩
  have hsubs : ∀ sub, sub ∈ subs → ∃ hd tl g sn, sub = hd :: tl ∧
      (∃ nx, s.map.store_[hd]? = some ⟨g, .freeNode ⟨sn, nx⟩⟩) ∧ Seg s.map.store_ sn tl := by
    intro sub hsub
    obtain ⟨k, hk⟩ := List.mem_iff_getElem?.1 hsub
    obtain ⟨hd, tl, g, sn, h1, h2, h3⟩ := chain_links subs _ hinv.chain k sub hk
    exact ⟨hd, tl, g, sn, h1, ⟨_, h2⟩, h3⟩
  refine ⟨s, ks, gh, subs, hrun, hinv.caches_len.symm, ?_, ?_, ?_, ?_, ?_, ?_⟩
  · intro ci c g hc hg
    exact walked_of_linv (linv_of_inv hinv ci c g hc hg)
  · intro i f hf hne
    have hilt : i < s.map.store_.length := by
      by_contra hcon
      simp [freeAt, List.getElem?_eq_none (not_lt.1 hcon)] at hf
    have hnl : liveB s.map.store_ i = false := by
      unfold freeAt at hf
      unfold liveB
      split at hf
      · next g0 f0 heq => simp [heq]
      · cases hf
    rcases hinv.cover i hilt with hl | hfree
    · rw [hnl] at hl; cases hl
    · rcases List.mem_append.1 hfree with hc | hs
      · obtain ⟨g, hg, hig⟩ := List.mem_flatMap.1 hc
        obtain ⟨ci, hci⟩ := List.mem_iff_getElem?.1 hg
        obtain ⟨c, _, hprim, _, _, hseg, _, _⟩ := hrep ci g hci
        rcases List.mem_append.1 hig with hb | ho
        · obtain ⟨b, hb1, hb2, hb3⟩ := mem_blockIds.1 hb
          obtain ⟨_, ⟨g0, sn, hn⟩, hcov⟩ := primSeg_block hprim b hb1
          rcases Nat.eq_or_lt_of_le hb2 with e | e
          · left
            refine ⟨ci, g, hci, ?_⟩
            rw [← e, freeAt_of_getElem? hn] at hf
            have : f = ⟨sn, b.2⟩ := (Option.some.inj hf).symm
            rw [this, ← e]
            exact hb1
          · obtain ⟨g', hg'⟩ := hcov i e hb3
            simp [freeAt, hg'] at hf
        · obtain ⟨sn, hsn⟩ := hunit hseg i ho
          rw [hsn] at hf
          exact absurd (by rw [← Option.some.inj hf]) hne
      · obtain ⟨sub, hsub, hisub⟩ := List.mem_flatten.1 hs
        obtain ⟨hd, tl, g, sn, h1, _, h3⟩ := hsubs sub hsub
        rw [h1] at hisub
        rcases List.mem_cons.1 hisub with e | e
        · right
          exact ⟨sub, hsub, by rw [h1, e]; rfl⟩
        · obtain ⟨sn', hsn⟩ := hunit h3 i e
          rw [hsn] at hf
          exact absurd (by rw [← Option.some.inj hf]) hne
  · intro ci g i hg hi
    obtain ⟨c, _, _, _, _, hseg, _, _⟩ := hrep ci g hg
    exact hunit hseg i hi
  · intro sub i hsub hi
    obtain ⟨hd, tl, g, sn, h1, _, h3⟩ := hsubs sub hsub
    rw [h1] at hi
    exact hunit h3 i hi
  · intro k sub hk
    obtain ⟨hd, tl, g, sn, h1, h2, _⟩ := chain_links subs _ hinv.chain k sub hk
    exact ⟨hd, sn, by rw [h1]; rfl, freeAt_of_getElem? h2⟩
  · intro ci c v junk hc hov hpr hhd
    cases hsub : subs with
    | nil =>
      have := hinv.chain
      rw [hsub] at this
      exact absurd this hhd
    | cons sub rest =>
      have hch := hinv.chain
      rw [hsub] at hch
      obtain ⟨_, _, gen, sn, next, tl, _, hn, _, _⟩ := hch
      have hilt := lt_of_getElem?_some hn
      refine ⟨⟨sn, next⟩,
        ⟨⟨add32 s.map.free_head_.gen 1, next⟩,
          s.map.store_.set s.map.free_head_.head ⟨gen, .freeNode ⟨sn, 1⟩⟩⟩,
        ⟨gen, s.map.free_head_.head⟩,
        ⟨⟨add32 s.map.free_head_.gen 1, next⟩,
          (s.map.store_.set s.map.free_head_.head ⟨gen, .freeNode ⟨sn, 1⟩⟩).set
            s.map.free_head_.head ⟨gen, .val v⟩⟩,
        ⟨sn, C - 1, c.overflow_head_, c.num_overflow_ids_⟩,
        freeAt_of_getElem? hn, rfl, ?_, ?_, ?_, ?_, rfl, rfl, rfl⟩
      · exact freeAt_of_getElem? (List.getElem?_set_self hilt)
      · intro j hj
        exact List.getElem?_set_ne (Ne.symm hj)
      · exact assignCachedID_unit _ _ gen sn v (List.getElem?_set_self hilt)
      · unfold acquireID
        rw [if_neg (by omega), if_neg (by omega), if_pos hhd]
        simp only [hn]
        rw [assignCachedID_unit _ _ gen sn v (by simp only; exact List.getElem?_set_self hilt)]

theorem contiguous_blocks_in_primary_witness :
    (Sys.new 3 0 1 : Option (Sys Nat)) = some ⟨⟨⟨0, noIdx⟩, []⟩, [Cache.new]⟩ ∧
    validRun 3 (⟨⟨⟨0, noIdx⟩, []⟩, [Cache.new]⟩ : Sys Nat) [.acquire 0 7 5] = true ∧
    ∃ (s : Sys Nat) (ks : List Key) (gh : List CacheGhost) (subs : List (List Nat)),
      Sys.run 3 (⟨⟨⟨0, noIdx⟩, []⟩, [Cache.new]⟩ : Sys Nat) [.acquire 0 7 5] = some (s, ks) ∧
      gh.length = s.caches.length ∧
      (∀ (ci : Nat) (c : Cache) (g : CacheGhost), s.caches[ci]? = some c → gh[ci]? = some g →
        Walked 3 s.map c g subs) ∧
      (∀ (i : Nat) (f : FreeNode), freeAt s.map.store_ i = some f → f.globalNext ≠ 1 →
        (∃ (ci : Nat) (g : CacheGhost), gh[ci]? = some g ∧ (i, f.globalNext) ∈ g.blocks) ∨
        (∃ sub, sub ∈ subs ∧ sub.head? = some i)) ∧
      (∀ (ci : Nat) (g : CacheGhost) (i : Nat), gh[ci]? = some g → i ∈ g.overflow →
        ∃ sn, freeAt s.map.store_ i = some ⟨sn, 1⟩) ∧
      (∀ sub i, sub ∈ subs → i ∈ sub.tail → ∃ sn, freeAt s.map.store_ i = some ⟨sn, 1⟩) ∧
      (∀ k sub, subs[k]? = some sub → ∃ hd sn, sub.head? = some hd ∧
        freeAt s.map.store_ hd =
          some ⟨sn, ((subs[k + 1]?).map (fun s => s.headD noIdx)).getD noIdx⟩) ∧
      (∀ (ci : Nat) (c : Cache) (v : Nat) (junk : Nat), s.caches[ci]? = some c →
        c.num_overflow_ids_ = 0 → c.num_free_ids_ = 0 → s.map.free_head_.head ≠ noIdx →
        ∃ f m1 k m' c', freeAt s.map.store_ s.map.free_head_.head = some f ∧
          m1.free_head_ = ⟨add32 s.map.free_head_.gen 1, f.globalNext⟩ ∧
          freeAt m1.store_ s.map.free_head_.head = some ⟨f.subNext, 1⟩ ∧
          (∀ j, j ≠ s.map.free_head_.head → m1.store_[j]? = s.map.store_[j]?) ∧
          assignCachedID m1 s.map.free_head_.head v = some (k, m', c'.free_head_) ∧
          acquireID 3 s.map c v junk = some (k, m', c') ∧
          k.id = s.map.free_head_.head ∧ c'.free_head_ = f.subNext ∧
          c'.num_free_ids_ = 3 - 1) :=
  ⟨by decide, by decide,
    contiguous_blocks_in_primary 3 0 1 (by decide) (by decide) (by decide)
      ⟨⟨⟨0, noIdx⟩, []⟩, [Cache.new]⟩ [.acquire 0 7 5] (by decide) (by decide)⟩

end IDMap

end madrona
